import Mathlib

/-!
The Gamma game engine (`src/gamma.c`).

A shallow embedding of the board/area bookkeeping engine.  The two-dimensional
arrays `board` and `indexes` and the array `players` are total functions on
indices; `uint` values are natural numbers reduced modulo `2^32`, `muint`
values modulo `2^64`.  A result `none` of an operation stands for a call that
does not return (the recursion of `reindexify`, or the loop of `gamma_new`,
has used up its budget of steps).
-/

namespace Gamma

/-! ## Machine integers -/

/-- Conversion to the C type `uint` (`uint32_t`). -/
def to_uint (n : Nat) : Nat := n % 4294967296

/-- Increment of a `uint`. -/
def inc32 (n : Nat) : Nat := (n + 1) % 4294967296

/-- Decrement of a `uint`. -/
def dec32 (n : Nat) : Nat := (n + 4294967295) % 4294967296

/-- Increment of a `muint` (`uint64_t`). -/
def inc64 (n : Nat) : Nat := (n + 1) % 18446744073709551616

/-- Decrement of a `muint`. -/
def dec64 (n : Nat) : Nat := (n + 18446744073709551615) % 18446744073709551616

/-- The constant `DIRECTIONS`. -/
def DIRECTIONS : Nat := 4

/-- The constant `EMPTY`. -/
def EMPTY : Nat := 0

/-- The constant `WIDE` of `gamma.h`. -/
def WIDE : Nat := 9

/-- The table `X = {1, 0, -1, 0}` of `uint`. -/
def X (i : Nat) : Nat :=
  match i with
  | 0 => 1
  | 1 => 0
  | 2 => 4294967295
  | _ => 0

/-- The table `Y = {0, 1, 0, -1}` of `uint`. -/
def Y (i : Nat) : Nat :=
  match i with
  | 0 => 0
  | 1 => 1
  | 2 => 0
  | _ => 4294967295

/-- The column `x + X[i]` computed in `uint`. -/
def nbx (x i : Nat) : Nat := (x + X i) % 4294967296

/-- The row `y + Y[i]` computed in `uint`. -/
def nby (y i : Nat) : Nat := (y + Y i) % 4294967296

/-! ## Data model -/

/-- The struct `player`. -/
structure player where
  fields : Nat
  areas : Nat
  free_golden_move : Bool
  next_ind : Nat
  border : Nat

/-- The struct `gamma` (`gamma_t`). -/
structure gamma_t where
  board : Nat → Nat → Nat
  indexes : Nat → Nat → Nat
  width : Nat
  heigth : Nat
  players : Nat → player
  number_of_players : Nat
  max_areas : Nat
  busy_fields : Nat
  fields_of_wider_players : Nat
  golden_moves_used : Nat

/-- The assignment `a[x][y] = v` on a two-dimensional array. -/
def set_cell (a : Nat → Nat → Nat) (x y v : Nat) : Nat → Nat → Nat :=
  fun i j => if i = x ∧ j = y then v else a i j

/-- The assignment `a[i] = v` on a one-dimensional array. -/
def set_at {α : Type} (a : Nat → α) (i : Nat) (v : α) : Nat → α :=
  fun j => if j = i then v else a j

/-- Contents of a `player` slot that `gamma_new` leaves unwritten. -/
def blank_player : player :=
  { fields := 0, areas := 0, free_golden_move := false, next_ind := 0, border := 0 }

/-- The value `gamma_new` writes into `players[i]`. -/
def fresh_player : player :=
  { fields := 0, areas := 0, free_golden_move := true, next_ind := 1, border := 0 }

/-! ## `gamma_new` -/

/-- The loop `for (uint i = 1; i <= players; ++i)` of `gamma_new`, run for at
most `fuel` tests of its condition. -/
def init_players : Nat → Nat → Nat → (Nat → player) → Option (Nat → player)
  | 0, _, _, _ => none
  | fuel + 1, i, players, ps =>
    if i ≤ players then init_players fuel (inc32 i) players (set_at ps i fresh_player)
    else some ps

/-- The function `gamma_new`, allocation succeeding: `some none` is the result
`NULL`, `none` a call that has not returned within `fuel` loop tests. -/
def gamma_new (fuel width height players areas : Nat) : Option (Option gamma_t) :=
  if width = 0 ∨ height = 0 ∨ players = 0 ∨ areas = 0 then some none
  else
    (init_players fuel 1 players (fun _ => blank_player)).map fun ps =>
      some
        { board := fun _ _ => EMPTY
          indexes := fun _ _ => EMPTY
          width := width
          heigth := height
          players := ps
          number_of_players := players
          max_areas := areas
          busy_fields := 0
          fields_of_wider_players := 0
          golden_moves_used := 0 }

/-! ## Checks -/

/-- The function `player_is_fine`. -/
abbrev player_is_fine (player : Nat) (game : gamma_t) : Prop :=
  0 < player ∧ player ≤ game.number_of_players

/-- The function `gamma_golden_possible_con` (for a game that is not `NULL`). -/
abbrev gamma_golden_possible_con (game : gamma_t) (player : Nat) : Prop :=
  player_is_fine player game ∧ (game.players player).free_golden_move = true
    ∧ (game.players player).fields < game.busy_fields

/-- The function `coords_are_fine`. -/
abbrev coords_are_fine (x y : Nat) (game : gamma_t) : Prop :=
  x < game.width ∧ y < game.heigth

/-- One round of the loop of `neighbourhood_is_fine`, from direction `i` on. -/
def neighbourhood_from (game : gamma_t) (player x y : Nat) : Nat → Nat → Bool
  | 0, _ => false
  | n + 1, i =>
    if coords_are_fine (nbx x i) (nby y i) game ∧ game.board (nbx x i) (nby y i) = player
    then true
    else neighbourhood_from game player x y n (i + 1)

/-- The function `neighbourhood_is_fine`. -/
def neighbourhood_is_fine (game : gamma_t) (player x y : Nat) : Bool :=
  neighbourhood_from game player x y DIRECTIONS 0

/-! ## `reindexify` -/

/-- The function `reindexify`, with recursion depth at most `fuel`. -/
def reindexify : Nat → gamma_t → Nat → Nat → Nat → Nat → Nat → Option gamma_t
  | 0, _, _, _, _, _, _ => none
  | fuel + 1, game, player, x, y, from_ind, to_ind =>
    if coords_are_fine x y game ∧ game.board x y = player
        ∧ game.indexes x y = from_ind then
      (reindexify fuel { game with indexes := set_cell game.indexes x y to_ind }
          player (nbx x 0) (nby y 0) from_ind to_ind).bind fun g1 =>
      (reindexify fuel g1 player (nbx x 1) (nby y 1) from_ind to_ind).bind fun g2 =>
      (reindexify fuel g2 player (nbx x 2) (nby y 2) from_ind to_ind).bind fun g3 =>
      reindexify fuel g3 player (nbx x 3) (nby y 3) from_ind to_ind
    else some game

/-! ## Border accounting -/

/-- The statement `game->players[p].border++`. -/
def border_inc (game : gamma_t) (p : Nat) : gamma_t :=
  { game with
    players := set_at game.players p
      { game.players p with border := inc64 (game.players p).border } }

/-- The statement `game->players[p].border--`. -/
def border_dec (game : gamma_t) (p : Nat) : gamma_t :=
  { game with
    players := set_at game.players p
      { game.players p with border := dec64 (game.players p).border } }

/-- The function `update_positive_blank`. -/
def update_positive_blank (game : gamma_t) (player x y : Nat) : gamma_t :=
  if game.board x y ≠ EMPTY then game
  else if neighbourhood_from game player x y DIRECTIONS 0 then game
  else border_inc game player

/-- The inner loop `for (uint j = i; j < DIRECTIONS; ++j)` that clears the
entries equal to `cur`; `n` rounds from `j` on. -/
def clear_same (cur : Nat) : Nat → Nat → (Nat → Nat) → (Nat → Nat)
  | 0, _, neighbours => neighbours
  | n + 1, j, neighbours =>
    clear_same cur n (j + 1)
      (if neighbours j = cur then set_at neighbours j EMPTY else neighbours)

/-- The second loop of `update_positive_border` and of
`update_blank_all_neighbours`: every distinct owner recorded in `neighbours`
has its border counter changed once by `change`; `n` rounds from `i` on. -/
def each_owner_once (change : gamma_t → Nat → gamma_t) :
    Nat → Nat → gamma_t → (Nat → Nat) → gamma_t
  | 0, _, game, _ => game
  | n + 1, i, game, neighbours =>
    if neighbours i ≠ EMPTY then
      each_owner_once change n (i + 1) (change game (neighbours i))
        (clear_same (neighbours i) (DIRECTIONS - i) i neighbours)
    else each_owner_once change n (i + 1) game neighbours

/-- The first loop of `update_positive_border`: `n` rounds from `i` on; it
fills `neighbours` and calls `update_positive_blank`. -/
def positive_border_scan (player x y : Nat) :
    Nat → Nat → gamma_t → (Nat → Nat) → gamma_t × (Nat → Nat)
  | 0, _, game, neighbours => (game, neighbours)
  | n + 1, i, game, neighbours =>
    if coords_are_fine (nbx x i) (nby y i) game then
      positive_border_scan player x y n (i + 1)
        (update_positive_blank game player (nbx x i) (nby y i))
        (set_at neighbours i (game.board (nbx x i) (nby y i)))
    else
      positive_border_scan player x y n (i + 1) game (set_at neighbours i EMPTY)

/-- The function `update_positive_border`. -/
def update_positive_border (game : gamma_t) (player x y : Nat) : gamma_t :=
  let r := positive_border_scan player x y DIRECTIONS 0 game (fun _ => EMPTY)
  each_owner_once border_dec DIRECTIONS 0 r.1 r.2

/-- The first loop of `update_blank_all_neighbours`: the owners of the four
neighbours, `EMPTY` for one off the board. -/
def neighbour_owners (game : gamma_t) (x y : Nat) : Nat → Nat :=
  fun i =>
    if i < DIRECTIONS ∧ coords_are_fine (nbx x i) (nby y i) game
    then game.board (nbx x i) (nby y i) else EMPTY

/-- The function `update_blank_all_neighbours`. -/
def update_blank_all_neighbours (game : gamma_t) (x y : Nat) : gamma_t :=
  each_owner_once border_inc DIRECTIONS 0 game (neighbour_owners game x y)

/-- The loop of `lost_independent_borders`: `n` rounds from `i` on. -/
def lost_independent_from (player_out x y : Nat) : Nat → Nat → gamma_t → gamma_t
  | 0, _, game => game
  | n + 1, i, game =>
    if coords_are_fine (nbx x i) (nby y i) game ∧ game.board (nbx x i) (nby y i) = EMPTY then
      if neighbourhood_from game player_out (nbx x i) (nby y i) DIRECTIONS 0 then
        lost_independent_from player_out x y n (i + 1) game
      else lost_independent_from player_out x y n (i + 1) (border_dec game player_out)
    else lost_independent_from player_out x y n (i + 1) game

/-- The function `lost_independent_borders`. -/
def lost_independent_borders (game : gamma_t) (player_out x y : Nat) : gamma_t :=
  lost_independent_from player_out x y DIRECTIONS 0 game

/-! ## `gamma_move` -/

/-- The statements `players[player].fields++; busy_fields++;
if (WIDE < player) fields_of_wider_players++`. -/
def count_field (game : gamma_t) (player : Nat) : gamma_t :=
  { game with
    players := set_at game.players player
      { game.players player with fields := inc64 (game.players player).fields }
    busy_fields := inc64 game.busy_fields
    fields_of_wider_players :=
      if WIDE < player then inc64 game.fields_of_wider_players
      else game.fields_of_wider_players }

/-- The body of the loop of `gamma_move` for direction `i`. -/
def gamma_move_dir (fuel : Nat) (game : gamma_t) (player x y i : Nat) : Option gamma_t :=
  if coords_are_fine (nbx x i) (nby y i) game ∧ game.board (nbx x i) (nby y i) = player then
    if game.indexes x y = EMPTY then
      some (count_field
        { game with
          indexes := set_cell game.indexes x y (game.indexes (nbx x i) (nby y i))
          board := set_cell game.board x y player } player)
    else if game.indexes x y ≠ game.indexes (nbx x i) (nby y i) then
      (reindexify fuel game player (nbx x i) (nby y i)
          (game.indexes (nbx x i) (nby y i)) (game.indexes x y)).map fun g =>
        { g with
          players := set_at g.players player
            { g.players player with areas := dec32 (g.players player).areas } }
    else some game
  else some game

/-- The tail of both accepting branches of `gamma_move`:
`board[x][y] = EMPTY; update_positive_border(...); board[x][y] = player`. -/
def place_and_update (game : gamma_t) (player x y : Nat) : gamma_t :=
  let g1 := update_positive_border { game with board := set_cell game.board x y EMPTY } player x y
  { g1 with board := set_cell g1.board x y player }

/-- The function `gamma_move` (for a game that is not `NULL`); the result is
the returned value and the game afterwards. -/
def gamma_move (fuel : Nat) (game : gamma_t) (player x y : Nat) : Option (Bool × gamma_t) :=
  if coords_are_fine x y game ∧ player_is_fine player game ∧ game.board x y = EMPTY then
    (gamma_move_dir fuel game player x y 0).bind fun g1 =>
    (gamma_move_dir fuel g1 player x y 1).bind fun g2 =>
    (gamma_move_dir fuel g2 player x y 2).bind fun g3 =>
    (gamma_move_dir fuel g3 player x y 3).bind fun g4 =>
    if g4.indexes x y ≠ EMPTY then
      some (true, place_and_update g4 player x y)
    else if (g4.players player).areas < g4.max_areas then
      some (true, place_and_update
        (count_field
          { g4 with
            indexes := set_cell g4.indexes x y (g4.players player).next_ind
            players := set_at g4.players player
              { g4.players player with
                next_ind := inc64 (g4.players player).next_ind
                areas := inc32 (g4.players player).areas } } player) player x y)
    else some (false, g4)
  else some (false, game)

/-! ## `gamma_golden_possible` -/

/-- The body of the inner loop of the trial in `gamma_golden_possible`, for
direction `i`; `cnt` is the C `int` counter. -/
def golden_possible_dir (fuel : Nat) (game : gamma_t) (cnt : Int)
    (outsider x y old_ind new_ind i : Nat) : Option (gamma_t × Int) :=
  if coords_are_fine (nbx x i) (nby y i) game ∧ game.board (nbx x i) (nby y i) = outsider
      ∧ game.indexes (nbx x i) (nby y i) = old_ind then
    (reindexify fuel game outsider (nbx x i) (nby y i) old_ind new_ind).map fun g =>
      (g, cnt + 1)
  else some (game, cnt)

/-- The body of the scan of `gamma_golden_possible` for the cell `(x, y)`; the
flag tells whether the function returns `true` at this cell. -/
def golden_possible_cell (fuel : Nat) (game : gamma_t) (player x y : Nat) :
    Option (Bool × gamma_t) :=
  if game.board x y ≠ EMPTY ∧ game.board x y ≠ player then
    if neighbourhood_is_fine game player x y then
      let outsider := game.board x y
      let old_ind := to_uint (game.indexes x y)
      let new_ind := to_uint (game.players outsider).next_ind
      let g0 : gamma_t :=
        { game with
          players := set_at game.players outsider
            { game.players outsider with next_ind := inc64 (game.players outsider).next_ind }
          indexes := set_cell game.indexes x y new_ind }
      (golden_possible_dir fuel g0 (-1) outsider x y old_ind new_ind 0).bind fun s1 =>
      (golden_possible_dir fuel s1.1 s1.2 outsider x y old_ind new_ind 1).bind fun s2 =>
      (golden_possible_dir fuel s2.1 s2.2 outsider x y old_ind new_ind 2).bind fun s3 =>
      (golden_possible_dir fuel s3.1 s3.2 outsider x y old_ind new_ind 3).bind fun s4 =>
      if Int.toNat ((((s4.1.players outsider).areas : Int) + s4.2) % 4294967296)
          ≤ s4.1.max_areas then
        some (true, s4.1)
      else some (false, s4.1)
    else some (false, game)
  else some (false, game)

/-- The loop `for (uint y = 0; y < heigth; ++y)` of `gamma_golden_possible`
over the rows listed. -/
def golden_possible_rows (fuel player x : Nat) : List Nat → gamma_t → Option (Bool × gamma_t)
  | [], game => some (false, game)
  | y :: ys, game =>
    (golden_possible_cell fuel game player x y).bind fun r =>
      if r.1 then some r else golden_possible_rows fuel player x ys r.2

/-- The loop `for (uint x = 0; x < width; ++x)` of `gamma_golden_possible`
over the columns listed. -/
def golden_possible_cols (fuel player : Nat) : List Nat → gamma_t → Option (Bool × gamma_t)
  | [], game => some (false, game)
  | x :: xs, game =>
    (golden_possible_rows fuel player x (List.range game.heigth) game).bind fun r =>
      if r.1 then some r else golden_possible_cols fuel player xs r.2

/-- The function `gamma_golden_possible` (for a game that is not `NULL`). -/
def gamma_golden_possible (fuel : Nat) (game : gamma_t) (player : Nat) :
    Option (Bool × gamma_t) :=
  if ¬ gamma_golden_possible_con game player then some (false, game)
  else if (game.players player).areas < game.max_areas then some (true, game)
  else golden_possible_cols fuel player (List.range game.width) game

/-! ## `gamma_golden_move` -/

/-- The statements `players[player_out].fields--; busy_fields--;
if (WIDE < player) fields_of_wider_players--`. -/
def uncount_field (game : gamma_t) (player player_out : Nat) : gamma_t :=
  { game with
    players := set_at game.players player_out
      { game.players player_out with fields := dec64 (game.players player_out).fields }
    busy_fields := dec64 game.busy_fields
    fields_of_wider_players :=
      if WIDE < player then dec64 game.fields_of_wider_players
      else game.fields_of_wider_players }

/-- The body of the loop of `gamma_golden_move` for direction `i`; the second
component is the local variable `new_index`. -/
def golden_move_dir (fuel : Nat) (game : gamma_t) (new_index : Nat)
    (player player_out index_out x y i : Nat) : Option (gamma_t × Nat) :=
  if coords_are_fine (nbx x i) (nby y i) game
      ∧ game.board (nbx x i) (nby y i) = player_out then
    if game.board x y = player_out then
      let g1 : gamma_t := { game with board := set_cell game.board x y EMPTY }
      let g2 := update_blank_all_neighbours g1 x y
      let g3 := lost_independent_borders g2 player_out x y
      let g4 := uncount_field { g3 with indexes := set_cell g3.indexes x y EMPTY }
        player player_out
      (reindexify fuel g4 player_out (nbx x i) (nby y i) index_out new_index).map fun g5 =>
        ({ g5 with
            players := set_at g5.players player_out
              { g5.players player_out with
                next_ind := inc64 (g5.players player_out).next_ind } }, new_index)
    else if game.board x y = EMPTY ∧ game.indexes (nbx x i) (nby y i) = index_out then
      (reindexify fuel game player_out (nbx x i) (nby y i) index_out
          (to_uint (game.players player_out).next_ind)).map fun g5 =>
        ({ g5 with
            players := set_at g5.players player_out
              { g5.players player_out with
                next_ind := inc64 (g5.players player_out).next_ind
                areas := inc32 (g5.players player_out).areas } },
          to_uint (game.players player_out).next_ind)
    else some (game, new_index)
  else some (game, new_index)

/-- The block of `gamma_golden_move` after its loop, run when the taken cell
had no neighbour of its owner. -/
def golden_move_lonely (game : gamma_t) (player player_out x y : Nat) : gamma_t :=
  if game.board x y = player_out then
    let g1 : gamma_t := { game with board := set_cell game.board x y EMPTY }
    let g2 := lost_independent_borders g1 player_out x y
    let g3 := update_blank_all_neighbours g2 x y
    let g4 := uncount_field { g3 with indexes := set_cell g3.indexes x y EMPTY }
      player player_out
    { g4 with
      players := set_at g4.players player_out
        { g4.players player_out with areas := dec32 (g4.players player_out).areas } }
  else game

/-- The function `gamma_golden_move` (for a game that is not `NULL`). -/
def gamma_golden_move (fuel : Nat) (game : gamma_t) (player x y : Nat) :
    Option (Bool × gamma_t) :=
  if ¬ gamma_golden_possible_con game player ∨ ¬ coords_are_fine x y game
      ∨ game.board x y = EMPTY ∨ game.board x y = player then
    some (false, game)
  else
    let player_out := game.board x y
    let index_out := to_uint (game.indexes x y)
    let new_index := to_uint (game.players player_out).next_ind
    (golden_move_dir fuel game new_index player player_out index_out x y 0).bind fun s1 =>
    (golden_move_dir fuel s1.1 s1.2 player player_out index_out x y 1).bind fun s2 =>
    (golden_move_dir fuel s2.1 s2.2 player player_out index_out x y 2).bind fun s3 =>
    (golden_move_dir fuel s3.1 s3.2 player player_out index_out x y 3).bind fun s4 =>
    let g5 := golden_move_lonely s4.1 player player_out x y
    if g5.max_areas < (g5.players player_out).areas then
      (gamma_move fuel g5 player_out x y).map fun r => (false, r.2)
    else
      (gamma_move fuel g5 player x y).bind fun r =>
        if r.1 then
          some (true,
            { r.2 with
              players := set_at r.2.players player
                { r.2.players player with free_golden_move := false }
              golden_moves_used := inc32 r.2.golden_moves_used })
        else (gamma_move fuel r.2 player_out x y).map fun r2 => (false, r2.2)

/-! ## Queries -/

/-- The function `gamma_busy_fields` (for a game that is not `NULL`). -/
def gamma_busy_fields (game : gamma_t) (player : Nat) : Nat :=
  if player_is_fine player game then (game.players player).fields else 0

/-- The function `gamma_areas`. -/
def gamma_areas (game : gamma_t) (player : Nat) : Nat :=
  (game.players player).areas

/-! ## Specification notions for the flood fill -/

/-- The cell `(a, b)` is on the board, owned by `p` and carries area id `f`. -/
def White (g : gamma_t) (p f a b : Nat) : Prop :=
  coords_are_fine a b g ∧ g.board a b = p ∧ g.indexes a b = f

/-- The cells that a 4-directional walk from the seed `(x, y)` reaches through
cells on the board owned by `p` with area id `f`. -/
inductive Reach (g : gamma_t) (p f x y : Nat) : Nat → Nat → Prop
  | seed : White g p f x y → Reach g p f x y x y
  | step (a b i : Nat) : Reach g p f x y a b → i < 4 →
      White g p f (nbx a i) (nby b i) → Reach g p f x y (nbx a i) (nby b i)

/-- The cells of the board. -/
def cells (g : gamma_t) : Finset (Nat × Nat) :=
  Finset.range g.width ×ˢ Finset.range g.heigth

/-- Number of cells on the board owned by `p` with area id `f`. -/
def white_count (g : gamma_t) (p f : Nat) : Nat :=
  ((cells g).filter fun c => g.board c.1 c.2 = p ∧ g.indexes c.1 c.2 = f).card

/-- What `reindexify` does to a game: only area ids change, exactly the cells
reached from the seed get the id `t`. -/
structure Relabelled (g : gamma_t) (p f t x y : Nat) (g' : gamma_t) : Prop where
  frame : g' = { g with indexes := g'.indexes }
  hit : ∀ a b, Reach g p f x y a b → g'.indexes a b = t
  miss : ∀ a b, ¬ Reach g p f x y a b → g'.indexes a b = g.indexes a b

/-- Working form of the flood-fill postcondition, for a set `S` of seeds. -/
structure Flooded (g : gamma_t) (p f t : Nat) (S : Nat → Nat → Prop) (g' : gamma_t) : Prop where
  frame : g' = { g with indexes := g'.indexes }
  only : ∀ a b, g'.indexes a b = g.indexes a b ∨ (White g p f a b ∧ g'.indexes a b = t)
  seeds : ∀ a b, S a b → White g p f a b → g'.indexes a b = t
  closed : ∀ a b i, i < 4 → White g p f a b → g'.indexes a b = t →
    White g p f (nbx a i) (nby b i) → g'.indexes (nbx a i) (nby b i) = t
  sound : ∀ a b, White g p f a b → g'.indexes a b = t → ∃ x y, S x y ∧ Reach g p f x y a b

/-! ## Specification notions on the owner grid -/

/-- The four configuration values are `uint` values. -/
structure Sized (g : gamma_t) : Prop where
  width_lt : g.width < 4294967296
  heigth_lt : g.heigth < 4294967296
  players_lt : g.number_of_players < 4294967296
  areas_lt : g.max_areas < 4294967296

/-- Some 4-neighbour of `(x, y)` on the board is owned by `p`. -/
def has_neighbour (g : gamma_t) (p x y : Nat) : Prop :=
  ∃ i, i < 4 ∧ coords_are_fine (nbx x i) (nby y i) g ∧ g.board (nbx x i) (nby y i) = p

instance (g : gamma_t) (p x y : Nat) : Decidable (has_neighbour g p x y) := by
  unfold has_neighbour
  infer_instance

/-- The cells of the board owned by `p`. -/
def owned_cells (g : gamma_t) (p : Nat) : Finset (Nat × Nat) :=
  (cells g).filter fun c => g.board c.1 c.2 = p

/-- The cells of the board that are not empty. -/
def busy_cells (g : gamma_t) : Finset (Nat × Nat) :=
  (cells g).filter fun c => g.board c.1 c.2 ≠ EMPTY

/-- The empty cells of the board with a 4-neighbour owned by `p`. -/
def border_cells (g : gamma_t) (p : Nat) : Finset (Nat × Nat) :=
  (cells g).filter fun c => g.board c.1 c.2 = EMPTY ∧ has_neighbour g p c.1 c.2

/-- The area ids found on the cells of `p`. -/
def area_ids (g : gamma_t) (p : Nat) : Finset Nat :=
  (owned_cells g p).image fun c => g.indexes c.1 c.2

/-- The direction opposite to `i`. -/
def opp (i : Nat) : Nat := (i + 2) % 4

/-! ## The counters touched by the border accounting -/

/-- The statement `game->players[q].border = f(game->players[q].border)`. -/
def border_app (f : Nat → Nat) (g : gamma_t) (q : Nat) : gamma_t :=
  { g with players := set_at g.players q { g.players q with border := f (g.players q).border } }

/-- Only border counters differ between `g` and `g'`. -/
structure BorderChange (g g' : gamma_t) : Prop where
  frame : g' = { g with players := g'.players }
  same : ∀ q, g'.players q = { g.players q with border := (g'.players q).border }

/-- Number of directions in which `(x, y)` has an empty neighbour on the board
that has no neighbour owned by `p`. -/
def lonely_blanks (g : gamma_t) (p x y : Nat) : Nat :=
  ((Finset.range 4).filter fun i =>
    coords_are_fine (nbx x i) (nby y i) g ∧ g.board (nbx x i) (nby y i) = EMPTY
      ∧ ¬ has_neighbour g p (nbx x i) (nby y i)).card

/-! ## Effect of the scans -/

/-- One for a direction counted by `lonely_blanks`, zero otherwise. -/
def blank_gain (g : gamma_t) (p x y i : Nat) : Nat :=
  if coords_are_fine (nbx x i) (nby y i) g ∧ g.board (nbx x i) (nby y i) = EMPTY
      ∧ ¬ has_neighbour g p (nbx x i) (nby y i) then 1 else 0

/-- The empty neighbours of `(x, y)` that have no neighbour owned by `p`. -/
def lonely_cells (g : gamma_t) (p x y : Nat) : Finset (Nat × Nat) :=
  ((Finset.range 4).filter fun i =>
    coords_are_fine (nbx x i) (nby y i) g ∧ g.board (nbx x i) (nby y i) = EMPTY
      ∧ ¬ has_neighbour g p (nbx x i) (nby y i)).image fun i => (nbx x i, nby y i)

/-! ## The invariant of the engine -/

/-- Every area id minted so far fits the C type `uint`: fewer than `2^32` ids
have been minted for each player. -/
def ids_fit (g : gamma_t) : Prop := ∀ p, (g.players p).next_ind ≤ 4294967296

/-- The part of the invariant about owners, id ranges and field counters. -/
structure Core (g : gamma_t) : Prop where
  sized : Sized g
  owner_ok : ∀ x y, g.board x y ≠ EMPTY →
    coords_are_fine x y g ∧ g.board x y ≤ g.number_of_players
  idx_empty : ∀ x y, g.board x y = EMPTY → g.indexes x y = EMPTY
  idx_owned : ∀ x y, g.board x y ≠ EMPTY →
    1 ≤ g.indexes x y ∧ g.indexes x y < (g.players (g.board x y)).next_ind
  fit : ids_fit g
  next_pos : ∀ p, player_is_fine p g → 1 ≤ (g.players p).next_ind
  fields_ok : ∀ p, p ≠ EMPTY → (g.players p).fields = (owned_cells g p).card
  busy_ok : g.busy_fields = (busy_cells g).card

/-- Every border counter is the number of empty cells next to a cell of the player. -/
def BorderOk (g : gamma_t) : Prop :=
  ∀ p, p ≠ EMPTY → (g.players p).border = (border_cells g p).card

/-- Neighbouring cells of one owner carry the same area id, the cells in `ex` excepted. -/
def IdsAdj (g : gamma_t) (ex : Nat → Nat → Prop) : Prop :=
  ∀ x y i, i < 4 → ¬ ex x y → ¬ ex (nbx x i) (nby y i) → g.board x y ≠ EMPTY →
    coords_are_fine (nbx x i) (nby y i) g → g.board (nbx x i) (nby y i) = g.board x y →
    g.indexes (nbx x i) (nby y i) = g.indexes x y

/-- Cells of one owner with the same area id are connected through cells of that
owner and id, the id `exf` of the owner `exv` excepted. -/
def IdsConn (g : gamma_t) (exv exf : Nat) : Prop :=
  ∀ x y a b, g.board x y ≠ EMPTY → ¬ (g.board x y = exv ∧ g.indexes x y = exf) →
    g.board a b = g.board x y → g.indexes a b = g.indexes x y →
    Reach g (g.board x y) (g.indexes x y) x y a b

/-- Every area counter is the number of area ids on the cells of the player, the
id `exf` of the owner `exv` not counted. -/
def AreasOk (g : gamma_t) (exv exf : Nat) : Prop :=
  ∀ p, p ≠ EMPTY →
    (g.players p).areas = ((area_ids g p).filter fun i => ¬ (p = exv ∧ i = exf)).card

/-- The invariant of the engine, the area cap left aside. -/
structure Good (g : gamma_t) : Prop where
  core : Core g
  border_ok : BorderOk g
  adj : IdsAdj g (fun _ _ => False)
  conn : IdsConn g EMPTY EMPTY
  areas_ok : AreasOk g EMPTY EMPTY

/-- No player owns more areas than the cap. -/
def Capped (g : gamma_t) : Prop := ∀ p, p ≠ EMPTY → (g.players p).areas ≤ g.max_areas

/-! ## The loop of `gamma_move` -/

/-- The state between two rounds of the loop of `gamma_move` placing `p` on the
cell `(x, y)` of the game `g0`: `k` directions have been looked at. -/
structure MoveInv (g0 : gamma_t) (p x y k : Nat) (g : gamma_t) : Prop where
  core : Core g
  zfine : coords_are_fine x y g
  pfine : player_is_fine p g
  zown : g.board x y = EMPTY ∨ g.board x y = p
  border_ok : BorderOk { g with board := set_cell g.board x y EMPTY }
  adj : IdsAdj g (fun a b => a = x ∧ b = y)
  done : ∀ j, j < k → coords_are_fine (nbx x j) (nby y j) g →
    g.board (nbx x j) (nby y j) = p →
    g.board x y = p ∧ g.indexes x y = g.indexes (nbx x j) (nby y j)
  conn : IdsConn g EMPTY EMPTY
  areas_ok : AreasOk g EMPTY EMPTY
  fresh : g.board x y = EMPTY → g = g0
  contact : g.board x y = p → has_neighbour g0 p x y
  width_eq : g.width = g0.width
  heigth_eq : g.heigth = g0.heigth
  number_eq : g.number_of_players = g0.number_of_players
  max_eq : g.max_areas = g0.max_areas
  golden_eq : g.golden_moves_used = g0.golden_moves_used
  board_rel : ∀ a b, ¬ (a = x ∧ b = y) → g.board a b = g0.board a b
  others : ∀ q, q ≠ p → g.players q = g0.players q
  flag_eq : (g.players p).free_golden_move = (g0.players p).free_golden_move
  next_eq : (g.players p).next_ind = (g0.players p).next_ind
  border_eq : (g.players p).border = (g0.players p).border
  areas_le : (g.players p).areas ≤ (g0.players p).areas
  wider : g.fields_of_wider_players =
    if g.board x y = p ∧ WIDE < p then inc64 g0.fields_of_wider_players
    else g0.fields_of_wider_players

/-- The game after the first contact: the new cell takes the id of the
neighbour `(n1, n2)` and is counted for `p`. -/
def first_contact (g : gamma_t) (p x y n1 n2 : Nat) : gamma_t :=
  count_field
    { g with
      indexes := set_cell g.indexes x y (g.indexes n1 n2)
      board := set_cell g.board x y p } p

/-- The statement `game->players[p].areas--`. -/
def areas_dec (g : gamma_t) (p : Nat) : gamma_t :=
  { g with
    players := set_at g.players p { g.players p with areas := dec32 (g.players p).areas } }

/-! ## The result of `gamma_move` -/

/-- The spec's condition for an ordinary move to be legal. -/
def legal_move (g : gamma_t) (p x y : Nat) : Prop :=
  coords_are_fine x y g ∧ player_is_fine p g ∧ g.board x y = EMPTY
    ∧ (has_neighbour g p x y ∨ (g.players p).areas < g.max_areas)

instance (g : gamma_t) (p x y : Nat) : Decidable (legal_move g p x y) := by
  unfold legal_move
  infer_instance

/-- What an accepted `gamma_move` of `p` on `(x, y)` changes. -/
structure MoveEffect (g : gamma_t) (p x y : Nat) (g' : gamma_t) : Prop where
  board_eq : g'.board = set_cell g.board x y p
  width_eq : g'.width = g.width
  heigth_eq : g'.heigth = g.heigth
  number_eq : g'.number_of_players = g.number_of_players
  max_eq : g'.max_areas = g.max_areas
  golden_eq : g'.golden_moves_used = g.golden_moves_used
  others : ∀ q, q ≠ p → (g'.players q).fields = (g.players q).fields
    ∧ (g'.players q).areas = (g.players q).areas
    ∧ (g'.players q).free_golden_move = (g.players q).free_golden_move
    ∧ (g'.players q).next_ind = (g.players q).next_ind
  flag_eq : (g'.players p).free_golden_move = (g.players p).free_golden_move
  fields_eq : (g'.players p).fields = (g.players p).fields + 1
  busy_eq : g'.busy_fields = g.busy_fields + 1
  wider : g'.fields_of_wider_players =
    if WIDE < p then inc64 g.fields_of_wider_players else g.fields_of_wider_players
  next_eq : (g'.players p).next_ind =
    if has_neighbour g p x y then (g.players p).next_ind else (g.players p).next_ind + 1
  areas_le : (g'.players p).areas ≤
    if has_neighbour g p x y then (g.players p).areas else (g.players p).areas + 1

/-- The game in which `p` has a new area of its own on the cell `(x, y)`, before
the border counters are updated. -/
def fresh_area (g : gamma_t) (p x y : Nat) : gamma_t :=
  count_field
    { g with
      indexes := set_cell g.indexes x y (g.players p).next_ind
      players := set_at g.players p
        { g.players p with
          next_ind := inc64 (g.players p).next_ind
          areas := inc32 (g.players p).areas } } p

/-! ## Splitting an area: the loop invariant shared by `gamma_golden_move` and
`gamma_golden_possible` -/

/-- The state while the area with id `old` of the player `v` around the cell
`(x, y)` is being relabelled piece by piece: `k` directions have been looked at,
every cell that still carries `old` is reached from a neighbour of `(x, y)` not
yet looked at. -/
structure SplitInv (v old x y k : Nat) (g : gamma_t) : Prop where
  core : Core g
  border_ok : BorderOk g
  zfine : coords_are_fine x y g
  vne : v ≠ EMPTY
  adj : IdsAdj g (fun a b => a = x ∧ b = y)
  conn : IdsConn g v old
  pending : ∀ c d, White g v old c d →
    ∃ j, k ≤ j ∧ j < 4 ∧ White g v old (nbx x j) (nby y j)
      ∧ Reach g v old (nbx x j) (nby y j) c d
  zfree : ¬ White g v old x y

/-! ## How the operations move the id counters -/

/-- From `g` to `g'` every id counter stays or is incremented once. -/
def NextStep (g g' : gamma_t) : Prop :=
  ∀ q, (g'.players q).next_ind = (g.players q).next_ind
    ∨ (g'.players q).next_ind = inc64 (g.players q).next_ind

/-- From `g` to `g'` no id counter changes. -/
def NextSame (g g' : gamma_t) : Prop :=
  ∀ q, (g'.players q).next_ind = (g.players q).next_ind

/-! ## Taking a cell away from its owner -/

/-- The state `ga` is `g0` with the cell `(x, y)` of `v` emptied and uncounted,
its border counters brought up to date; id counters may have advanced. -/
structure Vacated (g0 : gamma_t) (v x y : Nat) (ga : gamma_t) : Prop where
  board_eq : ga.board = set_cell g0.board x y EMPTY
  indexes_eq : ga.indexes = set_cell g0.indexes x y EMPTY
  width_eq : ga.width = g0.width
  heigth_eq : ga.heigth = g0.heigth
  number_eq : ga.number_of_players = g0.number_of_players
  max_eq : ga.max_areas = g0.max_areas
  fields_v : (ga.players v).fields = dec64 (g0.players v).fields
  fields_o : ∀ q, q ≠ v → (ga.players q).fields = (g0.players q).fields
  next_ge : ∀ q, (g0.players q).next_ind ≤ (ga.players q).next_ind
  fit : ids_fit ga
  busy_eq : ga.busy_fields = dec64 g0.busy_fields
  border_ok : BorderOk ga

/-- The state of the loop of `gamma_golden_move` once the taken cell is empty:
the cells that carried its id are being renumbered. -/
structure Removing (g0 : gamma_t) (p v x y k : Nat) (g : gamma_t) : Prop where
  split : SplitInv v (g0.indexes x y) x y k g
  areas_ok : AreasOk g v (g0.indexes x y)
  board_eq : g.board = set_cell g0.board x y EMPTY
  width_eq : g.width = g0.width
  heigth_eq : g.heigth = g0.heigth
  number_eq : g.number_of_players = g0.number_of_players
  max_eq : g.max_areas = g0.max_areas
  golden_eq : g.golden_moves_used = g0.golden_moves_used
  flag_eq : ∀ q, (g.players q).free_golden_move = (g0.players q).free_golden_move
  next_o : ∀ q, q ≠ v → (g.players q).next_ind = (g0.players q).next_ind
  next_v : (g0.players v).next_ind ≤ (g.players v).next_ind
  idx_o : ∀ a b, g0.board a b ≠ v → g.indexes a b = g0.indexes a b
  wider : g.fields_of_wider_players =
    if WIDE < p then dec64 g0.fields_of_wider_players else g0.fields_of_wider_players
  contact : has_neighbour g0 v x y

/-- The invariant of the loop of `gamma_golden_move` before direction `k`:
either nothing happened yet, or the taken cell is empty. -/
def RemInv (g0 : gamma_t) (p v x y k : Nat) (s : gamma_t × Nat) : Prop :=
  (s.1 = g0 ∧ s.2 = to_uint (g0.players v).next_ind
    ∧ ∀ j, j < k →
      ¬ (coords_are_fine (nbx x j) (nby y j) g0 ∧ g0.board (nbx x j) (nby y j) = v))
  ∨ Removing g0 p v x y k s.1

/-- The state after the removal phase: the taken cell is empty and the
invariant of the engine holds. -/
structure Removed (g0 : gamma_t) (p v x y : Nat) (g : gamma_t) : Prop where
  good : Good g
  board_eq : g.board = set_cell g0.board x y EMPTY
  width_eq : g.width = g0.width
  heigth_eq : g.heigth = g0.heigth
  number_eq : g.number_of_players = g0.number_of_players
  max_eq : g.max_areas = g0.max_areas
  golden_eq : g.golden_moves_used = g0.golden_moves_used
  flag_eq : ∀ q, (g.players q).free_golden_move = (g0.players q).free_golden_move
  next_o : ∀ q, q ≠ v → (g.players q).next_ind = (g0.players q).next_ind
  next_v : (g0.players v).next_ind ≤ (g.players v).next_ind
  idx_o : ∀ a b, g0.board a b ≠ v → g.indexes a b = g0.indexes a b
  wider : g.fields_of_wider_players =
    if WIDE < p then dec64 g0.fields_of_wider_players else g0.fields_of_wider_players
  lonely : ¬ has_neighbour g0 v x y → (g.players v).areas + 1 = (g0.players v).areas

/-- The state of `gamma_golden_move` right after it emptied the taken cell in
its loop, before the first renumbering. -/
def vacate_first (g : gamma_t) (p v x y : Nat) : gamma_t :=
  let G3 := lost_independent_borders
    (update_blank_all_neighbours { g with board := set_cell g.board x y EMPTY } x y) v x y
  uncount_field { G3 with indexes := set_cell G3.indexes x y EMPTY } p v

/-! ## Connectivity on the owner grid, as the specification words it -/

/-- The cells `(a, b)` and `(c, d)` are 4-neighbours: they differ by one in
exactly one coordinate. -/
def adjacent (a b c d : Nat) : Prop :=
  (a = c ∧ (b + 1 = d ∨ d + 1 = b)) ∨ (b = d ∧ (a + 1 = c ∨ c + 1 = a))

instance (a b c d : Nat) : Decidable (adjacent a b c d) := by
  unfold adjacent
  infer_instance

/-- The cell `(a, b)` is on the board and its owner is `p`. -/
def owns (g : gamma_t) (p a b : Nat) : Prop :=
  a < g.width ∧ b < g.heigth ∧ g.board a b = p

instance (g : gamma_t) (p a b : Nat) : Decidable (owns g p a b) := by
  unfold owns
  infer_instance

/-- Some 4-neighbour of `(x, y)` on the board is owned by `p`. -/
def next_to (g : gamma_t) (p x y : Nat) : Prop :=
  owns g p (x + 1) y ∨ owns g p x (y + 1) ∨ (0 < x ∧ owns g p (x - 1) y)
    ∨ (0 < y ∧ owns g p x (y - 1))

instance (g : gamma_t) (p x y : Nat) : Decidable (next_to g p x y) := by
  unfold next_to
  infer_instance

/-- The cell `(a, b)` is 4-connected to `(x, y)` through cells of `p`. -/
inductive Connected (g : gamma_t) (p x y : Nat) : Nat → Nat → Prop
  | start : owns g p x y → Connected g p x y x y
  | step (a b c d : Nat) : Connected g p x y a b → adjacent a b c d → owns g p c d →
      Connected g p x y c d

/-- The cells of `p` form exactly `n` maximal 4-connected sets: there are `n`
cells of `p`, no two of them connected, such that every cell of `p` is
connected to one of them. -/
def Components (g : gamma_t) (p n : Nat) : Prop :=
  ∃ reps : Finset (Nat × Nat), reps.card = n
    ∧ (∀ r ∈ reps, owns g p r.1 r.2)
    ∧ (∀ r ∈ reps, ∀ s ∈ reps, Connected g p r.1 r.2 s.1 s.2 → r = s)
    ∧ (∀ a b, owns g p a b → ∃ r ∈ reps, Connected g p r.1 r.2 a b)

/-! ## Cells that an operation on `(x, y)` for `p` leaves alone -/

/-- From `g` to `g'` every cell but `(x, y)` keeps its owner, and keeps its
area id unless `p` owns it. -/
def IdxFrame (p x y : Nat) (g g' : gamma_t) : Prop :=
  ∀ a b, ¬ (a = x ∧ b = y) →
    g'.board a b = g.board a b ∧ (g.board a b ≠ p → g'.indexes a b = g.indexes a b)

/-! ## Rolling a removal back -/

/-- What a rejected golden move on a cell of `v` leaves of the state `g`:
everything but the area ids on the cells of `v`, the id counter of `v` and the
counter of cells of wide players. -/
structure Restored (g : gamma_t) (v : Nat) (g' : gamma_t) : Prop where
  board_eq : g'.board = g.board
  width_eq : g'.width = g.width
  heigth_eq : g'.heigth = g.heigth
  number_eq : g'.number_of_players = g.number_of_players
  max_eq : g'.max_areas = g.max_areas
  golden_eq : g'.golden_moves_used = g.golden_moves_used
  busy_eq : g'.busy_fields = g.busy_fields
  counters : ∀ q, q ≠ EMPTY → (g'.players q).fields = (g.players q).fields
    ∧ (g'.players q).border = (g.players q).border
    ∧ (g'.players q).areas = (g.players q).areas
  flag_eq : ∀ q, (g'.players q).free_golden_move = (g.players q).free_golden_move
  next_o : ∀ q, q ≠ v → (g'.players q).next_ind = (g.players q).next_ind
  next_v : (g.players v).next_ind ≤ (g'.players v).next_ind
  idx_o : ∀ a b, g.board a b ≠ v → g'.indexes a b = g.indexes a b

/-! ## `gamma_golden_move` on a game that satisfies the invariant -/

/-- The condition for a golden move of `p` on `(x, y)` to be accepted. -/
def golden_legal (g : gamma_t) (p x y : Nat) : Prop :=
  gamma_golden_possible_con g p ∧ coords_are_fine x y g ∧ g.board x y ≠ EMPTY
    ∧ g.board x y ≠ p
    ∧ (∃ n, Components { g with board := set_cell g.board x y EMPTY } (g.board x y) n
        ∧ n ≤ g.max_areas)
    ∧ (has_neighbour g p x y ∨ (g.players p).areas < g.max_areas)

/-- What an accepted golden move of `p` on `(x, y)` changes. -/
structure GoldenEffect (g : gamma_t) (p x y : Nat) (g' : gamma_t) : Prop where
  board_eq : g'.board = set_cell g.board x y p
  width_eq : g'.width = g.width
  heigth_eq : g'.heigth = g.heigth
  number_eq : g'.number_of_players = g.number_of_players
  max_eq : g'.max_areas = g.max_areas
  golden_eq : g'.golden_moves_used = inc32 g.golden_moves_used
  flag_p : (g'.players p).free_golden_move = false
  flag_o : ∀ q, q ≠ p → (g'.players q).free_golden_move = (g.players q).free_golden_move

/-- The state after an accepted golden move: the flag of the mover is cleared
and the golden moves are counted. -/
def flagged (g : gamma_t) (p : Nat) : gamma_t :=
  { g with
    players := set_at g.players p { g.players p with free_golden_move := false }
    golden_moves_used := inc32 g.golden_moves_used }

/-- Every id counter of `g` is at most `2^32 - n`: `n` more ids can be minted
for each player. -/
def room (n : Nat) (g : gamma_t) : Prop := ∀ q, (g.players q).next_ind + n ≤ 4294967296

/-! ## The trial renumbering of `gamma_golden_possible` -/

/-- The state of the trial for the cell `(x, y)` of `v` before direction `k`:
the area of the cell is being renumbered from `old` to `new`, starting with
the cell itself. -/
structure TrialInv (g : gamma_t) (v old new x y k : Nat) (gk : gamma_t) : Prop where
  split : SplitInv v old x y k gk
  joined : ∀ c d, White gk v new c d → Reach gk v new x y c d
  zwhite : White gk v new x y
  done : ∀ j, j < k → coords_are_fine (nbx x j) (nby y j) gk →
    gk.board (nbx x j) (nby y j) = v → gk.indexes (nbx x j) (nby y j) = new
  nbrs : ∀ j, j < 4 → coords_are_fine (nbx x j) (nby y j) gk →
    gk.board (nbx x j) (nby y j) = v →
    gk.indexes (nbx x j) (nby y j) = old ∨ gk.indexes (nbx x j) (nby y j) = new
  ids_v : ((area_ids gk v).filter fun i => ¬ (v = v ∧ i = old))
    = insert new ((area_ids g v).filter fun i => ¬ (v = v ∧ i = old))
  ids_o : ∀ q, q ≠ v → area_ids gk q = area_ids g q
  frame : gk = { g with indexes := gk.indexes, players := gk.players }
  players_eq : gk.players = set_at g.players v { g.players v with next_ind := new + 1 }

/-- The state in which the trial starts: a new id is minted for the cell. -/
def trial_start (g : gamma_t) (v new x y : Nat) : gamma_t :=
  { g with
    players := set_at g.players v { g.players v with next_ind := new + 1 }
    indexes := set_cell g.indexes x y new }

/-- From `g` to `g'` only area ids and id counters changed, and the counters
did not decrease. -/
structure Renumbered (g g' : gamma_t) : Prop where
  frame : g' = { g with indexes := g'.indexes, players := g'.players }
  counters : ∀ q, (g'.players q).fields = (g.players q).fields
    ∧ (g'.players q).areas = (g.players q).areas
    ∧ (g'.players q).border = (g.players q).border
    ∧ (g'.players q).free_golden_move = (g.players q).free_golden_move
  next_ge : ∀ q, (g.players q).next_ind ≤ (g'.players q).next_ind

/-! ## Id counters during the scan of `gamma_golden_possible` -/

/-- From `g` to `g'` the board keeps its height and, as long as no counter can
wrap around, every id counter grows by at most `n`. -/
def NextGrow (n : Nat) (g g' : gamma_t) : Prop :=
  g'.heigth = g.heigth ∧
  ∀ B, (∀ q, (g.players q).next_ind ≤ B) → B + n < 18446744073709551615 →
    ∀ q, (g.players q).next_ind ≤ (g'.players q).next_ind
      ∧ (g'.players q).next_ind ≤ B + n

/-! ## Reachable states -/

/-- The game `g` is what a call `gamma_new(width, height, players, areas)` with
`uint` arguments returned. -/
def Initial (g : gamma_t) : Prop :=
  ∃ fuel width height players areas, width < 4294967296 ∧ height < 4294967296
    ∧ players < 4294967296 ∧ areas < 4294967296
    ∧ gamma_new fuel width height players areas = some (some g)

/-- A call of `gamma_move`, `gamma_golden_move` or `gamma_golden_possible` with
`uint` arguments on `g` returned and left the game `g'`. -/
def Step (g g' : gamma_t) : Prop :=
  ∃ fuel p x y b, p < 4294967296 ∧ x < 4294967296 ∧ y < 4294967296
    ∧ (gamma_move fuel g p x y = some (b, g')
      ∨ gamma_golden_move fuel g p x y = some (b, g')
      ∨ gamma_golden_possible fuel g p = some (b, g'))

/-- The states reachable from `gamma_new` by any sequence of calls. -/
inductive Reachable : gamma_t → Prop
  | init (g : gamma_t) : Initial g → Reachable g
  | step (g g' : gamma_t) : Reachable g → Step g g' → Reachable g'

/-- The states reachable from `gamma_new` by calls during which fewer than
`2^32` area ids are minted for each player. -/
inductive FitReachable : gamma_t → Prop
  | init (g : gamma_t) : Initial g → FitReachable g
  | step (g g' : gamma_t) : FitReachable g → Step g g' → ids_fit g' → FitReachable g'

/-! ## Concrete games -/

/-- The game left by a call, or `d` if the call did not return. -/
def after (r : Option (Bool × gamma_t)) (d : gamma_t) : gamma_t :=
  match r with
  | some x => x.2
  | none => d

/-- The value returned by a call, or `false` if the call did not return. -/
def answer (r : Option (Bool × gamma_t)) : Bool :=
  match r with
  | some x => x.1
  | none => false

/-- The game `gamma_new(3, 1, 2, 1)`. -/
def T0 : gamma_t :=
  { board := fun _ _ => EMPTY
    indexes := fun _ _ => EMPTY
    width := 3
    heigth := 1
    players := set_at (set_at (fun _ => blank_player) 1 fresh_player) 2 fresh_player
    number_of_players := 2
    max_areas := 1
    busy_fields := 0
    fields_of_wider_players := 0
    golden_moves_used := 0 }

/-- After `gamma_move(g, 2, 0, 0)`. -/
def T1 : gamma_t := after (gamma_move 4 T0 2 0 0) T0

/-- After `gamma_move(g, 2, 1, 0)`. -/
def T2 : gamma_t := after (gamma_move 4 T1 2 1 0) T1

/-- After `gamma_move(g, 2, 2, 0)`: player 2 owns the three cells of the board. -/
def T3 : gamma_t := after (gamma_move 4 T2 2 2 0) T2

/-! ## A game in which `2^32` area ids are minted -/

/-- The game `gamma_new(9, 1, 2, 2)`. -/
def B0 : gamma_t :=
  { board := fun _ _ => EMPTY
    indexes := fun _ _ => EMPTY
    width := 9
    heigth := 1
    players := set_at (set_at (fun _ => blank_player) 1 fresh_player) 2 fresh_player
    number_of_players := 2
    max_areas := 2
    busy_fields := 0
    fields_of_wider_players := 0
    golden_moves_used := 0 }

/-- After `gamma_move(g, 2, 1, 0)`. -/
def B1 : gamma_t := after (gamma_move 10 B0 2 1 0) B0

/-- After `gamma_move(g, 1, 2, 0)`. -/
def B2 : gamma_t := after (gamma_move 10 B1 1 2 0) B1

/-- After `gamma_move(g, 2, 4, 0)`. -/
def B3 : gamma_t := after (gamma_move 10 B2 2 4 0) B2

/-- After `gamma_move(g, 2, 5, 0)`. -/
def B4 : gamma_t := after (gamma_move 10 B3 2 5 0) B3

/-- After `gamma_move(g, 2, 6, 0)`. -/
def B5 : gamma_t := after (gamma_move 10 B4 2 6 0) B4

/-- After `gamma_move(g, 1, 8, 0)`: the row reads `. 2 1 . 2 2 2 . 1`, both
players have two areas, the cap. -/
def B6 : gamma_t := after (gamma_move 10 B5 1 8 0) B5

/-- The game `B6` in which the cell `(1, 0)` of player 2 carries the id `a` and
the id counter of player 2 is `n`. -/
def Hn (a n : Nat) : gamma_t :=
  { B6 with
    players := set_at B6.players 2 { B6.players 2 with next_ind := n }
    indexes := set_cell B6.indexes 1 0 a }

/-- The game after `2^32 - 3` calls `gamma_golden_possible(g, 1)` on `B6`: the
id counter of player 2 is `2^32`. -/
def OV0 : gamma_t := Hn 4294967295 4294967296

/-- One call `gamma_golden_possible(g, 1)` later: the cell `(1, 0)` of player 2
carries the id `0`. -/
def OV1 : gamma_t := Hn 0 4294967297

/-- After the rejected `gamma_golden_move(g, 1, 5, 0)` on `OV0`. -/
def OV0r : gamma_t := after (gamma_golden_move 10 OV0 1 5 0) OV0

/-- After the rejected `gamma_move(g, 2, 0, 0)` on `OV1`. -/
def OV1r : gamma_t := after (gamma_move 10 OV1 2 0 0) OV1

/-- After the rejected `gamma_golden_move(g, 2, 2, 0)` on `OV1`. -/
def OV1g : gamma_t := after (gamma_golden_move 10 OV1 2 2 0) OV1

/-- After the rejected `gamma_golden_move(g, 1, 5, 0)` on `B6`. -/
def B6r : gamma_t := after (gamma_golden_move 10 B6 1 5 0) B6

/-! ## `gamma_free_fields` -/

/-- The function `gamma_free_fields` (for a game that is not `NULL`); the
product and the difference are computed in `muint`. -/
def gamma_free_fields (game : gamma_t) (player : Nat) : Nat :=
  if player_is_fine player game then
    if (game.players player).areas < game.max_areas then
      (game.width * game.heigth % 18446744073709551616
        + (18446744073709551616 - game.busy_fields % 18446744073709551616))
        % 18446744073709551616
    else (game.players player).border
  else 0

/-! ## The board as text -/

/-- The difference `a - b` computed in `uint`. -/
def sub32 (a b : Nat) : Nat := (a + (4294967296 - b % 4294967296)) % 4294967296

/-- The loop of `ceil_log`, run for at most `fuel` tests of its condition. -/
def ceil_log_loop : Nat → Nat → Nat → Option Nat
  | 0, _, _ => none
  | fuel + 1, x, res => if x ≠ 0 then ceil_log_loop fuel (x / 10) (inc32 res) else some res

/-- The function `ceil_log`; `none` stands for a call that has not returned
within `fuel` tests of the loop condition. -/
def ceil_log (fuel x : Nat) : Option Nat := ceil_log_loop fuel x 0

/-- The character `NUL` that ends a C string. -/
def NUL : Char := Char.ofNat 0

/-- The array `digits`, the string `"0123456789"` with the `NUL` that ends it;
`none` for a read outside the array. -/
def digits (i : Nat) : Option Char :=
  if i < 10 then some (Char.ofNat (48 + i)) else if i = 10 then some NUL else none

/-- The store `board_display[i] = c` into a buffer of `len` bytes; `none` for a
store outside the buffer. -/
def store (len : Nat) (buf : Nat → Char) (i : Nat) (c : Char) : Option (Nat → Char) :=
  if i < len then some (set_at buf i c) else none

/-- The string a buffer holds: its characters before the first `NUL`. -/
def c_string (l : List Char) : List Char := l.takeWhile fun c => c ≠ NUL

/-- The loop `for (uint i = 0; i < cell_len; ++i)` of `gamma_spaced_board`, `n`
rounds; the state is the buffer and the variables `pos`, `val` and `move`. -/
def spaced_digits (len : Nat) :
    Nat → (Nat → Char) × Nat × Nat × Nat → Option ((Nat → Char) × Nat × Nat × Nat)
  | 0, s => some s
  | n + 1, (buf, pos, val, move) =>
    (if val ≠ 0 then digits (val % 10) else some ' ').bind fun c =>
    (store len buf (to_uint (move + pos)) c).bind fun b =>
      spaced_digits len n (b, inc32 pos, val / 10, sub32 move 2)

/-- The loop `for (uint y = 0; y < width; ++y)` of `gamma_spaced_board` in the
row `x`, over the columns listed; the state is the buffer and `pos`. -/
def spaced_row (game : gamma_t) (len cell_len x : Nat) :
    List Nat → (Nat → Char) × Nat → Option ((Nat → Char) × Nat)
  | [], s => some s
  | y :: ys, s =>
    (spaced_digits len cell_len
      (s.1, s.2, game.board y (dec32 (sub32 game.heigth x)), dec32 cell_len)).bind fun t =>
    (if game.board y (dec32 (sub32 game.heigth x)) = 0 then store len t.1 (dec32 t.2.1) '.'
      else some t.1).bind fun b =>
      spaced_row game len cell_len x ys (b, t.2.1)

/-- The loop `for (uint x = 0; x < heigth; ++x)` of `gamma_spaced_board` over
the rows listed. -/
def spaced_rows (game : gamma_t) (len cell_len : Nat) :
    List Nat → (Nat → Char) × Nat → Option ((Nat → Char) × Nat)
  | [], s => some s
  | x :: xs, s =>
    (spaced_row game len cell_len x (List.range game.width) s).bind fun s1 =>
    (store len s1.1 s1.2 '\n').bind fun b => spaced_rows game len cell_len xs (b, inc32 s1.2)

/-- The function `gamma_spaced_board`, the allocation succeeding; `mem` is the
content of the fresh buffer. The result is the string in the buffer returned;
`none` stands for a call that gives no string: `ceil_log` has not returned, a
store went outside the buffer, or the buffer is cut to no bytes. -/
def gamma_spaced_board (fuel : Nat) (mem : Nat → Char) (game : gamma_t) : Option (List Char) :=
  (ceil_log fuel game.number_of_players).bind fun l =>
    let cell_len := inc32 l
    let len := to_uint (game.width + 1) * to_uint (game.heigth + 1) % 18446744073709551616
      * cell_len % 18446744073709551616
    (spaced_rows game len cell_len (List.range game.heigth) (mem, 0)).bind fun s =>
    (store len s.1 s.2 NUL).bind fun b =>
      if inc32 s.2 = 0 then none else some (c_string ((List.range (inc32 s.2)).map b))

/-- The loop `for (uint y = 0; y < width; ++y)` of `gamma_board` in the row `x`,
over the columns listed; the state is the buffer and `pos`. A read outside
`digits` gives `none`. -/
def board_row (game : gamma_t) (len x : Nat) :
    List Nat → (Nat → Char) × Nat → Option ((Nat → Char) × Nat)
  | [], s => some s
  | y :: ys, s =>
    (if game.board y (dec32 (sub32 game.heigth x)) = EMPTY then some '.'
      else digits (game.board y (dec32 (sub32 game.heigth x)))).bind fun c =>
    (store len s.1 s.2 c).bind fun b => board_row game len x ys (b, inc32 s.2)

/-- The loop `for (uint x = 0; x < heigth; ++x)` of `gamma_board` over the rows
listed. -/
def board_rows (game : gamma_t) (len : Nat) :
    List Nat → (Nat → Char) × Nat → Option ((Nat → Char) × Nat)
  | [], s => some s
  | x :: xs, s =>
    (board_row game len x (List.range game.width) s).bind fun s1 =>
    (store len s1.1 s1.2 '\n').bind fun b => board_rows game len xs (b, inc32 s1.2)

/-- Whether `gamma_board` hands the game to `gamma_spaced_board`. -/
def board_is_spaced (game : gamma_t) : Prop := 0 < game.fields_of_wider_players

instance (game : gamma_t) : Decidable (board_is_spaced game) := by
  unfold board_is_spaced
  infer_instance

/-- The function `gamma_board` (for a game that is not `NULL`), the allocation
succeeding; `mem` is the content of the fresh buffer. The result is the string
in the buffer returned; `none` stands for a call that gives no string. -/
def gamma_board (fuel : Nat) (mem : Nat → Char) (game : gamma_t) : Option (List Char) :=
  if board_is_spaced game then gamma_spaced_board fuel mem game
  else
    let len := to_uint (game.width + 1) * to_uint (game.heigth + 1) % 18446744073709551616
    (board_rows game len (List.range game.heigth) (mem, 0)).bind fun s =>
    (store len s.1 s.2 NUL).bind fun b =>
      if inc32 s.2 = 0 then none else some (c_string ((List.range (inc32 s.2)).map b))

/-! ## The compact picture in the words of the specification -/

/-- The character of a cell in the compact picture: `.` for an empty cell,
else the decimal digit of the owner. -/
def cell_char (v : Nat) : Char := if v = EMPTY then '.' else Char.ofNat (48 + v)

/-- The row of the compact picture for the row `y` of the board: one character
for each column, then a newline. -/
def compact_row (g : gamma_t) (y : Nat) : List Char :=
  (List.range g.width).map (fun x => cell_char (g.board x y)) ++ ['\n']

/-- The compact picture: the rows of the board from the top, row `r` of the
picture showing the row `H - 1 - r` of the board. -/
def compact_picture (g : gamma_t) : List Char :=
  ((List.range g.heigth).map fun r => compact_row g (g.heigth - 1 - r)).flatten

/-! ## The golden flag -/

/-- From `g` to `g'` no golden flag changes. -/
def FlagSame (g g' : gamma_t) : Prop :=
  ∀ q, (g'.players q).free_golden_move = (g.players q).free_golden_move

/-- A later state: reached by calls of the three operations. -/
inductive Later (g : gamma_t) : gamma_t → Prop
  | now : Later g g
  | next (g1 g2 : gamma_t) : Later g g1 → Step g1 g2 → Later g g2

/-! ## What `gamma_golden_possible` leaves alone, whatever the state -/

/-- From `g` to `g'` only area ids and id counters may have changed. -/
structure Untouched (g g' : gamma_t) : Prop where
  board_eq : g'.board = g.board
  width_eq : g'.width = g.width
  heigth_eq : g'.heigth = g.heigth
  number_eq : g'.number_of_players = g.number_of_players
  max_eq : g'.max_areas = g.max_areas
  busy_eq : g'.busy_fields = g.busy_fields
  wider_eq : g'.fields_of_wider_players = g.fields_of_wider_players
  golden_eq : g'.golden_moves_used = g.golden_moves_used
  counters : ∀ q, (g'.players q).fields = (g.players q).fields
    ∧ (g'.players q).areas = (g.players q).areas
    ∧ (g'.players q).border = (g.players q).border
    ∧ (g'.players q).free_golden_move = (g.players q).free_golden_move

/-! ## A second game in which `2^32` area ids are minted -/

/-- The game `gamma_new(5, 1, 2, 2)`. -/
def D0 : gamma_t :=
  { board := fun _ _ => EMPTY
    indexes := fun _ _ => EMPTY
    width := 5
    heigth := 1
    players := set_at (set_at (fun _ => blank_player) 1 fresh_player) 2 fresh_player
    number_of_players := 2
    max_areas := 2
    busy_fields := 0
    fields_of_wider_players := 0
    golden_moves_used := 0 }

/-- After `gamma_move(g, 2, 1, 0)`. -/
def D1 : gamma_t := after (gamma_move 10 D0 2 1 0) D0

/-- After `gamma_move(g, 1, 2, 0)`. -/
def D2 : gamma_t := after (gamma_move 10 D1 1 2 0) D1

/-- After `gamma_move(g, 1, 4, 0)`: the row reads `. 2 1 . 1`, player 1 has two
areas, the cap, and player 2 has one. -/
def D3 : gamma_t := after (gamma_move 10 D2 1 4 0) D2

/-- The game `D3` in which the cell `(1, 0)` of player 2 carries the id `a` and
the id counter of player 2 is `n`. -/
def Kn (a n : Nat) : gamma_t :=
  { D3 with
    players := set_at D3.players 2 { D3.players 2 with next_ind := n }
    indexes := set_cell D3.indexes 1 0 a }

/-- The game after `2^32 - 1` calls `gamma_golden_possible(g, 1)` on `D3`: the
cell `(1, 0)` of player 2 carries the id `0`. -/
def K1 : gamma_t := Kn 0 4294967297

/-- After the accepted `gamma_move(g, 2, 0, 0)` on `K1`. -/
def K1m : gamma_t := after (gamma_move 10 K1 2 0 0) K1

/-- After the accepted `gamma_golden_move(g, 2, 2, 0)` on `K1`. -/
def K1g : gamma_t := after (gamma_golden_move 10 K1 2 2 0) K1

/-- After the accepted `gamma_golden_move(g, 1, 2, 0)` on `K1g`. -/
def K1b : gamma_t := after (gamma_golden_move 10 K1g 1 2 0) K1g

/-! ## A cell of a wide player in the compact picture -/

/-- The game a call of `gamma_new` returned, or `d` if it returned none. -/
def made (r : Option (Option gamma_t)) (d : gamma_t) : gamma_t :=
  match r with
  | some (some g) => g
  | _ => d

/-- The game `gamma_new(2, 1, 10, 2)`. -/
def W0 : gamma_t := made (gamma_new 11 2 1 10 2) T0

/-- After `gamma_move(g, 1, 0, 0)`. -/
def W1 : gamma_t := after (gamma_move 4 W0 1 0 0) W0

/-- After `gamma_golden_move(g, 10, 0, 0)`: player 10 owns the cell `(0, 0)`. -/
def W2 : gamma_t := after (gamma_golden_move 4 W1 10 0 0) W1

/-- The game `gamma_new(2147483648, 2, 1, 1)`. -/
def Big : gamma_t :=
  { board := fun _ _ => EMPTY
    indexes := fun _ _ => EMPTY
    width := 2147483648
    heigth := 2
    players := set_at (fun _ => blank_player) 1 fresh_player
    number_of_players := 1
    max_areas := 1
    busy_fields := 0
    fields_of_wider_players := 0
    golden_moves_used := 0 }

/-! ## Connections on an arbitrary owner grid -/

/-- The game with the cell `(x, y)` emptied on the owner grid. -/
def without (g : gamma_t) (x y : Nat) : gamma_t :=
  { g with board := set_cell g.board x y EMPTY }

/-- The invariant of the loop of the trial at `(x, y)` that counts pieces: the
cells in `E` are the neighbours from which the flood fill ran. -/
structure CountInv (g : gamma_t) (v old x y : Nat) (gk : gamma_t) (E : Finset (Nat × Nat)) :
    Prop where
  board_eq : gk.board = g.board
  width_eq : gk.width = g.width
  heigth_eq : gk.heigth = g.heigth
  seeds : ∀ e ∈ E, owns (without g x y) v e.1 e.2
  known : ∀ e ∈ E, White g v old e.1 e.2
  cover : ∀ c d, White g v old c d → ¬ (c = x ∧ d = y) →
    White gk v old c d ∨ ∃ e ∈ E, Connected (without g x y) v e.1 e.2 c d
  full : ∀ e ∈ E, ∀ c d, Connected (without g x y) v e.1 e.2 c d → ¬ White gk v old c d
  apart : ∀ e ∈ E, ∀ f ∈ E, Connected (without g x y) v e.1 e.2 f.1 f.2 → e = f
  inside : ∀ c d, White gk v old c d → White g v old c d ∧ ¬ (c = x ∧ d = y)

/-! ## The answer of the trial of `gamma_golden_possible` -/

/-- The condition under which the trial of `gamma_golden_possible` for `p` at the
cell `(x, y)` answers `true`: the cell belongs to another player, `p` owns a
4-neighbour of it, and the owner's cells without `(x, y)` form at most
`max_areas` areas. -/
def trial_ok (g : gamma_t) (p x y : Nat) : Prop :=
  g.board x y ≠ EMPTY ∧ g.board x y ≠ p ∧ has_neighbour g p x y
    ∧ ∃ n, Components (without g x y) (g.board x y) n ∧ n ≤ g.max_areas

/-! ## A cell whose removal does not split its area -/

/-- The cell `(a, b)` is reached from `(x, y)` by `n` 4-directional steps through
cells owned by `p`. -/
inductive Within (g : gamma_t) (p x y : Nat) : Nat → Nat → Nat → Prop
  | start : owns g p x y → Within g p x y 0 x y
  | step (n a b c d : Nat) : Within g p x y n a b → adjacent a b c d → owns g p c d →
      Within g p x y (n + 1) c d

/-! ## More concrete games -/

/-- After the accepted `gamma_golden_move(g, 1, 0, 0)` on `T3`: the board is
`1 2 2`. -/
def T4 : gamma_t := after (gamma_golden_move 4 T3 1 0 0) T3

/-- After the accepted `gamma_golden_move(g, 2, 0, 0)` on `T4`: player 2 owns
the three cells again. -/
def T5 : gamma_t := after (gamma_golden_move 4 T4 2 0 0) T4

/-- After `gamma_move(g, 1, 0, 0)` on `T0`. -/
def U1 : gamma_t := after (gamma_move 4 T0 1 0 0) T0

/-- After `gamma_move(g, 2, 1, 0)` on `U1`: the board is `1 2 .`. -/
def U2 : gamma_t := after (gamma_move 4 U1 2 1 0) U1

/-! ## The front-end helpers, `gamma_best_result` and `is_fine_number` -/

/-- The function `gamma_all_busy_fields`. -/
def gamma_all_busy_fields (game : gamma_t) : Nat := game.busy_fields

/-- The loop of `gamma_best_result` from the player `i` on, run for at most
`fuel` tests of its condition; `result` is the C `uint` variable. -/
def best_result_loop : Nat → Nat → gamma_t → Nat → Option Nat
  | 0, _, _, _ => none
  | fuel + 1, i, game, result =>
    if i ≤ game.number_of_players then
      best_result_loop fuel (inc32 i) game
        (if result < (game.players i).fields then to_uint (game.players i).fields else result)
    else some result

/-- The function `gamma_best_result`; `none` stands for a call that has not
returned within `fuel` tests of the loop condition. -/
def gamma_best_result (fuel : Nat) (game : gamma_t) : Option Nat :=
  best_result_loop fuel 1 game 0

/-- The function `free_fields_available` of the interactive front-end; `width`
and `height` are the static variables of that file, the product is a `muint`. -/
def free_fields_available (width height : Nat) (game : gamma_t) : Bool :=
  decide (gamma_all_busy_fields game < width * height % 18446744073709551616)

/-- The loop of `game_in_progress` from the player `i` on, run for at most
`tests` tests of its condition. -/
def progress_loop (fuel : Nat) : Nat → Nat → Nat → gamma_t → Option (Bool × gamma_t)
  | 0, _, _, _ => none
  | tests + 1, i, players, game =>
    if i ≤ players then
      (gamma_golden_possible fuel game i).bind fun r =>
        if r.1 then some (true, r.2) else progress_loop fuel tests (inc32 i) players r.2
    else some (false, game)

/-- The function `game_in_progress` of the interactive front-end; the result is
the returned value and the game afterwards. -/
def game_in_progress (fuel tests width height : Nat) (game : gamma_t) (players : Nat) :
    Option (Bool × gamma_t) :=
  if free_fields_available width height game then some (true, game)
  else progress_loop fuel tests 1 players game

/-- The function `player_can_play` of the interactive front-end. -/
def player_can_play (fuel : Nat) (game : gamma_t) (current_player : Nat) :
    Option (Bool × gamma_t) :=
  (gamma_golden_possible fuel game current_player).map fun r =>
    (r.1 || decide (gamma_free_fields r.2 current_player ≠ 0), r.2)

/-- The function `isdigit` of the C library in the C locale. -/
def isdigit (c : Char) : Bool := decide (48 ≤ c.toNat ∧ c.toNat ≤ 57)

/-- The function `is_fine_number` of the parser: `arg` is the buffer and `len`
the C `int` length, the terminating `NUL` counted. -/
def is_fine_number (arg : Nat → Char) (len : Int) : Bool :=
  if len - 1 = 0 then true
  else if len - 1 = 1 ∧ isdigit (arg 0) = true then true
  else if len - 1 > 1 ∧ arg 0 = '0' then false
  else if len - 1 > 10 then false
  else (List.range (len - 1).toNat).all fun i => isdigit (arg i)

/-- The buffer that holds the characters of `s` and the terminating `NUL`. -/
def c_buffer (s : List Char) (i : Nat) : Char := s.getD i NUL

/-- The number a string of decimal digits denotes. -/
def decimal_value (s : List Char) : Nat :=
  s.foldl (fun n c => 10 * n + (c.toNat - 48)) 0

/-! ## Games of the scenarios -/

/-- The game `gamma_new(1, 1, 1, 1)`. -/
def G0 : gamma_t := made (gamma_new 3 1 1 1 1) T0

/-- After `gamma_move(g, 1, 0, 0)` on `G0`. -/
def G1 : gamma_t := after (gamma_move 2 G0 1 0 0) G0

/-- The game `gamma_new(4, 4, 2, 1)`. -/
def R0 : gamma_t := made (gamma_new 4 4 4 2 1) T0

/-- After `gamma_move(g, 1, 0, 0)` on `R0`. -/
def R1 : gamma_t := after (gamma_move 17 R0 1 0 0) R0

/-- After `gamma_move(g, 1, 1, 0)` on `R1`. -/
def R2 : gamma_t := after (gamma_move 17 R1 1 1 0) R1

/-- The game `gamma_new(3, 1, 2, 2)`. -/
def V0 : gamma_t := made (gamma_new 4 3 1 2 2) T0

/-- After `gamma_move(g, 1, 0, 0)` on `V0`. -/
def V1 : gamma_t := after (gamma_move 4 V0 1 0 0) V0

/-- After `gamma_move(g, 2, 2, 0)` on `V1`: the board is `1 . 2`. -/
def V2 : gamma_t := after (gamma_move 4 V1 2 2 0) V1

/-- After `gamma_move(g, 1, 1, 0)` on `V2`: the board is `1 1 2`. -/
def V3 : gamma_t := after (gamma_move 4 V2 1 1 0) V2

/-! ## `gamma_best_result` -/

/-- The first `n` cells of the bottom row of a board of width `2^32 - 1` and
height 2 belong to the only player, the other cells are empty. -/
structure RowFill (n : Nat) (g : gamma_t) : Prop where
  fit : FitReachable g
  width_eq : g.width = 4294967295
  heigth_eq : g.heigth = 2
  number_eq : g.number_of_players = 1
  max_eq : g.max_areas = 1
  board_eq : ∀ x y, g.board x y = if y = 0 ∧ x < n then 1 else EMPTY
  fields_eq : (g.players 1).fields = n
  next_le : ∀ q, (g.players q).next_ind ≤ 2
  start : n = 0 → (g.players 1).areas = 0 ∧ ∀ q, (g.players q).next_ind ≤ 1

/-! ## The end of the game: `game_in_progress` -/

/-- After the rejected `gamma_move(g, 2, 0, 0)` on `K1b`: the board is
`2 2 1 . 1` and `busy_fields` is 5. -/
def K1z : gamma_t := after (gamma_move 10 K1b 2 0 0) K1b

/-! ## Neighbours, `ceil_log`, `gamma_new` and `reindexify` once more -/

/-- The Manhattan distance between the cells `(a, b)` and `(c, d)`. -/
def manhattan (a b c d : Nat) : Nat :=
  (if a ≤ c then c - a else a - c) + (if b ≤ d then d - b else b - d)

/-- The cells that a walk from the seed `(x, y)` reaches by steps between
4-neighbours through cells on the board owned by `p` with area id `f`. -/
inductive Joined (g : gamma_t) (p f x y : Nat) : Nat → Nat → Prop
  | seed : White g p f x y → Joined g p f x y x y
  | step (a b c d : Nat) : Joined g p f x y a b → adjacent a b c d →
      White g p f c d → Joined g p f x y c d

/-! ## The parser: `convert` and `analyse_line` -/

/-- The function `isspace` of the C library in the C locale. -/
def isspace (c : Char) : Bool := decide (c.toNat = 32 ∨ (9 ≤ c.toNat ∧ c.toNat ≤ 13))

/-- The function `wrong_sign` of the parser. -/
def wrong_sign (c : Char) : Bool := decide (c.toNat < 33)

/-- The constant `MAXUINT` of `gamma_main.c`. -/
def MAXUINT : Nat := 4294967295

/-- The call `strtoull(s, NULL, 10)` of the C library on the C string `s`:
leading white space and one sign are skipped, the decimal digits that follow
are converted, a value above `2^64 - 1` gives `2^64 - 1`, and a minus sign
negates the value in `unsigned long long`. -/
def strtoull (s : List Char) : Nat :=
  let s1 := s.dropWhile isspace
  let s2 := if s1.head? = some '-' ∨ s1.head? = some '+' then s1.tail else s1
  let v := decimal_value (s2.takeWhile isdigit)
  if 18446744073709551615 < v then 18446744073709551615
  else if s1.head? = some '-' then (18446744073709551616 - v) % 18446744073709551616
  else v

/-- The function `convert` of `gamma_main.c` on the C string `arg`; the second
component is the value of `*result` afterwards. -/
def convert (arg : List Char) (result : Nat) : Bool × Nat :=
  if arg = [] then (true, 0)
  else if strtoull arg ≤ MAXUINT then (true, to_uint (strtoull arg))
  else (false, result)

/-- A decimal numeral without leading zeros, or the single digit 0. -/
def numeral (t : List Char) : Prop :=
  (∀ c ∈ t, isdigit c = true) ∧ (t = ['0'] ∨ t.head? ≠ some '0')

/-! ## `analyse_line` -/

/-- The loop `while (i < read && isspace(line[i]) == false) buf[n++] = line[i++]`:
the first argument is the line from position `i` on, the result the buffer
and the rest of the line. -/
def read_token : List Char → List Char → List Char × List Char
  | [], buf => (buf, [])
  | c :: rest, buf => if isspace c then (buf, c :: rest) else read_token rest (buf ++ [c])

/-- The loop `while (i < read && isspace(line[i])) i++`, on the line from
position `i` on. -/
def skip_spaces : List Char → List Char
  | [] => []
  | c :: rest => if isspace c then skip_spaces rest else c :: rest

/-- The command and the four arguments `analyse_line` cuts out of a line, and
what is left of the line after them. -/
structure pieces where
  command : List Char
  arg1 : List Char
  arg2 : List Char
  arg3 : List Char
  arg4 : List Char
  rest : List Char

/-- The scanning loops of `analyse_line`. -/
def cut_line (line : List Char) : pieces :=
  let t0 := read_token line []
  let t1 := read_token (skip_spaces t0.2) []
  let t2 := read_token (skip_spaces t1.2) []
  let t3 := read_token (skip_spaces t2.2) []
  let t4 := read_token (skip_spaces t3.2) []
  { command := t0.1, arg1 := t1.1, arg2 := t2.1, arg3 := t3.1, arg4 := t4.1,
    rest := skip_spaces t4.2 }

/-- The value `analyse_line` returns for the line read, allocation succeeding;
`read` is the length of the list. -/
def analyse_line (line : List Char) : Int :=
  if line.length = 0 ∨ line.head? = some '#' ∨ (line.length = 1 ∧ line.head? = some '\n') then -1
  else if line.getLast? ≠ some '\n' then 0
  else if line.any (fun c => wrong_sign c && !isspace c) then 0
  else if line.head?.map isspace = some true then 0
  else if (cut_line line).rest ≠ [] then 0
  else if (cut_line line).command.length + 1 = 2
      ∧ is_fine_number (c_buffer (cut_line line).arg1) (((cut_line line).arg1.length : Int) + 1)
        = true
      ∧ is_fine_number (c_buffer (cut_line line).arg2) (((cut_line line).arg2.length : Int) + 1)
        = true
      ∧ is_fine_number (c_buffer (cut_line line).arg3) (((cut_line line).arg3.length : Int) + 1)
        = true
      ∧ is_fine_number (c_buffer (cut_line line).arg4) (((cut_line line).arg4.length : Int) + 1)
        = true
    then 1
  else 0

/-- The tokens of a line: its maximal runs of characters that are not white
space; the second argument is the token being read. -/
def tokens_from : List Char → List Char → List (List Char)
  | [], cur => if cur = [] then [] else [cur]
  | c :: rest, cur =>
    if isspace c then (if cur = [] then tokens_from rest [] else cur :: tokens_from rest [])
    else tokens_from rest (cur ++ [c])

/-- The white-space-separated tokens of a line. -/
def tokens (line : List Char) : List (List Char) := tokens_from line []

/-- The line is to be ignored: it is empty, a lone newline, or starts with `#`. -/
def ignored_line (line : List Char) : Prop :=
  line = [] ∨ line = ['\n'] ∨ line.head? = some '#'

/-- The line is malformed: it does not end with a newline, contains a character
below code 33 that is not white space, starts with white space, or has more
than five tokens. -/
def broken_line (line : List Char) : Prop :=
  line.getLast? ≠ some '\n' ∨ (∃ c ∈ line, c.toNat < 33 ∧ isspace c = false)
    ∨ (∃ c, line.head? = some c ∧ isspace c = true) ∨ 5 < (tokens line).length

/-- The command token is a single character and every argument token passes
`is_fine_number`. -/
def valid_command (line : List Char) : Prop :=
  (∃ cmd, (tokens line).head? = some cmd ∧ cmd.length = 1)
    ∧ ∀ t ∈ (tokens line).tail, is_fine_number (c_buffer t) ((t.length : Int) + 1) = true

/-- A token as a list of tokens: no token when it is empty. -/
def opt_token (t : List Char) : List (List Char) := if t = [] then [] else [t]

/-! ## Termination of the relabelling -/

/-- The game of the first family in which the id counter of player 2 is
`2^32 + 2`: cut to 32 bits it is the id 2 of the cells `(4, 0)`, `(5, 0)` and
`(6, 0)` of player 2. -/
def H2 : gamma_t := Hn 1 4294967298

/-- The game `H2` at the first call of `reindexify` in
`gamma_golden_move(g, 1, 4, 0)`: the cell `(4, 0)` is emptied. -/
def H2cut : gamma_t :=
  let g1 : gamma_t := { H2 with board := set_cell H2.board 4 0 EMPTY }
  let g2 := update_blank_all_neighbours g1 4 0
  let g3 := lost_independent_borders g2 2 4 0
  uncount_field { g3 with indexes := set_cell g3.indexes 4 0 EMPTY } 1 2

/-! ## A game on a board of two rows in which `2^32` area ids are minted -/

/-- The game `gamma_new(3, 2, 3, 1)`. -/
def E0 : gamma_t :=
  { board := fun _ _ => EMPTY
    indexes := fun _ _ => EMPTY
    width := 3
    heigth := 2
    players := set_at (set_at (set_at (fun _ => blank_player) 1 fresh_player) 2 fresh_player)
      3 fresh_player
    number_of_players := 3
    max_areas := 1
    busy_fields := 0
    fields_of_wider_players := 0
    golden_moves_used := 0 }

/-- After `gamma_move(g, 1, 0, 0)`. -/
def E1 : gamma_t := after (gamma_move 10 E0 1 0 0) E0

/-- After `gamma_move(g, 2, 1, 0)`: the lower row reads `1 2 .`, the upper row
is empty, and players 1 and 2 have one area each, the cap. -/
def E2 : gamma_t := after (gamma_move 10 E1 2 1 0) E1

/-- The game `E2` in which the cell `(1, 0)` of player 2 carries the id `a` and
the id counter of player 2 is `n`. -/
def Zn (a n : Nat) : gamma_t :=
  { E2 with
    players := set_at E2.players 2 { E2.players 2 with next_ind := n }
    indexes := set_cell E2.indexes 1 0 a }

/-- The game after `2^32 - 2` calls `gamma_golden_possible(g, 1)` on `E2`: the
id counter of player 2 is `2^32`. -/
def Z0 : gamma_t := Zn 4294967295 4294967296

/-- The game after `2^32 - 1` calls `gamma_golden_possible(g, 1)` on `E2`: the
cell `(1, 0)` of player 2 carries the id `0`. -/
def Z1 : gamma_t := Zn 0 4294967297

/-- After the rejected `gamma_move(g, 2, 1, 1)` on `Z1`. -/
def Z1a : gamma_t := after (gamma_move 10 Z1 2 1 1) Z1

/-- After `gamma_move(g, 3, 2, 0)` on `Z1a`. -/
def Z1b : gamma_t := after (gamma_move 10 Z1a 3 2 0) Z1a

/-- After `gamma_move(g, 3, 2, 1)` on `Z1b`: the border counter of player 2 is 0
and the cell `(0, 1)`, next to the cell `(1, 1)` of player 2, is empty. -/
def Z1c : gamma_t := after (gamma_move 10 Z1b 3 2 1) Z1b

/-- After `gamma_move(g, 1, 0, 1)` on `Z1c`. -/
def Z1d : gamma_t := after (gamma_move 10 Z1c 1 0 1) Z1c

/-! ## Areas and borders after an accepted move -/

/-- The number `k` of 4-connected components of `p` that contain a 4-neighbour
of `(x, y)`: there are `k` neighbours of `(x, y)` owned by `p`, no two of them
connected, such that every neighbour of `(x, y)` owned by `p` is connected to
one of them. -/
def Touching (g : gamma_t) (p x y k : Nat) : Prop :=
  ∃ reps : Finset (Nat × Nat), reps.card = k
    ∧ (∀ r ∈ reps, adjacent x y r.1 r.2 ∧ owns g p r.1 r.2)
    ∧ (∀ r ∈ reps, ∀ s ∈ reps, Connected g p r.1 r.2 s.1 s.2 → r = s)
    ∧ (∀ c d, adjacent x y c d → owns g p c d → ∃ r ∈ reps, Connected g p r.1 r.2 c d)

/-- The cell `(a, b)` is `(x, y)` or is connected to a neighbour of `(x, y)`
owned by `p`. -/
def Linked (g : gamma_t) (p x y a b : Nat) : Prop :=
  (a = x ∧ b = y) ∨ ∃ c d, adjacent x y c d ∧ owns g p c d ∧ Connected g p c d a b

/-! ## Elementary facts -/

@[simp] theorem set_cell_same (a : Nat → Nat → Nat) (x y v : Nat) :
    set_cell a x y v x y = v := by
  simp [set_cell]

theorem set_cell_other (a : Nat → Nat → Nat) (x y v i j : Nat) (h : ¬ (i = x ∧ j = y)) :
    set_cell a x y v i j = a i j := by
  simp [set_cell, h]

theorem set_cell_apply (a : Nat → Nat → Nat) (x y v i j : Nat) :
    set_cell a x y v i j = if i = x ∧ j = y then v else a i j := rfl

@[simp] theorem set_at_same {α : Type} (a : Nat → α) (i : Nat) (v : α) :
    set_at a i v i = v := by
  simp [set_at]

theorem set_at_other {α : Type} (a : Nat → α) (i j : Nat) (v : α) (h : j ≠ i) :
    set_at a i v j = a j := by
  simp [set_at, h]

theorem set_at_apply {α : Type} (a : Nat → α) (i j : Nat) (v : α) :
    set_at a i v j = if j = i then v else a j := rfl

theorem mem_cells (g : gamma_t) (c : Nat × Nat) :
    c ∈ cells g ↔ c.1 < g.width ∧ c.2 < g.heigth := by
  simp [cells, Finset.mem_product]

theorem Reach.white_seed {g : gamma_t} {p f x y a b : Nat} (h : Reach g p f x y a b) :
    White g p f x y := by
  induction h with
  | seed h => exact h
  | step a b i _ _ _ ih => exact ih

theorem Reach.white {g : gamma_t} {p f x y a b : Nat} (h : Reach g p f x y a b) :
    White g p f a b := by
  cases h with
  | seed h => exact h
  | step a b i _ _ hw => exact hw

theorem Reach.trans {g : gamma_t} {p f x y a b c d : Nat} (h1 : Reach g p f x y a b)
    (h2 : Reach g p f a b c d) : Reach g p f x y c d := by
  induction h2 with
  | seed _ => exact h1
  | step a' b' i _ hi hw ih => exact Reach.step a' b' i ih hi hw

/-- A walk stays a walk when the white cells only grow. -/
theorem Reach.mono {g g' : gamma_t} {p f x y a b : Nat}
    (hw : ∀ a b, White g p f a b → White g' p f a b) (h : Reach g p f x y a b) :
    Reach g' p f x y a b := by
  induction h with
  | seed h => exact Reach.seed (hw _ _ h)
  | step a b i _ hi hwh ih => exact Reach.step a b i ih hi (hw _ _ hwh)

/-! ## Composition of flood fills -/

theorem Flooded.white_sub {g g' : gamma_t} {p f t : Nat} {S : Nat → Nat → Prop}
    (hft : f ≠ t) (h : Flooded g p f t S g') (a b : Nat) (hw : White g' p f a b) :
    White g p f a b := by
  have hfr := h.frame
  obtain ⟨hc, hb, hi⟩ := hw
  have hwd : g'.width = g.width := by rw [hfr]
  have hht : g'.heigth = g.heigth := by rw [hfr]
  have hbd : g'.board = g.board := by rw [hfr]
  refine ⟨⟨by rw [← hwd]; exact hc.1, by rw [← hht]; exact hc.2⟩, by rw [← hbd]; exact hb, ?_⟩
  rcases h.only a b with h1 | ⟨_, h2⟩
  · rw [← h1]; exact hi
  · exact absurd (hi.symm.trans h2) hft

theorem Flooded.keeps {g g' : gamma_t} {p f t : Nat} {S : Nat → Nat → Prop}
    (hft : f ≠ t) (h : Flooded g p f t S g') (a b : Nat) (ht : g.indexes a b = t) :
    g'.indexes a b = t := by
  rcases h.only a b with h1 | ⟨_, h2⟩
  · rw [h1]; exact ht
  · exact h2

theorem Flooded.white_of_not {g g' : gamma_t} {p f t : Nat} {S : Nat → Nat → Prop}
    (h : Flooded g p f t S g') (a b : Nat) (hw : White g p f a b)
    (hn : g'.indexes a b ≠ t) : White g' p f a b := by
  have hfr := h.frame
  have hwd : g'.width = g.width := by rw [hfr]
  have hht : g'.heigth = g.heigth := by rw [hfr]
  have hbd : g'.board = g.board := by rw [hfr]
  obtain ⟨hc, hb, hi⟩ := hw
  refine ⟨⟨by rw [hwd]; exact hc.1, by rw [hht]; exact hc.2⟩, by rw [hbd]; exact hb, ?_⟩
  rcases h.only a b with h1 | ⟨_, h2⟩
  · rw [h1]; exact hi
  · exact absurd h2 hn

theorem Flooded.comp {g g1 g2 : gamma_t} {p f t : Nat} {S S' : Nat → Nat → Prop}
    (hft : f ≠ t) (h1 : Flooded g p f t S g1) (h2 : Flooded g1 p f t S' g2) :
    Flooded g p f t (fun a b => S a b ∨ S' a b) g2 := by
  have key : ∀ a b, White g p f a b → g2.indexes a b = t →
      g1.indexes a b = t ∨ White g1 p f a b := by
    intro a b hw _
    by_cases h : g1.indexes a b = t
    · exact Or.inl h
    · exact Or.inr (h1.white_of_not a b hw h)
  refine ⟨?_, ?_, ?_, ?_, ?_⟩
  · have e1 := h1.frame
    have e2 := h2.frame
    rw [e2]
    rw [e1]
  · intro a b
    rcases h2.only a b with e | ⟨hw, e⟩
    · rcases h1.only a b with e' | ⟨hw', e'⟩
      · exact Or.inl (e.trans e')
      · exact Or.inr ⟨hw', e.trans e'⟩
    · exact Or.inr ⟨h1.white_sub hft a b hw, e⟩
  · intro a b hs hw
    by_cases hx : g1.indexes a b = t
    · exact h2.keeps hft a b hx
    · rcases hs with hs | hs
      · exact absurd (h1.seeds a b hs hw) hx
      · exact h2.seeds a b hs (h1.white_of_not a b hw hx)
  · intro a b i hi hw ht hwn
    by_cases hx : g1.indexes (nbx a i) (nby b i) = t
    · exact h2.keeps hft _ _ hx
    · have hwn1 := h1.white_of_not _ _ hwn hx
      rcases key a b hw ht with hc | hc
      · exact absurd (h1.closed a b i hi hw hc hwn) hx
      · exact h2.closed a b i hi hc ht hwn1
  · intro a b hw ht
    rcases key a b hw ht with hc | hc
    · obtain ⟨x, y, hs, hr⟩ := h1.sound a b hw hc
      exact ⟨x, y, Or.inl hs, hr⟩
    · obtain ⟨x, y, hs, hr⟩ := h2.sound a b hc ht
      exact ⟨x, y, Or.inr hs, hr.mono (h1.white_sub hft)⟩

theorem Flooded.refl (g : gamma_t) (p f t : Nat) (hft : f ≠ t) :
    Flooded g p f t (fun _ _ => False) g := by
  refine ⟨rfl, fun a b => Or.inl rfl, fun a b h => absurd h id, ?_, ?_⟩
  · intro a b i _ hw ht
    exact absurd (hw.2.2.symm.trans ht) hft
  · intro a b hw ht
    exact absurd (hw.2.2.symm.trans ht) hft

theorem Flooded.weaken {g g' : gamma_t} {p f t : Nat} {S S' : Nat → Nat → Prop}
    (h : Flooded g p f t S g') (hS : ∀ a b, S' a b → White g p f a b → g'.indexes a b = t)
    (hS' : ∀ a b x y, S x y → Reach g p f x y a b → ∃ x' y', S' x' y' ∧ Reach g p f x' y' a b) :
    Flooded g p f t S' g' := by
  refine ⟨h.frame, h.only, hS, h.closed, ?_⟩
  intro a b hw ht
  obtain ⟨x, y, hs, hr⟩ := h.sound a b hw ht
  exact hS' a b x y hs hr

/-- A seed that is not white floods nothing. -/
theorem Flooded.of_not_white (g : gamma_t) (p f t x y : Nat) (hft : f ≠ t)
    (hn : ¬ White g p f x y) : Flooded g p f t (fun a b => a = x ∧ b = y) g := by
  refine (Flooded.refl g p f t hft).weaken ?_ ?_
  · rintro a b ⟨rfl, rfl⟩ hw
    exact absurd hw hn
  · intro a b x' y' hs
    exact absurd hs id

/-- The step of `reindexify`: the seed is marked, then the four neighbours are
flooded one after the other. -/
theorem Flooded.of_seed {g g4 : gamma_t} {p f t x y : Nat} (hft : f ≠ t)
    (hw : White g p f x y)
    (h : Flooded { g with indexes := set_cell g.indexes x y t } p f t
      (fun a b => ∃ i, i < 4 ∧ a = nbx x i ∧ b = nby y i) g4) :
    Flooded g p f t (fun a b => a = x ∧ b = y) g4 := by
  have hsub : ∀ a b, White { g with indexes := set_cell g.indexes x y t } p f a b →
      White g p f a b ∧ ¬ (a = x ∧ b = y) := by
    intro a b hwa
    obtain ⟨hc, hb, hi⟩ := hwa
    have hne : ¬ (a = x ∧ b = y) := by
      rintro ⟨rfl, rfl⟩
      simp at hi
      exact hft hi.symm
    refine ⟨⟨hc, hb, ?_⟩, hne⟩
    simpa [set_cell_other _ _ _ _ _ _ hne] using hi
  have hsup : ∀ a b, White g p f a b → ¬ (a = x ∧ b = y) →
      White { g with indexes := set_cell g.indexes x y t } p f a b := by
    intro a b hwa hne
    obtain ⟨hc, hb, hi⟩ := hwa
    refine ⟨hc, hb, ?_⟩
    simpa [set_cell_other _ _ _ _ _ _ hne] using hi
  have hseed : g4.indexes x y = t := h.keeps hft x y (by simp)
  refine ⟨?_, ?_, ?_, ?_, ?_⟩
  · have e := h.frame
    rw [e]
  · intro a b
    by_cases hab : a = x ∧ b = y
    · obtain ⟨rfl, rfl⟩ := hab
      exact Or.inr ⟨hw, hseed⟩
    · rcases h.only a b with e | ⟨hwa, e⟩
      · left
        rw [e]
        exact set_cell_other _ _ _ _ _ _ hab
      · exact Or.inr ⟨(hsub a b hwa).1, e⟩
  · rintro a b ⟨rfl, rfl⟩ _
    exact hseed
  · intro a b i hi hwa ht hwn
    by_cases hn : nbx a i = x ∧ nby b i = y
    · rw [hn.1, hn.2]; exact hseed
    · have hwn0 := hsup _ _ hwn hn
      by_cases hab : a = x ∧ b = y
      · obtain ⟨rfl, rfl⟩ := hab
        exact h.seeds _ _ ⟨i, hi, rfl, rfl⟩ hwn0
      · exact h.closed a b i hi (hsup a b hwa hab) ht hwn0
  · intro a b hwa ht
    by_cases hab : a = x ∧ b = y
    · obtain ⟨rfl, rfl⟩ := hab
      exact ⟨a, b, ⟨rfl, rfl⟩, Reach.seed hw⟩
    · obtain ⟨x', y', ⟨i, hi, rfl, rfl⟩, hr⟩ := h.sound a b (hsup a b hwa hab) ht
      refine ⟨x, y, ⟨rfl, rfl⟩, ?_⟩
      have hr' : Reach g p f (nbx x i) (nby y i) a b := hr.mono fun a b h => (hsub a b h).1
      exact (Reach.step x y i (Reach.seed hw) hi hr'.white_seed).trans hr'

theorem Flooded.relabelled {g g' : gamma_t} {p f t x y : Nat}
    (h : Flooded g p f t (fun a b => a = x ∧ b = y) g') : Relabelled g p f t x y g' := by
  refine ⟨h.frame, ?_, ?_⟩
  · intro a b hr
    induction hr with
    | seed hw => exact h.seeds _ _ ⟨rfl, rfl⟩ hw
    | step a b i hr hi hw ih => exact h.closed a b i hi hr.white ih hw
  · intro a b hn
    rcases h.only a b with e | ⟨hw, e⟩
    · exact e
    · obtain ⟨x', y', ⟨rfl, rfl⟩, hr⟩ := h.sound a b hw e
      exact absurd hr hn

/-! ## Termination measure -/

theorem white_count_le {g g' : gamma_t} {p f t : Nat} {S : Nat → Nat → Prop} (hft : f ≠ t)
    (h : Flooded g p f t S g') : white_count g' p f ≤ white_count g p f := by
  unfold white_count
  apply Finset.card_le_card
  intro c hc
  simp only [Finset.mem_filter, mem_cells] at hc ⊢
  have hfr := h.frame
  have hwd : g'.width = g.width := by rw [hfr]
  have hht : g'.heigth = g.heigth := by rw [hfr]
  have hw : White g' p f c.1 c.2 := ⟨⟨hc.1.1, hc.1.2⟩, hc.2.1, hc.2.2⟩
  have := h.white_sub hft _ _ hw
  exact ⟨⟨this.1.1, this.1.2⟩, this.2.1, this.2.2⟩

theorem white_count_seed {g : gamma_t} {p f t x y : Nat} (hft : f ≠ t)
    (hw : White g p f x y) :
    white_count { g with indexes := set_cell g.indexes x y t } p f < white_count g p f := by
  unfold white_count
  apply Finset.card_lt_card
  rw [Finset.ssubset_iff_of_subset]
  · refine ⟨(x, y), ?_, ?_⟩
    · simp only [Finset.mem_filter, mem_cells]
      exact ⟨⟨hw.1.1, hw.1.2⟩, hw.2.1, hw.2.2⟩
    · simp only [Finset.mem_filter, mem_cells, not_and]
      intro _ _
      simp
      exact fun h => hft h.symm
  · intro c hc
    simp only [Finset.mem_filter, mem_cells] at hc ⊢
    refine ⟨hc.1, hc.2.1, ?_⟩
    have h2 := hc.2.2
    by_cases hab : c.1 = x ∧ c.2 = y
    · rw [hab.1, hab.2] at h2
      simp at h2
      exact absurd h2.symm hft
    · simpa [set_cell_other _ _ _ _ _ _ hab] using h2

/-! ## `reindexify` floods -/

theorem reindexify_unfold (fuel : Nat) (game : gamma_t) (player x y from_ind to_ind : Nat) :
    reindexify (fuel + 1) game player x y from_ind to_ind =
      if coords_are_fine x y game ∧ game.board x y = player
          ∧ game.indexes x y = from_ind then
        (reindexify fuel { game with indexes := set_cell game.indexes x y to_ind }
            player (nbx x 0) (nby y 0) from_ind to_ind).bind fun g1 =>
        (reindexify fuel g1 player (nbx x 1) (nby y 1) from_ind to_ind).bind fun g2 =>
        (reindexify fuel g2 player (nbx x 2) (nby y 2) from_ind to_ind).bind fun g3 =>
        reindexify fuel g3 player (nbx x 3) (nby y 3) from_ind to_ind
      else some game := rfl

/-- The four floods of the neighbours of a marked seed amount to a flood from the seed. -/
theorem Flooded.of_four {g g1 g2 g3 g4 : gamma_t} {p f t x y : Nat} (hft : f ≠ t)
    (hW : White g p f x y)
    (f1 : Flooded { g with indexes := set_cell g.indexes x y t } p f t
      (fun a b => a = nbx x 0 ∧ b = nby y 0) g1)
    (f2 : Flooded g1 p f t (fun a b => a = nbx x 1 ∧ b = nby y 1) g2)
    (f3 : Flooded g2 p f t (fun a b => a = nbx x 2 ∧ b = nby y 2) g3)
    (f4 : Flooded g3 p f t (fun a b => a = nbx x 3 ∧ b = nby y 3) g4) :
    Flooded g p f t (fun a b => a = x ∧ b = y) g4 := by
  apply Flooded.of_seed hft hW
  have hall := ((f1.comp hft f2).comp hft f3).comp hft f4
  refine hall.weaken ?_ ?_
  · rintro a b ⟨i, hi, h1, h2⟩ hwa
    have : i = 0 ∨ i = 1 ∨ i = 2 ∨ i = 3 := by omega
    rcases this with hi0 | hi0 | hi0 | hi0 <;> rw [hi0] at h1 h2
    · exact hall.seeds _ _ (Or.inl (Or.inl (Or.inl ⟨h1, h2⟩))) hwa
    · exact hall.seeds _ _ (Or.inl (Or.inl (Or.inr ⟨h1, h2⟩))) hwa
    · exact hall.seeds _ _ (Or.inl (Or.inr ⟨h1, h2⟩)) hwa
    · exact hall.seeds _ _ (Or.inr ⟨h1, h2⟩) hwa
  · intro a b x' y' hs hr
    rcases hs with ((⟨h1, h2⟩ | ⟨h1, h2⟩) | ⟨h1, h2⟩) | ⟨h1, h2⟩
    · exact ⟨_, _, ⟨0, by omega, h1, h2⟩, hr⟩
    · exact ⟨_, _, ⟨1, by omega, h1, h2⟩, hr⟩
    · exact ⟨_, _, ⟨2, by omega, h1, h2⟩, hr⟩
    · exact ⟨_, _, ⟨3, by omega, h1, h2⟩, hr⟩

/-- Whatever `reindexify` returns is the flood from its seed. -/
theorem reindexify_floods (p f t : Nat) (hft : f ≠ t) :
    ∀ (fuel : Nat) (g g' : gamma_t) (x y : Nat), reindexify fuel g p x y f t = some g' →
      Flooded g p f t (fun a b => a = x ∧ b = y) g' := by
  intro fuel
  induction fuel with
  | zero => intro g g' x y h; simp [reindexify] at h
  | succ n ih =>
    intro g g' x y h
    rw [reindexify_unfold] at h
    by_cases hw : coords_are_fine x y g ∧ g.board x y = p ∧ g.indexes x y = f
    · rw [if_pos hw] at h
      simp only [Option.bind_eq_some] at h
      obtain ⟨g1, e1, g2, e2, g3, e3, e4⟩ := h
      exact Flooded.of_four hft hw (ih _ _ _ _ e1) (ih _ _ _ _ e2) (ih _ _ _ _ e3)
        (ih _ _ _ _ e4)
    · rw [if_neg hw] at h
      simp only [Option.some.injEq] at h
      rw [← h]
      exact Flooded.of_not_white g p f t x y hft hw

/-- With recursion depth above the number of white cells, `reindexify` returns. -/
theorem reindexify_returns (p f t : Nat) (hft : f ≠ t) :
    ∀ (fuel : Nat) (g : gamma_t) (x y : Nat), white_count g p f < fuel →
      ∃ g', reindexify fuel g p x y f t = some g' := by
  intro fuel
  induction fuel with
  | zero => intro g x y h; exact absurd h (Nat.not_lt_zero _)
  | succ n ih =>
    intro g x y hlt
    rw [reindexify_unfold]
    by_cases hw : coords_are_fine x y g ∧ g.board x y = p ∧ g.indexes x y = f
    · rw [if_pos hw]
      have hW : White g p f x y := hw
      have h0 := white_count_seed (t := t) hft hW
      obtain ⟨g1, e1⟩ := ih { g with indexes := set_cell g.indexes x y t }
        (nbx x 0) (nby y 0) (by omega)
      have c1 := white_count_le hft (reindexify_floods p f t hft _ _ _ _ _ e1)
      obtain ⟨g2, e2⟩ := ih g1 (nbx x 1) (nby y 1) (by omega)
      have c2 := white_count_le hft (reindexify_floods p f t hft _ _ _ _ _ e2)
      obtain ⟨g3, e3⟩ := ih g2 (nbx x 2) (nby y 2) (by omega)
      have c3 := white_count_le hft (reindexify_floods p f t hft _ _ _ _ _ e3)
      obtain ⟨g4, e4⟩ := ih g3 (nbx x 3) (nby y 3) (by omega)
      exact ⟨g4, by simp [e1, e2, e3, e4]⟩
    · rw [if_neg hw]
      exact ⟨g, rfl⟩

theorem white_count_le_cells (g : gamma_t) (p f : Nat) :
    white_count g p f ≤ g.width * g.heigth := by
  unfold white_count
  calc _ ≤ (cells g).card := Finset.card_filter_le _ _
    _ = g.width * g.heigth := by simp [cells]

/-- Whatever `reindexify` returns relabels exactly the cells reached from the seed. -/
theorem reindexify_relabels (fuel : Nat) (g g' : gamma_t) (p x y f t : Nat) (hft : f ≠ t)
    (h : reindexify fuel g p x y f t = some g') : Relabelled g p f t x y g' :=
  (reindexify_floods p f t hft fuel g g' x y h).relabelled

/-- With recursion depth above the number of cells, `reindexify` returns. -/
theorem reindexify_total (fuel : Nat) (g : gamma_t) (p x y f t : Nat) (hft : f ≠ t)
    (hfuel : g.width * g.heigth < fuel) :
    ∃ g', reindexify fuel g p x y f t = some g' :=
  reindexify_returns p f t hft fuel g x y
    (lt_of_le_of_lt (white_count_le_cells g p f) hfuel)

/-- Whatever `reindexify` returns differs from the game given only in area ids. -/
theorem reindexify_frame (p f t : Nat) :
    ∀ (fuel : Nat) (g g' : gamma_t) (x y : Nat), reindexify fuel g p x y f t = some g' →
      g' = { g with indexes := g'.indexes } := by
  intro fuel
  induction fuel with
  | zero => intro g g' x y h; simp [reindexify] at h
  | succ n ih =>
    intro g g' x y h
    rw [reindexify_unfold] at h
    split at h
    · simp only [Option.bind_eq_some] at h
      obtain ⟨g1, e1, g2, e2, g3, e3, e4⟩ := h
      have a1 := ih _ _ _ _ e1
      have a2 := ih _ _ _ _ e2
      have a3 := ih _ _ _ _ e3
      have a4 := ih _ _ _ _ e4
      rw [a4, a3, a2, a1]
    · simp at h
      rw [← h]

/-! ## Neighbours -/

theorem nb_cases {P : Nat → Prop} (h0 : P 0) (h1 : P 1) (h2 : P 2) (h3 : P 3) :
    ∀ i, i < 4 → P i := by
  intro i hi
  have : i = 0 ∨ i = 1 ∨ i = 2 ∨ i = 3 := by omega
  rcases this with h | h | h | h <;> rw [h] <;> assumption

theorem nbx_zero (x : Nat) : nbx x 0 = (x + 1) % 4294967296 := rfl

theorem nbx_one (x : Nat) : nbx x 1 = (x + 0) % 4294967296 := rfl

theorem nbx_two (x : Nat) : nbx x 2 = (x + 4294967295) % 4294967296 := rfl

theorem nbx_three (x : Nat) : nbx x 3 = (x + 0) % 4294967296 := rfl

theorem nby_zero (y : Nat) : nby y 0 = (y + 0) % 4294967296 := rfl

theorem nby_one (y : Nat) : nby y 1 = (y + 1) % 4294967296 := rfl

theorem nby_two (y : Nat) : nby y 2 = (y + 0) % 4294967296 := rfl

theorem nby_three (y : Nat) : nby y 3 = (y + 4294967295) % 4294967296 := rfl

theorem nb_ne_self (x y i : Nat) (hi : i < 4) :
    ¬ (nbx x i = x ∧ nby y i = y) := by
  revert hi
  revert i
  apply nb_cases
  · rw [nbx_zero]; omega
  · rw [nby_one]; omega
  · rw [nbx_two]; omega
  · rw [nby_three]; omega

theorem opp_lt (i : Nat) : opp i < 4 := by
  unfold opp; omega

theorem nb_back (w h x y i : Nat) (hi : i < 4) (hw : w < 4294967296) (hh : h < 4294967296)
    (hx : x < w) (hy : y < h) (hnx : nbx x i < w) (hny : nby y i < h) :
    nbx (nbx x i) (opp i) = x ∧ nby (nby y i) (opp i) = y := by
  have hi' : i = 0 ∨ i = 1 ∨ i = 2 ∨ i = 3 := by omega
  rcases hi' with h1 | h1 | h1 | h1 <;> rw [h1] at hnx hny ⊢
  · have : opp 0 = 2 := rfl
    rw [this, nbx_two, nby_two]; rw [nbx_zero] at *; rw [nby_zero] at *; omega
  · have : opp 1 = 3 := rfl
    rw [this, nbx_three, nby_three]; rw [nbx_one] at *; rw [nby_one] at *; omega
  · have : opp 2 = 0 := rfl
    rw [this, nbx_zero, nby_zero]; rw [nbx_two] at *; rw [nby_two] at *; omega
  · have : opp 3 = 1 := rfl
    rw [this, nbx_one, nby_one]; rw [nbx_three] at *; rw [nby_three] at *; omega

theorem nb_inj (x y i j : Nat) (hi : i < 4) (hj : j < 4)
    (e1 : nbx x i = nbx x j) (e2 : nby y i = nby y j) : i = j := by
  have hi' : i = 0 ∨ i = 1 ∨ i = 2 ∨ i = 3 := by omega
  have hj' : j = 0 ∨ j = 1 ∨ j = 2 ∨ j = 3 := by omega
  rcases hi' with h1 | h1 | h1 | h1 <;> rcases hj' with h2 | h2 | h2 | h2 <;>
    rw [h1, h2] at e1 e2 <;> rw [h1, h2] <;>
    simp only [nbx_zero, nbx_one, nbx_two, nbx_three, nby_zero, nby_one, nby_two,
      nby_three] at e1 e2 <;> omega

theorem Reach.symm {g : gamma_t} {p f x y a b : Nat} (hs : Sized g)
    (h : Reach g p f x y a b) : Reach g p f a b x y := by
  induction h with
  | seed h => exact Reach.seed h
  | step a b i hr hi hw ih =>
    have hwa := hr.white
    have hb := nb_back g.width g.heigth a b i hi hs.width_lt hs.heigth_lt hwa.1.1 hwa.1.2
      hw.1.1 hw.1.2
    have h1 : Reach g p f (nbx a i) (nby b i) (nbx (nbx a i) (opp i)) (nby (nby b i) (opp i)) :=
      Reach.step _ _ (opp i) (Reach.seed hw) (opp_lt i) (by rw [hb.1, hb.2]; exact hwa)
    rw [hb.1, hb.2] at h1
    exact h1.trans ih

theorem neighbourhood_from_iff (g : gamma_t) (p x y : Nat) :
    ∀ n i, neighbourhood_from g p x y n i = true ↔
      ∃ j, i ≤ j ∧ j < i + n ∧ coords_are_fine (nbx x j) (nby y j) g
        ∧ g.board (nbx x j) (nby y j) = p := by
  intro n
  induction n with
  | zero =>
    intro i
    simp only [neighbourhood_from, Bool.false_eq_true, false_iff, not_exists]
    intro j hj
    omega
  | succ n ih =>
    intro i
    unfold neighbourhood_from
    by_cases h : coords_are_fine (nbx x i) (nby y i) g ∧ g.board (nbx x i) (nby y i) = p
    · rw [if_pos h]
      simp only [true_iff]
      exact ⟨i, le_refl _, by omega, h.1, h.2⟩
    · rw [if_neg h, ih]
      constructor
      · rintro ⟨j, h1, h2, h3⟩
        exact ⟨j, by omega, by omega, h3⟩
      · rintro ⟨j, h1, h2, h3, h4⟩
        have : j ≠ i := by
          rintro rfl
          exact h ⟨h3, h4⟩
        exact ⟨j, by omega, by omega, h3, h4⟩

theorem neighbourhood_iff (g : gamma_t) (p x y : Nat) :
    neighbourhood_from g p x y DIRECTIONS 0 = true ↔ has_neighbour g p x y := by
  rw [neighbourhood_from_iff]
  unfold has_neighbour DIRECTIONS
  constructor
  · rintro ⟨j, _, h2, h3⟩
    exact ⟨j, by omega, h3⟩
  · rintro ⟨j, h2, h3⟩
    exact ⟨j, by omega, by omega, h3⟩

theorem neighbourhood_is_fine_iff (g : gamma_t) (p x y : Nat) :
    neighbourhood_is_fine g p x y = true ↔ has_neighbour g p x y :=
  neighbourhood_iff g p x y

theorem border_inc_eq : border_inc = border_app inc64 := rfl

theorem border_dec_eq : border_dec = border_app dec64 := rfl

theorem BorderChange.refl_change (g : gamma_t) : BorderChange g g := ⟨rfl, fun _ => rfl⟩

theorem BorderChange.trans_change {g1 g2 g3 : gamma_t} (h1 : BorderChange g1 g2)
    (h2 : BorderChange g2 g3) : BorderChange g1 g3 := by
  refine ⟨?_, ?_⟩
  · have e1 := h1.frame
    have e2 := h2.frame
    rw [e2]
    rw [e1]
  · intro q
    rw [h2.same q, h1.same q]

theorem BorderChange.board {g g' : gamma_t} (h : BorderChange g g') : g'.board = g.board := by
  rw [h.frame]

theorem BorderChange.indexes {g g' : gamma_t} (h : BorderChange g g') :
    g'.indexes = g.indexes := by
  rw [h.frame]

theorem BorderChange.width {g g' : gamma_t} (h : BorderChange g g') : g'.width = g.width := by
  rw [h.frame]

theorem BorderChange.heigth {g g' : gamma_t} (h : BorderChange g g') :
    g'.heigth = g.heigth := by
  rw [h.frame]

theorem border_app_change (f : Nat → Nat) (g : gamma_t) (q : Nat) :
    BorderChange g (border_app f g q) := by
  refine ⟨rfl, ?_⟩
  intro r
  unfold border_app
  by_cases h : r = q
  · subst h; simp
  · simp [set_at_other _ _ _ _ h]

theorem border_app_border (f : Nat → Nat) (g : gamma_t) (q r : Nat) :
    ((border_app f g q).players r).border =
      if r = q then f (g.players r).border else (g.players r).border := by
  unfold border_app
  by_cases h : r = q
  · subst h; simp
  · simp [set_at_other _ _ _ _ h, h]

theorem has_neighbour_congr {g g' : gamma_t} (hb : g'.board = g.board)
    (hw : g'.width = g.width) (hh : g'.heigth = g.heigth) (p x y : Nat) :
    has_neighbour g' p x y ↔ has_neighbour g p x y := by
  unfold has_neighbour coords_are_fine
  simp only [hb, hw, hh]

theorem clear_same_eq (cur : Nat) : ∀ (n j : Nat) (nb : Nat → Nat),
    clear_same cur n j nb = fun k => if j ≤ k ∧ k < j + n ∧ nb k = cur then EMPTY else nb k := by
  intro n
  induction n with
  | zero =>
    intro j nb
    funext k
    simp only [clear_same]
    rw [if_neg]
    omega
  | succ n ih =>
    intro j nb
    funext k
    simp only [clear_same]
    rw [ih]
    by_cases hc : nb j = cur
    · rw [if_pos hc]
      by_cases hk : k = j
      · subst hk
        simp [hc]
      · simp only [set_at_other _ _ _ _ hk]
        by_cases h1 : nb k = cur
        · simp only [h1, and_true]
          have : (j + 1 ≤ k ∧ k < j + 1 + n) ↔ (j ≤ k ∧ k < j + (n + 1)) := by omega
          simp only [this]
        · simp [h1]
    · rw [if_neg hc]
      by_cases h1 : nb k = cur
      · have hk : k ≠ j := by rintro rfl; exact hc h1
        simp only [h1, and_true]
        have : (j + 1 ≤ k ∧ k < j + 1 + n) ↔ (j ≤ k ∧ k < j + (n + 1)) := by omega
        simp only [this]
      · simp [h1]

theorem each_owner_once_eq (f : Nat → Nat) : ∀ (n i : Nat) (g : gamma_t) (nb : Nat → Nat),
    i + n = 4 →
    BorderChange g (each_owner_once (border_app f) n i g nb) ∧
    ∀ q : Nat, ((each_owner_once (border_app f) n i g nb).players q).border =
      if q ≠ EMPTY ∧ ∃ j : Nat, j < 4 ∧ i ≤ j ∧ nb j = q then f (g.players q).border
      else (g.players q).border := by
  intro n
  induction n with
  | zero =>
    intro i g nb hi
    simp only [each_owner_once]
    refine ⟨BorderChange.refl_change g, ?_⟩
    intro q
    rw [if_neg]
    rintro ⟨_, j, h1, h2, _⟩
    omega
  | succ n ih =>
    intro i g nb hi
    simp only [each_owner_once]
    by_cases hc : nb i ≠ EMPTY
    · rw [if_pos hc]
      obtain ⟨c1, b1⟩ := ih (i + 1) (border_app f g (nb i))
        (clear_same (nb i) (DIRECTIONS - i) i nb) (by omega)
      refine ⟨(border_app_change f g (nb i)).trans_change c1, ?_⟩
      intro q
      rw [b1 q, border_app_border, clear_same_eq]
      have hD : i + (DIRECTIONS - i) = 4 := by unfold DIRECTIONS; omega
      by_cases hq : q = nb i
      · subst hq
        rw [if_neg, if_pos rfl, if_pos]
        · exact ⟨hc, i, by omega, le_refl _, rfl⟩
        · rintro ⟨_, j, h2, h1, h3⟩
          simp only [hD] at h3
          by_cases h4 : nb j = nb i
          · rw [if_pos ⟨by omega, h2, h4⟩] at h3
            exact hc h3.symm
          · rw [if_neg (fun h => h4 h.2.2)] at h3
            exact h4 h3
      · rw [if_neg hq]
        have : (q ≠ EMPTY ∧ ∃ j, j < 4 ∧ i + 1 ≤ j ∧
            (if i ≤ j ∧ j < i + (DIRECTIONS - i) ∧ nb j = nb i then EMPTY else nb j) = q) ↔
            (q ≠ EMPTY ∧ ∃ j, j < 4 ∧ i ≤ j ∧ nb j = q) := by
          constructor
          · rintro ⟨h0, j, h2, h1, h3⟩
            refine ⟨h0, j, h2, by omega, ?_⟩
            by_cases h4 : nb j = nb i
            · rw [if_pos ⟨by omega, by omega, h4⟩] at h3
              exact absurd h3.symm h0
            · rw [if_neg (fun h => h4 h.2.2)] at h3
              exact h3
          · rintro ⟨h0, j, h2, h1, h3⟩
            have hji : j ≠ i := by rintro rfl; exact hq h3.symm
            refine ⟨h0, j, h2, by omega, ?_⟩
            rw [if_neg]
            · exact h3
            · rintro ⟨_, _, h4⟩
              exact hq (h3.symm.trans h4)
        simp only [this]
    · rw [if_neg hc]
      obtain ⟨c1, b1⟩ := ih (i + 1) g nb (by omega)
      refine ⟨c1, ?_⟩
      intro q
      rw [b1 q]
      have : (q ≠ EMPTY ∧ ∃ j, j < 4 ∧ i + 1 ≤ j ∧ nb j = q) ↔
          (q ≠ EMPTY ∧ ∃ j, j < 4 ∧ i ≤ j ∧ nb j = q) := by
        constructor
        · rintro ⟨h0, j, h2, h1, h3⟩
          exact ⟨h0, j, h2, by omega, h3⟩
        · rintro ⟨h0, j, h2, h1, h3⟩
          have hji : j ≠ i := by
            rintro rfl
            exact hc (by rw [h3]; exact h0)
          exact ⟨h0, j, h2, by omega, h3⟩
      simp only [this]

theorem neighbour_owners_mem (g : gamma_t) (x y q : Nat) (hq : q ≠ EMPTY) :
    (∃ j, j < 4 ∧ 0 ≤ j ∧ neighbour_owners g x y j = q) ↔ has_neighbour g q x y := by
  unfold has_neighbour neighbour_owners DIRECTIONS
  constructor
  · rintro ⟨j, h2, _, h3⟩
    by_cases h : j < 4 ∧ coords_are_fine (nbx x j) (nby y j) g
    · rw [if_pos h] at h3
      exact ⟨j, h2, h.2, h3⟩
    · rw [if_neg h] at h3
      exact absurd h3.symm hq
  · rintro ⟨j, h1, h2, h3⟩
    refine ⟨j, h1, Nat.zero_le _, ?_⟩
    rw [if_pos ⟨h1, h2⟩]
    exact h3

/-- Effect of `update_blank_all_neighbours`. -/
theorem update_blank_all_neighbours_eq (g : gamma_t) (x y : Nat) :
    BorderChange g (update_blank_all_neighbours g x y) ∧
    ∀ q : Nat, ((update_blank_all_neighbours g x y).players q).border =
      if q ≠ EMPTY ∧ has_neighbour g q x y then inc64 (g.players q).border
      else (g.players q).border := by
  unfold update_blank_all_neighbours
  rw [border_inc_eq]
  obtain ⟨c, b⟩ := each_owner_once_eq inc64 DIRECTIONS 0 g (neighbour_owners g x y) (by rfl)
  refine ⟨c, ?_⟩
  intro q
  rw [b q]
  by_cases hq : q ≠ EMPTY
  · simp only [neighbour_owners_mem g x y q hq]
  · simp [hq]

theorem lonely_blanks_eq (g : gamma_t) (p x y : Nat) :
    lonely_blanks g p x y = ∑ k in Finset.range 4, blank_gain g p x y (0 + k) := by
  unfold lonely_blanks blank_gain
  rw [Finset.card_filter]
  simp only [Nat.zero_add]

theorem blank_gain_congr {g g' : gamma_t} (hb : g'.board = g.board)
    (hw : g'.width = g.width) (hh : g'.heigth = g.heigth) (p x y i : Nat) :
    blank_gain g' p x y i = blank_gain g p x y i := by
  unfold blank_gain coords_are_fine
  simp only [hb, hw, hh, has_neighbour_congr hb hw hh]

theorem update_positive_blank_eq (g : gamma_t) (p x y i : Nat)
    (hc : coords_are_fine (nbx x i) (nby y i) g) :
    BorderChange g (update_positive_blank g p (nbx x i) (nby y i)) ∧
    ∀ q : Nat, ((update_positive_blank g p (nbx x i) (nby y i)).players q).border =
      if q = p then inc64^[blank_gain g p x y i] (g.players q).border
      else (g.players q).border := by
  unfold update_positive_blank blank_gain
  by_cases h1 : g.board (nbx x i) (nby y i) ≠ EMPTY
  · rw [if_pos h1]
    refine ⟨BorderChange.refl_change g, fun q => ?_⟩
    have : ¬ (coords_are_fine (nbx x i) (nby y i) g ∧ g.board (nbx x i) (nby y i) = EMPTY
      ∧ ¬ has_neighbour g p (nbx x i) (nby y i)) := fun h => h1 h.2.1
    rw [if_neg this]
    simp
  · rw [if_neg h1]
    by_cases h2 : neighbourhood_from g p (nbx x i) (nby y i) DIRECTIONS 0 = true
    · rw [if_pos h2]
      refine ⟨BorderChange.refl_change g, fun q => ?_⟩
      have : ¬ (coords_are_fine (nbx x i) (nby y i) g ∧ g.board (nbx x i) (nby y i) = EMPTY
        ∧ ¬ has_neighbour g p (nbx x i) (nby y i)) :=
        fun h => h.2.2 ((neighbourhood_iff _ _ _ _).1 h2)
      rw [if_neg this]
      simp
    · rw [if_neg h2, border_inc_eq]
      refine ⟨border_app_change _ _ _, fun q => ?_⟩
      have : coords_are_fine (nbx x i) (nby y i) g ∧ g.board (nbx x i) (nby y i) = EMPTY
          ∧ ¬ has_neighbour g p (nbx x i) (nby y i) :=
        ⟨hc, not_not.1 h1, fun h => h2 ((neighbourhood_iff _ _ _ _).2 h)⟩
      rw [if_pos this, border_app_border]
      simp

theorem positive_border_scan_eq (p x y : Nat) : ∀ (n i : Nat) (g0 g : gamma_t) (nb : Nat → Nat),
    BorderChange g0 g →
    BorderChange g0 (positive_border_scan p x y n i g nb).1 ∧
    (∀ q : Nat, ((positive_border_scan p x y n i g nb).1.players q).border =
      if q = p then inc64^[∑ k in Finset.range n, blank_gain g0 p x y (i + k)]
        (g.players q).border
      else (g.players q).border) ∧
    (∀ j : Nat, (positive_border_scan p x y n i g nb).2 j =
      if i ≤ j ∧ j < i + n then
        (if coords_are_fine (nbx x j) (nby y j) g0 then g0.board (nbx x j) (nby y j) else EMPTY)
      else nb j) := by
  intro n
  induction n with
  | zero =>
    intro i g0 g nb hg
    simp only [positive_border_scan]
    refine ⟨hg, fun q => by simp, fun j => ?_⟩
    rw [if_neg]
    omega
  | succ n ih =>
    intro i g0 g nb hg
    simp only [positive_border_scan]
    have hrange : ∑ k in Finset.range (n + 1), blank_gain g0 p x y (i + k) =
        (∑ k in Finset.range n, blank_gain g0 p x y (i + 1 + k)) + blank_gain g0 p x y i := by
      rw [Finset.sum_range_succ']
      simp only [Nat.add_zero]
      congr 1
      apply Finset.sum_congr rfl
      intro k _
      congr 1
      omega
    have hcf : coords_are_fine (nbx x i) (nby y i) g ↔ coords_are_fine (nbx x i) (nby y i) g0 := by
      unfold coords_are_fine
      rw [hg.width, hg.heigth]
    by_cases hc : coords_are_fine (nbx x i) (nby y i) g
    · rw [if_pos hc]
      obtain ⟨c1, b1⟩ := update_positive_blank_eq g p x y i hc
      obtain ⟨c2, b2, n2⟩ := ih (i + 1) g0 (update_positive_blank g p (nbx x i) (nby y i))
        (set_at nb i (g.board (nbx x i) (nby y i))) (hg.trans_change c1)
      refine ⟨c2, fun q => ?_, fun j => ?_⟩
      · rw [b2 q, b1 q, hrange]
        by_cases hq : q = p
        · rw [if_pos hq, if_pos hq, if_pos hq, Function.iterate_add_apply,
            blank_gain_congr hg.board hg.width hg.heigth]
        · rw [if_neg hq, if_neg hq, if_neg hq]
      · rw [n2 j]
        by_cases hj : j = i
        · subst hj
          have e1 : ¬ (j + 1 ≤ j ∧ j < j + 1 + n) := by omega
          have e2 : j ≤ j ∧ j < j + (n + 1) := by omega
          rw [if_neg e1, if_pos e2, if_pos (hcf.1 hc), set_at_same, hg.board]
        · rw [set_at_other _ _ _ _ hj]
          by_cases h3 : i + 1 ≤ j ∧ j < i + 1 + n
          · have e2 : i ≤ j ∧ j < i + (n + 1) := by omega
            rw [if_pos h3, if_pos e2]
          · have e2 : ¬ (i ≤ j ∧ j < i + (n + 1)) := by omega
            rw [if_neg h3, if_neg e2]
    · rw [if_neg hc]
      obtain ⟨c2, b2, n2⟩ := ih (i + 1) g0 g (set_at nb i EMPTY) hg
      have hg0 : blank_gain g0 p x y i = 0 := by
        unfold blank_gain
        rw [if_neg]
        exact fun h => hc (hcf.2 h.1)
      refine ⟨c2, fun q => ?_, fun j => ?_⟩
      · rw [b2 q, hrange, hg0]
        simp only [Nat.add_zero]
      · rw [n2 j]
        by_cases hj : j = i
        · subst hj
          have e1 : ¬ (j + 1 ≤ j ∧ j < j + 1 + n) := by omega
          have e2 : j ≤ j ∧ j < j + (n + 1) := by omega
          rw [if_neg e1, if_pos e2, if_neg (fun h => hc (hcf.2 h)), set_at_same]
        · rw [set_at_other _ _ _ _ hj]
          by_cases h3 : i + 1 ≤ j ∧ j < i + 1 + n
          · have e2 : i ≤ j ∧ j < i + (n + 1) := by omega
            rw [if_pos h3, if_pos e2]
          · have e2 : ¬ (i ≤ j ∧ j < i + (n + 1)) := by omega
            rw [if_neg h3, if_neg e2]

/-- Effect of `update_positive_border`. -/
theorem update_positive_border_eq (g : gamma_t) (p x y : Nat) :
    BorderChange g (update_positive_border g p x y) ∧
    ∀ q : Nat, ((update_positive_border g p x y).players q).border =
      if q ≠ EMPTY ∧ has_neighbour g q x y then
        dec64 (if q = p then inc64^[lonely_blanks g p x y] (g.players q).border
          else (g.players q).border)
      else (if q = p then inc64^[lonely_blanks g p x y] (g.players q).border
          else (g.players q).border) := by
  unfold update_positive_border
  obtain ⟨c1, b1, n1⟩ := positive_border_scan_eq p x y DIRECTIONS 0 g g (fun _ => EMPTY)
    (BorderChange.refl_change g)
  simp only []
  rw [border_dec_eq]
  obtain ⟨c2, b2⟩ := each_owner_once_eq dec64 DIRECTIONS 0
    (positive_border_scan p x y DIRECTIONS 0 g (fun _ => EMPTY)).1
    (positive_border_scan p x y DIRECTIONS 0 g (fun _ => EMPTY)).2 (by rfl)
  refine ⟨c1.trans_change c2, fun q => ?_⟩
  rw [b2 q, b1 q, lonely_blanks_eq]
  have hmem : (q ≠ EMPTY ∧ ∃ j : Nat, j < 4 ∧ 0 ≤ j ∧
      (positive_border_scan p x y DIRECTIONS 0 g (fun _ => EMPTY)).2 j = q) ↔
      (q ≠ EMPTY ∧ has_neighbour g q x y) := by
    constructor
    · rintro ⟨h0, j, h1, _, h3⟩
      refine ⟨h0, j, h1, ?_⟩
      rw [n1 j, if_pos ⟨Nat.zero_le _, by unfold DIRECTIONS; omega⟩] at h3
      by_cases hc : coords_are_fine (nbx x j) (nby y j) g
      · rw [if_pos hc] at h3
        exact ⟨hc, h3⟩
      · rw [if_neg hc] at h3
        exact absurd h3.symm h0
    · rintro ⟨h0, j, h1, h2, h3⟩
      refine ⟨h0, j, h1, Nat.zero_le _, ?_⟩
      rw [n1 j, if_pos ⟨Nat.zero_le _, by unfold DIRECTIONS; omega⟩, if_pos h2]
      exact h3
  simp only [hmem]
  rfl

theorem lost_independent_from_eq (v x y : Nat) : ∀ (n i : Nat) (g0 g : gamma_t),
    BorderChange g0 g →
    BorderChange g0 (lost_independent_from v x y n i g) ∧
    (∀ q : Nat, ((lost_independent_from v x y n i g).players q).border =
      if q = v then dec64^[∑ k in Finset.range n, blank_gain g0 v x y (i + k)]
        (g.players q).border
      else (g.players q).border) := by
  intro n
  induction n with
  | zero =>
    intro i g0 g hg
    simp only [lost_independent_from]
    exact ⟨hg, fun q => by simp⟩
  | succ n ih =>
    intro i g0 g hg
    simp only [lost_independent_from]
    have hrange : ∑ k in Finset.range (n + 1), blank_gain g0 v x y (i + k) =
        (∑ k in Finset.range n, blank_gain g0 v x y (i + 1 + k)) + blank_gain g0 v x y i := by
      rw [Finset.sum_range_succ']
      simp only [Nat.add_zero]
      congr 1
      apply Finset.sum_congr rfl
      intro k _
      congr 1
      omega
    have hbg := blank_gain_congr hg.board hg.width hg.heigth v x y i
    by_cases h1 : coords_are_fine (nbx x i) (nby y i) g ∧ g.board (nbx x i) (nby y i) = EMPTY
    · rw [if_pos h1]
      by_cases h2 : neighbourhood_from g v (nbx x i) (nby y i) DIRECTIONS 0 = true
      · rw [if_pos h2]
        obtain ⟨c2, b2⟩ := ih (i + 1) g0 g hg
        have hg0 : blank_gain g0 v x y i = 0 := by
          rw [← hbg]
          unfold blank_gain
          rw [if_neg]
          exact fun h => h.2.2 ((neighbourhood_iff _ _ _ _).1 h2)
        refine ⟨c2, fun q => ?_⟩
        rw [b2 q, hrange, hg0]
        simp only [Nat.add_zero]
      · rw [if_neg h2, border_dec_eq]
        obtain ⟨c2, b2⟩ := ih (i + 1) g0 (border_app dec64 g v) (hg.trans_change (border_app_change _ _ _))
        have hg0 : blank_gain g0 v x y i = 1 := by
          rw [← hbg]
          unfold blank_gain
          rw [if_pos]
          exact ⟨h1.1, h1.2, fun h => h2 ((neighbourhood_iff _ _ _ _).2 h)⟩
        refine ⟨c2, fun q => ?_⟩
        rw [b2 q, hrange, hg0, border_app_border]
        by_cases hq : q = v
        · rw [if_pos hq, if_pos hq, if_pos hq, Function.iterate_succ_apply]
        · rw [if_neg hq, if_neg hq, if_neg hq]
    · rw [if_neg h1]
      obtain ⟨c2, b2⟩ := ih (i + 1) g0 g hg
      have hg0 : blank_gain g0 v x y i = 0 := by
        rw [← hbg]
        unfold blank_gain
        rw [if_neg]
        exact fun h => h1 ⟨h.1, h.2.1⟩
      refine ⟨c2, fun q => ?_⟩
      rw [b2 q, hrange, hg0]
      simp only [Nat.add_zero]

/-- Effect of `lost_independent_borders`. -/
theorem lost_independent_borders_eq (g : gamma_t) (v x y : Nat) :
    BorderChange g (lost_independent_borders g v x y) ∧
    ∀ q : Nat, ((lost_independent_borders g v x y).players q).border =
      if q = v then dec64^[lonely_blanks g v x y] (g.players q).border
      else (g.players q).border := by
  unfold lost_independent_borders
  obtain ⟨c, b⟩ := lost_independent_from_eq v x y DIRECTIONS 0 g g (BorderChange.refl_change g)
  refine ⟨c, fun q => ?_⟩
  rw [b q, lonely_blanks_eq]
  rfl

/-! ## Counting border cells when one cell changes owner -/

theorem inc64_iterate (n : Nat) : ∀ b : Nat, b + n < 18446744073709551616 →
    inc64^[n] b = b + n := by
  induction n with
  | zero => intro b _; rfl
  | succ n ih =>
    intro b h
    rw [Function.iterate_succ_apply]
    have : inc64 b = b + 1 := by
      unfold inc64
      exact Nat.mod_eq_of_lt (by omega)
    rw [this, ih (b + 1) (by omega)]
    omega

theorem dec64_iterate (n : Nat) : ∀ b : Nat, n ≤ b → b < 18446744073709551616 →
    dec64^[n] b = b - n := by
  induction n with
  | zero => intro b _ _; rfl
  | succ n ih =>
    intro b h1 h2
    rw [Function.iterate_succ_apply]
    have : dec64 b = b - 1 := by
      unfold dec64
      omega
    rw [this, ih (b - 1) (by omega) (by omega)]
    omega

theorem nb_symm (g : gamma_t) (hs : Sized g) (a b x y : Nat)
    (hab : coords_are_fine a b g) (hxy : coords_are_fine x y g) :
    (∃ i, i < 4 ∧ nbx a i = x ∧ nby b i = y) ↔ (∃ j, j < 4 ∧ nbx x j = a ∧ nby y j = b) := by
  constructor
  · rintro ⟨i, hi, h1, h2⟩
    have := nb_back g.width g.heigth a b i hi hs.width_lt hs.heigth_lt hab.1 hab.2
      (by rw [h1]; exact hxy.1) (by rw [h2]; exact hxy.2)
    rw [h1, h2] at this
    exact ⟨opp i, opp_lt i, this.1, this.2⟩
  · rintro ⟨i, hi, h1, h2⟩
    have := nb_back g.width g.heigth x y i hi hs.width_lt hs.heigth_lt hxy.1 hxy.2
      (by rw [h1]; exact hab.1) (by rw [h2]; exact hab.2)
    rw [h1, h2] at this
    exact ⟨opp i, opp_lt i, this.1, this.2⟩

/-- Changing the owner of one cell between values other than `q` does not
change which cells have a neighbour owned by `q`. -/
theorem has_neighbour_set_other (g : gamma_t) (x y v q a b : Nat) (h1 : g.board x y ≠ q)
    (h2 : v ≠ q) :
    has_neighbour { g with board := set_cell g.board x y v } q a b ↔ has_neighbour g q a b := by
  unfold has_neighbour
  constructor
  · rintro ⟨i, hi, hc, hb⟩
    refine ⟨i, hi, hc, ?_⟩
    simp only [set_cell_apply] at hb
    by_cases hz : nbx a i = x ∧ nby b i = y
    · rw [if_pos hz] at hb
      exact absurd hb h2
    · rw [if_neg hz] at hb
      exact hb
  · rintro ⟨i, hi, hc, hb⟩
    refine ⟨i, hi, hc, ?_⟩
    simp only [set_cell_apply]
    by_cases hz : nbx a i = x ∧ nby b i = y
    · rw [hz.1, hz.2] at hb
      exact absurd hb h1
    · rw [if_neg hz]
      exact hb

/-- Giving a cell to `p` adds exactly its neighbours to the cells that have a
neighbour owned by `p`. -/
theorem has_neighbour_set_self (g : gamma_t) (x y p a b : Nat) (hz : coords_are_fine x y g)
    (h1 : g.board x y ≠ p) :
    has_neighbour { g with board := set_cell g.board x y p } p a b ↔
      (has_neighbour g p a b ∨ ∃ i, i < 4 ∧ nbx a i = x ∧ nby b i = y) := by
  unfold has_neighbour
  constructor
  · rintro ⟨i, hi, hc, hb⟩
    by_cases hn : nbx a i = x ∧ nby b i = y
    · exact Or.inr ⟨i, hi, hn.1, hn.2⟩
    · left
      refine ⟨i, hi, hc, ?_⟩
      simp only [set_cell_apply, if_neg hn] at hb
      exact hb
  · rintro (⟨i, hi, hc, hb⟩ | ⟨i, hi, e1, e2⟩)
    · refine ⟨i, hi, hc, ?_⟩
      simp only [set_cell_apply]
      by_cases hn : nbx a i = x ∧ nby b i = y
      · rw [hn.1, hn.2] at hb
        exact absurd hb h1
      · rw [if_neg hn]
        exact hb
    · refine ⟨i, hi, ?_, ?_⟩
      · rw [e1, e2]
        exact hz
      · simp only [set_cell_apply]
        rw [if_pos ⟨e1, e2⟩]

theorem mem_border_cells (g : gamma_t) (q : Nat) (c : Nat × Nat) :
    c ∈ border_cells g q ↔
      coords_are_fine c.1 c.2 g ∧ g.board c.1 c.2 = EMPTY ∧ has_neighbour g q c.1 c.2 := by
  unfold border_cells
  rw [Finset.mem_filter, mem_cells]

/-- Border of a player other than the one who takes the empty cell `(x, y)`. -/
theorem border_cells_place_other (g : gamma_t) (x y p q : Nat)
    (he : g.board x y = EMPTY) (hp : p ≠ EMPTY) (hq : q ≠ EMPTY) (hqp : q ≠ p) :
    border_cells { g with board := set_cell g.board x y p } q =
      (border_cells g q).erase (x, y) := by
  ext c
  rw [Finset.mem_erase, mem_border_cells, mem_border_cells,
    has_neighbour_set_other g x y p q c.1 c.2 (by rw [he]; exact fun h => hq h.symm)
      (fun h => hqp h.symm)]
  simp only [set_cell_apply]
  by_cases hc : c.1 = x ∧ c.2 = y
  · rw [if_pos hc]
    have : c = (x, y) := Prod.ext hc.1 hc.2
    constructor
    · rintro ⟨_, h, _⟩
      exact absurd h hp
    · rintro ⟨h, _⟩
      exact absurd this h
  · rw [if_neg hc]
    have : c ≠ (x, y) := fun h => hc ⟨by rw [h], by rw [h]⟩
    constructor
    · rintro ⟨h1, h2, h3⟩
      exact ⟨this, h1, h2, h3⟩
    · rintro ⟨_, h1, h2, h3⟩
      exact ⟨h1, h2, h3⟩

theorem lonely_cells_card (g : gamma_t) (p x y : Nat) :
    (lonely_cells g p x y).card = lonely_blanks g p x y := by
  unfold lonely_cells lonely_blanks
  apply Finset.card_image_of_injOn
  intro i hi j hj hij
  simp only [Finset.coe_filter, Finset.mem_range, Set.mem_setOf_eq] at hi hj
  simp only [Prod.mk.injEq] at hij
  exact nb_inj x y i j hi.1 hj.1 hij.1 hij.2

theorem mem_lonely_cells (g : gamma_t) (p x y : Nat) (c : Nat × Nat) :
    c ∈ lonely_cells g p x y ↔
      (∃ i, i < 4 ∧ nbx x i = c.1 ∧ nby y i = c.2) ∧ coords_are_fine c.1 c.2 g
        ∧ g.board c.1 c.2 = EMPTY ∧ ¬ has_neighbour g p c.1 c.2 := by
  unfold lonely_cells
  simp only [Finset.mem_image, Finset.mem_filter, Finset.mem_range]
  constructor
  · rintro ⟨i, ⟨hi, h1, h2, h3⟩, hc⟩
    rw [← hc]
    exact ⟨⟨i, hi, rfl, rfl⟩, h1, h2, h3⟩
  · rintro ⟨⟨i, hi, e1, e2⟩, h1, h2, h3⟩
    refine ⟨i, ⟨hi, ?_, ?_, ?_⟩, Prod.ext e1 e2⟩
    · rw [e1, e2]; exact h1
    · rw [e1, e2]; exact h2
    · rw [e1, e2]; exact h3

/-- Border of the player who takes the empty cell `(x, y)`. -/
theorem border_cells_place_self (g : gamma_t) (hs : Sized g) (x y p : Nat)
    (hz : coords_are_fine x y g) (he : g.board x y = EMPTY) (hp : p ≠ EMPTY) :
    border_cells { g with board := set_cell g.board x y p } p =
      (border_cells g p).erase (x, y) ∪ lonely_cells g p x y := by
  ext c
  rw [Finset.mem_union, Finset.mem_erase, mem_border_cells, mem_border_cells,
    mem_lonely_cells,
    has_neighbour_set_self g x y p c.1 c.2 hz (by rw [he]; exact fun h => hp h.symm)]
  simp only [set_cell_apply]
  by_cases hc : c.1 = x ∧ c.2 = y
  · rw [if_pos hc]
    have hcz : c = (x, y) := Prod.ext hc.1 hc.2
    constructor
    · rintro ⟨_, h, _⟩
      exact absurd h hp
    · rintro (⟨h, _⟩ | ⟨⟨i, hi, e1, e2⟩, _⟩)
      · exact absurd hcz h
      · exact absurd (And.intro (e1.trans hc.1) (e2.trans hc.2)) (nb_ne_self x y i hi)
  · rw [if_neg hc]
    have hcz : c ≠ (x, y) := fun h => hc ⟨by rw [h], by rw [h]⟩
    constructor
    · rintro ⟨h1, h2, h3⟩
      by_cases hn : has_neighbour g p c.1 c.2
      · exact Or.inl ⟨hcz, h1, h2, hn⟩
      · rcases h3 with h3 | h3
        · exact absurd h3 hn
        · exact Or.inr ⟨(nb_symm g hs c.1 c.2 x y h1 hz).1 h3, h1, h2, hn⟩
    · rintro (⟨_, h1, h2, h3⟩ | ⟨h0, h1, h2, _⟩)
      · exact ⟨h1, h2, Or.inl h3⟩
      · exact ⟨h1, h2, Or.inr ((nb_symm g hs c.1 c.2 x y h1 hz).2 h0)⟩

theorem border_cells_le (g : gamma_t) (q : Nat) :
    (border_cells g q).card ≤ g.width * g.heigth := by
  unfold border_cells
  calc _ ≤ (cells g).card := Finset.card_filter_le _ _
    _ = g.width * g.heigth := by simp [cells]

theorem cells_lt (g : gamma_t) (hs : Sized g) :
    g.width * g.heigth + 4 < 18446744073709551616 := by
  have h1 := hs.width_lt
  have h2 := hs.heigth_lt
  have : g.width * g.heigth ≤ 4294967295 * 4294967295 :=
    Nat.mul_le_mul (by omega) (by omega)
  omega

/-- Sizes of the border sets before and after the empty cell `(x, y)` is
given to `p`, for a player `q` other than `p`. -/
theorem border_card_place_other (g : gamma_t) (x y p q : Nat)
    (hz : coords_are_fine x y g) (he : g.board x y = EMPTY) (hp : p ≠ EMPTY)
    (hq : q ≠ EMPTY) (hqp : q ≠ p) :
    (border_cells { g with board := set_cell g.board x y p } q).card
        + (if has_neighbour g q x y then 1 else 0) = (border_cells g q).card := by
  rw [border_cells_place_other g x y p q he hp hq hqp]
  by_cases hn : has_neighbour g q x y
  · have hm : (x, y) ∈ border_cells g q := by
      rw [mem_border_cells]
      exact ⟨hz, he, hn⟩
    rw [if_pos hn, Finset.card_erase_of_mem hm]
    have := Finset.card_pos.2 ⟨_, hm⟩
    omega
  · have hm : (x, y) ∉ border_cells g q := by
      rw [mem_border_cells]
      exact fun h => hn h.2.2
    rw [if_neg hn, Finset.erase_eq_of_not_mem hm, Nat.add_zero]

/-- Sizes of the border sets of `p` before and after `p` takes the empty cell
`(x, y)`. -/
theorem border_card_place_self (g : gamma_t) (hs : Sized g) (x y p : Nat)
    (hz : coords_are_fine x y g) (he : g.board x y = EMPTY) (hp : p ≠ EMPTY) :
    (border_cells { g with board := set_cell g.board x y p } p).card
        + (if has_neighbour g p x y then 1 else 0)
      = (border_cells g p).card + lonely_blanks g p x y := by
  rw [border_cells_place_self g hs x y p hz he hp, Finset.card_union_of_disjoint,
    lonely_cells_card]
  · by_cases hn : has_neighbour g p x y
    · have hm : (x, y) ∈ border_cells g p := by
        rw [mem_border_cells]
        exact ⟨hz, he, hn⟩
      rw [if_pos hn, Finset.card_erase_of_mem hm]
      have := Finset.card_pos.2 ⟨_, hm⟩
      omega
    · have hm : (x, y) ∉ border_cells g p := by
        rw [mem_border_cells]
        exact fun h => hn h.2.2
      rw [if_neg hn, Finset.erase_eq_of_not_mem hm]
      omega
  · rw [Finset.disjoint_left]
    intro c h1 h2
    rw [Finset.mem_erase, mem_border_cells] at h1
    rw [mem_lonely_cells] at h2
    exact h2.2.2.2 h1.2.2.2

/-! ## The border counters stay exact -/

theorem cells_congr {g g' : gamma_t} (hw : g'.width = g.width) (hh : g'.heigth = g.heigth) :
    cells g' = cells g := by
  unfold cells
  rw [hw, hh]

theorem border_cells_congr {g g' : gamma_t} (hb : g'.board = g.board)
    (hw : g'.width = g.width) (hh : g'.heigth = g.heigth) (q : Nat) :
    border_cells g' q = border_cells g q := by
  ext c
  rw [mem_border_cells, mem_border_cells, has_neighbour_congr hb hw hh]
  unfold coords_are_fine
  rw [hb, hw, hh]

theorem lonely_blanks_congr {g g' : gamma_t} (hb : g'.board = g.board)
    (hw : g'.width = g.width) (hh : g'.heigth = g.heigth) (p x y : Nat) :
    lonely_blanks g' p x y = lonely_blanks g p x y := by
  rw [lonely_blanks_eq, lonely_blanks_eq]
  apply Finset.sum_congr rfl
  intro k _
  exact blank_gain_congr hb hw hh p x y _

theorem lonely_blanks_le (g : gamma_t) (p x y : Nat) : lonely_blanks g p x y ≤ 4 := by
  unfold lonely_blanks
  calc _ ≤ (Finset.range 4).card := Finset.card_filter_le _ _
    _ = 4 := by simp

theorem dec64_pos (b : Nat) (h1 : 1 ≤ b) (h2 : b < 18446744073709551616) :
    dec64 b = b - 1 := by
  unfold dec64
  omega

theorem inc64_small (b : Nat) (h : b + 1 < 18446744073709551616) : inc64 b = b + 1 := by
  unfold inc64
  exact Nat.mod_eq_of_lt h

/-- After `update_positive_border` the border counters are exact for the board
on which `p` owns the cell `(x, y)`. -/
theorem place_border_ok (g : gamma_t) (hs : Sized g) (p x y : Nat)
    (hz : coords_are_fine x y g) (he : g.board x y = EMPTY) (hp : p ≠ EMPTY)
    (hb : ∀ q, q ≠ EMPTY → (g.players q).border = (border_cells g q).card) :
    ∀ q, q ≠ EMPTY → ((update_positive_border g p x y).players q).border =
      (border_cells { g with board := set_cell g.board x y p } q).card := by
  intro q hq
  rw [(update_positive_border_eq g p x y).2 q, hb q hq]
  have hlt := cells_lt g hs
  have hle := border_cells_le g q
  have hl4 := lonely_blanks_le g p x y
  by_cases hqp : q = p
  · subst hqp
    have hcard := border_card_place_self g hs x y q hz he hp
    rw [if_pos rfl, inc64_iterate _ _ (by omega)]
    by_cases hn : has_neighbour g q x y
    · rw [if_pos ⟨hq, hn⟩]
      rw [if_pos hn] at hcard
      rw [dec64_pos _ (by omega) (by omega)]
      omega
    · rw [if_neg (fun h => hn h.2)]
      rw [if_neg hn] at hcard
      omega
  · have hcard := border_card_place_other g x y p q hz he hp hq hqp
    rw [if_neg hqp]
    by_cases hn : has_neighbour g q x y
    · rw [if_pos ⟨hq, hn⟩]
      rw [if_pos hn] at hcard
      rw [dec64_pos _ (by omega) (by omega)]
      omega
    · rw [if_neg (fun h => hn h.2)]
      rw [if_neg hn] at hcard
      omega

theorem set_cell_set_cell (a : Nat → Nat → Nat) (x y v w : Nat) :
    set_cell (set_cell a x y v) x y w = set_cell a x y w := by
  funext i j
  simp only [set_cell_apply]
  by_cases h : i = x ∧ j = y
  · rw [if_pos h, if_pos h]
  · rw [if_neg h, if_neg h, if_neg h]

theorem set_cell_self (a : Nat → Nat → Nat) (x y : Nat) :
    set_cell a x y (a x y) = a := by
  funext i j
  simp only [set_cell_apply]
  by_cases h : i = x ∧ j = y
  · rw [if_pos h, h.1, h.2]
  · rw [if_neg h]

theorem set_cell_eq_self (a : Nat → Nat → Nat) (x y v : Nat) (h : a x y = v) :
    set_cell a x y v = a := by
  rw [← h]
  exact set_cell_self a x y

/-- Border sizes on the board with `(x, y)` emptied, from those on the board
where `v` owns it. -/
theorem border_card_clear (g : gamma_t) (hs : Sized g) (x y v : Nat)
    (hz : coords_are_fine x y g) (hv : g.board x y = v) (hv0 : v ≠ EMPTY) (q : Nat)
    (hq : q ≠ EMPTY) :
    (border_cells g q).card
        + (if has_neighbour { g with board := set_cell g.board x y EMPTY } q x y then 1 else 0)
      = (border_cells { g with board := set_cell g.board x y EMPTY } q).card
        + (if q = v then lonely_blanks { g with board := set_cell g.board x y EMPTY } v x y
            else 0) := by
  have hs1 : Sized { g with board := set_cell g.board x y EMPTY } :=
    ⟨hs.width_lt, hs.heigth_lt, hs.players_lt, hs.areas_lt⟩
  have hback : border_cells
      { ({ g with board := set_cell g.board x y EMPTY } : gamma_t) with
        board := set_cell (set_cell g.board x y EMPTY) x y v } q = border_cells g q := by
    have e : set_cell (set_cell g.board x y EMPTY) x y v = g.board := by
      rw [set_cell_set_cell, set_cell_eq_self _ _ _ _ hv]
    exact @border_cells_congr g
      { ({ g with board := set_cell g.board x y EMPTY } : gamma_t) with
        board := set_cell (set_cell g.board x y EMPTY) x y v } e rfl rfl q
  by_cases hqv : q = v
  · subst hqv
    have := border_card_place_self { g with board := set_cell g.board x y EMPTY } hs1 x y q hz
      (by simp) hv0
    rw [hback] at this
    rw [if_pos rfl]
    exact this
  · have := border_card_place_other { g with board := set_cell g.board x y EMPTY } x y v q hz
      (by simp) hv0 hq hqv
    rw [hback] at this
    rw [if_neg hqv]
    omega

/-- After the two border updates of `gamma_golden_move` (first branch of its
loop) the border counters are exact for the board with `(x, y)` emptied. -/
theorem clear_border_ok (g : gamma_t) (hs : Sized g) (x y v : Nat)
    (hz : coords_are_fine x y g) (hv : g.board x y = v) (hv0 : v ≠ EMPTY)
    (hb : ∀ q, q ≠ EMPTY → (g.players q).border = (border_cells g q).card) :
    ∀ q, q ≠ EMPTY →
      ((lost_independent_borders
        (update_blank_all_neighbours { g with board := set_cell g.board x y EMPTY } x y)
          v x y).players q).border =
      (border_cells { g with board := set_cell g.board x y EMPTY } q).card := by
  intro q hq
  obtain ⟨c1, b1⟩ := update_blank_all_neighbours_eq
    { g with board := set_cell g.board x y EMPTY } x y
  rw [(lost_independent_borders_eq _ v x y).2 q, b1 q,
    lonely_blanks_congr c1.board c1.width c1.heigth]
  have hcard := border_card_clear g hs x y v hz hv hv0 q hq
  have hlt := cells_lt g hs
  have hle := border_cells_le g q
  have hl4 := lonely_blanks_le { g with board := set_cell g.board x y EMPTY } v x y
  have hbq : (({ g with board := set_cell g.board x y EMPTY } : gamma_t).players q).border
      = (border_cells g q).card := hb q hq
  rw [hbq]
  by_cases hqv : q = v
  · rw [if_pos hqv]
    rw [if_pos hqv] at hcard
    by_cases hn : has_neighbour { g with board := set_cell g.board x y EMPTY } q x y
    · rw [if_pos ⟨hq, hn⟩, inc64_small _ (by omega), dec64_iterate _ _ (by rw [if_pos hn] at hcard; omega) (by omega)]
      rw [if_pos hn] at hcard
      omega
    · rw [if_neg (fun h => hn h.2), dec64_iterate _ _ (by rw [if_neg hn] at hcard; omega) (by omega)]
      rw [if_neg hn] at hcard
      omega
  · rw [if_neg hqv]
    rw [if_neg hqv] at hcard
    by_cases hn : has_neighbour { g with board := set_cell g.board x y EMPTY } q x y
    · rw [if_pos ⟨hq, hn⟩, inc64_small _ (by omega)]
      rw [if_pos hn] at hcard
      omega
    · rw [if_neg (fun h => hn h.2)]
      rw [if_neg hn] at hcard
      omega

/-- The same for the block after the loop of `gamma_golden_move`, where the
owner `v` of the cell has no neighbouring cell of its own. -/
theorem clear_border_ok_lonely (g : gamma_t) (hs : Sized g) (x y v : Nat)
    (hz : coords_are_fine x y g) (hv : g.board x y = v) (hv0 : v ≠ EMPTY)
    (hno : ¬ has_neighbour { g with board := set_cell g.board x y EMPTY } v x y)
    (hb : ∀ q, q ≠ EMPTY → (g.players q).border = (border_cells g q).card) :
    ∀ q, q ≠ EMPTY →
      ((update_blank_all_neighbours
        (lost_independent_borders { g with board := set_cell g.board x y EMPTY } v x y)
          x y).players q).border =
      (border_cells { g with board := set_cell g.board x y EMPTY } q).card := by
  intro q hq
  obtain ⟨c1, b1⟩ := lost_independent_borders_eq
    { g with board := set_cell g.board x y EMPTY } v x y
  rw [(update_blank_all_neighbours_eq _ x y).2 q, b1 q]
  simp only [has_neighbour_congr c1.board c1.width c1.heigth]
  have hcard := border_card_clear g hs x y v hz hv hv0 q hq
  have hlt := cells_lt g hs
  have hle := border_cells_le g q
  have hl4 := lonely_blanks_le { g with board := set_cell g.board x y EMPTY } v x y
  have hbq : (({ g with board := set_cell g.board x y EMPTY } : gamma_t).players q).border
      = (border_cells g q).card := hb q hq
  rw [hbq]
  by_cases hqv : q = v
  · rw [if_pos hqv]
    rw [if_pos hqv] at hcard
    have hn : ¬ has_neighbour { g with board := set_cell g.board x y EMPTY } q x y := by
      rw [hqv]; exact hno
    rw [if_neg hn] at hcard
    rw [if_neg (fun h => hn h.2), dec64_iterate _ _ (by omega) (by omega)]
    omega
  · rw [if_neg hqv]
    rw [if_neg hqv] at hcard
    by_cases hn : has_neighbour { g with board := set_cell g.board x y EMPTY } q x y
    · rw [if_pos ⟨hq, hn⟩, inc64_small _ (by omega)]
      rw [if_pos hn] at hcard
      omega
    · rw [if_neg (fun h => hn h.2)]
      rw [if_neg hn] at hcard
      omega

/-! ## Basic facts -/

theorem mem_owned_cells (g : gamma_t) (p : Nat) (c : Nat × Nat) :
    c ∈ owned_cells g p ↔ coords_are_fine c.1 c.2 g ∧ g.board c.1 c.2 = p := by
  unfold owned_cells
  rw [Finset.mem_filter, mem_cells]

theorem mem_busy_cells (g : gamma_t) (c : Nat × Nat) :
    c ∈ busy_cells g ↔ coords_are_fine c.1 c.2 g ∧ g.board c.1 c.2 ≠ EMPTY := by
  unfold busy_cells
  rw [Finset.mem_filter, mem_cells]

theorem mem_area_ids (g : gamma_t) (p i : Nat) :
    i ∈ area_ids g p ↔ ∃ a b, White g p i a b := by
  unfold area_ids White
  simp only [Finset.mem_image, mem_owned_cells]
  constructor
  · rintro ⟨c, ⟨h1, h2⟩, h3⟩
    exact ⟨c.1, c.2, h1, h2, h3⟩
  · rintro ⟨a, b, h1, h2, h3⟩
    exact ⟨(a, b), ⟨h1, h2⟩, h3⟩

theorem owned_cells_congr {g g' : gamma_t} (hb : g'.board = g.board)
    (hw : g'.width = g.width) (hh : g'.heigth = g.heigth) (q : Nat) :
    owned_cells g' q = owned_cells g q := by
  ext c
  rw [mem_owned_cells, mem_owned_cells]
  unfold coords_are_fine
  rw [hb, hw, hh]

theorem busy_cells_congr {g g' : gamma_t} (hb : g'.board = g.board)
    (hw : g'.width = g.width) (hh : g'.heigth = g.heigth) :
    busy_cells g' = busy_cells g := by
  ext c
  rw [mem_busy_cells, mem_busy_cells]
  unfold coords_are_fine
  rw [hb, hw, hh]

theorem White_congr {g g' : gamma_t} (hb : g'.board = g.board) (hi : g'.indexes = g.indexes)
    (hw : g'.width = g.width) (hh : g'.heigth = g.heigth) (p f a b : Nat) :
    White g' p f a b ↔ White g p f a b := by
  unfold White coords_are_fine
  rw [hb, hi, hw, hh]

theorem Reach_congr {g g' : gamma_t} (hb : g'.board = g.board) (hi : g'.indexes = g.indexes)
    (hw : g'.width = g.width) (hh : g'.heigth = g.heigth) (p f x y a b : Nat) :
    Reach g' p f x y a b ↔ Reach g p f x y a b :=
  ⟨Reach.mono fun a b => (White_congr hb hi hw hh p f a b).1,
    Reach.mono fun a b => (White_congr hb hi hw hh p f a b).2⟩

theorem area_ids_congr {g g' : gamma_t} (hb : g'.board = g.board)
    (hi : g'.indexes = g.indexes) (hw : g'.width = g.width) (hh : g'.heigth = g.heigth)
    (q : Nat) : area_ids g' q = area_ids g q := by
  ext i
  rw [mem_area_ids, mem_area_ids]
  simp only [White_congr hb hi hw hh]

/-! ## What a relabelling preserves -/

theorem Relabelled.board_relab {g g' : gamma_t} {p f t x y : Nat} (h : Relabelled g p f t x y g') :
    g'.board = g.board := by
  rw [h.frame]

theorem Relabelled.width_relab {g g' : gamma_t} {p f t x y : Nat} (h : Relabelled g p f t x y g') :
    g'.width = g.width := by
  rw [h.frame]

theorem Relabelled.heigth_relab {g g' : gamma_t} {p f t x y : Nat} (h : Relabelled g p f t x y g') :
    g'.heigth = g.heigth := by
  rw [h.frame]

theorem Relabelled.players {g g' : gamma_t} {p f t x y : Nat} (h : Relabelled g p f t x y g') :
    g'.players = g.players := by
  rw [h.frame]

theorem Relabelled.number_of_players {g g' : gamma_t} {p f t x y : Nat}
    (h : Relabelled g p f t x y g') : g'.number_of_players = g.number_of_players := by
  rw [h.frame]

theorem Relabelled.max_areas {g g' : gamma_t} {p f t x y : Nat}
    (h : Relabelled g p f t x y g') : g'.max_areas = g.max_areas := by
  rw [h.frame]

theorem Relabelled.busy_fields {g g' : gamma_t} {p f t x y : Nat}
    (h : Relabelled g p f t x y g') : g'.busy_fields = g.busy_fields := by
  rw [h.frame]

theorem Relabelled.wider {g g' : gamma_t} {p f t x y : Nat}
    (h : Relabelled g p f t x y g') :
    g'.fields_of_wider_players = g.fields_of_wider_players := by
  rw [h.frame]

theorem Relabelled.golden_used {g g' : gamma_t} {p f t x y : Nat}
    (h : Relabelled g p f t x y g') : g'.golden_moves_used = g.golden_moves_used := by
  rw [h.frame]

theorem Relabelled.sized {g g' : gamma_t} {p f t x y : Nat} (h : Relabelled g p f t x y g')
    (hs : Sized g) : Sized g' :=
  ⟨by rw [h.width_relab]; exact hs.width_lt, by rw [h.heigth_relab]; exact hs.heigth_lt,
    by rw [h.number_of_players]; exact hs.players_lt, by rw [h.max_areas]; exact hs.areas_lt⟩

/-- The new id of a cell after a relabelling. -/
theorem Relabelled.indexes_eq {g g' : gamma_t} {p f t x y : Nat}
    (h : Relabelled g p f t x y g') (a b : Nat) :
    (Reach g p f x y a b ∧ g'.indexes a b = t) ∨
      (¬ Reach g p f x y a b ∧ g'.indexes a b = g.indexes a b) := by
  by_cases hr : Reach g p f x y a b
  · exact Or.inl ⟨hr, h.hit a b hr⟩
  · exact Or.inr ⟨hr, h.miss a b hr⟩

/-- Cells of another owner keep their ids. -/
theorem Relabelled.other_owner {g g' : gamma_t} {p f t x y : Nat}
    (h : Relabelled g p f t x y g') (a b : Nat) (hq : g.board a b ≠ p) :
    g'.indexes a b = g.indexes a b :=
  h.miss a b fun hr => hq hr.white.2.1

/-- Cells with another id keep their ids. -/
theorem Relabelled.other_id {g g' : gamma_t} {p f t x y : Nat}
    (h : Relabelled g p f t x y g') (a b : Nat) (hq : g.indexes a b ≠ f) :
    g'.indexes a b = g.indexes a b :=
  h.miss a b fun hr => hq hr.white.2.2

theorem Relabelled.core {g g' : gamma_t} {p f t x y : Nat} (h : Relabelled g p f t x y g')
    (hc : Core g) (hp : p ≠ EMPTY) (ht1 : 1 ≤ t) (ht2 : t < (g.players p).next_ind) :
    Core g' := by
  refine ⟨h.sized hc.sized, ?_, ?_, ?_, ?_, ?_, ?_, ?_⟩
  · intro a b hab
    rw [h.board_relab] at hab ⊢
    unfold coords_are_fine
    rw [h.width_relab, h.heigth_relab, h.number_of_players]
    exact hc.owner_ok a b hab
  · intro a b hab
    rw [h.board_relab] at hab
    rw [h.other_owner a b (by rw [hab]; exact fun e => hp e.symm)]
    exact hc.idx_empty a b hab
  · intro a b hab
    rw [h.board_relab] at hab ⊢
    rw [h.players]
    rcases h.indexes_eq a b with ⟨hr, e⟩ | ⟨_, e⟩
    · rw [e, hr.white.2.1]
      exact ⟨ht1, ht2⟩
    · rw [e]
      exact hc.idx_owned a b hab
  · intro q
    rw [h.players]
    exact hc.fit q
  · intro q hq
    rw [h.players]
    exact hc.next_pos q (by unfold player_is_fine at hq ⊢; rw [h.number_of_players] at hq; exact hq)
  · intro q hq
    rw [h.players, owned_cells_congr h.board_relab h.width_relab h.heigth_relab]
    exact hc.fields_ok q hq
  · rw [h.busy_fields, busy_cells_congr h.board_relab h.width_relab h.heigth_relab]
    exact hc.busy_ok

theorem Relabelled.border_ok {g g' : gamma_t} {p f t x y : Nat}
    (h : Relabelled g p f t x y g') (hb : BorderOk g) : BorderOk g' := by
  intro q hq
  rw [h.players, border_cells_congr h.board_relab h.width_relab h.heigth_relab]
  exact hb q hq

/-- Two neighbouring white cells are reached together. -/
theorem Reach.neighbour_iff {g : gamma_t} {p f x y a b i : Nat} (hs : Sized g) (hi : i < 4)
    (h1 : White g p f a b) (h2 : White g p f (nbx a i) (nby b i)) :
    Reach g p f x y a b ↔ Reach g p f x y (nbx a i) (nby b i) := by
  constructor
  · intro hr
    exact Reach.step a b i hr hi h2
  · intro hr
    have hb := nb_back g.width g.heigth a b i hi hs.width_lt hs.heigth_lt h1.1.1 h1.1.2
      h2.1.1 h2.1.2
    have := Reach.step _ _ (opp i) hr (opp_lt i) (by rw [hb.1, hb.2]; exact h1)
    rw [hb.1, hb.2] at this
    exact this

theorem Relabelled.adj {g g' : gamma_t} {p f t x y : Nat} {ex : Nat → Nat → Prop}
    (h : Relabelled g p f t x y g') (hs : Sized g) (ha : IdsAdj g ex)
    (hin : ∀ a b, g.board a b ≠ EMPTY → coords_are_fine a b g) : IdsAdj g' ex := by
  intro a b i hi he1 he2 hab hc hsame
  rw [h.board_relab] at hab hsame
  have hc' : coords_are_fine (nbx a i) (nby b i) g := by
    unfold coords_are_fine at hc ⊢
    rw [h.width_relab, h.heigth_relab] at hc
    exact hc
  have hold := ha a b i hi he1 he2 hab hc' hsame
  have hcab := hin a b hab
  by_cases hw : g.board a b = p ∧ g.indexes a b = f
  · have w1 : White g p f a b := ⟨hcab, hw.1, hw.2⟩
    have w2 : White g p f (nbx a i) (nby b i) :=
      ⟨hc', hsame.trans hw.1, hold.trans hw.2⟩
    have hiff := Reach.neighbour_iff (x := x) (y := y) hs hi w1 w2
    by_cases hr : Reach g p f x y a b
    · rw [h.hit a b hr, h.hit _ _ (hiff.1 hr)]
    · rw [h.miss a b hr, h.miss _ _ (fun hr' => hr (hiff.2 hr'))]
      exact hold
  · have hn1 : ¬ Reach g p f x y a b := fun hr => hw ⟨hr.white.2.1, hr.white.2.2⟩
    have hn2 : ¬ Reach g p f x y (nbx a i) (nby b i) := fun hr =>
      hw ⟨hsame.symm.trans hr.white.2.1, hold.symm.trans hr.white.2.2⟩
    rw [h.miss a b hn1, h.miss _ _ hn2]
    exact hold

/-- White cells after a relabelling, for an owner or an id not concerned. -/
theorem Relabelled.white_other {g g' : gamma_t} {p f t x y : Nat}
    (h : Relabelled g p f t x y g') (q i a b : Nat) (hq : q ≠ p ∨ (i ≠ f ∧ i ≠ t)) :
    White g' q i a b ↔ White g q i a b := by
  unfold White coords_are_fine
  rw [h.board_relab, h.width_relab, h.heigth_relab]
  constructor
  · rintro ⟨hc, hb, hi⟩
    refine ⟨hc, hb, ?_⟩
    rcases h.indexes_eq a b with ⟨hr, e⟩ | ⟨_, e⟩
    · rcases hq with hq | hq
      · exact absurd (hb.symm.trans hr.white.2.1) hq
      · exact absurd (hi.symm.trans e) hq.2
    · rw [← e]; exact hi
  · rintro ⟨hc, hb, hi⟩
    refine ⟨hc, hb, ?_⟩
    rcases h.indexes_eq a b with ⟨hr, e⟩ | ⟨_, e⟩
    · rcases hq with hq | hq
      · exact absurd (hb.symm.trans hr.white.2.1) hq
      · exact absurd (hi.symm.trans hr.white.2.2) hq.1
    · rw [e]; exact hi

theorem Relabelled.reach_other {g g' : gamma_t} {p f t x y : Nat}
    (h : Relabelled g p f t x y g') (q i : Nat) (hq : q ≠ p ∨ (i ≠ f ∧ i ≠ t))
    (a b c d : Nat) : Reach g' q i a b c d ↔ Reach g q i a b c d :=
  ⟨Reach.mono fun a b => (h.white_other q i a b hq).1,
    Reach.mono fun a b => (h.white_other q i a b hq).2⟩

/-- The relabelled cells are white for the new id. -/
theorem Relabelled.white_new {g g' : gamma_t} {p f t x y : Nat}
    (h : Relabelled g p f t x y g') (a b : Nat) (hr : Reach g p f x y a b) :
    White g' p t a b := by
  have hw := hr.white
  unfold White coords_are_fine
  rw [h.board_relab, h.width_relab, h.heigth_relab]
  exact ⟨hw.1, hw.2.1, h.hit a b hr⟩

/-- Cells that had the new id before keep it. -/
theorem Relabelled.white_keep {g g' : gamma_t} {p f t x y : Nat} (hft : f ≠ t)
    (h : Relabelled g p f t x y g') (a b : Nat) (hw : White g p t a b) :
    White g' p t a b := by
  unfold White coords_are_fine
  rw [h.board_relab, h.width_relab, h.heigth_relab]
  refine ⟨hw.1, hw.2.1, ?_⟩
  rw [h.other_id a b (by rw [hw.2.2]; exact fun e => hft e.symm)]
  exact hw.2.2

/-- A walk through relabelled cells is a walk for the new id. -/
theorem Relabelled.reach_new {g g' : gamma_t} {p f t x y : Nat}
    (h : Relabelled g p f t x y g') (a b c d : Nat) (hs : Reach g p f x y a b)
    (hr : Reach g p f a b c d) : Reach g' p t a b c d := by
  induction hr with
  | seed _ => exact Reach.seed (h.white_new a b hs)
  | step c d i hr hi hw ih =>
    exact Reach.step c d i ih hi (h.white_new _ _ ((hs.trans hr).step c d i hi hw))

/-- A walk for the new id that existed before still exists. -/
theorem Relabelled.reach_keep {g g' : gamma_t} {p f t x y : Nat} (hft : f ≠ t)
    (h : Relabelled g p f t x y g') (a b c d : Nat)
    (hr : Reach g p t a b c d) : Reach g' p t a b c d :=
  hr.mono (h.white_keep hft)

/-- A walk through cells that are not relabelled still exists for the old id. -/
theorem Relabelled.reach_old {g g' : gamma_t} {p f t x y : Nat}
    (h : Relabelled g p f t x y g') (hs : Sized g) (a b c d : Nat)
    (hn : ¬ Reach g p f x y a b) (hr : Reach g p f a b c d) : Reach g' p f a b c d := by
  have hwh : ∀ c d, Reach g p f a b c d → White g' p f c d := by
    intro c d hcd
    have hw := hcd.white
    unfold White coords_are_fine
    rw [h.board_relab, h.width_relab, h.heigth_relab]
    refine ⟨hw.1, hw.2.1, ?_⟩
    rw [h.miss c d (fun hxc => hn (hxc.trans (hcd.symm hs)))]
    exact hw.2.2
  induction hr with
  | seed hw => exact Reach.seed (hwh a b (Reach.seed hw))
  | step c d i hr hi hw ih => exact Reach.step c d i ih hi (hwh _ _ (hr.step c d i hi hw))

/-! ## Counting cells when one cell changes owner -/

theorem owned_cells_set_other (g : gamma_t) (x y w q : Nat) (h1 : g.board x y ≠ q)
    (h2 : w ≠ q) :
    owned_cells { g with board := set_cell g.board x y w } q = owned_cells g q := by
  ext c
  rw [mem_owned_cells, mem_owned_cells]
  simp only [set_cell_apply]
  by_cases hc : c.1 = x ∧ c.2 = y
  · rw [if_pos hc, hc.1, hc.2]
    constructor
    · rintro ⟨_, h⟩; exact absurd h h2
    · rintro ⟨_, h⟩; exact absurd h h1
  · rw [if_neg hc]

theorem owned_cells_set_new (g : gamma_t) (x y p : Nat) (hz : coords_are_fine x y g)
    (h1 : g.board x y ≠ p) :
    (owned_cells { g with board := set_cell g.board x y p } p).card
      = (owned_cells g p).card + 1 := by
  have : owned_cells { g with board := set_cell g.board x y p } p
      = insert (x, y) (owned_cells g p) := by
    ext c
    rw [Finset.mem_insert, mem_owned_cells, mem_owned_cells]
    simp only [set_cell_apply]
    by_cases hc : c.1 = x ∧ c.2 = y
    · rw [if_pos hc]
      have : c = (x, y) := Prod.ext hc.1 hc.2
      constructor
      · intro _; exact Or.inl this
      · intro _
        refine ⟨?_, rfl⟩
        rw [hc.1, hc.2]; exact hz
    · rw [if_neg hc]
      have : c ≠ (x, y) := fun h => hc ⟨by rw [h], by rw [h]⟩
      constructor
      · intro h; exact Or.inr h
      · rintro (h | h)
        · exact absurd h this
        · exact h
  rw [this, Finset.card_insert_of_not_mem]
  rw [mem_owned_cells]
  exact fun h => h1 h.2

theorem owned_cells_set_old (g : gamma_t) (x y v w : Nat) (hz : coords_are_fine x y g)
    (h1 : g.board x y = v) (h2 : w ≠ v) :
    (owned_cells { g with board := set_cell g.board x y w } v).card + 1
      = (owned_cells g v).card := by
  have : owned_cells { g with board := set_cell g.board x y w } v
      = (owned_cells g v).erase (x, y) := by
    ext c
    rw [Finset.mem_erase, mem_owned_cells, mem_owned_cells]
    simp only [set_cell_apply]
    by_cases hc : c.1 = x ∧ c.2 = y
    · rw [if_pos hc]
      have : c = (x, y) := Prod.ext hc.1 hc.2
      constructor
      · rintro ⟨_, h⟩; exact absurd h h2
      · rintro ⟨h, _⟩; exact absurd this h
    · rw [if_neg hc]
      have : c ≠ (x, y) := fun h => hc ⟨by rw [h], by rw [h]⟩
      constructor
      · intro h; exact ⟨this, h⟩
      · rintro ⟨_, h⟩; exact h
  have hm : (x, y) ∈ owned_cells g v := by
    rw [mem_owned_cells]
    exact ⟨hz, h1⟩
  rw [this, Finset.card_erase_of_mem hm]
  have := Finset.card_pos.2 ⟨_, hm⟩
  omega

theorem busy_cells_set_new (g : gamma_t) (x y p : Nat) (hz : coords_are_fine x y g)
    (h1 : g.board x y = EMPTY) (hp : p ≠ EMPTY) :
    (busy_cells { g with board := set_cell g.board x y p }).card
      = (busy_cells g).card + 1 := by
  have : busy_cells { g with board := set_cell g.board x y p }
      = insert (x, y) (busy_cells g) := by
    ext c
    rw [Finset.mem_insert, mem_busy_cells, mem_busy_cells]
    simp only [set_cell_apply]
    by_cases hc : c.1 = x ∧ c.2 = y
    · rw [if_pos hc]
      have : c = (x, y) := Prod.ext hc.1 hc.2
      constructor
      · intro _; exact Or.inl this
      · intro _
        refine ⟨?_, hp⟩
        rw [hc.1, hc.2]; exact hz
    · rw [if_neg hc]
      have : c ≠ (x, y) := fun h => hc ⟨by rw [h], by rw [h]⟩
      constructor
      · intro h; exact Or.inr h
      · rintro (h | h)
        · exact absurd h this
        · exact h
  rw [this, Finset.card_insert_of_not_mem]
  rw [mem_busy_cells]
  exact fun h => h.2 h1

theorem busy_cells_set_old (g : gamma_t) (x y : Nat) (hz : coords_are_fine x y g)
    (h1 : g.board x y ≠ EMPTY) :
    (busy_cells { g with board := set_cell g.board x y EMPTY }).card + 1
      = (busy_cells g).card := by
  have : busy_cells { g with board := set_cell g.board x y EMPTY }
      = (busy_cells g).erase (x, y) := by
    ext c
    rw [Finset.mem_erase, mem_busy_cells, mem_busy_cells]
    simp only [set_cell_apply]
    by_cases hc : c.1 = x ∧ c.2 = y
    · rw [if_pos hc]
      have : c = (x, y) := Prod.ext hc.1 hc.2
      constructor
      · rintro ⟨_, h⟩; exact absurd rfl h
      · rintro ⟨h, _⟩; exact absurd this h
    · rw [if_neg hc]
      have : c ≠ (x, y) := fun h => hc ⟨by rw [h], by rw [h]⟩
      constructor
      · intro h; exact ⟨this, h⟩
      · rintro ⟨_, h⟩; exact h
  have hm : (x, y) ∈ busy_cells g := by
    rw [mem_busy_cells]
    exact ⟨hz, h1⟩
  rw [this, Finset.card_erase_of_mem hm]
  have := Finset.card_pos.2 ⟨_, hm⟩
  omega

theorem owned_cells_le (g : gamma_t) (q : Nat) :
    (owned_cells g q).card ≤ g.width * g.heigth := by
  unfold owned_cells
  calc _ ≤ (cells g).card := Finset.card_filter_le _ _
    _ = g.width * g.heigth := by simp [cells]

theorem busy_cells_le (g : gamma_t) :
    (busy_cells g).card ≤ g.width * g.heigth := by
  unfold busy_cells
  calc _ ≤ (cells g).card := Finset.card_filter_le _ _
    _ = g.width * g.heigth := by simp [cells]

/-- The ids of a player lie between `1` and the next id to mint. -/
theorem area_ids_lt (g : gamma_t) (hc : Core g) (p : Nat) (hp : p ≠ EMPTY) :
    (area_ids g p).card + 1 ≤ (g.players p).next_ind ∨ (area_ids g p).card = 0 := by
  by_cases he : (area_ids g p) = ∅
  · right; rw [he]; rfl
  · left
    have hsub : area_ids g p ⊆ Finset.Ico 1 (g.players p).next_ind := by
      intro i hi
      rw [mem_area_ids] at hi
      obtain ⟨a, b, _, h2, h3⟩ := hi
      have := hc.idx_owned a b (by rw [h2]; exact hp)
      rw [h2, h3] at this
      rw [Finset.mem_Ico]
      exact this
    have hcard := Finset.card_le_card hsub
    rw [Nat.card_Ico] at hcard
    obtain ⟨i, hi⟩ := Finset.nonempty_iff_ne_empty.2 he
    have := hsub hi
    rw [Finset.mem_Ico] at this
    omega

theorem area_ids_card_lt (g : gamma_t) (hc : Core g) (p : Nat) (hp : p ≠ EMPTY) :
    (area_ids g p).card < 4294967296 := by
  have := hc.fit p
  rcases area_ids_lt g hc p hp with h | h <;> omega

/-! ## The invariant depends only on the data it mentions -/

theorem IdsAdj.congr {g g' : gamma_t} {ex : Nat → Nat → Prop} (h : IdsAdj g ex)
    (hb : g'.board = g.board) (hi : g'.indexes = g.indexes) (hw : g'.width = g.width)
    (hh : g'.heigth = g.heigth) : IdsAdj g' ex := by
  intro a b i hi4 he1 he2 hab hc hsame
  rw [hb] at hab hsame
  rw [hi]
  unfold coords_are_fine at hc
  rw [hw, hh] at hc
  exact h a b i hi4 he1 he2 hab hc hsame

theorem IdsConn.congr_conn {g g' : gamma_t} {exv exf : Nat} (h : IdsConn g exv exf)
    (hb : g'.board = g.board) (hi : g'.indexes = g.indexes) (hw : g'.width = g.width)
    (hh : g'.heigth = g.heigth) : IdsConn g' exv exf := by
  intro a b c d hab hex hsame hidx
  rw [hb] at hab hsame hex ⊢
  rw [hi] at hidx hex ⊢
  exact (Reach_congr hb hi hw hh _ _ _ _ _ _).2 (h a b c d hab hex hsame hidx)

theorem Core.congr_core {g g' : gamma_t} (h : Core g)
    (hb : g'.board = g.board) (hi : g'.indexes = g.indexes) (hw : g'.width = g.width)
    (hh : g'.heigth = g.heigth) (hn : g'.number_of_players = g.number_of_players)
    (hm : g'.max_areas = g.max_areas) (hbusy : g'.busy_fields = g.busy_fields)
    (hf : ∀ q, (g'.players q).fields = (g.players q).fields)
    (hx : ∀ q, (g'.players q).next_ind = (g.players q).next_ind) : Core g' := by
  refine ⟨⟨by rw [hw]; exact h.sized.width_lt, by rw [hh]; exact h.sized.heigth_lt,
    by rw [hn]; exact h.sized.players_lt, by rw [hm]; exact h.sized.areas_lt⟩,
    ?_, ?_, ?_, ?_, ?_, ?_, ?_⟩
  · intro a b hab
    rw [hb] at hab ⊢
    unfold coords_are_fine
    rw [hw, hh, hn]
    exact h.owner_ok a b hab
  · intro a b hab
    rw [hb] at hab
    rw [hi]
    exact h.idx_empty a b hab
  · intro a b hab
    rw [hb] at hab ⊢
    rw [hi, hx]
    exact h.idx_owned a b hab
  · intro q
    rw [hx]
    exact h.fit q
  · intro q hq
    rw [hx]
    unfold player_is_fine at hq
    rw [hn] at hq
    exact h.next_pos q hq
  · intro q hq
    rw [hf, owned_cells_congr hb hw hh]
    exact h.fields_ok q hq
  · rw [hbusy, busy_cells_congr hb hw hh]
    exact h.busy_ok

theorem BorderOk.congr_border {g g' : gamma_t} (h : BorderOk g)
    (hb : g'.board = g.board) (hw : g'.width = g.width) (hh : g'.heigth = g.heigth)
    (hf : ∀ q, (g'.players q).border = (g.players q).border) : BorderOk g' := by
  intro q hq
  rw [hf, border_cells_congr hb hw hh]
  exact h q hq

theorem AreasOk.congr_areas {g g' : gamma_t} {exv exf : Nat} (h : AreasOk g exv exf)
    (hb : g'.board = g.board) (hi : g'.indexes = g.indexes) (hw : g'.width = g.width)
    (hh : g'.heigth = g.heigth)
    (hf : ∀ q, (g'.players q).areas = (g.players q).areas) : AreasOk g' exv exf := by
  intro q hq
  rw [hf, area_ids_congr hb hi hw hh]
  exact h q hq

theorem areas_filter_none (s : Finset Nat) (p : Nat) (hp : p ≠ EMPTY) :
    (s.filter fun i => ¬ (p = EMPTY ∧ i = EMPTY)) = s := by
  apply Finset.filter_true_of_mem
  intro i _ h
  exact hp h.1

theorem AreasOk.plain {g : gamma_t} (h : AreasOk g EMPTY EMPTY) (p : Nat) (hp : p ≠ EMPTY) :
    (g.players p).areas = (area_ids g p).card := by
  have := h p hp
  rw [areas_filter_none _ p hp] at this
  exact this

theorem AreasOk.of_plain {g : gamma_t}
    (h : ∀ p, p ≠ EMPTY → (g.players p).areas = (area_ids g p).card) :
    AreasOk g EMPTY EMPTY := by
  intro p hp
  rw [areas_filter_none _ p hp]
  exact h p hp

theorem dec32_pos (b : Nat) (h1 : 1 ≤ b) (h2 : b < 4294967296) : dec32 b = b - 1 := by
  unfold dec32
  omega

theorem inc32_small (b : Nat) (h : b + 1 < 4294967296) : inc32 b = b + 1 := by
  unfold inc32
  exact Nat.mod_eq_of_lt h

theorem MoveInv.init (g : gamma_t) (hg : Good g) (p x y : Nat)
    (hz : coords_are_fine x y g) (hp : player_is_fine p g) (he : g.board x y = EMPTY) :
    MoveInv g p x y 0 g := by
  have hp0 : p ≠ EMPTY := by unfold EMPTY; unfold player_is_fine at hp; omega
  refine
    { core := hg.core, zfine := hz, pfine := hp, zown := Or.inl he, border_ok := ?_,
      adj := ?_, done := ?_, conn := hg.conn, areas_ok := hg.areas_ok, fresh := fun _ => rfl,
      contact := ?_, width_eq := rfl, heigth_eq := rfl, number_eq := rfl, max_eq := rfl,
      golden_eq := rfl, board_rel := fun _ _ _ => rfl, others := fun _ _ => rfl,
      flag_eq := rfl, next_eq := rfl, border_eq := rfl, areas_le := le_refl _, wider := ?_ }
  · intro q hq
    have e : set_cell g.board x y EMPTY = g.board := set_cell_eq_self _ _ _ _ he
    rw [@border_cells_congr g { g with board := set_cell g.board x y EMPTY } e rfl rfl q]
    exact hg.border_ok q hq
  · intro a b i hi _ _ hab hc hsame
    exact hg.adj a b i hi (fun h => h) (fun h => h) hab hc hsame
  · intro j hj
    exact absurd hj (Nat.not_lt_zero j)
  · intro h
    rw [he] at h
    exact absurd h.symm hp0
  · rw [if_neg]
    rintro ⟨h, _⟩
    rw [he] at h
    exact hp0 h.symm

/-- A round of the loop that looks at a cell which is off the board or not owned
by the mover. -/
theorem MoveInv.skip {g0 g : gamma_t} {p x y k : Nat} (h : MoveInv g0 p x y k g)
    (hn : ¬ (coords_are_fine (nbx x k) (nby y k) g ∧ g.board (nbx x k) (nby y k) = p)) :
    MoveInv g0 p x y (k + 1) g := by
  refine { h with done := ?_ }
  intro j hj hc hb
  by_cases hjk : j = k
  · subst hjk
    exact absurd ⟨hc, hb⟩ hn
  · exact h.done j (by omega) hc hb

theorem MoveInv.p_ne {g0 g : gamma_t} {p x y k : Nat} (h : MoveInv g0 p x y k g) :
    p ≠ EMPTY := by
  have := h.pfine
  unfold EMPTY
  unfold player_is_fine at this
  omega

/-- A round of the loop that looks at a cell of the mover with the id the new
cell already has. -/
theorem MoveInv.same {g0 g : gamma_t} {p x y k : Nat} (h : MoveInv g0 p x y k g)
    (h1 : g.indexes x y ≠ EMPTY)
    (h2 : g.indexes x y = g.indexes (nbx x k) (nby y k)) :
    MoveInv g0 p x y (k + 1) g := by
  refine { h with done := ?_ }
  intro j hj hc hb
  by_cases hjk : j = k
  · subst hjk
    refine ⟨?_, h2⟩
    rcases h.zown with hz | hz
    · exact absurd (h.core.idx_empty x y hz) h1
    · exact hz
  · exact h.done j (by omega) hc hb

theorem first_contact_board (g : gamma_t) (p x y n1 n2 : Nat) :
    (first_contact g p x y n1 n2).board = set_cell g.board x y p := rfl

theorem first_contact_indexes (g : gamma_t) (p x y n1 n2 : Nat) :
    (first_contact g p x y n1 n2).indexes = set_cell g.indexes x y (g.indexes n1 n2) := rfl

theorem first_contact_players (g : gamma_t) (p x y n1 n2 : Nat) :
    (first_contact g p x y n1 n2).players = set_at g.players p
      { g.players p with fields := inc64 (g.players p).fields } := rfl

theorem first_contact_white (g : gamma_t) (p x y n1 n2 q i a b : Nat)
    (hz : ¬ (a = x ∧ b = y)) :
    White (first_contact g p x y n1 n2) q i a b ↔ White g q i a b := by
  unfold White
  rw [first_contact_board, first_contact_indexes, set_cell_other _ _ _ _ _ _ hz,
    set_cell_other _ _ _ _ _ _ hz]
  rfl

theorem first_contact_white_z (g : gamma_t) (p x y n1 n2 : Nat)
    (hz : coords_are_fine x y g) :
    White (first_contact g p x y n1 n2) p (g.indexes n1 n2) x y := by
  unfold White
  rw [first_contact_board, first_contact_indexes, set_cell_same, set_cell_same]
  exact ⟨hz, rfl, rfl⟩

theorem first_contact_mono (g : gamma_t) (p x y n1 n2 q i : Nat) (he : g.board x y = EMPTY)
    (hq : q ≠ EMPTY) (a b : Nat) (hw : White g q i a b) :
    White (first_contact g p x y n1 n2) q i a b := by
  have hz : ¬ (a = x ∧ b = y) := by
    rintro ⟨rfl, rfl⟩
    exact hq (hw.2.1.symm.trans he)
  exact (first_contact_white g p x y n1 n2 q i a b hz).2 hw

/-- The round of the loop that makes the first contact. -/
theorem MoveInv.first {g0 g : gamma_t} {p x y k : Nat} (h : MoveInv g0 p x y k g)
    (hk : k < 4) (hc : coords_are_fine (nbx x k) (nby y k) g)
    (hb : g.board (nbx x k) (nby y k) = p) (h0 : g.indexes x y = EMPTY) :
    MoveInv g0 p x y (k + 1) (first_contact g p x y (nbx x k) (nby y k)) := by
  have hp0 := h.p_ne
  have he : g.board x y = EMPTY := by
    rcases h.zown with hz | hz
    · exact hz
    · have := (h.core.idx_owned x y (by rw [hz]; exact hp0)).1
      rw [h0] at this
      exact absurd this (by unfold EMPTY; omega)
  have hg0 : g = g0 := h.fresh he
  have hnz : ¬ (nbx x k = x ∧ nby y k = y) := nb_ne_self x y k hk
  have hs := h.core.sized
  have hnid := h.core.idx_owned (nbx x k) (nby y k) (by rw [hb]; exact hp0)
  rw [hb] at hnid
  have hcells := cells_lt g hs
  have hWn : White g p (g.indexes (nbx x k) (nby y k)) (nbx x k) (nby y k) := ⟨hc, hb, rfl⟩
  have hplayers : ∀ q, ((first_contact g p x y (nbx x k) (nby y k)).players q)
      = if q = p then { g.players p with fields := inc64 (g.players p).fields }
        else g.players q := by
    intro q
    rw [first_contact_players, set_at_apply]
  have hback := nb_back g.width g.heigth x y k hk hs.width_lt hs.heigth_lt h.zfine.1 h.zfine.2
    hc.1 hc.2
  refine
    { core := ?_, zfine := h.zfine, pfine := h.pfine, zown := ?_, border_ok := ?_,
      adj := ?_, done := ?_, conn := ?_, areas_ok := ?_, fresh := ?_,
      contact := ?_, width_eq := h.width_eq, heigth_eq := h.heigth_eq,
      number_eq := h.number_eq, max_eq := h.max_eq,
      golden_eq := h.golden_eq, board_rel := ?_, others := ?_,
      flag_eq := ?_, next_eq := ?_, border_eq := ?_, areas_le := ?_, wider := ?_ }
  · -- core
    refine ⟨⟨hs.width_lt, hs.heigth_lt, hs.players_lt, hs.areas_lt⟩, ?_, ?_, ?_, ?_, ?_, ?_, ?_⟩
    · intro a b hab
      rw [first_contact_board, set_cell_apply] at hab ⊢
      by_cases hz : a = x ∧ b = y
      · rw [if_pos hz, hz.1, hz.2]
        exact ⟨h.zfine, h.pfine.2⟩
      · rw [if_neg hz] at hab ⊢
        exact h.core.owner_ok a b hab
    · intro a b hab
      rw [first_contact_board, set_cell_apply] at hab
      rw [first_contact_indexes, set_cell_apply]
      by_cases hz : a = x ∧ b = y
      · rw [if_pos hz] at hab
        exact absurd hab hp0
      · rw [if_neg hz] at hab ⊢
        exact h.core.idx_empty a b hab
    · intro a b hab
      rw [first_contact_board, set_cell_apply] at hab ⊢
      rw [first_contact_indexes, set_cell_apply]
      by_cases hz : a = x ∧ b = y
      · rw [if_pos hz, if_pos hz, hplayers, if_pos rfl]
        exact hnid
      · rw [if_neg hz] at hab ⊢
        rw [if_neg hz, hplayers]
        by_cases hq : g.board a b = p
        · rw [if_pos hq]
          have := h.core.idx_owned a b hab
          rw [hq] at this
          exact this
        · rw [if_neg hq]
          exact h.core.idx_owned a b hab
    · intro q
      rw [hplayers]
      by_cases hq : q = p
      · rw [if_pos hq]; exact h.core.fit p
      · rw [if_neg hq]; exact h.core.fit q
    · intro q hq
      rw [hplayers]
      by_cases hqp : q = p
      · rw [if_pos hqp]; exact h.core.next_pos p h.pfine
      · rw [if_neg hqp]; exact h.core.next_pos q hq
    · intro q hq
      rw [hplayers]
      by_cases hqp : q = p
      · subst hqp
        rw [if_pos rfl]
        have e1 := owned_cells_set_new g x y q h.zfine (by rw [he]; exact fun e => hq e.symm)
        have e2 := h.core.fields_ok q hq
        have e3 := owned_cells_le g q
        have : owned_cells (first_contact g q x y (nbx x k) (nby y k)) q
            = owned_cells { g with board := set_cell g.board x y q } q :=
          owned_cells_congr rfl rfl rfl q
        rw [this, e1]
        show inc64 (g.players q).fields = _
        rw [inc64_small _ (by omega), e2]
      · rw [if_neg hqp]
        have e1 := owned_cells_set_other g x y p q (by rw [he]; exact fun e => hq e.symm)
          (fun e => hqp e.symm)
        have : owned_cells (first_contact g p x y (nbx x k) (nby y k)) q
            = owned_cells { g with board := set_cell g.board x y p } q :=
          owned_cells_congr rfl rfl rfl q
        rw [this, e1]
        exact h.core.fields_ok q hq
    · have e1 := busy_cells_set_new g x y p h.zfine he hp0
      have e2 := h.core.busy_ok
      have e3 := busy_cells_le g
      have : busy_cells (first_contact g p x y (nbx x k) (nby y k))
          = busy_cells { g with board := set_cell g.board x y p } :=
        busy_cells_congr rfl rfl rfl
      rw [this, e1]
      show inc64 g.busy_fields = _
      rw [inc64_small _ (by omega), e2]
  · right
    rw [first_contact_board, set_cell_same]
  · -- border_ok
    intro q hq
    have e : set_cell (first_contact g p x y (nbx x k) (nby y k)).board x y EMPTY
        = set_cell g.board x y EMPTY := by
      rw [first_contact_board, set_cell_set_cell]
    have hbq := h.border_ok q hq
    have hcong := @border_cells_congr { g with board := set_cell g.board x y EMPTY }
      { first_contact g p x y (nbx x k) (nby y k) with
        board := set_cell (first_contact g p x y (nbx x k) (nby y k)).board x y EMPTY }
      e rfl rfl q
    rw [hcong]
    show ((first_contact g p x y (nbx x k) (nby y k)).players q).border = _
    rw [hplayers]
    by_cases hqp : q = p
    · rw [if_pos hqp]
      rw [hqp] at hbq ⊢
      exact hbq
    · rw [if_neg hqp]
      exact hbq
  · -- adj
    intro a b i hi he1 he2 hab hcn hsame
    rw [first_contact_board, set_cell_other _ _ _ _ _ _ he1] at hab hsame
    rw [set_cell_other _ _ _ _ _ _ he2] at hsame
    rw [first_contact_indexes, set_cell_other _ _ _ _ _ _ he1,
      set_cell_other _ _ _ _ _ _ he2]
    exact h.adj a b i hi he1 he2 hab hcn hsame
  · -- done
    intro j hj hcj hbj
    have hjz : ¬ (nbx x j = x ∧ nby y j = y) := nb_ne_self x y j (by omega)
    rw [first_contact_board, set_cell_other _ _ _ _ _ _ hjz] at hbj
    by_cases hjk : j = k
    · subst hjk
      rw [first_contact_board, first_contact_indexes, set_cell_same, set_cell_same,
        set_cell_other _ _ _ _ _ _ hjz]
      exact ⟨rfl, rfl⟩
    · have := (h.done j (by omega) hcj hbj).1
      rw [he] at this
      exact absurd this.symm hp0
  · -- conn
    intro a b c d hab _ hsame hidx
    simp only [first_contact_board, first_contact_indexes] at hab hsame hidx ⊢
    have hmono : ∀ q i a b c d, q ≠ EMPTY → Reach g q i a b c d →
        Reach (first_contact g p x y (nbx x k) (nby y k)) q i a b c d := by
      intro q i a b c d hq hr
      exact hr.mono (first_contact_mono g p x y _ _ q i he hq)
    have hzn : Reach (first_contact g p x y (nbx x k) (nby y k)) p
        (g.indexes (nbx x k) (nby y k)) x y (nbx x k) (nby y k) :=
      Reach.step x y k (Reach.seed (first_contact_white_z g p x y _ _ h.zfine)) hk
        (first_contact_mono g p x y _ _ p _ he hp0 _ _ hWn)
    have hs' : Sized (first_contact g p x y (nbx x k) (nby y k)) :=
      ⟨hs.width_lt, hs.heigth_lt, hs.players_lt, hs.areas_lt⟩
    by_cases hz1 : a = x ∧ b = y
    · obtain ⟨ha, hb'⟩ := hz1
      subst ha
      subst hb'
      simp only [set_cell_same] at hab hsame hidx ⊢
      by_cases hz2 : c = a ∧ d = b
      · rw [hz2.1, hz2.2]
        exact Reach.seed (first_contact_white_z g p a b _ _ h.zfine)
      · simp only [set_cell_other _ _ _ _ _ _ hz2] at hsame hidx
        have hold := h.conn (nbx a k) (nby b k) c d (by rw [hb]; exact hp0)
          (fun e => (by rw [hb] at e; exact hp0 e.1)) (hsame.trans hb.symm) hidx
        rw [hb] at hold
        exact hzn.trans (hmono _ _ _ _ _ _ hp0 hold)
    · simp only [set_cell_other _ _ _ _ _ _ hz1] at hab hsame hidx ⊢
      by_cases hz2 : c = x ∧ d = y
      · obtain ⟨hc', hd'⟩ := hz2
        subst hc'
        subst hd'
        simp only [set_cell_same] at hsame hidx
        have hold := h.conn a b (nbx c k) (nby d k) hab
          (fun e => hab e.1) (hb.trans hsame) hidx
        rw [← hsame, ← hidx] at hold
        have h1 := hmono _ _ _ _ _ _ hp0 hold
        rw [← hsame, ← hidx]
        exact h1.trans (hzn.symm hs')
      · simp only [set_cell_other _ _ _ _ _ _ hz2] at hsame hidx
        exact hmono _ _ _ _ _ _ hab (h.conn a b c d hab (fun e => hab e.1) hsame hidx)
  · -- areas_ok
    intro q hq
    have hids : area_ids (first_contact g p x y (nbx x k) (nby y k)) q = area_ids g q := by
      ext i
      rw [mem_area_ids, mem_area_ids]
      constructor
      · rintro ⟨a, b, hw⟩
        by_cases hz : a = x ∧ b = y
        · rw [hz.1, hz.2] at hw
          have e1 : q = p := by
            have := hw.2.1
            rw [first_contact_board, set_cell_same] at this
            exact this.symm
          have e2 : i = g.indexes (nbx x k) (nby y k) := by
            have := hw.2.2
            rw [first_contact_indexes, set_cell_same] at this
            exact this.symm
          rw [e1, e2]
          exact ⟨_, _, hWn⟩
        · exact ⟨a, b, (first_contact_white g p x y _ _ q i a b hz).1 hw⟩
      · rintro ⟨a, b, hw⟩
        exact ⟨a, b, first_contact_mono g p x y _ _ q i he hq a b hw⟩
    rw [hids, hplayers]
    by_cases hqp : q = p
    · rw [if_pos hqp]
      rw [hqp]
      exact h.areas_ok p hp0
    · rw [if_neg hqp]
      exact h.areas_ok q hq
  · intro hh
    rw [first_contact_board, set_cell_same] at hh
    exact absurd hh hp0
  · intro _
    rw [← hg0]
    exact ⟨k, hk, hc, hb⟩
  · intro a b hz
    rw [first_contact_board, set_cell_other _ _ _ _ _ _ hz]
    exact h.board_rel a b hz
  · intro q hq
    rw [hplayers, if_neg hq]
    exact h.others q hq
  · rw [hplayers, if_pos rfl]
    exact h.flag_eq
  · rw [hplayers, if_pos rfl]
    exact h.next_eq
  · rw [hplayers, if_pos rfl]
    exact h.border_eq
  · rw [hplayers, if_pos rfl]
    exact h.areas_le
  · rw [first_contact_board, set_cell_same]
    have hw := h.wider
    rw [if_neg (by rw [he]; exact fun e => hp0 e.1.symm)] at hw
    show (if WIDE < p then inc64 g.fields_of_wider_players else g.fields_of_wider_players) = _
    rw [hw]
    by_cases hwide : WIDE < p
    · rw [if_pos hwide, if_pos ⟨rfl, hwide⟩]
    · rw [if_neg hwide, if_neg (fun e => hwide e.2)]

theorem areas_dec_players (g : gamma_t) (p q : Nat) :
    (areas_dec g p).players q =
      if q = p then { g.players p with areas := dec32 (g.players p).areas }
      else g.players q := by
  unfold areas_dec
  simp only [set_at_apply]

/-- The round of the loop that merges the area of the neighbour into the area
of the new cell. -/
theorem MoveInv.merge {g0 g g1 : gamma_t} {p x y k : Nat} (h : MoveInv g0 p x y k g)
    (hk : k < 4) (hc : coords_are_fine (nbx x k) (nby y k) g)
    (hb : g.board (nbx x k) (nby y k) = p) (h0 : g.indexes x y ≠ EMPTY)
    (hne : g.indexes x y ≠ g.indexes (nbx x k) (nby y k))
    (hr : Relabelled g p (g.indexes (nbx x k) (nby y k)) (g.indexes x y)
      (nbx x k) (nby y k) g1) :
    MoveInv g0 p x y (k + 1) (areas_dec g1 p) := by
  have hp0 := h.p_ne
  have hz : g.board x y = p := by
    rcases h.zown with hz | hz
    · exact absurd (h.core.idx_empty x y hz) h0
    · exact hz
  have hs := h.core.sized
  have hzid := h.core.idx_owned x y (by rw [hz]; exact hp0)
  rw [hz] at hzid
  have hWz : White g p (g.indexes x y) x y := ⟨h.zfine, hz, rfl⟩
  have hWn : White g p (g.indexes (nbx x k) (nby y k)) (nbx x k) (nby y k) := ⟨hc, hb, rfl⟩
  have hft : g.indexes (nbx x k) (nby y k) ≠ g.indexes x y := fun e => hne e.symm
  have hcore1 : Core g1 := hr.core h.core hp0 hzid.1 hzid.2
  -- the whole area of the neighbour is relabelled
  have hall : ∀ c d, g.board c d = p → g.indexes c d = g.indexes (nbx x k) (nby y k) →
      Reach g p (g.indexes (nbx x k) (nby y k)) (nbx x k) (nby y k) c d := by
    intro c d h1 h2
    have := h.conn (nbx x k) (nby y k) c d (by rw [hb]; exact hp0)
      (fun e => (by rw [hb] at e; exact hp0 e.1)) (h1.trans hb.symm) h2
    rw [hb] at this
    exact this
  have hzkeep : g1.indexes x y = g.indexes x y := hr.other_id x y hne
  have hnnew : g1.indexes (nbx x k) (nby y k) = g.indexes x y :=
    hr.hit _ _ (Reach.seed hWn)
  have hpl : ∀ q, ((areas_dec g1 p).players q)
      = if q = p then { g.players p with areas := dec32 (g.players p).areas }
        else g.players q := by
    intro q
    rw [areas_dec_players, hr.players]
  have hbd : (areas_dec g1 p).board = g.board := hr.board_relab
  have hix : (areas_dec g1 p).indexes = g1.indexes := rfl
  have hwd : (areas_dec g1 p).width = g.width := hr.width_relab
  have hht : (areas_dec g1 p).heigth = g.heigth := hr.heigth_relab
  have hfields : ∀ q, ((areas_dec g1 p).players q).fields = (g.players q).fields := by
    intro q
    rw [hpl]
    by_cases hq : q = p
    · rw [if_pos hq, hq]
    · rw [if_neg hq]
  have hnext : ∀ q, ((areas_dec g1 p).players q).next_ind = (g.players q).next_ind := by
    intro q
    rw [hpl]
    by_cases hq : q = p
    · rw [if_pos hq, hq]
    · rw [if_neg hq]
  have hbord : ∀ q, ((areas_dec g1 p).players q).border = (g.players q).border := by
    intro q
    rw [hpl]
    by_cases hq : q = p
    · rw [if_pos hq, hq]
    · rw [if_neg hq]
  -- every cell of the merged area is reached from the new cell
  have hfromz : ∀ c d, g.board c d = p → g1.indexes c d = g.indexes x y →
      Reach g1 p (g.indexes x y) x y c d := by
    intro c d h1 h2
    rcases hr.indexes_eq c d with ⟨hrc, _⟩ | ⟨_, e⟩
    · have r1 : Reach g1 p (g.indexes x y) (nbx x k) (nby y k) c d :=
        hr.reach_new _ _ c d (Reach.seed hWn) hrc
      have r0 : Reach g1 p (g.indexes x y) x y (nbx x k) (nby y k) :=
        Reach.step x y k (Reach.seed (hr.white_keep hft x y hWz)) hk
          (hr.white_new _ _ (Reach.seed hWn))
      exact r0.trans r1
    · rw [e] at h2
      have := h.conn x y c d (by rw [hz]; exact hp0)
        (fun e => (by rw [hz] at e; exact hp0 e.1)) (h1.trans hz.symm) h2
      rw [hz] at this
      exact hr.reach_keep hft _ _ _ _ this
  refine
    { core := ?_, zfine := ?_, pfine := ?_, zown := Or.inr (hbd ▸ hz),
      border_ok := ?_, adj := ?_, done := ?_, conn := ?_, areas_ok := ?_, fresh := ?_,
      contact := ?_, width_eq := hwd.trans h.width_eq, heigth_eq := hht.trans h.heigth_eq,
      number_eq := hr.number_of_players.trans h.number_eq,
      max_eq := hr.max_areas.trans h.max_eq,
      golden_eq := hr.golden_used.trans h.golden_eq, board_rel := ?_, others := ?_,
      flag_eq := ?_, next_eq := ?_, border_eq := ?_, areas_le := ?_, wider := ?_ }
  · exact hcore1.congr_core rfl rfl rfl rfl rfl rfl rfl
      (fun q => by rw [hfields, hr.players]) (fun q => by rw [hnext, hr.players])
  · unfold coords_are_fine
    rw [hwd, hht]
    exact h.zfine
  · unfold player_is_fine
    have : (areas_dec g1 p).number_of_players = g.number_of_players := hr.number_of_players
    rw [this]
    exact h.pfine
  · exact h.border_ok.congr_border (by show set_cell (areas_dec g1 p).board x y EMPTY = _; rw [hbd])
      hwd hht hbord
  · exact (hr.adj hs h.adj (fun a b hab => (h.core.owner_ok a b hab).1)).congr rfl rfl rfl rfl
  · intro j hj hcj hbj
    rw [hbd] at hbj ⊢
    rw [hix, hzkeep]
    have hcj : coords_are_fine (nbx x j) (nby y j) g := by
      unfold coords_are_fine at hcj ⊢
      rw [hwd, hht] at hcj
      exact hcj
    refine ⟨hz, ?_⟩
    by_cases hjk : j = k
    · subst hjk
      exact hnnew.symm
    · have := (h.done j (by omega) hcj hbj).2
      rw [hr.other_id _ _ (by rw [← this]; exact hne)]
      exact this
  · -- conn
    refine IdsConn.congr_conn (g := g1) ?_ rfl rfl rfl rfl
    intro c1 c2 d1 d2 hown _ hsame hidx
    rw [hr.board_relab] at hown hsame ⊢
    by_cases hq : g.board c1 c2 = p
    · by_cases hi : g1.indexes c1 c2 = g.indexes x y
      · rw [hq, hi]
        rw [hi] at hidx
        have r1 := hfromz c1 c2 hq hi
        have r2 := hfromz d1 d2 (hsame.trans hq) hidx
        exact (r1.symm (hr.sized hs)).trans r2
      · have hc1 : g1.indexes c1 c2 = g.indexes c1 c2 := by
          rcases hr.indexes_eq c1 c2 with ⟨_, e⟩ | ⟨_, e⟩
          · exact absurd e hi
          · exact e
        have hi' : g1.indexes d1 d2 ≠ g.indexes x y := by rw [hidx]; exact hi
        have hd1 : g1.indexes d1 d2 = g.indexes d1 d2 := by
          rcases hr.indexes_eq d1 d2 with ⟨_, e⟩ | ⟨_, e⟩
          · exact absurd e hi'
          · exact e
        have hnb : g.indexes c1 c2 ≠ g.indexes (nbx x k) (nby y k) := by
          intro e
          exact hi (hr.hit _ _ (hall c1 c2 hq e))
        rw [hc1] at hidx hi ⊢
        rw [hd1] at hidx
        have hold := h.conn c1 c2 d1 d2 hown (fun e => hown e.1) hsame hidx
        exact (hr.reach_other _ _ (Or.inr ⟨hnb, hi⟩) _ _ _ _).2 hold
    · have hc1 : g1.indexes c1 c2 = g.indexes c1 c2 := hr.other_owner _ _ hq
      have hd1 : g1.indexes d1 d2 = g.indexes d1 d2 :=
        hr.other_owner _ _ (by rw [hsame]; exact hq)
      rw [hc1] at hidx ⊢
      rw [hd1] at hidx
      have hold := h.conn c1 c2 d1 d2 hown (fun e => hown e.1) hsame hidx
      exact (hr.reach_other _ _ (Or.inl hq) _ _ _ _).2 hold
  · -- areas_ok
    apply AreasOk.of_plain
    intro q hq
    have hcong : area_ids (areas_dec g1 p) q = area_ids g1 q :=
      area_ids_congr rfl rfl rfl rfl q
    rw [hcong, hpl]
    by_cases hqp : q = p
    · subst hqp
      rw [if_pos rfl]
      have hids : area_ids g1 q = (area_ids g q).erase (g.indexes (nbx x k) (nby y k)) := by
        ext i
        rw [Finset.mem_erase, mem_area_ids, mem_area_ids]
        constructor
        · rintro ⟨c, d, hw⟩
          have hwb : g.board c d = q := by rw [← hr.board_relab]; exact hw.2.1
          have hwc : coords_are_fine c d g := by
            have := hw.1
            unfold coords_are_fine at this ⊢
            rw [hr.width_relab, hr.heigth_relab] at this
            exact this
          rcases hr.indexes_eq c d with ⟨_, e⟩ | ⟨hnr, e⟩
          · have : i = g.indexes x y := hw.2.2.symm.trans e
            rw [this]
            exact ⟨hne, x, y, hWz⟩
          · have hi : g.indexes c d = i := e.symm.trans hw.2.2
            refine ⟨?_, c, d, hwc, hwb, hi⟩
            intro hib
            exact hnr (hall c d hwb (hi.trans hib))
        · rintro ⟨hib, c, d, hw⟩
          refine ⟨c, d, ?_⟩
          unfold White coords_are_fine
          rw [hr.board_relab, hr.width_relab, hr.heigth_relab]
          refine ⟨hw.1, hw.2.1, ?_⟩
          rw [hr.other_id c d (by rw [hw.2.2]; exact hib)]
          exact hw.2.2
      have hmem : g.indexes (nbx x k) (nby y k) ∈ area_ids g q := by
        rw [mem_area_ids]
        exact ⟨_, _, hWn⟩
      have hold := h.areas_ok.plain q hq
      have hlt := area_ids_card_lt g h.core q hq
      have hpos := Finset.card_pos.2 ⟨_, hmem⟩
      rw [hids, Finset.card_erase_of_mem hmem]
      show dec32 (g.players q).areas = _
      rw [hold, dec32_pos _ (by omega) hlt]
    · rw [if_neg hqp]
      have hids : area_ids g1 q = area_ids g q := by
        ext i
        rw [mem_area_ids, mem_area_ids]
        simp only [hr.white_other q i _ _ (Or.inl hqp)]
      rw [hids]
      exact h.areas_ok.plain q hq
  · intro hh
    rw [hbd, hz] at hh
    exact absurd hh hp0
  · intro _
    exact h.contact hz
  · intro a b hab
    rw [hbd]
    exact h.board_rel a b hab
  · intro q hq
    rw [hpl, if_neg hq]
    exact h.others q hq
  · rw [hpl, if_pos rfl]
    exact h.flag_eq
  · rw [hpl, if_pos rfl]
    exact h.next_eq
  · rw [hpl, if_pos rfl]
    exact h.border_eq
  · rw [hpl, if_pos rfl]
    show dec32 (g.players p).areas ≤ _
    have hold := h.areas_ok.plain p hp0
    have hlt := area_ids_card_lt g h.core p hp0
    have hmem : g.indexes (nbx x k) (nby y k) ∈ area_ids g p := by
      rw [mem_area_ids]
      exact ⟨_, _, hWn⟩
    have hpos := Finset.card_pos.2 ⟨_, hmem⟩
    rw [dec32_pos _ (by omega) (by omega)]
    have := h.areas_le
    omega
  · rw [hbd]
    show g1.fields_of_wider_players = _
    rw [hr.wider]
    exact h.wider

/-! ## Rounds of the loop of `gamma_move` -/

theorem gamma_move_dir_merge (fuel : Nat) (g : gamma_t) (p x y k : Nat)
    (hc : coords_are_fine (nbx x k) (nby y k) g ∧ g.board (nbx x k) (nby y k) = p)
    (h0 : ¬ g.indexes x y = EMPTY)
    (hne : g.indexes x y ≠ g.indexes (nbx x k) (nby y k)) :
    gamma_move_dir fuel g p x y k =
      (reindexify fuel g p (nbx x k) (nby y k)
        (g.indexes (nbx x k) (nby y k)) (g.indexes x y)).map fun g1 => areas_dec g1 p := by
  unfold gamma_move_dir
  rw [if_pos hc, if_neg h0, if_pos hne]
  rfl

/-- Every round of the loop keeps the loop invariant. -/
theorem MoveInv.step {g0 g g' : gamma_t} {p x y k : Nat} (h : MoveInv g0 p x y k g)
    (hk : k < 4) (fuel : Nat) (hm : gamma_move_dir fuel g p x y k = some g') :
    MoveInv g0 p x y (k + 1) g' := by
  by_cases hc : coords_are_fine (nbx x k) (nby y k) g ∧ g.board (nbx x k) (nby y k) = p
  · by_cases h0 : g.indexes x y = EMPTY
    · have : gamma_move_dir fuel g p x y k
          = some (first_contact g p x y (nbx x k) (nby y k)) := by
        unfold gamma_move_dir
        rw [if_pos hc, if_pos h0]
        rfl
      rw [this] at hm
      simp only [Option.some.injEq] at hm
      rw [← hm]
      exact h.first hk hc.1 hc.2 h0
    · by_cases hne : g.indexes x y ≠ g.indexes (nbx x k) (nby y k)
      · rw [gamma_move_dir_merge fuel g p x y k hc h0 hne] at hm
        simp only [Option.map_eq_some'] at hm
        obtain ⟨g1, e1, e2⟩ := hm
        rw [← e2]
        exact h.merge hk hc.1 hc.2 h0 hne
          (reindexify_relabels fuel g g1 p _ _ _ _ (fun e => hne e.symm) e1)
      · have : gamma_move_dir fuel g p x y k = some g := by
          unfold gamma_move_dir
          rw [if_pos hc, if_neg h0, if_neg hne]
        rw [this] at hm
        simp only [Option.some.injEq] at hm
        rw [← hm]
        exact h.same h0 (not_not.1 hne)
  · have : gamma_move_dir fuel g p x y k = some g := by
      unfold gamma_move_dir
      rw [if_neg hc]
    rw [this] at hm
    simp only [Option.some.injEq] at hm
    rw [← hm]
    exact h.skip hc

/-- With recursion depth above the number of cells every round returns. -/
theorem gamma_move_dir_total (fuel : Nat) (g : gamma_t) (p x y k : Nat)
    (hfuel : g.width * g.heigth < fuel) :
    ∃ g', gamma_move_dir fuel g p x y k = some g' := by
  by_cases hc : coords_are_fine (nbx x k) (nby y k) g ∧ g.board (nbx x k) (nby y k) = p
  · by_cases h0 : g.indexes x y = EMPTY
    · unfold gamma_move_dir
      rw [if_pos hc, if_pos h0]
      exact ⟨_, rfl⟩
    · by_cases hne : g.indexes x y ≠ g.indexes (nbx x k) (nby y k)
      · rw [gamma_move_dir_merge fuel g p x y k hc h0 hne]
        obtain ⟨g1, e1⟩ := reindexify_total fuel g p (nbx x k) (nby y k) _ _
          (fun e => hne e.symm) hfuel
        rw [e1]
        exact ⟨_, rfl⟩
      · unfold gamma_move_dir
        rw [if_pos hc, if_neg h0, if_neg hne]
        exact ⟨_, rfl⟩
  · unfold gamma_move_dir
    rw [if_neg hc]
    exact ⟨_, rfl⟩

/-! ## The accepting tail of `gamma_move` -/

theorem place_and_update_change (G : gamma_t) (p x y : Nat) :
    BorderChange { G with board := set_cell G.board x y p } (place_and_update G p x y) := by
  obtain ⟨c, _⟩ := update_positive_border_eq
    { G with board := set_cell G.board x y EMPTY } p x y
  unfold place_and_update
  simp only []
  refine ⟨?_, ?_⟩
  · have hb := c.board
    have hf := c.frame
    rw [hb]
    show _ = { ({ G with board := set_cell G.board x y p } : gamma_t) with
      players := (update_positive_border { G with board := set_cell G.board x y EMPTY }
        p x y).players }
    rw [hf]
    simp only [set_cell_set_cell]
  · intro q
    exact c.same q

theorem place_and_update_border (G : gamma_t) (p x y : Nat) (hs : Sized G)
    (hz : coords_are_fine x y G) (hp : p ≠ EMPTY)
    (hb : BorderOk { G with board := set_cell G.board x y EMPTY }) :
    BorderOk (place_and_update G p x y) := by
  intro q hq
  have hs1 : Sized { G with board := set_cell G.board x y EMPTY } :=
    ⟨hs.width_lt, hs.heigth_lt, hs.players_lt, hs.areas_lt⟩
  have key := place_border_ok { G with board := set_cell G.board x y EMPTY } hs1 p x y hz
    (by simp) hp hb q hq
  have hch := place_and_update_change G p x y
  have e : set_cell (set_cell G.board x y EMPTY) x y p = (place_and_update G p x y).board := by
    rw [hch.board, set_cell_set_cell]
  have hcong := @border_cells_congr
    { ({ G with board := set_cell G.board x y EMPTY } : gamma_t) with
      board := set_cell (set_cell G.board x y EMPTY) x y p }
    (place_and_update G p x y) e.symm hch.width hch.heigth q
  rw [hcong]
  exact key

/-- The invariant carries over a change of border counters that makes them exact. -/
theorem Good.of_border_change {H F : gamma_t} (hc : Core H)
    (ha : IdsAdj H (fun _ _ => False)) (hn : IdsConn H EMPTY EMPTY)
    (hr : AreasOk H EMPTY EMPTY) (hch : BorderChange H F) (hb : BorderOk F) : Good F := by
  have hpl : ∀ q, F.players q = { H.players q with border := (F.players q).border } := hch.same
  have hfr := hch.frame
  refine ⟨?_, hb, ?_, ?_, ?_⟩
  · exact hc.congr_core hch.board hch.indexes hch.width hch.heigth (by rw [hfr]) (by rw [hfr])
      (by rw [hfr]) (fun q => by rw [hpl q]) (fun q => by rw [hpl q])
  · exact ha.congr hch.board hch.indexes hch.width hch.heigth
  · exact hn.congr_conn hch.board hch.indexes hch.width hch.heigth
  · exact hr.congr_areas hch.board hch.indexes hch.width hch.heigth (fun q => by rw [hpl q])

theorem fresh_area_players (g : gamma_t) (p x y q : Nat) :
    (fresh_area g p x y).players q =
      if q = p then
        { g.players p with
          fields := inc64 (g.players p).fields
          next_ind := inc64 (g.players p).next_ind
          areas := inc32 (g.players p).areas }
      else g.players q := by
  unfold fresh_area count_field
  simp only [set_at_apply]
  by_cases h : q = p
  · simp [h]
  · simp [h]

theorem MoveInv.board_eq {g0 g : gamma_t} {p x y k : Nat} (h : MoveInv g0 p x y k g)
    (hz : g.board x y = p) : g.board = set_cell g0.board x y p := by
  funext a b
  rw [set_cell_apply]
  by_cases hab : a = x ∧ b = y
  · rw [if_pos hab, hab.1, hab.2, hz]
  · rw [if_neg hab]
    exact h.board_rel a b hab

/-- The accepting branch of `gamma_move` after a contact. -/
theorem MoveInv.finish_contact {g0 g4 : gamma_t} {p x y : Nat} (h : MoveInv g0 p x y 4 g4)
    (hg0 : Good g0) (he0 : g0.board x y = EMPTY) (h0 : g4.indexes x y ≠ EMPTY) :
    Good (place_and_update g4 p x y) ∧ MoveEffect g0 p x y (place_and_update g4 p x y)
      ∧ has_neighbour g0 p x y := by
  have hp0 := h.p_ne
  have hz : g4.board x y = p := by
    rcases h.zown with hz | hz
    · exact absurd (h.core.idx_empty x y hz) h0
    · exact hz
  have hs := h.core.sized
  have hch := place_and_update_change g4 p x y
  have hself : set_cell g4.board x y p = g4.board := set_cell_eq_self _ _ _ _ hz
  have hbF : (place_and_update g4 p x y).board = g4.board := by rw [hch.board]; exact hself
  have hcoreH : Core { g4 with board := set_cell g4.board x y p } :=
    h.core.congr_core hself rfl rfl rfl rfl rfl rfl (fun _ => rfl) (fun _ => rfl)
  have hadjH : IdsAdj { g4 with board := set_cell g4.board x y p } (fun _ _ => False) := by
    refine IdsAdj.congr (g := g4) ?_ hself rfl rfl rfl
    intro a b i hi _ _ hab hc hsame
    by_cases h1 : a = x ∧ b = y
    · obtain ⟨ha, hb⟩ := h1
      subst ha
      subst hb
      exact (h.done i hi hc (hsame.trans hz)).2.symm
    · by_cases h2 : nbx a i = x ∧ nby b i = y
      · have hin := (h.core.owner_ok a b hab).1
        have hback := nb_back g4.width g4.heigth a b i hi hs.width_lt hs.heigth_lt hin.1 hin.2
          hc.1 hc.2
        rw [h2.1, h2.2] at hback hsame ⊢
        have := h.done (opp i) (opp_lt i) (by rw [hback.1, hback.2]; exact hin)
          (by rw [hback.1, hback.2, ← hsame]; exact hz)
        rw [hback.1, hback.2] at this
        exact this.2
      · exact h.adj a b i hi h1 h2 hab hc hsame
  have hconnH : IdsConn { g4 with board := set_cell g4.board x y p } EMPTY EMPTY :=
    h.conn.congr_conn hself rfl rfl rfl
  have hareasH : AreasOk { g4 with board := set_cell g4.board x y p } EMPTY EMPTY :=
    h.areas_ok.congr_areas hself rfl rfl rfl (fun _ => rfl)
  have hbord := place_and_update_border g4 p x y hs h.zfine hp0 h.border_ok
  have hgood := Good.of_border_change hcoreH hadjH hconnH hareasH hch hbord
  have hnb := h.contact hz
  have hplF : ∀ q, (place_and_update g4 p x y).players q
      = { g4.players q with border := ((place_and_update g4 p x y).players q).border } :=
    hch.same
  have hfr := hch.frame
  have hcells := cells_lt g0 hg0.core.sized
  refine ⟨hgood, ?_, hnb⟩
  refine
    { board_eq := ?_, width_eq := ?_, heigth_eq := ?_, number_eq := ?_, max_eq := ?_,
      golden_eq := ?_, others := ?_, flag_eq := ?_, fields_eq := ?_, busy_eq := ?_,
      wider := ?_, next_eq := ?_, areas_le := ?_ }
  · rw [hbF]
    exact h.board_eq hz
  · rw [hch.width]; exact h.width_eq
  · rw [hch.heigth]; exact h.heigth_eq
  · rw [hfr]; exact h.number_eq
  · rw [hfr]; exact h.max_eq
  · rw [hfr]; exact h.golden_eq
  · intro q hq
    rw [hplF q]
    show (g4.players q).fields = _ ∧ (g4.players q).areas = _
      ∧ (g4.players q).free_golden_move = _ ∧ (g4.players q).next_ind = _
    rw [h.others q hq]
    exact ⟨rfl, rfl, rfl, rfl⟩
  · rw [hplF p]
    exact h.flag_eq
  · rw [hplF p]
    show (g4.players p).fields = _
    rw [h.core.fields_ok p hp0, hg0.core.fields_ok p hp0,
      @owned_cells_congr { g0 with board := set_cell g0.board x y p } g4
        (h.board_eq hz) h.width_eq h.heigth_eq p]
    have hz0 : coords_are_fine x y g0 := by
      have := h.zfine
      unfold coords_are_fine at this ⊢
      rw [h.width_eq, h.heigth_eq] at this
      exact this
    exact owned_cells_set_new g0 x y p hz0 (by rw [he0]; exact fun e => hp0 e.symm)
  · rw [hfr]
    show g4.busy_fields = _
    rw [h.core.busy_ok, hg0.core.busy_ok,
      @busy_cells_congr { g0 with board := set_cell g0.board x y p } g4
        (h.board_eq hz) h.width_eq h.heigth_eq]
    have hz0 : coords_are_fine x y g0 := by
      have := h.zfine
      unfold coords_are_fine at this ⊢
      rw [h.width_eq, h.heigth_eq] at this
      exact this
    exact busy_cells_set_new g0 x y p hz0 he0 hp0
  · rw [hfr]
    show g4.fields_of_wider_players = _
    rw [h.wider]
    by_cases hw : WIDE < p
    · rw [if_pos ⟨hz, hw⟩, if_pos hw]
    · rw [if_neg (fun e => hw e.2), if_neg hw]
  · rw [hplF p, if_pos hnb]
    exact h.next_eq
  · rw [hplF p, if_pos hnb]
    exact h.areas_le

/-! ## A move that opens a new area -/

theorem fresh_white (g : gamma_t) (p x y q i a b : Nat) (hz : ¬ (a = x ∧ b = y)) :
    White { fresh_area g p x y with board := set_cell g.board x y p } q i a b
      ↔ White g q i a b := by
  unfold White
  show _ ∧ set_cell g.board x y p a b = q
    ∧ set_cell g.indexes x y (g.players p).next_ind a b = i ↔ _
  rw [set_cell_other _ _ _ _ _ _ hz, set_cell_other _ _ _ _ _ _ hz]
  rfl

theorem fresh_mono (g : gamma_t) (p x y q i : Nat) (he : g.board x y = EMPTY)
    (hq : q ≠ EMPTY) (a b : Nat) (hw : White g q i a b) :
    White { fresh_area g p x y with board := set_cell g.board x y p } q i a b := by
  have hz : ¬ (a = x ∧ b = y) := by
    rintro ⟨rfl, rfl⟩
    exact hq (hw.2.1.symm.trans he)
  exact (fresh_white g p x y q i a b hz).2 hw

/-- The accepting branch of `gamma_move` without contact. -/
theorem fresh_area_good (g : gamma_t) (hg : Good g) (p x y : Nat)
    (hz : coords_are_fine x y g) (hp : player_is_fine p g) (he : g.board x y = EMPTY)
    (hno : ¬ has_neighbour g p x y) (hlt : (g.players p).areas < g.max_areas)
    (hfit : (g.players p).next_ind + 1 ≤ 4294967296) :
    Good (place_and_update (fresh_area g p x y) p x y)
      ∧ MoveEffect g p x y (place_and_update (fresh_area g p x y) p x y) := by
  have hp0 : p ≠ EMPTY := by unfold EMPTY; unfold player_is_fine at hp; omega
  have hs := hg.core.sized
  have hcells := cells_lt g hs
  have hnx := hg.core.next_pos p hp
  have hpl := fresh_area_players g p x y
  have hbdF : (fresh_area g p x y).board = g.board := rfl
  have hixF : (fresh_area g p x y).indexes = set_cell g.indexes x y (g.players p).next_ind :=
    rfl
  have hinc : inc64 (g.players p).next_ind = (g.players p).next_ind + 1 :=
    inc64_small _ (by omega)
  have hfld : inc64 (g.players p).fields = (g.players p).fields + 1 := by
    have := hg.core.fields_ok p hp0
    have := owned_cells_le g p
    exact inc64_small _ (by omega)
  have harea : inc32 (g.players p).areas = (g.players p).areas + 1 := by
    have := hs.areas_lt
    exact inc32_small _ (by omega)
  have hch := place_and_update_change (fresh_area g p x y) p x y
  -- the game with the new cell, border counters not yet updated
  have hcoreH : Core { fresh_area g p x y with board := set_cell g.board x y p } := by
    refine ⟨⟨hs.width_lt, hs.heigth_lt, hs.players_lt, hs.areas_lt⟩, ?_, ?_, ?_, ?_, ?_, ?_, ?_⟩
    · intro a b hab
      show coords_are_fine a b g ∧ set_cell g.board x y p a b ≤ g.number_of_players
      have hab' : set_cell g.board x y p a b ≠ EMPTY := hab
      rw [set_cell_apply] at hab' ⊢
      by_cases h1 : a = x ∧ b = y
      · rw [if_pos h1, h1.1, h1.2]
        exact ⟨hz, hp.2⟩
      · rw [if_neg h1] at hab' ⊢
        exact hg.core.owner_ok a b hab'
    · intro a b hab
      have hab' : set_cell g.board x y p a b = EMPTY := hab
      show set_cell g.indexes x y (g.players p).next_ind a b = EMPTY
      rw [set_cell_apply] at hab' ⊢
      by_cases h1 : a = x ∧ b = y
      · rw [if_pos h1] at hab'
        exact absurd hab' hp0
      · rw [if_neg h1] at hab' ⊢
        exact hg.core.idx_empty a b hab'
    · intro a b hab
      have hab' : set_cell g.board x y p a b ≠ EMPTY := hab
      show 1 ≤ set_cell g.indexes x y (g.players p).next_ind a b
        ∧ set_cell g.indexes x y (g.players p).next_ind a b
          < ((fresh_area g p x y).players (set_cell g.board x y p a b)).next_ind
      rw [set_cell_apply] at hab'
      rw [set_cell_apply, set_cell_apply, hpl]
      by_cases h1 : a = x ∧ b = y
      · rw [if_pos h1, if_pos h1, if_pos rfl]
        show 1 ≤ _ ∧ _ < inc64 (g.players p).next_ind
        rw [hinc]
        omega
      · rw [if_neg h1] at hab' ⊢
        rw [if_neg h1]
        have := hg.core.idx_owned a b hab'
        by_cases h2 : g.board a b = p
        · rw [if_pos h2]
          show 1 ≤ _ ∧ _ < inc64 (g.players p).next_ind
          rw [hinc]
          rw [h2] at this
          omega
        · rw [if_neg h2]
          exact this
    · intro q
      show ((fresh_area g p x y).players q).next_ind ≤ 4294967296
      rw [hpl]
      by_cases h2 : q = p
      · rw [if_pos h2]
        show inc64 (g.players p).next_ind ≤ _
        rw [hinc]
        exact hfit
      · rw [if_neg h2]
        exact hg.core.fit q
    · intro q hq
      show 1 ≤ ((fresh_area g p x y).players q).next_ind
      rw [hpl]
      by_cases h2 : q = p
      · rw [if_pos h2]
        show 1 ≤ inc64 (g.players p).next_ind
        rw [hinc]
        omega
      · rw [if_neg h2]
        exact hg.core.next_pos q hq
    · intro q hq
      show ((fresh_area g p x y).players q).fields = _
      rw [hpl]
      have hcong : owned_cells { fresh_area g p x y with board := set_cell g.board x y p } q
          = owned_cells { g with board := set_cell g.board x y p } q :=
        owned_cells_congr rfl rfl rfl q
      rw [hcong]
      by_cases h2 : q = p
      · subst h2
        rw [if_pos rfl, owned_cells_set_new g x y q hz (by rw [he]; exact fun e => hp0 e.symm)]
        show inc64 (g.players q).fields = _
        rw [hfld, hg.core.fields_ok q hp0]
      · rw [if_neg h2, owned_cells_set_other g x y p q (by rw [he]; exact fun e => hq e.symm)
          (fun e => h2 e.symm)]
        exact hg.core.fields_ok q hq
    · show inc64 g.busy_fields = _
      have hcong : busy_cells { fresh_area g p x y with board := set_cell g.board x y p }
          = busy_cells { g with board := set_cell g.board x y p } :=
        busy_cells_congr rfl rfl rfl
      have := busy_cells_le g
      rw [hcong, busy_cells_set_new g x y p hz he hp0, inc64_small _ (by
        rw [hg.core.busy_ok]; omega), hg.core.busy_ok]
  have hadjH : IdsAdj { fresh_area g p x y with board := set_cell g.board x y p }
      (fun _ _ => False) := by
    intro a b i hi _ _ hab hc hsame
    have hab' : set_cell g.board x y p a b ≠ EMPTY := hab
    have hsame' : set_cell g.board x y p (nbx a i) (nby b i) = set_cell g.board x y p a b :=
      hsame
    have hc' : coords_are_fine (nbx a i) (nby b i) g := hc
    show set_cell g.indexes x y (g.players p).next_ind (nbx a i) (nby b i)
      = set_cell g.indexes x y (g.players p).next_ind a b
    by_cases h1 : a = x ∧ b = y
    · exfalso
      rw [h1.1, h1.2] at hsame' hc'
      rw [set_cell_same, set_cell_other _ _ _ _ _ _ (nb_ne_self x y i hi)] at hsame'
      exact hno ⟨i, hi, hc', hsame'⟩
    · rw [set_cell_other _ _ _ _ _ _ h1] at hab' hsame' ⊢
      by_cases h2 : nbx a i = x ∧ nby b i = y
      · exfalso
        have hin := (hg.core.owner_ok a b hab').1
        have hback := nb_back g.width g.heigth a b i hi hs.width_lt hs.heigth_lt hin.1 hin.2
          hc'.1 hc'.2
        rw [h2.1, h2.2] at hsame' hback
        rw [set_cell_same] at hsame'
        exact hno ⟨opp i, opp_lt i, by rw [hback.1, hback.2]; exact hin,
          by rw [hback.1, hback.2]; exact hsame'.symm⟩
      · rw [set_cell_other _ _ _ _ _ _ h2] at hsame' ⊢
        exact hg.adj a b i hi (fun e => e) (fun e => e) hab' hc' hsame'
  have hconnH : IdsConn { fresh_area g p x y with board := set_cell g.board x y p }
      EMPTY EMPTY := by
    intro a b c d hab _ hsame hidx
    have hab' : set_cell g.board x y p a b ≠ EMPTY := hab
    have hsame' : set_cell g.board x y p c d = set_cell g.board x y p a b := hsame
    have hidx' : set_cell g.indexes x y (g.players p).next_ind c d
        = set_cell g.indexes x y (g.players p).next_ind a b := hidx
    show Reach _ (set_cell g.board x y p a b)
      (set_cell g.indexes x y (g.players p).next_ind a b) a b c d
    have hlow : ∀ c d, ¬ (c = x ∧ d = y) → g.board c d = p →
        g.indexes c d ≠ (g.players p).next_ind := by
      intro c d _ hcd e
      have := (hg.core.idx_owned c d (by rw [hcd]; exact hp0)).2
      rw [hcd, e] at this
      exact absurd this (lt_irrefl _)
    by_cases h1 : a = x ∧ b = y
    · obtain ⟨ha, hb⟩ := h1
      subst ha
      subst hb
      simp only [set_cell_same] at hab' hsame' hidx' ⊢
      by_cases h2 : c = a ∧ d = b
      · rw [h2.1, h2.2]
        refine Reach.seed ⟨hz, ?_, ?_⟩
        · show set_cell g.board a b p a b = p
          rw [set_cell_same]
        · show set_cell g.indexes a b (g.players p).next_ind a b = _
          rw [set_cell_same]
      · simp only [set_cell_other _ _ _ _ _ _ h2] at hsame' hidx'
        exact absurd hidx' (hlow c d h2 hsame')
    · simp only [set_cell_other _ _ _ _ _ _ h1] at hab' hsame' hidx' ⊢
      by_cases h2 : c = x ∧ d = y
      · obtain ⟨hc, hd⟩ := h2
        subst hc
        subst hd
        simp only [set_cell_same] at hsame' hidx'
        exact absurd hidx'.symm (hlow a b h1 hsame'.symm)
      · simp only [set_cell_other _ _ _ _ _ _ h2] at hsame' hidx'
        have hold := hg.conn a b c d hab' (fun e => hab' e.1) hsame' hidx'
        exact hold.mono (fresh_mono g p x y _ _ he hab')
  have hareasH : AreasOk { fresh_area g p x y with board := set_cell g.board x y p }
      EMPTY EMPTY := by
    apply AreasOk.of_plain
    intro q hq
    show ((fresh_area g p x y).players q).areas = _
    rw [hpl]
    by_cases h2 : q = p
    · subst h2
      rw [if_pos rfl]
      have hids : area_ids { fresh_area g q x y with board := set_cell g.board x y q } q
          = insert (g.players q).next_ind (area_ids g q) := by
        ext i
        rw [Finset.mem_insert, mem_area_ids, mem_area_ids]
        constructor
        · rintro ⟨a, b, hw⟩
          by_cases h1 : a = x ∧ b = y
          · left
            have := hw.2.2
            rw [h1.1, h1.2] at this
            have e : set_cell g.indexes x y (g.players q).next_ind x y = i := this
            rw [set_cell_same] at e
            exact e.symm
          · exact Or.inr ⟨a, b, (fresh_white g q x y q i a b h1).1 hw⟩
        · rintro (e | ⟨a, b, hw⟩)
          · refine ⟨x, y, hz, ?_, ?_⟩
            · show set_cell g.board x y q x y = q
              rw [set_cell_same]
            · show set_cell g.indexes x y (g.players q).next_ind x y = i
              rw [set_cell_same, e]
          · exact ⟨a, b, fresh_mono g q x y q i he hq a b hw⟩
      have hnot : (g.players q).next_ind ∉ area_ids g q := by
        rw [mem_area_ids]
        rintro ⟨a, b, hw⟩
        have := (hg.core.idx_owned a b (by rw [hw.2.1]; exact hq)).2
        rw [hw.2.1, hw.2.2] at this
        exact absurd this (lt_irrefl _)
      rw [hids, Finset.card_insert_of_not_mem hnot]
      show inc32 (g.players q).areas = _
      rw [harea, hg.areas_ok.plain q hq]
    · rw [if_neg h2]
      have hids : area_ids { fresh_area g p x y with board := set_cell g.board x y p } q
          = area_ids g q := by
        ext i
        rw [mem_area_ids, mem_area_ids]
        constructor
        · rintro ⟨a, b, hw⟩
          by_cases h1 : a = x ∧ b = y
          · exfalso
            have := hw.2.1
            rw [h1.1, h1.2] at this
            have e : set_cell g.board x y p x y = q := this
            rw [set_cell_same] at e
            exact h2 e.symm
          · exact ⟨a, b, (fresh_white g p x y q i a b h1).1 hw⟩
        · rintro ⟨a, b, hw⟩
          exact ⟨a, b, fresh_mono g p x y q i he hq a b hw⟩
      rw [hids]
      exact hg.areas_ok.plain q hq
  have hborder : BorderOk (place_and_update (fresh_area g p x y) p x y) := by
    apply place_and_update_border (fresh_area g p x y) p x y
      ⟨hs.width_lt, hs.heigth_lt, hs.players_lt, hs.areas_lt⟩ hz hp0
    refine BorderOk.congr_border (g := g) hg.border_ok ?_ rfl rfl ?_
    · show set_cell g.board x y EMPTY = g.board
      exact set_cell_eq_self _ _ _ _ he
    · intro q
      show ((fresh_area g p x y).players q).border = _
      rw [hpl]
      by_cases h2 : q = p
      · rw [if_pos h2, h2]
      · rw [if_neg h2]
  have hgood := Good.of_border_change hcoreH hadjH hconnH hareasH hch hborder
  have hplF : ∀ q, (place_and_update (fresh_area g p x y) p x y).players q
      = { (fresh_area g p x y).players q with
          border := ((place_and_update (fresh_area g p x y) p x y).players q).border } :=
    hch.same
  have hfr := hch.frame
  refine ⟨hgood, ?_⟩
  refine
    { board_eq := ?_, width_eq := ?_, heigth_eq := ?_, number_eq := ?_, max_eq := ?_,
      golden_eq := ?_, others := ?_, flag_eq := ?_, fields_eq := ?_, busy_eq := ?_,
      wider := ?_, next_eq := ?_, areas_le := ?_ }
  · rw [hch.board]
    rfl
  · rw [hch.width]
    rfl
  · rw [hch.heigth]
    rfl
  · rw [hfr]
    rfl
  · rw [hfr]
    rfl
  · rw [hfr]
    rfl
  · intro q hq
    rw [hplF q]
    show ((fresh_area g p x y).players q).fields = _
      ∧ ((fresh_area g p x y).players q).areas = _
      ∧ ((fresh_area g p x y).players q).free_golden_move = _
      ∧ ((fresh_area g p x y).players q).next_ind = _
    rw [hpl, if_neg hq]
    exact ⟨rfl, rfl, rfl, rfl⟩
  · rw [hplF p]
    show ((fresh_area g p x y).players p).free_golden_move = _
    rw [hpl, if_pos rfl]
  · rw [hplF p]
    show ((fresh_area g p x y).players p).fields = _
    rw [hpl, if_pos rfl]
    exact hfld
  · rw [hfr]
    show inc64 g.busy_fields = _
    have := busy_cells_le g
    exact inc64_small _ (by rw [hg.core.busy_ok]; omega)
  · rw [hfr]
    rfl
  · rw [hplF p, if_neg hno]
    show ((fresh_area g p x y).players p).next_ind = _
    rw [hpl, if_pos rfl]
    exact hinc
  · rw [hplF p, if_neg hno]
    show ((fresh_area g p x y).players p).areas ≤ _
    rw [hpl, if_pos rfl]
    exact le_of_eq harea

/-! ## `gamma_move` on a game that satisfies the invariant -/

theorem gamma_move_unfold (fuel : Nat) (game : gamma_t) (player x y : Nat) :
    gamma_move fuel game player x y =
      if coords_are_fine x y game ∧ player_is_fine player game ∧ game.board x y = EMPTY then
        (gamma_move_dir fuel game player x y 0).bind fun g1 =>
        (gamma_move_dir fuel g1 player x y 1).bind fun g2 =>
        (gamma_move_dir fuel g2 player x y 2).bind fun g3 =>
        (gamma_move_dir fuel g3 player x y 3).bind fun g4 =>
        if g4.indexes x y ≠ EMPTY then
          some (true, place_and_update g4 player x y)
        else if (g4.players player).areas < g4.max_areas then
          some (true, place_and_update (fresh_area g4 player x y) player x y)
        else some (false, g4)
      else some (false, game) := rfl

/-- The loop of `gamma_move` ends in a state that satisfies the loop invariant. -/
theorem gamma_move_loop {fuel : Nat} {g g1 g2 g3 g4 : gamma_t} {p x y : Nat} (hg : Good g)
    (hz : coords_are_fine x y g) (hp : player_is_fine p g) (he : g.board x y = EMPTY)
    (e1 : gamma_move_dir fuel g p x y 0 = some g1)
    (e2 : gamma_move_dir fuel g1 p x y 1 = some g2)
    (e3 : gamma_move_dir fuel g2 p x y 2 = some g3)
    (e4 : gamma_move_dir fuel g3 p x y 3 = some g4) : MoveInv g p x y 4 g4 :=
  ((((MoveInv.init g hg p x y hz hp he).step (by omega) fuel e1).step (by omega) fuel e2).step
    (by omega) fuel e3).step (by omega) fuel e4

/-- Without contact the loop changes nothing and the mover has no neighbouring cell. -/
theorem MoveInv.no_contact {g0 g4 : gamma_t} {p x y : Nat} (h : MoveInv g0 p x y 4 g4)
    (h0 : g4.indexes x y = EMPTY) : g4 = g0 ∧ ¬ has_neighbour g0 p x y := by
  have hp0 := h.p_ne
  have he : g4.board x y = EMPTY := by
    rcases h.zown with hz | hz
    · exact hz
    · have := (h.core.idx_owned x y (by rw [hz]; exact hp0)).1
      rw [h0] at this
      exact absurd this (by unfold EMPTY; omega)
  have hg := h.fresh he
  refine ⟨hg, ?_⟩
  rintro ⟨j, hj, hc, hb⟩
  rw [← hg] at hc hb
  have := (h.done j hj hc hb).1
  rw [he] at this
  exact hp0 this.symm

/-- Specification of `gamma_move`: the move is accepted exactly when it is legal,
a rejected move changes nothing, an accepted move keeps the invariant. -/
theorem gamma_move_spec (fuel : Nat) (g : gamma_t) (p x y : Nat) (b : Bool) (g' : gamma_t)
    (hg : Good g) (h : gamma_move fuel g p x y = some (b, g')) (hfit : ids_fit g') :
    (b = true ↔ legal_move g p x y) ∧ (b = false → g' = g)
      ∧ (b = true → Good g' ∧ MoveEffect g p x y g') := by
  rw [gamma_move_unfold] at h
  by_cases hcond : coords_are_fine x y g ∧ player_is_fine p g ∧ g.board x y = EMPTY
  · rw [if_pos hcond] at h
    simp only [Option.bind_eq_some] at h
    obtain ⟨g1, e1, g2, e2, g3, e3, g4, e4, h⟩ := h
    have hinv := gamma_move_loop hg hcond.1 hcond.2.1 hcond.2.2 e1 e2 e3 e4
    by_cases h0 : g4.indexes x y ≠ EMPTY
    · rw [if_pos h0] at h
      simp only [Option.some.injEq, Prod.mk.injEq] at h
      obtain ⟨hb, hg'⟩ := h
      obtain ⟨k1, k2, k3⟩ := hinv.finish_contact hg hcond.2.2 h0
      rw [← hb, ← hg']
      refine ⟨⟨fun _ => ⟨hcond.1, hcond.2.1, hcond.2.2, Or.inl k3⟩, fun _ => rfl⟩, ?_, ?_⟩
      · intro hf
        exact absurd hf (by simp)
      · intro _
        exact ⟨k1, k2⟩
    · rw [if_neg h0] at h
      obtain ⟨e, hno⟩ := hinv.no_contact (not_not.1 h0)
      rw [e] at h
      by_cases hlt : (g.players p).areas < g.max_areas
      · rw [if_pos hlt] at h
        simp only [Option.some.injEq, Prod.mk.injEq] at h
        obtain ⟨hb, hg'⟩ := h
        have hch := place_and_update_change (fresh_area g p x y) p x y
        have hnext : (g.players p).next_ind + 1 ≤ 4294967296 := by
          have h1 := hfit p
          rw [← hg', hch.same p] at h1
          have h2 : ((fresh_area g p x y).players p).next_ind ≤ 4294967296 := h1
          rw [fresh_area_players, if_pos rfl] at h2
          have h3 : inc64 (g.players p).next_ind ≤ 4294967296 := h2
          have h4 := hg.core.fit p
          rw [inc64_small _ (by omega)] at h3
          exact h3
        obtain ⟨k1, k2⟩ := fresh_area_good g hg p x y hcond.1 hcond.2.1 hcond.2.2 hno hlt hnext
        rw [← hb, ← hg']
        refine ⟨⟨fun _ => ⟨hcond.1, hcond.2.1, hcond.2.2, Or.inr hlt⟩, fun _ => rfl⟩, ?_, ?_⟩
        · intro hf
          exact absurd hf (by simp)
        · intro _
          exact ⟨k1, k2⟩
      · rw [if_neg hlt] at h
        simp only [Option.some.injEq, Prod.mk.injEq] at h
        obtain ⟨hb, hg'⟩ := h
        rw [← hb, ← hg']
        refine ⟨⟨fun hf => absurd hf (by simp), ?_⟩, fun _ => rfl, fun hf => absurd hf (by simp)⟩
        rintro ⟨_, _, _, h4 | h4⟩
        · exact absurd h4 hno
        · exact absurd h4 hlt
  · rw [if_neg hcond] at h
    simp only [Option.some.injEq, Prod.mk.injEq] at h
    obtain ⟨hb, hg'⟩ := h
    rw [← hb, ← hg']
    refine ⟨⟨fun hf => absurd hf (by simp), ?_⟩, fun _ => rfl, fun hf => absurd hf (by simp)⟩
    rintro ⟨h1, h2, h3, _⟩
    exact absurd (And.intro h1 (And.intro h2 h3)) hcond

/-- With recursion depth above the number of cells `gamma_move` returns. -/
theorem gamma_move_total (fuel : Nat) (g : gamma_t) (p x y : Nat) (hg : Good g)
    (hfuel : g.width * g.heigth < fuel) : ∃ r, gamma_move fuel g p x y = some r := by
  rw [gamma_move_unfold]
  by_cases hcond : coords_are_fine x y g ∧ player_is_fine p g ∧ g.board x y = EMPTY
  · rw [if_pos hcond]
    have i0 := MoveInv.init g hg p x y hcond.1 hcond.2.1 hcond.2.2
    obtain ⟨g1, e1⟩ := gamma_move_dir_total fuel g p x y 0 hfuel
    have i1 := i0.step (by omega) fuel e1
    obtain ⟨g2, e2⟩ := gamma_move_dir_total fuel g1 p x y 1
      (by rw [i1.width_eq, i1.heigth_eq]; exact hfuel)
    have i2 := i1.step (by omega) fuel e2
    obtain ⟨g3, e3⟩ := gamma_move_dir_total fuel g2 p x y 2
      (by rw [i2.width_eq, i2.heigth_eq]; exact hfuel)
    have i3 := i2.step (by omega) fuel e3
    obtain ⟨g4, e4⟩ := gamma_move_dir_total fuel g3 p x y 3
      (by rw [i3.width_eq, i3.heigth_eq]; exact hfuel)
    rw [e1, Option.some_bind, e2, Option.some_bind, e3, Option.some_bind, e4, Option.some_bind]
    by_cases h0 : g4.indexes x y ≠ EMPTY
    · rw [if_pos h0]
      exact ⟨_, rfl⟩
    · rw [if_neg h0]
      by_cases hlt : (g4.players p).areas < g4.max_areas
      · rw [if_pos hlt]
        exact ⟨_, rfl⟩
      · rw [if_neg hlt]
        exact ⟨_, rfl⟩
  · rw [if_neg hcond]
    exact ⟨_, rfl⟩

/-- Whether `gamma_move` accepts does not depend on the ids still fitting: the
move is accepted exactly when it is legal, and a rejected move changes nothing. -/
theorem gamma_move_accepts (fuel : Nat) (g : gamma_t) (p x y : Nat) (b : Bool) (g' : gamma_t)
    (hg : Good g) (h : gamma_move fuel g p x y = some (b, g')) :
    (b = true ↔ legal_move g p x y) ∧ (b = false → g' = g) := by
  rw [gamma_move_unfold] at h
  by_cases hcond : coords_are_fine x y g ∧ player_is_fine p g ∧ g.board x y = EMPTY
  · rw [if_pos hcond] at h
    simp only [Option.bind_eq_some] at h
    obtain ⟨g1, e1, g2, e2, g3, e3, g4, e4, h⟩ := h
    have hinv := gamma_move_loop hg hcond.1 hcond.2.1 hcond.2.2 e1 e2 e3 e4
    by_cases h0 : g4.indexes x y ≠ EMPTY
    · rw [if_pos h0] at h
      simp only [Option.some.injEq, Prod.mk.injEq] at h
      obtain ⟨hb, -⟩ := h
      obtain ⟨-, -, k3⟩ := hinv.finish_contact hg hcond.2.2 h0
      rw [← hb]
      exact ⟨⟨fun _ => ⟨hcond.1, hcond.2.1, hcond.2.2, Or.inl k3⟩, fun _ => rfl⟩,
        fun hf => absurd hf (by simp)⟩
    · rw [if_neg h0] at h
      obtain ⟨e, hno⟩ := hinv.no_contact (not_not.1 h0)
      rw [e] at h
      by_cases hlt : (g.players p).areas < g.max_areas
      · rw [if_pos hlt] at h
        simp only [Option.some.injEq, Prod.mk.injEq] at h
        obtain ⟨hb, -⟩ := h
        rw [← hb]
        exact ⟨⟨fun _ => ⟨hcond.1, hcond.2.1, hcond.2.2, Or.inr hlt⟩, fun _ => rfl⟩,
          fun hf => absurd hf (by simp)⟩
      · rw [if_neg hlt] at h
        simp only [Option.some.injEq, Prod.mk.injEq] at h
        obtain ⟨hb, hg'⟩ := h
        rw [← hb, ← hg']
        refine ⟨⟨fun hf => absurd hf (by simp), ?_⟩, fun _ => rfl⟩
        rintro ⟨_, _, _, h4 | h4⟩
        · exact absurd h4 hno
        · exact absurd h4 hlt
  · rw [if_neg hcond] at h
    simp only [Option.some.injEq, Prod.mk.injEq] at h
    obtain ⟨hb, hg'⟩ := h
    rw [← hb, ← hg']
    refine ⟨⟨fun hf => absurd hf (by simp), ?_⟩, fun _ => rfl⟩
    rintro ⟨h1, h2, h3, _⟩
    exact absurd (And.intro h1 (And.intro h2 h3)) hcond

theorem SplitInv.skip_split {v old x y k : Nat} {g : gamma_t} (h : SplitInv v old x y k g)
    (hn : ¬ White g v old (nbx x k) (nby y k)) : SplitInv v old x y (k + 1) g := by
  refine { h with pending := ?_ }
  intro c d hw
  obtain ⟨j, h1, h2, h3, h4⟩ := h.pending c d hw
  have : j ≠ k := by
    rintro rfl
    exact hn h3
  exact ⟨j, by omega, h2, h3, h4⟩

/-- Relabelling the piece reached from the neighbour in direction `k` with an id
`t` that is new for `v`, or that is the id of `(x, y)` and of cells connected to
it, keeps the invariant. -/
theorem SplitInv.relabel {v old t x y k : Nat} {g g1 : gamma_t} (h : SplitInv v old x y k g)
    (hk : k < 4) (hw : White g v old (nbx x k) (nby y k))
    (hr : Relabelled g v old t (nbx x k) (nby y k) g1) (ht : old ≠ t) (ht1 : 1 ≤ t)
    (ht2 : t < (g.players v).next_ind)
    (hjoin : ∀ c d, White g v t c d → White g v t x y ∧ Reach g v t x y c d) :
    SplitInv v old x y (k + 1) g1 := by
  have hs := h.core.sized
  have hs1 := hr.sized hs
  have hin : ∀ a b, g.board a b ≠ EMPTY → coords_are_fine a b g :=
    fun a b hab => (h.core.owner_ok a b hab).1
  have hzfine1 : coords_are_fine x y g1 := by
    unfold coords_are_fine
    rw [hr.width_relab, hr.heigth_relab]
    exact h.zfine
  -- every cell with the id `t` afterwards is reached from the neighbour
  have hhub : ∀ c d, White g1 v t c d →
      Reach g1 v t (nbx x k) (nby y k) c d := by
    intro c d hc
    have hcb : g.board c d = v := by rw [← hr.board_relab]; exact hc.2.1
    have hcc : coords_are_fine c d g := by
      have := hc.1
      unfold coords_are_fine at this ⊢
      rw [hr.width_relab, hr.heigth_relab] at this
      exact this
    rcases hr.indexes_eq c d with ⟨hrc, _⟩ | ⟨_, e⟩
    · exact hr.reach_new _ _ c d (Reach.seed hw) hrc
    · have hwc : White g v t c d := ⟨hcc, hcb, e.symm.trans hc.2.2⟩
      obtain ⟨hwz, hrz⟩ := hjoin c d hwc
      have r1 : Reach g1 v t x y c d := hr.reach_keep ht _ _ _ _ hrz
      have hback := nb_back g.width g.heigth x y k hk hs.width_lt hs.heigth_lt
        h.zfine.1 h.zfine.2 hw.1.1 hw.1.2
      have r0 : Reach g1 v t (nbx x k) (nby y k)
          (nbx (nbx x k) (opp k)) (nby (nby y k) (opp k)) :=
        Reach.step _ _ (opp k) (Reach.seed (hr.white_new _ _ (Reach.seed hw))) (opp_lt k)
          (by rw [hback.1, hback.2]; exact hr.white_keep ht x y hwz)
      rw [hback.1, hback.2] at r0
      exact r0.trans r1
  refine
    { core := hr.core h.core h.vne ht1 ht2, border_ok := hr.border_ok h.border_ok,
      zfine := hzfine1, vne := h.vne, adj := hr.adj hs h.adj hin, conn := ?_,
      pending := ?_, zfree := ?_ }
  · -- conn
    intro a b c d hab hex hsame hidx
    have hab0 : g.board a b ≠ EMPTY := by rw [← hr.board_relab]; exact hab
    have hac : coords_are_fine a b g1 := by
      have := hin a b hab0
      unfold coords_are_fine at this ⊢
      rw [hr.width_relab, hr.heigth_relab]
      exact this
    have hcc : coords_are_fine c d g1 := by
      have := hin c d (by rw [← hr.board_relab, hsame]; exact hab)
      unfold coords_are_fine at this ⊢
      rw [hr.width_relab, hr.heigth_relab]
      exact this
    by_cases hq : g1.board a b = v
    · by_cases hi : g1.indexes a b = t
      · rw [hq, hi]
        have wa : White g1 v t a b := ⟨hac, hq, hi⟩
        have wc : White g1 v t c d := ⟨hcc, hsame.trans hq, hidx.trans hi⟩
        exact ((hhub a b wa).symm hs1).trans (hhub c d wc)
      · have hio : g1.indexes a b ≠ old := fun e => hex ⟨hq, e⟩
        have ha1 : g1.indexes a b = g.indexes a b := by
          rcases hr.indexes_eq a b with ⟨_, e⟩ | ⟨_, e⟩
          · exact absurd e hi
          · exact e
        have hc1 : g1.indexes c d = g.indexes c d := by
          rcases hr.indexes_eq c d with ⟨_, e⟩ | ⟨_, e⟩
          · exact absurd (hidx.symm.trans e) hi
          · exact e
        have hold := h.conn a b c d hab0
          (by rw [← ha1, ← hr.board_relab]; exact hex)
          (by rw [← hr.board_relab]; exact hsame) (by rw [← ha1, ← hc1]; exact hidx)
        rw [hr.board_relab, ha1]
        rw [ha1] at hi hio
        rw [hr.board_relab] at hq
        exact (hr.reach_other _ _ (Or.inr ⟨hio, hi⟩) _ _ _ _).2 hold
    · have hq0 : g.board a b ≠ v := by rw [← hr.board_relab]; exact hq
      have ha1 : g1.indexes a b = g.indexes a b := hr.other_owner _ _ hq0
      have hc1 : g1.indexes c d = g.indexes c d :=
        hr.other_owner _ _ (by rw [← hr.board_relab, hsame]; exact hq)
      have hold := h.conn a b c d hab0 (fun e => hq0 e.1)
        (by rw [← hr.board_relab]; exact hsame) (by rw [← ha1, ← hc1]; exact hidx)
      rw [hr.board_relab, ha1]
      exact (hr.reach_other _ _ (Or.inl hq0) _ _ _ _).2 hold
  · -- pending
    intro c d hc
    have hcw : White g v old c d := by
      have hcc : coords_are_fine c d g := by
        have := hc.1
        unfold coords_are_fine at this ⊢
        rw [hr.width_relab, hr.heigth_relab] at this
        exact this
      refine ⟨hcc, by rw [← hr.board_relab]; exact hc.2.1, ?_⟩
      rcases hr.indexes_eq c d with ⟨_, e⟩ | ⟨_, e⟩
      · exact absurd (hc.2.2.symm.trans e) ht
      · rw [← e]; exact hc.2.2
    have hcn : ¬ Reach g v old (nbx x k) (nby y k) c d := by
      intro hrc
      exact ht (hc.2.2.symm.trans (hr.hit c d hrc))
    obtain ⟨j, h1, h2, h3, h4⟩ := h.pending c d hcw
    have hjn : ¬ Reach g v old (nbx x k) (nby y k) (nbx x j) (nby y j) :=
      fun hrj => hcn (hrj.trans h4)
    have hjk : j ≠ k := by
      rintro rfl
      exact hjn (Reach.seed hw)
    have r := hr.reach_old hs _ _ c d hjn h4
    exact ⟨j, by omega, h2, r.white_seed, r⟩
  · intro hz
    apply h.zfree
    refine ⟨h.zfine, by rw [← hr.board_relab]; exact hz.2.1, ?_⟩
    rcases hr.indexes_eq x y with ⟨_, e⟩ | ⟨_, e⟩
    · exact absurd (hz.2.2.symm.trans e) ht
    · rw [← e]; exact hz.2.2

/-- At the end of the loop no cell carries the old id. -/
theorem SplitInv.none_left {v old x y : Nat} {g : gamma_t} (h : SplitInv v old x y 4 g)
    (c d : Nat) : ¬ White g v old c d := by
  intro hw
  obtain ⟨j, h1, h2, _⟩ := h.pending c d hw
  omega

theorem SplitInv.conn_all {v old x y : Nat} {g : gamma_t} (h : SplitInv v old x y 4 g) :
    IdsConn g EMPTY EMPTY := by
  intro a b c d hab _ hsame hidx
  apply h.conn a b c d hab _ hsame hidx
  rintro ⟨h1, h2⟩
  exact h.none_left a b ⟨(h.core.owner_ok a b hab).1, h1, h2⟩

theorem SplitInv.areas_all {v old x y : Nat} {g : gamma_t} (h : SplitInv v old x y 4 g)
    (ha : AreasOk g v old) : AreasOk g EMPTY EMPTY := by
  apply AreasOk.of_plain
  intro q hq
  rw [ha q hq]
  congr 1
  apply Finset.filter_true_of_mem
  intro i hi hex
  rw [mem_area_ids] at hi
  obtain ⟨a, b, hw⟩ := hi
  rw [hex.1, hex.2] at hw
  exact h.none_left a b hw

/-! ## Area ids after a relabelling -/

theorem Relabelled.area_ids_other {g g1 : gamma_t} {v f t x y : Nat}
    (hr : Relabelled g v f t x y g1) (q : Nat) (hq : q ≠ v) :
    area_ids g1 q = area_ids g q := by
  ext i
  rw [mem_area_ids, mem_area_ids]
  simp only [hr.white_other q i _ _ (Or.inl hq)]

/-- Relabelling a piece of the area `f` adds the id `t` to the ids other than `f`. -/
theorem Relabelled.area_ids_split {g g1 : gamma_t} {v f t x y : Nat}
    (hr : Relabelled g v f t x y g1) (hw : White g v f x y) (hft : f ≠ t) :
    ((area_ids g1 v).filter fun i => ¬ (v = v ∧ i = f))
      = insert t ((area_ids g v).filter fun i => ¬ (v = v ∧ i = f)) := by
  ext i
  simp only [Finset.mem_filter, Finset.mem_insert, mem_area_ids, true_and]
  constructor
  · rintro ⟨⟨a, b, hwa⟩, hif⟩
    by_cases hit : i = t
    · exact Or.inl hit
    · right
      exact ⟨⟨a, b, (hr.white_other v i a b (Or.inr ⟨hif, hit⟩)).1 hwa⟩, hif⟩
  · rintro (hit | ⟨⟨a, b, hwa⟩, hif⟩)
    · rw [hit]
      exact ⟨⟨x, y, hr.white_new x y (Reach.seed hw)⟩, fun e => hft e.symm⟩
    · by_cases hit : i = t
      · rw [hit]
        exact ⟨⟨x, y, hr.white_new x y (Reach.seed hw)⟩, fun e => hft e.symm⟩
      · exact ⟨⟨a, b, (hr.white_other v i a b (Or.inr ⟨hif, hit⟩)).2 hwa⟩, hif⟩

theorem Reach_with_players (g : gamma_t) (ps : Nat → player) (p f x y a b : Nat) :
    Reach { g with players := ps } p f x y a b ↔ Reach g p f x y a b := by
  constructor
  · intro h
    induction h with
    | seed hw => exact Reach.seed hw
    | step a b i _ hi hw ih => exact Reach.step a b i ih hi hw
  · intro h
    induction h with
    | seed hw => exact Reach.seed hw
    | step a b i _ hi hw ih => exact Reach.step a b i ih hi hw

/-- A relabelled game with other player records is the relabelling of the game
with those records. -/
theorem Relabelled.with_players {g g1 : gamma_t} {v f t x y : Nat}
    (hr : Relabelled g v f t x y g1) (ps : Nat → player) :
    Relabelled { g with players := ps } v f t x y { g1 with players := ps } := by
  refine ⟨?_, ?_, ?_⟩
  · have := hr.frame
    show _ = { ({ g with players := ps } : gamma_t) with indexes := g1.indexes }
    rw [this]
  · intro a b hab
    exact hr.hit a b ((Reach_with_players g ps _ _ _ _ _ _).1 hab)
  · intro a b hab
    exact hr.miss a b (fun h => hab ((Reach_with_players g ps _ _ _ _ _ _).2 h))

/-- The walk from a cell to another cell leaves through a neighbour and then
avoids the first cell. -/
theorem Reach.first_step {g ga : gamma_t} {v f x y c d : Nat} (hr : Reach g v f x y c d)
    (hne : ¬ (c = x ∧ d = y))
    (hwa : ∀ a b, ¬ (a = x ∧ b = y) → White g v f a b → White ga v f a b) :
    ∃ j, j < 4 ∧ White g v f (nbx x j) (nby y j) ∧ Reach ga v f (nbx x j) (nby y j) c d := by
  induction hr with
  | seed _ => exact absurd ⟨rfl, rfl⟩ hne
  | step a b i hr hi hw ih =>
    by_cases hab : a = x ∧ b = y
    · rw [hab.1, hab.2] at hw hne ⊢
      exact ⟨i, hi, hw, Reach.seed (hwa _ _ hne hw)⟩
    · obtain ⟨j, hj, hwj, hrj⟩ := ih hab
      exact ⟨j, hj, hwj, Reach.step a b i hrj hi (hwa _ _ hne hw)⟩

theorem NextSame.refl_same (g : gamma_t) : NextSame g g := fun _ => rfl

theorem NextSame.trans_same {g1 g2 g3 : gamma_t} (h1 : NextSame g1 g2) (h2 : NextSame g2 g3) :
    NextSame g1 g3 := fun q => (h2 q).trans (h1 q)

theorem NextSame.step_same {g g' : gamma_t} (h : NextSame g g') : NextStep g g' :=
  fun q => Or.inl (h q)

theorem NextSame.then_step {g1 g2 g3 : gamma_t} (h1 : NextSame g1 g2) (h2 : NextStep g2 g3) :
    NextStep g1 g3 := by
  intro q
  rcases h2 q with e | e
  · exact Or.inl (e.trans (h1 q))
  · exact Or.inr (by rw [e, h1 q])

theorem NextStep.then_same {g1 g2 g3 : gamma_t} (h1 : NextStep g1 g2) (h2 : NextSame g2 g3) :
    NextStep g1 g3 := by
  intro q
  rcases h1 q with e | e
  · exact Or.inl ((h2 q).trans e)
  · exact Or.inr ((h2 q).trans e)

/-- Below the wrap-around of `muint` a step never decreases a counter. -/
theorem NextStep.bound {g g' : gamma_t} (h : NextStep g g') (B : Nat)
    (hB : B < 18446744073709551615) (hg : ∀ q, (g.players q).next_ind ≤ B) :
    ∀ q, (g.players q).next_ind ≤ (g'.players q).next_ind
      ∧ (g'.players q).next_ind ≤ B + 1 := by
  intro q
  have := hg q
  rcases h q with e | e
  · rw [e]; omega
  · rw [e, inc64_small _ (by omega)]; omega

theorem BorderChange.next_same {g g' : gamma_t} (h : BorderChange g g') : NextSame g g' := by
  intro q
  rw [h.same q]

theorem reindexify_next {fuel : Nat} {g g' : gamma_t} {p x y f t : Nat}
    (h : reindexify fuel g p x y f t = some g') : NextSame g g' := by
  intro q
  have := reindexify_frame p f t fuel g g' x y h
  rw [this]

theorem gamma_move_dir_next {fuel : Nat} {g g' : gamma_t} {p x y i : Nat}
    (h : gamma_move_dir fuel g p x y i = some g') : NextSame g g' := by
  unfold gamma_move_dir at h
  split at h
  · split at h
    · simp only [Option.some.injEq] at h
      rw [← h]
      intro q
      show ((set_at g.players p _) q).next_ind = _
      rw [set_at_apply]
      by_cases hq : q = p
      · rw [if_pos hq, hq]
      · rw [if_neg hq]
    · split at h
      · simp only [Option.map_eq_some'] at h
        obtain ⟨g1, e1, e2⟩ := h
        rw [← e2]
        intro q
        show ((set_at g1.players p _) q).next_ind = _
        rw [set_at_apply]
        by_cases hq : q = p
        · rw [if_pos hq, hq]
          exact reindexify_next e1 p
        · rw [if_neg hq]
          exact reindexify_next e1 q
      · simp only [Option.some.injEq] at h
        rw [← h]
        exact NextSame.refl_same g
  · simp only [Option.some.injEq] at h
    rw [← h]
    exact NextSame.refl_same g

theorem place_and_update_next (G : gamma_t) (p x y : Nat) :
    NextSame G (place_and_update G p x y) := by
  intro q
  rw [(place_and_update_change G p x y).same q]

theorem fresh_area_next (g : gamma_t) (p x y : Nat) : NextStep g (fresh_area g p x y) := by
  intro q
  rw [fresh_area_players]
  by_cases hq : q = p
  · rw [if_pos hq, hq]
    exact Or.inr rfl
  · rw [if_neg hq]
    exact Or.inl rfl

/-- `gamma_move` increments at most one id counter, once. -/
theorem gamma_move_next {fuel : Nat} {g g' : gamma_t} {p x y : Nat} {b : Bool}
    (h : gamma_move fuel g p x y = some (b, g')) : NextStep g g' := by
  rw [gamma_move_unfold] at h
  split at h
  · simp only [Option.bind_eq_some] at h
    obtain ⟨g1, e1, g2, e2, g3, e3, g4, e4, h⟩ := h
    have h4 : NextSame g g4 :=
      (((gamma_move_dir_next e1).trans_same (gamma_move_dir_next e2)).trans_same
        (gamma_move_dir_next e3)).trans_same (gamma_move_dir_next e4)
    split at h
    · simp only [Option.some.injEq, Prod.mk.injEq] at h
      rw [← h.2]
      exact (h4.trans_same (place_and_update_next g4 p x y)).step_same
    · split at h
      · simp only [Option.some.injEq, Prod.mk.injEq] at h
        rw [← h.2]
        exact (h4.then_step (fresh_area_next g4 p x y)).then_same
          (place_and_update_next _ p x y)
      · simp only [Option.some.injEq, Prod.mk.injEq] at h
        rw [← h.2]
        exact h4.step_same
  · simp only [Option.some.injEq, Prod.mk.injEq] at h
    rw [← h.2]
    exact (NextSame.refl_same g).step_same

theorem Vacated.fine_iff {g0 ga : gamma_t} {v x y : Nat} (h : Vacated g0 v x y ga)
    (a b : Nat) : coords_are_fine a b ga ↔ coords_are_fine a b g0 := by
  unfold coords_are_fine
  rw [h.width_eq, h.heigth_eq]

theorem Vacated.board_other {g0 ga : gamma_t} {v x y : Nat} (h : Vacated g0 v x y ga)
    (a b : Nat) (hne : ¬ (a = x ∧ b = y)) : ga.board a b = g0.board a b := by
  rw [h.board_eq, set_cell_apply, if_neg hne]

theorem Vacated.indexes_other {g0 ga : gamma_t} {v x y : Nat} (h : Vacated g0 v x y ga)
    (a b : Nat) (hne : ¬ (a = x ∧ b = y)) : ga.indexes a b = g0.indexes a b := by
  rw [h.indexes_eq, set_cell_apply, if_neg hne]

theorem Vacated.board_z {g0 ga : gamma_t} {v x y : Nat} (h : Vacated g0 v x y ga) :
    ga.board x y = EMPTY := by
  rw [h.board_eq, set_cell_same]

theorem Vacated.indexes_z {g0 ga : gamma_t} {v x y : Nat} (h : Vacated g0 v x y ga) :
    ga.indexes x y = EMPTY := by
  rw [h.indexes_eq, set_cell_same]

theorem Vacated.white_iff {g0 ga : gamma_t} {v x y : Nat} (h : Vacated g0 v x y ga)
    (q f a b : Nat) (hne : ¬ (a = x ∧ b = y)) : White ga q f a b ↔ White g0 q f a b := by
  unfold White
  rw [h.fine_iff, h.board_other a b hne, h.indexes_other a b hne]

theorem Vacated.not_white_z {g0 ga : gamma_t} {v x y : Nat} (h : Vacated g0 v x y ga)
    (q f : Nat) (hq : q ≠ EMPTY) : ¬ White ga q f x y := by
  intro hw
  exact hq (hw.2.1.symm.trans h.board_z)

theorem Vacated.white_sub_vac {g0 ga : gamma_t} {v x y : Nat} (h : Vacated g0 v x y ga)
    (q f a b : Nat) (hq : q ≠ EMPTY) (hw : White ga q f a b) : White g0 q f a b := by
  by_cases hne : a = x ∧ b = y
  · rw [hne.1, hne.2] at hw
    exact absurd hw (h.not_white_z q f hq)
  · exact (h.white_iff q f a b hne).1 hw

theorem Vacated.core_vac {g0 ga : gamma_t} {v x y : Nat} (h : Vacated g0 v x y ga)
    (hg : Core g0) (hz : coords_are_fine x y g0) (hv : g0.board x y = v)
    (hv0 : v ≠ EMPTY) : Core ga := by
  have hs : Sized g0 := hg.sized
  have hoc : ∀ q, owned_cells ga q
      = owned_cells { g0 with board := set_cell g0.board x y EMPTY } q :=
    fun q => @owned_cells_congr { g0 with board := set_cell g0.board x y EMPTY } ga
      h.board_eq h.width_eq h.heigth_eq q
  refine ⟨⟨?_, ?_, ?_, ?_⟩, ?_, ?_, ?_, h.fit, ?_, ?_, ?_⟩
  · rw [h.width_eq]; exact hs.width_lt
  · rw [h.heigth_eq]; exact hs.heigth_lt
  · rw [h.number_eq]; exact hs.players_lt
  · rw [h.max_eq]; exact hs.areas_lt
  · intro a b hab
    by_cases hne : a = x ∧ b = y
    · rw [hne.1, hne.2] at hab
      exact absurd h.board_z hab
    · rw [h.board_other a b hne] at hab ⊢
      rw [h.fine_iff, h.number_eq]
      exact hg.owner_ok a b hab
  · intro a b hab
    by_cases hne : a = x ∧ b = y
    · rw [hne.1, hne.2]
      exact h.indexes_z
    · rw [h.board_other a b hne] at hab
      rw [h.indexes_other a b hne]
      exact hg.idx_empty a b hab
  · intro a b hab
    by_cases hne : a = x ∧ b = y
    · rw [hne.1, hne.2] at hab
      exact absurd h.board_z hab
    · rw [h.board_other a b hne] at hab ⊢
      rw [h.indexes_other a b hne]
      have := hg.idx_owned a b hab
      have := h.next_ge (g0.board a b)
      omega
  · intro p hp
    have h1 : player_is_fine p g0 := by
      unfold player_is_fine at hp ⊢
      rw [h.number_eq] at hp
      exact hp
    have := hg.next_pos p h1
    have := h.next_ge p
    omega
  · intro p hp
    rw [hoc]
    by_cases hpv : p = v
    · rw [hpv, h.fields_v, hg.fields_ok v hv0]
      have e := owned_cells_set_old g0 x y v EMPTY hz hv (fun e => hv0 e.symm)
      have := owned_cells_le g0 v
      have := cells_lt g0 hs
      rw [dec64_pos _ (by omega) (by omega)]
      omega
    · rw [h.fields_o p hpv, hg.fields_ok p hp]
      rw [owned_cells_set_other g0 x y EMPTY p (by rw [hv]; exact fun e => hpv e.symm)
        (fun e => hp e.symm)]
  · rw [h.busy_eq, hg.busy_ok,
      @busy_cells_congr { g0 with board := set_cell g0.board x y EMPTY } ga
        h.board_eq h.width_eq h.heigth_eq]
    have e := busy_cells_set_old g0 x y hz (by rw [hv]; exact hv0)
    have := busy_cells_le g0
    have := cells_lt g0 hs
    rw [dec64_pos _ (by omega) (by omega)]
    omega

/-- After the cell is emptied, the cells that carried its area id wait to be
renumbered, each one reachable from a neighbour of the emptied cell. -/
theorem Vacated.split {g0 ga : gamma_t} {v x y : Nat} (h : Vacated g0 v x y ga)
    (hg : Good g0) (hz : coords_are_fine x y g0) (hv : g0.board x y = v)
    (hv0 : v ≠ EMPTY) (k : Nat)
    (hk : ∀ j, j < k →
      ¬ (coords_are_fine (nbx x j) (nby y j) g0 ∧ g0.board (nbx x j) (nby y j) = v)) :
    SplitInv v (g0.indexes x y) x y k ga := by
  have hcore := h.core_vac hg.core hz hv hv0
  refine ⟨hcore, h.border_ok, (h.fine_iff x y).2 hz, hv0, ?_, ?_, ?_, ?_⟩
  · intro a b i hi h1 h2 hab hf hb
    rw [h.board_other _ _ h2, h.board_other _ _ h1] at hb
    rw [h.board_other _ _ h1] at hab
    rw [h.indexes_other _ _ h2, h.indexes_other _ _ h1]
    exact hg.adj a b i hi (fun f => f) (fun f => f) hab ((h.fine_iff _ _).1 hf) hb
  · intro a b c d hab hex hcd hi
    have hne : ¬ (a = x ∧ b = y) := by
      intro e
      rw [e.1, e.2] at hab
      exact hab h.board_z
    have hne2 : ¬ (c = x ∧ d = y) := by
      intro e
      rw [e.1, e.2, h.board_z] at hcd
      exact hab hcd.symm
    rw [h.board_other _ _ hne, h.indexes_other _ _ hne] at hex ⊢
    rw [h.board_other _ _ hne] at hab
    rw [h.board_other _ _ hne2, h.board_other _ _ hne] at hcd
    rw [h.indexes_other _ _ hne2, h.indexes_other _ _ hne] at hi
    have hr := hg.conn a b c d hab (fun e => hab e.1) hcd hi
    refine Reach.mono ?_ hr
    intro e f hw
    have hne3 : ¬ (e = x ∧ f = y) := by
      intro e3
      rw [e3.1, e3.2] at hw
      exact hex ⟨hw.2.1.symm.trans hv, hw.2.2.symm⟩
    exact (h.white_iff _ _ e f hne3).2 hw
  · intro c d hw
    have hw0 := h.white_sub_vac v _ c d hv0 hw
    have hne : ¬ (c = x ∧ d = y) := by
      intro e
      rw [e.1, e.2] at hw
      exact h.not_white_z v _ hv0 hw
    have hr : Reach g0 v (g0.indexes x y) x y c d := by
      have := hg.conn x y c d (by rw [hv]; exact hv0) (fun e => by rw [hv] at e; exact hv0 e.1)
        (hw0.2.1.trans hv.symm) hw0.2.2
      rw [hv] at this
      exact this
    obtain ⟨j, hj, hwj, hrj⟩ := hr.first_step hne
      (fun a b hab hwab => (h.white_iff v _ a b hab).2 hwab)
    refine ⟨j, ?_, hj, (h.white_iff v _ _ _ (nb_ne_self x y j hj)).2 hwj, hrj⟩
    by_contra hlt
    exact hk j (by omega) ⟨hwj.1, hwj.2.1⟩
  · exact h.not_white_z v _ hv0

/-- The ids of the other players are not touched. -/
theorem Vacated.area_ids_other_vac {g0 ga : gamma_t} {v x y : Nat} (h : Vacated g0 v x y ga)
    (hv : g0.board x y = v) (q : Nat) (hq : q ≠ EMPTY) (hqv : q ≠ v) :
    area_ids ga q = area_ids g0 q := by
  ext i
  rw [mem_area_ids, mem_area_ids]
  constructor
  · rintro ⟨a, b, hw⟩
    exact ⟨a, b, h.white_sub_vac q i a b hq hw⟩
  · rintro ⟨a, b, hw⟩
    have hne : ¬ (a = x ∧ b = y) := by
      intro e
      rw [e.1, e.2] at hw
      exact hqv (hw.2.1.symm.trans hv)
    exact ⟨a, b, (h.white_iff q i a b hne).2 hw⟩

/-- The ids of the former owner, the id of the emptied cell left aside. -/
theorem Vacated.area_ids_rest {g0 ga : gamma_t} {v x y : Nat} (h : Vacated g0 v x y ga)
    (hv : g0.board x y = v) (hv0 : v ≠ EMPTY) :
    ((area_ids ga v).filter fun i => ¬ (v = v ∧ i = g0.indexes x y))
      = (area_ids g0 v).erase (g0.indexes x y) := by
  ext i
  rw [Finset.mem_filter, Finset.mem_erase, mem_area_ids, mem_area_ids]
  constructor
  · rintro ⟨⟨a, b, hw⟩, hi⟩
    exact ⟨fun e => hi ⟨rfl, e⟩, a, b, h.white_sub_vac v i a b hv0 hw⟩
  · rintro ⟨hi, a, b, hw⟩
    have hne : ¬ (a = x ∧ b = y) := by
      intro e
      rw [e.1, e.2] at hw
      exact hi hw.2.2.symm
    exact ⟨⟨a, b, (h.white_iff v i a b hne).2 hw⟩, fun e => hi e.2⟩

theorem area_ids_old_mem {g0 : gamma_t} {v x y : Nat}
    (hz : coords_are_fine x y g0) (hv : g0.board x y = v) :
    g0.indexes x y ∈ area_ids g0 v := by
  rw [mem_area_ids]
  exact ⟨x, y, hz, hv, rfl⟩

/-! ## The removal phase of `gamma_golden_move` -/

theorem BorderChange.rest {g g' : gamma_t} (h : BorderChange g g') :
    g'.number_of_players = g.number_of_players ∧ g'.max_areas = g.max_areas
      ∧ g'.busy_fields = g.busy_fields
      ∧ g'.fields_of_wider_players = g.fields_of_wider_players
      ∧ g'.golden_moves_used = g.golden_moves_used := by
  rw [h.frame]
  exact ⟨rfl, rfl, rfl, rfl, rfl⟩

theorem BorderChange.player {g g' : gamma_t} (h : BorderChange g g') (q : Nat) :
    (g'.players q).fields = (g.players q).fields
      ∧ (g'.players q).areas = (g.players q).areas
      ∧ (g'.players q).free_golden_move = (g.players q).free_golden_move
      ∧ (g'.players q).next_ind = (g.players q).next_ind := by
  rw [h.same q]
  exact ⟨rfl, rfl, rfl, rfl⟩

/-- Emptying a cell, bringing the borders up to date and uncounting the cell. -/
theorem vacated_uncount (g G3 : gamma_t) (p v x y : Nat) (hg : Good g)
    (hch : BorderChange { g with board := set_cell g.board x y EMPTY } G3)
    (hb : ∀ q, q ≠ EMPTY → (G3.players q).border
      = (border_cells { g with board := set_cell g.board x y EMPTY } q).card) :
    Vacated g v x y (uncount_field { G3 with indexes := set_cell G3.indexes x y EMPTY } p v) := by
  have hbd : G3.board = set_cell g.board x y EMPTY := hch.board
  have hix : G3.indexes = g.indexes := hch.indexes
  have hw : G3.width = g.width := hch.width
  have hh : G3.heigth = g.heigth := hch.heigth
  obtain ⟨hn, hm, hbusy, -, -⟩ := hch.rest
  have hpl : ∀ q, ((uncount_field { G3 with indexes := set_cell G3.indexes x y EMPTY }
      p v).players q) = if q = v then { G3.players v with fields := dec64 (G3.players v).fields }
        else G3.players q := by
    intro q
    show (set_at G3.players v _) q = _
    rw [set_at_apply]
  refine ⟨hbd, ?_, hw, hh, hn, hm, ?_, ?_, ?_, ?_, ?_, ?_⟩
  · show set_cell G3.indexes x y EMPTY = _
    rw [hix]
  · rw [hpl, if_pos rfl]
    show dec64 (G3.players v).fields = _
    rw [(hch.player v).1]
  · intro q hq
    rw [hpl, if_neg hq]
    exact (hch.player q).1
  · intro q
    rw [hpl]
    by_cases hq : q = v
    · rw [if_pos hq, hq]
      show (g.players v).next_ind ≤ (G3.players v).next_ind
      rw [(hch.player v).2.2.2]
    · rw [if_neg hq, (hch.player q).2.2.2]
  · intro q
    rw [hpl]
    by_cases hq : q = v
    · rw [if_pos hq]
      show (G3.players v).next_ind ≤ _
      rw [(hch.player v).2.2.2]
      exact hg.core.fit v
    · rw [if_neg hq, (hch.player q).2.2.2]
      exact hg.core.fit q
  · show dec64 G3.busy_fields = _
    rw [hbusy]
  · intro q hq
    have e : (((uncount_field { G3 with indexes := set_cell G3.indexes x y EMPTY }
        p v).players q)).border = (G3.players q).border := by
      rw [hpl]
      by_cases hqv : q = v
      · rw [if_pos hqv, hqv]
      · rw [if_neg hqv]
    rw [e, hb q hq]
    exact congrArg Finset.card (@border_cells_congr { g with board := set_cell g.board x y EMPTY }
      (uncount_field { G3 with indexes := set_cell G3.indexes x y EMPTY } p v)
      hbd hw hh q).symm

/-- Replacing the player records by ones with the same field and border
counters and id counters at least as large keeps the description. -/
theorem Vacated.bump {g0 ga : gamma_t} {v x y : Nat} (h : Vacated g0 v x y ga)
    (ps : Nat → player) (hf : ∀ q, (ps q).fields = (ga.players q).fields)
    (hb : ∀ q, (ps q).border = (ga.players q).border)
    (hn : ∀ q, (ga.players q).next_ind ≤ (ps q).next_ind)
    (hfit : ∀ q, (ps q).next_ind ≤ 4294967296) :
    Vacated g0 v x y { ga with players := ps } := by
  refine ⟨h.board_eq, h.indexes_eq, h.width_eq, h.heigth_eq, h.number_eq, h.max_eq,
    ?_, ?_, ?_, hfit, h.busy_eq, ?_⟩
  · show (ps v).fields = _
    rw [hf, h.fields_v]
  · intro q hq
    show (ps q).fields = _
    rw [hf, h.fields_o q hq]
  · intro q
    exact le_trans (h.next_ge q) (hn q)
  · intro q hq
    show (ps q).border = _
    rw [hb, h.border_ok q hq]
    exact congrArg Finset.card
      (@border_cells_congr ga { ga with players := ps } rfl rfl rfl q).symm

/-- What emptying and uncounting a cell leaves alone. -/
theorem vacated_uncount_frame (g G3 : gamma_t) (p v x y : Nat)
    (hch : BorderChange { g with board := set_cell g.board x y EMPTY } G3) :
    let U := uncount_field { G3 with indexes := set_cell G3.indexes x y EMPTY } p v
    U.golden_moves_used = g.golden_moves_used
    ∧ (U.fields_of_wider_players =
        if WIDE < p then dec64 g.fields_of_wider_players else g.fields_of_wider_players)
    ∧ ∀ q, (U.players q).next_ind = (g.players q).next_ind
        ∧ (U.players q).areas = (g.players q).areas
        ∧ (U.players q).free_golden_move = (g.players q).free_golden_move := by
  intro U
  obtain ⟨-, -, -, hwd, hgo⟩ := hch.rest
  refine ⟨hgo, ?_, ?_⟩
  · show (if WIDE < p then dec64 G3.fields_of_wider_players
      else G3.fields_of_wider_players) = _
    rw [hwd]
  · intro q
    have hpl : U.players q = if q = v then
        { G3.players v with fields := dec64 (G3.players v).fields } else G3.players q := by
      show (set_at G3.players v _) q = _
      rw [set_at_apply]
    rw [hpl]
    by_cases hq : q = v
    · rw [if_pos hq, hq]
      exact ⟨(hch.player v).2.2.2, (hch.player v).2.1, (hch.player v).2.2.1⟩
    · rw [if_neg hq]
      exact ⟨(hch.player q).2.2.2, (hch.player q).2.1, (hch.player q).2.2.1⟩

/-- The owner and id part of the invariant with other player records. -/
theorem Core.bump_core {g : gamma_t} (h : Core g) (ps : Nat → player)
    (hf : ∀ q, (ps q).fields = (g.players q).fields)
    (hn : ∀ q, (g.players q).next_ind ≤ (ps q).next_ind)
    (hfit : ∀ q, (ps q).next_ind ≤ 4294967296) : Core { g with players := ps } := by
  refine ⟨⟨h.sized.width_lt, h.sized.heigth_lt, h.sized.players_lt, h.sized.areas_lt⟩,
    h.owner_ok, h.idx_empty, ?_, hfit, ?_, ?_, h.busy_ok⟩
  · intro a b hab
    have h1 := h.idx_owned a b hab
    have h2 := hn (g.board a b)
    exact ⟨h1.1, lt_of_lt_of_le h1.2 h2⟩
  · intro q hq
    have := h.next_pos q hq
    have := hn q
    show 1 ≤ (ps q).next_ind
    omega
  · intro q hq
    show (ps q).fields = _
    rw [hf]
    exact h.fields_ok q hq

theorem SplitInv.bump_split {v old x y k : Nat} {g : gamma_t} (h : SplitInv v old x y k g)
    (ps : Nat → player) (hf : ∀ q, (ps q).fields = (g.players q).fields)
    (hb : ∀ q, (ps q).border = (g.players q).border)
    (hn : ∀ q, (g.players q).next_ind ≤ (ps q).next_ind)
    (hfit : ∀ q, (ps q).next_ind ≤ 4294967296) :
    SplitInv v old x y k { g with players := ps } := by
  refine ⟨h.core.bump_core ps hf hn hfit, ?_, h.zfine, h.vne, h.adj, ?_, ?_, h.zfree⟩
  · intro q hq
    show (ps q).border = _
    rw [hb]
    exact h.border_ok q hq
  · intro a b c d h1 h2 h3 h4
    exact (Reach_with_players g ps _ _ _ _ _ _).2 (h.conn a b c d h1 h2 h3 h4)
  · intro c d hw
    obtain ⟨j, h1, h2, h3, h4⟩ := h.pending c d hw
    exact ⟨j, h1, h2, h3, (Reach_with_players g ps _ _ _ _ _ _).2 h4⟩

/-- Renumbering the cells behind the neighbour in direction `k` with an id that
is not in use. -/
theorem fresh_relabel {g g5 : gamma_t} {v old x y k t : Nat} (ps : Nat → player)
    (hs : SplitInv v old x y k { g with players := ps })
    (hk : k < 4) (hw : White g v old (nbx x k) (nby y k))
    (hr : Relabelled g v old t (nbx x k) (nby y k) g5)
    (hold : old < t) (ht1 : 1 ≤ t) (ht2 : t < (ps v).next_ind)
    (hids : ∀ c d, g.board c d = v → g.indexes c d < t) :
    SplitInv v old x y (k + 1) { g5 with players := ps }
    ∧ ((area_ids g5 v).filter fun i => ¬ (v = v ∧ i = old))
        = insert t ((area_ids g v).filter fun i => ¬ (v = v ∧ i = old))
    ∧ t ∉ area_ids g v
    ∧ (∀ q, q ≠ v → area_ids g5 q = area_ids g q)
    ∧ (∀ a b, g.board a b ≠ v → g5.indexes a b = g.indexes a b) := by
  have hne : old ≠ t := by omega
  refine ⟨?_, hr.area_ids_split hw hne, ?_, fun q hq => hr.area_ids_other q hq,
    fun a b hab => hr.other_owner a b hab⟩
  · refine hs.relabel hk hw (hr.with_players ps) hne ht1 ht2 ?_
    intro c d hwt
    have := hids c d hwt.2.1
    have e : g.indexes c d = t := hwt.2.2
    omega
  · intro hmem
    rw [mem_area_ids] at hmem
    obtain ⟨a, b, hw2⟩ := hmem
    have := hids a b hw2.2.1
    have e : g.indexes a b = t := hw2.2.2
    omega

theorem to_uint_small (n : Nat) (h : n < 4294967296) : to_uint n = n :=
  Nat.mod_eq_of_lt h

/-- A second neighbour that still carries the old id starts an area of its own. -/
theorem Removing.fresh {g0 g g5 : gamma_t} {p v x y k : Nat}
    (h : Removing g0 p v x y k g) (hg0 : Core g0) (hv : g0.board x y = v) (hk : k < 4)
    (hw : White g v (g0.indexes x y) (nbx x k) (nby y k))
    (hr : Relabelled g v (g0.indexes x y) (to_uint (g.players v).next_ind)
      (nbx x k) (nby y k) g5)
    (hfit : inc64 (g.players v).next_ind ≤ 4294967296) :
    Removing g0 p v x y (k + 1)
      { g5 with
        players := set_at g5.players v
          { g5.players v with
            next_ind := inc64 (g5.players v).next_ind
            areas := inc32 (g5.players v).areas } } := by
  have hv0 : v ≠ EMPTY := h.split.vne
  have hcore := h.split.core
  have hn32 : (g.players v).next_ind < 4294967296 := by
    have := hcore.fit v
    unfold inc64 at hfit
    omega
  have hinc : inc64 (g.players v).next_ind = (g.players v).next_ind + 1 :=
    inc64_small _ (by omega)
  rw [to_uint_small _ hn32] at hr
  have hpl : g5.players = g.players := by rw [hr.frame]
  have hold : g0.indexes x y < (g.players v).next_ind := by
    have := hg0.idx_owned x y (by rw [hv]; exact hv0)
    rw [hv] at this
    have := h.next_v
    omega
  have hids : ∀ c d, g.board c d = v → g.indexes c d < (g.players v).next_ind := by
    intro c d hcd
    have := hcore.idx_owned c d (by rw [hcd]; exact hv0)
    rw [hcd] at this
    exact this.2
  rw [hpl, hinc]
  have hpq : ∀ q, set_at g.players v { g.players v with
      next_ind := (g.players v).next_ind + 1, areas := inc32 (g.players v).areas } q
      = if q = v then { g.players v with
          next_ind := (g.players v).next_ind + 1, areas := inc32 (g.players v).areas }
        else g.players q := fun q => set_at_apply _ _ _ _
  have hbump := h.split.bump_split (set_at g.players v { g.players v with
      next_ind := (g.players v).next_ind + 1, areas := inc32 (g.players v).areas })
    (by
      intro q
      rw [hpq]
      by_cases hqv : q = v
      · rw [if_pos hqv, hqv]
      · rw [if_neg hqv])
    (by
      intro q
      rw [hpq]
      by_cases hqv : q = v
      · rw [if_pos hqv, hqv]
      · rw [if_neg hqv])
    (by
      intro q
      rw [hpq]
      by_cases hqv : q = v
      · rw [if_pos hqv, hqv]
        exact Nat.le_succ _
      · rw [if_neg hqv])
    (by
      intro q
      rw [hpq]
      by_cases hqv : q = v
      · rw [if_pos hqv]
        exact hn32
      · rw [if_neg hqv]
        exact hcore.fit q)
  obtain ⟨h1, h2, h3, h4, h5⟩ := fresh_relabel _ hbump hk hw hr hold (by omega)
    (by rw [set_at_same]; exact Nat.lt_succ_self _) hids
  · have hb5 : g5.board = g.board := hr.board_relab
    have hcard := area_ids_lt g hcore v hv0
    have hsub : ((area_ids g v).filter fun i => ¬ (v = v ∧ i = g0.indexes x y)).card
        ≤ (area_ids g v).card := Finset.card_filter_le _ _
    refine ⟨h1, ?_, ?_, hr.width_relab.trans h.width_eq, hr.heigth_relab.trans h.heigth_eq,
      hr.number_of_players.trans h.number_eq, hr.max_areas.trans h.max_eq,
      hr.golden_used.trans h.golden_eq, ?_, ?_, ?_, ?_, hr.wider.trans h.wider, h.contact⟩
    · intro q hq
      show ((set_at g.players v _ q).areas) = ((area_ids g5 q).filter _).card
      rw [set_at_apply]
      by_cases hqv : q = v
      · rw [if_pos hqv, hqv, h2, Finset.card_insert_of_not_mem
          (fun hm => h3 (Finset.mem_of_mem_filter _ hm))]
        show inc32 (g.players v).areas = _
        have ha := h.areas_ok v hv0
        rw [inc32_small _ (by omega), ha]
      · rw [if_neg hqv, h4 q hqv]
        exact h.areas_ok q hq
    · show g5.board = _
      rw [hb5, h.board_eq]
    · intro q
      show ((set_at g.players v _ q).free_golden_move) = _
      rw [set_at_apply]
      by_cases hqv : q = v
      · rw [if_pos hqv, hqv]
        exact h.flag_eq v
      · rw [if_neg hqv]
        exact h.flag_eq q
    · intro q hq
      show ((set_at g.players v _ q).next_ind) = _
      rw [set_at_apply, if_neg hq]
      exact h.next_o q hq
    · show _ ≤ ((set_at g.players v _ v).next_ind)
      rw [set_at_same]
      have := h.next_v
      show _ ≤ (g.players v).next_ind + 1
      omega
    · intro a b hab
      show g5.indexes a b = _
      have hne : ¬ (a = x ∧ b = y) := by
        intro e
        rw [e.1, e.2] at hab
        exact hab hv
      have hgb : g.board a b ≠ v := by
        rw [h.board_eq, set_cell_apply, if_neg hne]
        exact hab
      rw [h5 a b hgb]
      exact h.idx_o a b hab

theorem vacate_first_change (g : gamma_t) (v x y : Nat) :
    BorderChange { g with board := set_cell g.board x y EMPTY }
      (lost_independent_borders
        (update_blank_all_neighbours { g with board := set_cell g.board x y EMPTY } x y)
        v x y) :=
  (update_blank_all_neighbours_eq _ x y).1.trans_change (lost_independent_borders_eq _ v x y).1

theorem vacate_first_vacated (g : gamma_t) (p v x y : Nat) (hg : Good g)
    (hz : coords_are_fine x y g) (hv : g.board x y = v) (hv0 : v ≠ EMPTY) :
    Vacated g v x y (vacate_first g p v x y) :=
  vacated_uncount g _ p v x y hg (vacate_first_change g v x y)
    (clear_border_ok g hg.core.sized x y v hz hv hv0 hg.border_ok)

theorem vacate_first_frame (g : gamma_t) (p v x y : Nat) :
    (vacate_first g p v x y).golden_moves_used = g.golden_moves_used
    ∧ ((vacate_first g p v x y).fields_of_wider_players =
        if WIDE < p then dec64 g.fields_of_wider_players else g.fields_of_wider_players)
    ∧ ∀ q, ((vacate_first g p v x y).players q).next_ind = (g.players q).next_ind
        ∧ ((vacate_first g p v x y).players q).areas = (g.players q).areas
        ∧ ((vacate_first g p v x y).players q).free_golden_move
            = (g.players q).free_golden_move :=
  vacated_uncount_frame g _ p v x y (vacate_first_change g v x y)

/-- The first neighbour owned by the victim: the cell is emptied and the cells
behind that neighbour get the id read before the loop. -/
theorem removing_first {g0 g5 : gamma_t} {p v x y k : Nat} (hg : Good g0)
    (hz : coords_are_fine x y g0) (hv : g0.board x y = v) (hv0 : v ≠ EMPTY) (hk : k < 4)
    (hno : ∀ j, j < k →
      ¬ (coords_are_fine (nbx x j) (nby y j) g0 ∧ g0.board (nbx x j) (nby y j) = v))
    (hnb : coords_are_fine (nbx x k) (nby y k) g0 ∧ g0.board (nbx x k) (nby y k) = v)
    (hr : Relabelled (vacate_first g0 p v x y) v (g0.indexes x y)
      (to_uint (g0.players v).next_ind) (nbx x k) (nby y k) g5)
    (hfit : inc64 (g0.players v).next_ind ≤ 4294967296) :
    Removing g0 p v x y (k + 1)
      { g5 with
        players := set_at g5.players v
          { g5.players v with next_ind := inc64 (g5.players v).next_ind } } := by
  have hU := vacate_first_vacated g0 p v x y hg hz hv hv0
  obtain ⟨hgo, hwd, hfr⟩ := vacate_first_frame g0 p v x y
  generalize vacate_first g0 p v x y = U at hU hgo hwd hfr hr
  have hcore := hg.core
  have hn32 : (g0.players v).next_ind < 4294967296 := by
    have := hcore.fit v
    unfold inc64 at hfit
    omega
  have hinc : inc64 (g0.players v).next_ind = (g0.players v).next_ind + 1 :=
    inc64_small _ (by omega)
  rw [to_uint_small _ hn32] at hr
  have hpl : g5.players = U.players := by rw [hr.frame]
  have hold : g0.indexes x y < (g0.players v).next_ind := by
    have := hcore.idx_owned x y (by rw [hv]; exact hv0)
    rw [hv] at this
    exact this.2
  have hids : ∀ c d, U.board c d = v → U.indexes c d < (g0.players v).next_ind := by
    intro c d hcd
    by_cases hne : c = x ∧ d = y
    · rw [hne.1, hne.2, hU.board_z] at hcd
      exact absurd hcd.symm hv0
    · rw [hU.board_other c d hne] at hcd
      rw [hU.indexes_other c d hne]
      have := hcore.idx_owned c d (by rw [hcd]; exact hv0)
      rw [hcd] at this
      exact this.2
  rw [hpl, (hfr v).1, hinc]
  have hpq : ∀ q, set_at U.players v { U.players v with
      next_ind := (g0.players v).next_ind + 1 } q
      = if q = v then { U.players v with next_ind := (g0.players v).next_ind + 1 }
        else U.players q := fun q => set_at_apply _ _ _ _
  have hV := hU.bump (set_at U.players v { U.players v with
      next_ind := (g0.players v).next_ind + 1 })
    (by
      intro q
      rw [hpq]
      by_cases hqv : q = v
      · rw [if_pos hqv, hqv]
      · rw [if_neg hqv])
    (by
      intro q
      rw [hpq]
      by_cases hqv : q = v
      · rw [if_pos hqv, hqv]
      · rw [if_neg hqv])
    (by
      intro q
      rw [hpq]
      by_cases hqv : q = v
      · rw [if_pos hqv, hqv]
        show (U.players v).next_ind ≤ (g0.players v).next_ind + 1
        rw [(hfr v).1]
        exact Nat.le_succ _
      · rw [if_neg hqv])
    (by
      intro q
      rw [hpq]
      by_cases hqv : q = v
      · rw [if_pos hqv]
        exact hn32
      · rw [if_neg hqv, (hfr q).1]
        exact hcore.fit q)
  have hsplit := hV.split hg hz hv hv0 k hno
  have hw : White U v (g0.indexes x y) (nbx x k) (nby y k) := by
    refine (hU.white_iff v _ _ _ (nb_ne_self x y k hk)).2 ⟨hnb.1, hnb.2, ?_⟩
    exact hg.adj x y k hk (fun f => f) (fun f => f) (by rw [hv]; exact hv0) hnb.1
      (hnb.2.trans hv.symm)
  obtain ⟨h1, h2, h3, h4, h5⟩ := fresh_relabel _ hsplit hk hw hr hold (by omega)
    (by rw [set_at_same]; exact Nat.lt_succ_self _) hids
  have hmem : g0.indexes x y ∈ area_ids g0 v := area_ids_old_mem hz hv
  refine ⟨h1, ?_, hr.board_relab.trans hU.board_eq, hr.width_relab.trans hU.width_eq,
    hr.heigth_relab.trans hU.heigth_eq, hr.number_of_players.trans hU.number_eq,
    hr.max_areas.trans hU.max_eq, hr.golden_used.trans hgo, ?_, ?_, ?_, ?_,
    hr.wider.trans hwd, ⟨k, hk, hnb⟩⟩
  · intro q hq
    show ((set_at U.players v _ q).areas) = ((area_ids g5 q).filter _).card
    rw [hpq]
    by_cases hqv : q = v
    · rw [if_pos hqv, hqv, h2, Finset.card_insert_of_not_mem
        (fun hm => h3 (Finset.mem_of_mem_filter _ hm)), hU.area_ids_rest hv hv0,
        Finset.card_erase_of_mem hmem]
      show (U.players v).areas = _
      rw [(hfr v).2.1, hg.areas_ok.plain v hv0]
      have : 0 < (area_ids g0 v).card := Finset.card_pos.2 ⟨_, hmem⟩
      omega
    · rw [if_neg hqv, h4 q hqv, hU.area_ids_other_vac hv q hq hqv, (hfr q).2.1]
      have := hg.areas_ok q hq
      rw [areas_filter_none _ q hq] at this
      rw [this]
      congr 1
      symm
      apply Finset.filter_true_of_mem
      intro i _ hc
      exact hqv hc.1
  · intro q
    show ((set_at U.players v _ q).free_golden_move) = _
    rw [hpq]
    by_cases hqv : q = v
    · rw [if_pos hqv, hqv]
      exact (hfr v).2.2
    · rw [if_neg hqv]
      exact (hfr q).2.2
  · intro q hq
    show ((set_at U.players v _ q).next_ind) = _
    rw [hpq, if_neg hq]
    exact (hfr q).1
  · show _ ≤ ((set_at U.players v _ v).next_ind)
    rw [set_at_same]
    exact Nat.le_succ _
  · intro a b hab
    show g5.indexes a b = _
    have hne : ¬ (a = x ∧ b = y) := by
      intro e
      rw [e.1, e.2] at hab
      exact hab hv
    have hgb : U.board a b ≠ v := by
      rw [hU.board_other a b hne]
      exact hab
    rw [h5 a b hgb]
    exact hU.indexes_other a b hne

theorem Removing.skip_removing {g0 g : gamma_t} {p v x y k : Nat} (h : Removing g0 p v x y k g)
    (hn : ¬ White g v (g0.indexes x y) (nbx x k) (nby y k)) :
    Removing g0 p v x y (k + 1) g :=
  ⟨h.split.skip_split hn, h.areas_ok, h.board_eq, h.width_eq, h.heigth_eq, h.number_eq, h.max_eq,
    h.golden_eq, h.flag_eq, h.next_o, h.next_v, h.idx_o, h.wider, h.contact⟩

theorem Removing.board_z_removing {g0 g : gamma_t} {p v x y k : Nat} (h : Removing g0 p v x y k g) :
    g.board x y = EMPTY := by
  rw [h.board_eq, set_cell_same]

/-- One round of the loop of `gamma_golden_move` keeps its invariant, as long
as the ids still fit afterwards. -/
theorem golden_move_dir_step {g0 : gamma_t} {p v x y k fuel : Nat} {s s' : gamma_t × Nat}
    (hg : Good g0) (hz : coords_are_fine x y g0) (hv : g0.board x y = v) (hv0 : v ≠ EMPTY)
    (hk : k < 4) (hinv : RemInv g0 p v x y k s)
    (h : golden_move_dir fuel s.1 s.2 p v (to_uint (g0.indexes x y)) x y k = some s')
    (hfit : ids_fit s'.1) : RemInv g0 p v x y (k + 1) s' := by
  have hold : g0.indexes x y < (g0.players v).next_ind := by
    have := hg.core.idx_owned x y (by rw [hv]; exact hv0)
    rw [hv] at this
    exact this.2
  have hold32 : g0.indexes x y < 4294967296 := lt_of_lt_of_le hold (hg.core.fit v)
  rw [to_uint_small _ hold32] at h
  unfold golden_move_dir at h
  rcases hinv with ⟨e1, e2, hno⟩ | hrem
  · rw [e1, e2] at h
    by_cases hnb : coords_are_fine (nbx x k) (nby y k) g0 ∧ g0.board (nbx x k) (nby y k) = v
    · rw [if_pos hnb, if_pos hv] at h
      simp only [Option.map_eq_some'] at h
      obtain ⟨g5, e5, e6⟩ := h
      change reindexify fuel (vacate_first g0 p v x y) v _ _ _ _ = some g5 at e5
      have hfr := reindexify_frame v _ _ fuel _ g5 _ _ e5
      have hpl : g5.players = (vacate_first g0 p v x y).players := by rw [hfr]
      have hf5 : inc64 (g0.players v).next_ind ≤ 4294967296 := by
        have := hfit v
        rw [← e6] at this
        change ((set_at g5.players v _) v).next_ind ≤ _ at this
        rw [set_at_same] at this
        change inc64 (g5.players v).next_ind ≤ _ at this
        rw [hpl, ((vacate_first_frame g0 p v x y).2.2 v).1] at this
        exact this
      have hn32 : (g0.players v).next_ind < 4294967296 := by
        have := hg.core.fit v
        unfold inc64 at hf5
        omega
      have hne : g0.indexes x y ≠ to_uint (g0.players v).next_ind := by
        rw [to_uint_small _ hn32]
        omega
      have hr := reindexify_relabels fuel _ g5 v _ _ _ _ hne e5
      right
      rw [← e6]
      exact removing_first hg hz hv hv0 hk hno hnb hr hf5
    · rw [if_neg hnb] at h
      simp only [Option.some.injEq] at h
      left
      rw [← h]
      refine ⟨rfl, rfl, ?_⟩
      intro j hj
      by_cases hjk : j = k
      · rw [hjk]; exact hnb
      · exact hno j (by omega)
  · have hbz := hrem.board_z_removing
    have hfine : ∀ a b, coords_are_fine a b s.1 ↔ coords_are_fine a b g0 := by
      intro a b
      unfold coords_are_fine
      rw [hrem.width_eq, hrem.heigth_eq]
    by_cases hnb : coords_are_fine (nbx x k) (nby y k) s.1
        ∧ s.1.board (nbx x k) (nby y k) = v
    · rw [if_pos hnb, if_neg (by rw [hbz]; exact fun e => hv0 e.symm)] at h
      by_cases hc : s.1.board x y = EMPTY ∧ s.1.indexes (nbx x k) (nby y k) = g0.indexes x y
      · rw [if_pos hc] at h
        simp only [Option.map_eq_some'] at h
        obtain ⟨g5, e5, e6⟩ := h
        have hfr := reindexify_frame v _ _ fuel _ g5 _ _ e5
        have hpl : g5.players = s.1.players := by rw [hfr]
        have hf5 : inc64 (s.1.players v).next_ind ≤ 4294967296 := by
          have := hfit v
          rw [← e6] at this
          change ((set_at g5.players v _) v).next_ind ≤ _ at this
          rw [set_at_same] at this
          change inc64 (g5.players v).next_ind ≤ _ at this
          rw [hpl] at this
          exact this
        have hn32 : (s.1.players v).next_ind < 4294967296 := by
          have := hrem.split.core.fit v
          unfold inc64 at hf5
          omega
        have hne : g0.indexes x y ≠ to_uint (s.1.players v).next_ind := by
          rw [to_uint_small _ hn32]
          have := hrem.next_v
          omega
        have hr := reindexify_relabels fuel _ g5 v _ _ _ _ hne e5
        right
        rw [← e6]
        exact hrem.fresh hg.core hv hk ⟨hnb.1, hnb.2, hc.2⟩ hr hf5
      · rw [if_neg hc] at h
        simp only [Option.some.injEq] at h
        right
        rw [← h]
        exact hrem.skip_removing fun hw => hc ⟨hbz, hw.2.2⟩
    · rw [if_neg hnb] at h
      simp only [Option.some.injEq] at h
      right
      rw [← h]
      exact hrem.skip_removing fun hw => hnb ⟨hw.1, hw.2.1⟩

/-- With the taken cell empty, the exception made for it in the adjacency
condition is no longer needed. -/
theorem IdsAdj.of_except {g : gamma_t} {x y : Nat}
    (h : IdsAdj g (fun a b => a = x ∧ b = y)) (hz : g.board x y = EMPTY) :
    IdsAdj g (fun _ _ => False) := by
  intro a b i hi _ _ hab hf hb
  refine h a b i hi ?_ ?_ hab hf hb
  · intro e
    rw [e.1, e.2] at hab
    exact hab hz
  · intro e
    rw [e.1, e.2, hz] at hb
    exact hab hb.symm

theorem Removing.removed {g0 g : gamma_t} {p v x y : Nat} (h : Removing g0 p v x y 4 g) :
    Removed g0 p v x y g :=
  ⟨⟨h.split.core, h.split.border_ok, h.split.adj.of_except h.board_z_removing, h.split.conn_all,
      h.split.areas_all h.areas_ok⟩,
    h.board_eq, h.width_eq, h.heigth_eq, h.number_eq, h.max_eq, h.golden_eq, h.flag_eq,
    h.next_o, h.next_v, h.idx_o, h.wider, fun hn => absurd h.contact hn⟩

theorem golden_move_lonely_skip (g : gamma_t) (p v x y : Nat) (h : g.board x y ≠ v) :
    golden_move_lonely g p v x y = g := by
  unfold golden_move_lonely
  rw [if_neg h]

theorem lonely_change (g : gamma_t) (v x y : Nat) :
    BorderChange { g with board := set_cell g.board x y EMPTY }
      (update_blank_all_neighbours
        (lost_independent_borders { g with board := set_cell g.board x y EMPTY } v x y)
        x y) :=
  (lost_independent_borders_eq _ v x y).1.trans_change (update_blank_all_neighbours_eq _ x y).1

/-- The block after the loop, for a taken cell without a neighbour of its owner. -/
theorem removed_lonely {g0 : gamma_t} {p v x y : Nat} (hg : Good g0)
    (hz : coords_are_fine x y g0) (hv : g0.board x y = v) (hv0 : v ≠ EMPTY)
    (hno : ∀ j, j < 4 →
      ¬ (coords_are_fine (nbx x j) (nby y j) g0 ∧ g0.board (nbx x j) (nby y j) = v)) :
    Removed g0 p v x y (golden_move_lonely g0 p v x y) := by
  have hno2 : ¬ has_neighbour { g0 with board := set_cell g0.board x y EMPTY } v x y := by
    rintro ⟨j, hj, hf, hb⟩
    refine hno j hj ⟨hf, ?_⟩
    change set_cell g0.board x y EMPTY _ _ = v at hb
    rw [set_cell_apply, if_neg (nb_ne_self x y j hj)] at hb
    exact hb
  have hch := lonely_change g0 v x y
  have hU := vacated_uncount g0 _ p v x y hg hch
    (clear_border_ok_lonely g0 hg.core.sized x y v hz hv hv0 hno2 hg.border_ok)
  obtain ⟨hgo, hwd, hfr⟩ := vacated_uncount_frame g0 _ p v x y hch
  have e : golden_move_lonely g0 p v x y =
      { (uncount_field
          { (update_blank_all_neighbours
              (lost_independent_borders { g0 with board := set_cell g0.board x y EMPTY } v x y)
              x y) with
            indexes := set_cell (update_blank_all_neighbours
              (lost_independent_borders { g0 with board := set_cell g0.board x y EMPTY } v x y)
              x y).indexes x y EMPTY } p v) with
        players := set_at (uncount_field
          { (update_blank_all_neighbours
              (lost_independent_borders { g0 with board := set_cell g0.board x y EMPTY } v x y)
              x y) with
            indexes := set_cell (update_blank_all_neighbours
              (lost_independent_borders { g0 with board := set_cell g0.board x y EMPTY } v x y)
              x y).indexes x y EMPTY } p v).players v
          { (uncount_field
          { (update_blank_all_neighbours
              (lost_independent_borders { g0 with board := set_cell g0.board x y EMPTY } v x y)
              x y) with
            indexes := set_cell (update_blank_all_neighbours
              (lost_independent_borders { g0 with board := set_cell g0.board x y EMPTY } v x y)
              x y).indexes x y EMPTY } p v).players v with
            areas := dec32 ((uncount_field
          { (update_blank_all_neighbours
              (lost_independent_borders { g0 with board := set_cell g0.board x y EMPTY } v x y)
              x y) with
            indexes := set_cell (update_blank_all_neighbours
              (lost_independent_borders { g0 with board := set_cell g0.board x y EMPTY } v x y)
              x y).indexes x y EMPTY } p v).players v).areas } } := by
    unfold golden_move_lonely
    rw [if_pos hv]
  rw [e]
  generalize (uncount_field
          { (update_blank_all_neighbours
              (lost_independent_borders { g0 with board := set_cell g0.board x y EMPTY } v x y)
              x y) with
            indexes := set_cell (update_blank_all_neighbours
              (lost_independent_borders { g0 with board := set_cell g0.board x y EMPTY } v x y)
              x y).indexes x y EMPTY } p v) = U at hU hgo hwd hfr
  have hpq : ∀ q, set_at U.players v { U.players v with
      areas := dec32 (U.players v).areas } q
      = if q = v then { U.players v with areas := dec32 (U.players v).areas }
        else U.players q := fun q => set_at_apply _ _ _ _
  have hV := hU.bump (set_at U.players v { U.players v with
      areas := dec32 (U.players v).areas })
    (by
      intro q
      rw [hpq]
      by_cases hqv : q = v
      · rw [if_pos hqv, hqv]
      · rw [if_neg hqv])
    (by
      intro q
      rw [hpq]
      by_cases hqv : q = v
      · rw [if_pos hqv, hqv]
      · rw [if_neg hqv])
    (by
      intro q
      rw [hpq]
      by_cases hqv : q = v
      · rw [if_pos hqv, hqv]
      · rw [if_neg hqv])
    (by
      intro q
      rw [hpq]
      by_cases hqv : q = v
      · rw [if_pos hqv]
        show (U.players v).next_ind ≤ _
        exact hU.fit v
      · rw [if_neg hqv]
        exact hU.fit q)
  have hsplit := hV.split hg hz hv hv0 4 hno
  have hmem : g0.indexes x y ∈ area_ids g0 v := area_ids_old_mem hz hv
  have hpos : 0 < (area_ids g0 v).card := Finset.card_pos.2 ⟨_, hmem⟩
  have hlt := area_ids_card_lt g0 hg.core v hv0
  have hav : dec32 (U.players v).areas + 1 = (g0.players v).areas := by
    rw [(hfr v).2.1, hg.areas_ok.plain v hv0, dec32_pos _ (by omega) hlt]
    omega
  have hbz : ({ U with players := set_at U.players v { U.players v with
      areas := dec32 (U.players v).areas } } : gamma_t).board x y = EMPTY := hV.board_z
  have hareas : AreasOk { U with players := set_at U.players v { U.players v with
      areas := dec32 (U.players v).areas } } v (g0.indexes x y) := by
    intro q hq
    show ((set_at U.players v _ q).areas) = ((area_ids _ q).filter _).card
    rw [hpq]
    by_cases hqv : q = v
    · rw [if_pos hqv, hqv, hV.area_ids_rest hv hv0, Finset.card_erase_of_mem hmem]
      show dec32 (U.players v).areas = _
      rw [(hfr v).2.1, hg.areas_ok.plain v hv0, dec32_pos _ (by omega) hlt]
    · rw [if_neg hqv, hV.area_ids_other_vac hv q hq hqv, (hfr q).2.1]
      have := hg.areas_ok q hq
      rw [areas_filter_none _ q hq] at this
      rw [this]
      congr 1
      symm
      apply Finset.filter_true_of_mem
      intro i _ hc
      exact hqv hc.1
  refine ⟨⟨hsplit.core, hsplit.border_ok, hsplit.adj.of_except hbz, hsplit.conn_all,
      hsplit.areas_all hareas⟩, hV.board_eq, hV.width_eq, hV.heigth_eq, hV.number_eq,
    hV.max_eq, hgo, ?_, ?_, ?_, ?_, hwd, ?_⟩
  · intro q
    show ((set_at U.players v _ q).free_golden_move) = _
    rw [hpq]
    by_cases hqv : q = v
    · rw [if_pos hqv, hqv]
      exact (hfr v).2.2
    · rw [if_neg hqv]
      exact (hfr q).2.2
  · intro q hq
    show ((set_at U.players v _ q).next_ind) = _
    rw [hpq, if_neg hq]
    exact (hfr q).1
  · show _ ≤ ((set_at U.players v _ v).next_ind)
    rw [set_at_same]
    show _ ≤ (U.players v).next_ind
    rw [(hfr v).1]
  · intro a b hab
    have hne : ¬ (a = x ∧ b = y) := by
      intro e
      rw [e.1, e.2] at hab
      exact hab hv
    exact hV.indexes_other a b hne
  · intro _
    show ((set_at U.players v _ v).areas) + 1 = _
    rw [set_at_same]
    exact hav

/-- At the end of the loop and of the block after it the taken cell is empty
and the invariant of the engine holds again. -/
theorem RemInv.removed_inv {g0 : gamma_t} {p v x y : Nat} {s : gamma_t × Nat}
    (hg : Good g0) (hz : coords_are_fine x y g0) (hv : g0.board x y = v) (hv0 : v ≠ EMPTY)
    (h : RemInv g0 p v x y 4 s) : Removed g0 p v x y (golden_move_lonely s.1 p v x y) := by
  rcases h with ⟨e1, -, hno⟩ | hrem
  · rw [e1]
    exact removed_lonely hg hz hv hv0 hno
  · rw [golden_move_lonely_skip _ p v x y (by rw [hrem.board_z_removing]; exact fun e => hv0 e.symm)]
    exact hrem.removed

/-! ## Id counters and foreign cells during the operations -/

theorem vacated_uncount_next (G3 : gamma_t) (p v x y : Nat) :
    NextSame G3 (uncount_field { G3 with indexes := set_cell G3.indexes x y EMPTY } p v) := by
  intro q
  show ((set_at G3.players v _) q).next_ind = _
  rw [set_at_apply]
  by_cases hq : q = v
  · rw [if_pos hq, hq]
  · rw [if_neg hq]

theorem bump_next_step (g : gamma_t) (v : Nat) (r : player)
    (hr : r.next_ind = inc64 (g.players v).next_ind) :
    NextStep g { g with players := set_at g.players v r } := by
  intro q
  show ((set_at g.players v r) q).next_ind = _ ∨ ((set_at g.players v r) q).next_ind = _
  rw [set_at_apply]
  by_cases hq : q = v
  · rw [if_pos hq, hq]
    exact Or.inr hr
  · rw [if_neg hq]
    exact Or.inl rfl

theorem empty_cell_next (g : gamma_t) (x y : Nat) :
    NextSame g { g with board := set_cell g.board x y EMPTY } := fun _ => rfl

theorem golden_move_dir_next {fuel : Nat} {g : gamma_t} {ni p v io x y i : Nat}
    {s' : gamma_t × Nat} (h : golden_move_dir fuel g ni p v io x y i = some s') :
    NextStep g s'.1 := by
  unfold golden_move_dir at h
  split at h
  · split at h
    · simp only [Option.map_eq_some'] at h
      obtain ⟨g5, e5, e6⟩ := h
      rw [← e6]
      have h1 : NextSame g g5 :=
        ((((empty_cell_next g x y).trans_same
          (update_blank_all_neighbours_eq _ x y).1.next_same).trans_same
          (lost_independent_borders_eq _ v x y).1.next_same).trans_same
          (vacated_uncount_next _ p v x y)).trans_same (reindexify_next e5)
      exact h1.then_step (bump_next_step g5 v _ rfl)
    · split at h
      · simp only [Option.map_eq_some'] at h
        obtain ⟨g5, e5, e6⟩ := h
        rw [← e6]
        exact (reindexify_next e5).then_step (bump_next_step g5 v _ rfl)
      · simp only [Option.some.injEq] at h
        rw [← h]
        exact (NextSame.refl_same g).step_same
  · simp only [Option.some.injEq] at h
    rw [← h]
    exact (NextSame.refl_same g).step_same

theorem golden_move_lonely_next (g : gamma_t) (p v x y : Nat) :
    NextSame g (golden_move_lonely g p v x y) := by
  unfold golden_move_lonely
  split
  · have h1 : NextSame g (uncount_field
        { (update_blank_all_neighbours
            (lost_independent_borders { g with board := set_cell g.board x y EMPTY } v x y)
            x y) with
          indexes := set_cell (update_blank_all_neighbours
            (lost_independent_borders { g with board := set_cell g.board x y EMPTY } v x y)
            x y).indexes x y EMPTY } p v) :=
      (((empty_cell_next g x y).trans_same
        (lost_independent_borders_eq _ v x y).1.next_same).trans_same
        (update_blank_all_neighbours_eq _ x y).1.next_same).trans_same
        (vacated_uncount_next _ p v x y)
    intro q
    show player.next_ind (set_at _ v _ q) = _
    rw [set_at_apply]
    by_cases hq : q = v
    · rw [if_pos hq, hq]
      exact h1 v
    · rw [if_neg hq]
      exact h1 q
  · exact NextSame.refl_same g

/-- Going back along a step: if the counters fit afterwards they fitted before. -/
theorem NextStep.fit_back {g g' : gamma_t} (h : NextStep g g')
    (hb : ∀ q, (g.players q).next_ind ≤ 4294967306) (hfit : ids_fit g') : ids_fit g := by
  intro q
  have h1 := (h.bound 4294967306 (by omega) hb q).1
  have h2 := hfit q
  omega

theorem NextStep.grow {g g' : gamma_t} (h : NextStep g g') (B : Nat) (hB : B ≤ 4294967306)
    (hb : ∀ q, (g.players q).next_ind ≤ B) : ∀ q, (g'.players q).next_ind ≤ B + 1 :=
  fun q => (h.bound B (by omega) hb q).2

/-- The removal phase of `gamma_golden_move`, when the ids still fit after it. -/
theorem removal_spec {fuel : Nat} {g0 : gamma_t} {p v x y : Nat}
    {s1 s2 s3 s4 : gamma_t × Nat} (hg : Good g0) (hz : coords_are_fine x y g0)
    (hv : g0.board x y = v) (hv0 : v ≠ EMPTY)
    (e1 : golden_move_dir fuel g0 (to_uint (g0.players v).next_ind) p v
      (to_uint (g0.indexes x y)) x y 0 = some s1)
    (e2 : golden_move_dir fuel s1.1 s1.2 p v (to_uint (g0.indexes x y)) x y 1 = some s2)
    (e3 : golden_move_dir fuel s2.1 s2.2 p v (to_uint (g0.indexes x y)) x y 2 = some s3)
    (e4 : golden_move_dir fuel s3.1 s3.2 p v (to_uint (g0.indexes x y)) x y 3 = some s4)
    (hfit : ids_fit (golden_move_lonely s4.1 p v x y)) :
    Removed g0 p v x y (golden_move_lonely s4.1 p v x y) := by
  have n1 := golden_move_dir_next e1
  have n2 := golden_move_dir_next e2
  have n3 := golden_move_dir_next e3
  have n4 := golden_move_dir_next e4
  have n5 := golden_move_lonely_next s4.1 p v x y
  have b0 : ∀ q, (g0.players q).next_ind ≤ 4294967296 := hg.core.fit
  have b1 := n1.grow _ (by omega) b0
  have b2 := n2.grow _ (by omega) b1
  have b3 := n3.grow _ (by omega) b2
  have f4 : ids_fit s4.1 := fun q => by rw [← n5 q]; exact hfit q
  have f3 : ids_fit s3.1 := n4.fit_back (fun q => le_trans (b3 q) (by omega)) f4
  have f2 : ids_fit s2.1 := n3.fit_back (fun q => le_trans (b2 q) (by omega)) f3
  have f1 : ids_fit s1.1 := n2.fit_back (fun q => le_trans (b1 q) (by omega)) f2
  have i0 : RemInv g0 p v x y 0 (g0, to_uint (g0.players v).next_ind) :=
    Or.inl ⟨rfl, rfl, fun j hj => absurd hj (Nat.not_lt_zero j)⟩
  have i1 := golden_move_dir_step hg hz hv hv0 (by omega) i0 e1 f1
  have i2 := golden_move_dir_step hg hz hv hv0 (by omega) i1 e2 f2
  have i3 := golden_move_dir_step hg hz hv hv0 (by omega) i2 e3 f3
  have i4 := golden_move_dir_step hg hz hv hv0 (by omega) i3 e4 f4
  exact i4.removed_inv hg hz hv hv0

/-- With recursion depth above the number of cells a round of the loop of
`gamma_golden_move` returns. -/
theorem golden_move_dir_total {g0 : gamma_t} {p v x y k fuel : Nat} {s : gamma_t × Nat}
    (hg : Good g0) (hz : coords_are_fine x y g0) (hv : g0.board x y = v) (hv0 : v ≠ EMPTY)
    (hinv : RemInv g0 p v x y k s) (hfuel : g0.width * g0.heigth < fuel) :
    ∃ s', golden_move_dir fuel s.1 s.2 p v (to_uint (g0.indexes x y)) x y k = some s' := by
  have hold := hg.core.idx_owned x y (by rw [hv]; exact hv0)
  rw [hv] at hold
  have hold32 : g0.indexes x y < 4294967296 := lt_of_lt_of_le hold.2 (hg.core.fit v)
  have hne : ∀ n, (g0.players v).next_ind ≤ n → n ≤ 4294967296 →
      g0.indexes x y ≠ to_uint n := by
    intro n h1 h2
    unfold to_uint
    by_cases h3 : n = 4294967296
    · rw [h3]
      omega
    · rw [Nat.mod_eq_of_lt (by omega)]
      omega
  rw [to_uint_small _ hold32]
  unfold golden_move_dir
  rcases hinv with ⟨e1, e2, -⟩ | hrem
  · rw [e1, e2]
    split
    · have hU := vacate_first_vacated g0 p v x y hg hz hv hv0
      obtain ⟨g5, e5⟩ := reindexify_total fuel (vacate_first g0 p v x y) v (nbx x k) (nby y k)
        (g0.indexes x y) (to_uint (g0.players v).next_ind)
        (hne _ (le_refl _) (hg.core.fit v)) (by rw [hU.width_eq, hU.heigth_eq]; exact hfuel)
      exact ⟨_, congrArg (Option.map _) e5⟩
    · exact ⟨_, rfl⟩
  · split
    · rw [if_neg (by rw [hrem.board_z_removing]; exact fun e => hv0 e.symm)]
      split
      · obtain ⟨g5, e5⟩ := reindexify_total fuel s.1 v (nbx x k) (nby y k)
          (g0.indexes x y) (to_uint (s.1.players v).next_ind)
          (hne _ hrem.next_v (hrem.split.core.fit v))
          (by rw [hrem.width_eq, hrem.heigth_eq]; exact hfuel)
        exact ⟨_, congrArg (Option.map _) e5⟩
      · exact ⟨_, rfl⟩
    · exact ⟨_, rfl⟩

theorem owns_iff (g : gamma_t) (p a b : Nat) :
    owns g p a b ↔ coords_are_fine a b g ∧ g.board a b = p := by
  unfold owns coords_are_fine
  exact ⟨fun h => ⟨⟨h.1, h.2.1⟩, h.2.2⟩, fun h => ⟨h.1.1, h.1.2, h.2⟩⟩

/-- A neighbour computed by the code that lies on the board is a 4-neighbour. -/
theorem nb_adjacent (w h a b i : Nat) (hi : i < 4) (hw : w < 4294967296)
    (hh : h < 4294967296) (ha : a < w) (hb : b < h) (hc : nbx a i < w) (hd : nby b i < h) :
    adjacent a b (nbx a i) (nby b i) := by
  have hcases : i = 0 ∨ i = 1 ∨ i = 2 ∨ i = 3 := by omega
  unfold adjacent
  rcases hcases with e | e | e | e
  · rw [e] at hc hd ⊢
    simp only [nbx_zero, nby_zero] at hc hd ⊢
    omega
  · rw [e] at hc hd ⊢
    simp only [nbx_one, nby_one] at hc hd ⊢
    omega
  · rw [e] at hc hd ⊢
    simp only [nbx_two, nby_two] at hc hd ⊢
    omega
  · rw [e] at hc hd ⊢
    simp only [nbx_three, nby_three] at hc hd ⊢
    omega

/-- Every 4-neighbour on the board is one of the neighbours computed by the code. -/
theorem adjacent_nb (w h a b c d : Nat) (hw : w < 4294967296) (hh : h < 4294967296)
    (ha : a < w) (hb : b < h) (hc : c < w) (hd : d < h) (hadj : adjacent a b c d) :
    ∃ i, i < 4 ∧ nbx a i = c ∧ nby b i = d := by
  unfold adjacent at hadj
  rcases hadj with ⟨e1, e2 | e2⟩ | ⟨e1, e2 | e2⟩
  · exact ⟨1, by omega, by rw [nbx_one]; omega, by rw [nby_one]; omega⟩
  · exact ⟨3, by omega, by rw [nbx_three]; omega, by rw [nby_three]; omega⟩
  · exact ⟨0, by omega, by rw [nbx_zero]; omega, by rw [nby_zero]; omega⟩
  · exact ⟨2, by omega, by rw [nbx_two]; omega, by rw [nby_two]; omega⟩

/-- The neighbour relation of the spec in terms of `adjacent`. -/
theorem next_to_iff (g : gamma_t) (p x y : Nat) :
    next_to g p x y ↔ ∃ c d, adjacent x y c d ∧ owns g p c d := by
  unfold next_to adjacent
  constructor
  · rintro (h | h | ⟨h0, h⟩ | ⟨h0, h⟩)
    · exact ⟨x + 1, y, Or.inr ⟨rfl, Or.inl rfl⟩, h⟩
    · exact ⟨x, y + 1, Or.inl ⟨rfl, Or.inl rfl⟩, h⟩
    · exact ⟨x - 1, y, Or.inr ⟨rfl, Or.inr (by omega)⟩, h⟩
    · exact ⟨x, y - 1, Or.inl ⟨rfl, Or.inr (by omega)⟩, h⟩
  · rintro ⟨c, d, ⟨e1, e2 | e2⟩ | ⟨e1, e2 | e2⟩, h⟩
    · right; left
      rw [e1, e2]; exact h
    · right; right; right
      have : y - 1 = d := by omega
      rw [e1, this]
      exact ⟨by omega, h⟩
    · left
      rw [e1, e2]; exact h
    · right; right; left
      have : x - 1 = c := by omega
      rw [e1, this]
      exact ⟨by omega, h⟩

/-- On the board, the neighbour test of the code is the neighbour relation of the spec. -/
theorem has_neighbour_iff (g : gamma_t) (hs : Sized g) (p x y : Nat)
    (hz : coords_are_fine x y g) : has_neighbour g p x y ↔ next_to g p x y := by
  rw [next_to_iff]
  constructor
  · rintro ⟨i, hi, hf, hb⟩
    exact ⟨_, _, nb_adjacent g.width g.heigth x y i hi hs.width_lt hs.heigth_lt hz.1 hz.2
      hf.1 hf.2, hf.1, hf.2, hb⟩
  · rintro ⟨c, d, hadj, h1, h2, h3⟩
    obtain ⟨i, hi, e1, e2⟩ := adjacent_nb g.width g.heigth x y c d hs.width_lt
      hs.heigth_lt hz.1 hz.2 h1 h2 hadj
    exact ⟨i, hi, by rw [e1, e2]; exact ⟨h1, h2⟩, by rw [e1, e2]; exact h3⟩

theorem Connected.owns_end {g : gamma_t} {p x y a b : Nat} (h : Connected g p x y a b) :
    owns g p a b := by
  cases h with
  | start h => exact h
  | step _ _ _ _ _ _ h => exact h

theorem Connected.owns_start {g : gamma_t} {p x y a b : Nat} (h : Connected g p x y a b) :
    owns g p x y := by
  induction h with
  | start h => exact h
  | step _ _ _ _ _ _ _ ih => exact ih

/-- A walk of the flood fill is a connection through cells of the owner. -/
theorem Reach.connected {g : gamma_t} {p f x y a b : Nat} (hs : Sized g)
    (h : Reach g p f x y a b) : Connected g p x y a b := by
  induction h with
  | seed hw => exact Connected.start ((owns_iff g p x y).2 ⟨hw.1, hw.2.1⟩)
  | step a b i hr hi hw ih =>
    have hab := hr.white
    exact Connected.step a b _ _ ih
      (nb_adjacent g.width g.heigth a b i hi hs.width_lt hs.heigth_lt hab.1.1 hab.1.2
        hw.1.1 hw.1.2)
      ((owns_iff g p _ _).2 ⟨hw.1, hw.2.1⟩)

/-- Under the invariant a connection through cells of the owner stays within one area id. -/
theorem Connected.reach {g : gamma_t} {p x y a b : Nat} (hg : Good g) (hp : p ≠ EMPTY)
    (h : Connected g p x y a b) : Reach g p (g.indexes x y) x y a b := by
  induction h with
  | start h =>
    have := (owns_iff g p x y).1 h
    exact Reach.seed ⟨this.1, this.2, rfl⟩
  | step a b c d hc hadj ho ih =>
    have hab := ih.white
    have hcd := (owns_iff g p c d).1 ho
    obtain ⟨i, hi, e1, e2⟩ := adjacent_nb g.width g.heigth a b c d hg.core.sized.width_lt
      hg.core.sized.heigth_lt hab.1.1 hab.1.2 hcd.1.1 hcd.1.2 hadj
    have hid := hg.adj a b i hi (fun f => f) (fun f => f) (by rw [hab.2.1]; exact hp)
      (by rw [e1, e2]; exact hcd.1) (by rw [e1, e2, hcd.2, hab.2.1])
    rw [e1, e2] at hid
    have := Reach.step a b i ih hi (by rw [e1, e2]; exact ⟨hcd.1, hcd.2, hid.trans hab.2.2⟩)
    rw [e1, e2] at this
    exact this

/-- Under the invariant two cells of a player carry the same area id exactly
when they are connected through cells of the player. -/
theorem Good.same_id_iff {g : gamma_t} (hg : Good g) (p : Nat) (hp : p ≠ EMPTY)
    (a b c d : Nat) (h1 : owns g p a b) (h2 : owns g p c d) :
    g.indexes a b = g.indexes c d ↔ Connected g p a b c d := by
  have hab := (owns_iff g p a b).1 h1
  have hcd := (owns_iff g p c d).1 h2
  constructor
  · intro e
    have := hg.conn a b c d (by rw [hab.2]; exact hp) (fun f => by rw [hab.2] at f; exact hp f.1)
      (hcd.2.trans hab.2.symm) e.symm
    rw [hab.2] at this
    exact this.connected hg.core.sized
  · intro hc
    exact ((hc.reach hg hp).white).2.2.symm

theorem Connected.congr_connected {g g' : gamma_t} (hb : g'.board = g.board) (hw : g'.width = g.width)
    (hh : g'.heigth = g.heigth) {p x y a b : Nat} (h : Connected g p x y a b) :
    Connected g' p x y a b := by
  have ho : ∀ a b, owns g p a b → owns g' p a b := by
    intro a b h
    unfold owns at h ⊢
    rw [hb, hw, hh]
    exact h
  induction h with
  | start h => exact Connected.start (ho _ _ h)
  | step a b c d _ hadj h ih => exact Connected.step a b c d ih hadj (ho _ _ h)

theorem Components.congr_comps {g g' : gamma_t} (hb : g'.board = g.board) (hw : g'.width = g.width)
    (hh : g'.heigth = g.heigth) {p n : Nat} (h : Components g p n) : Components g' p n := by
  have ho : ∀ a b, owns g p a b ↔ owns g' p a b := by
    intro a b
    unfold owns
    rw [hb, hw, hh]
  obtain ⟨reps, h1, h2, h3, h4⟩ := h
  refine ⟨reps, h1, fun r hr => (ho _ _).1 (h2 r hr), ?_, ?_⟩
  · intro r hr s hs hc
    exact h3 r hr s hs (hc.congr_connected hb.symm hw.symm hh.symm)
  · intro a b hab
    obtain ⟨r, hr, hc⟩ := h4 a b ((ho _ _).2 hab)
    exact ⟨r, hr, hc.congr_connected hb hw hh⟩

/-- Every function on a finite set has a section: a subset on which it is
injective with the same image. -/
theorem exists_section {α β : Type} [DecidableEq α] [DecidableEq β] (f : α → β)
    (s : Finset α) : ∃ r, r ⊆ s ∧ Set.InjOn f r ∧ r.image f = s.image f := by
  induction s using Finset.induction_on with
  | empty => exact ⟨∅, Finset.Subset.refl _, by simp, rfl⟩
  | insert ha ih =>
    rename_i a s
    obtain ⟨r, h1, h2, h3⟩ := ih
    by_cases hm : f a ∈ s.image f
    · refine ⟨r, h1.trans (Finset.subset_insert a s), h2, ?_⟩
      rw [Finset.image_insert, Finset.insert_eq_of_mem hm, h3]
    · refine ⟨insert a r, Finset.insert_subset_insert a h1, ?_, ?_⟩
      · have hna : ∀ u, u ∈ r → f u ≠ f a := by
          intro u hu e
          exact hm (e ▸ Finset.mem_image_of_mem f (h1 hu))
        intro u hu w hw e
        rw [Finset.mem_coe, Finset.mem_insert] at hu hw
        rcases hu with hu | hu <;> rcases hw with hw | hw
        · rw [hu, hw]
        · rw [hu] at e
          exact absurd e.symm (hna w hw)
        · rw [hw] at e
          exact absurd e (hna u hu)
        · exact h2 hu hw e
      · rw [Finset.image_insert, Finset.image_insert, h3]

/-- Under the invariant the number of areas of a player is the number of its
area ids, and no other number. -/
theorem Good.components {g : gamma_t} (hg : Good g) (p : Nat) (hp : p ≠ EMPTY) (n : Nat) :
    Components g p n ↔ n = (area_ids g p).card := by
  have hmem : ∀ c : Nat × Nat, c ∈ owned_cells g p ↔ owns g p c.1 c.2 := by
    intro c
    rw [mem_owned_cells, owns_iff]
  constructor
  · rintro ⟨reps, h1, h2, h3, h4⟩
    have hinj : Set.InjOn (fun c : Nat × Nat => g.indexes c.1 c.2) reps := by
      intro r hr s hs e
      exact h3 r hr s hs
        ((hg.same_id_iff p hp r.1 r.2 s.1 s.2 (h2 r hr) (h2 s hs)).1 e)
    have himg : reps.image (fun c : Nat × Nat => g.indexes c.1 c.2) = area_ids g p := by
      ext i
      rw [Finset.mem_image, mem_area_ids]
      constructor
      · rintro ⟨r, hr, e⟩
        have := (owns_iff g p r.1 r.2).1 (h2 r hr)
        exact ⟨r.1, r.2, this.1, this.2, e⟩
      · rintro ⟨a, b, hw⟩
        have ho : owns g p a b := (owns_iff g p a b).2 ⟨hw.1, hw.2.1⟩
        obtain ⟨r, hr, hc⟩ := h4 a b ho
        refine ⟨r, hr, ?_⟩
        show g.indexes r.1 r.2 = i
        rw [(hg.same_id_iff p hp r.1 r.2 a b (h2 r hr) ho).2 hc]
        exact hw.2.2
    rw [← himg, Finset.card_image_of_injOn hinj, h1]
  · intro hn
    obtain ⟨r, h1, h2, h3⟩ := exists_section (fun c : Nat × Nat => g.indexes c.1 c.2)
      (owned_cells g p)
    refine ⟨r, ?_, ?_, ?_, ?_⟩
    · rw [hn, ← Finset.card_image_of_injOn h2, h3]
      rfl
    · intro c hc
      exact (hmem c).1 (h1 hc)
    · intro c hc d hd hcon
      exact h2 hc hd ((hg.same_id_iff p hp c.1 c.2 d.1 d.2 ((hmem c).1 (h1 hc))
        ((hmem d).1 (h1 hd))).2 hcon)
    · intro a b hab
      have : g.indexes a b ∈ (owned_cells g p).image
          (fun c : Nat × Nat => g.indexes c.1 c.2) :=
        Finset.mem_image_of_mem (fun c : Nat × Nat => g.indexes c.1 c.2)
          ((hmem (a, b)).2 hab)
      rw [← h3, Finset.mem_image] at this
      obtain ⟨c, hc, e⟩ := this
      exact ⟨c, hc, (hg.same_id_iff p hp c.1 c.2 a b ((hmem c).1 (h1 hc)) hab).1 e⟩

/-- Under the invariant the counters are determined by the owner grid. -/
theorem Good.determined {g g' : gamma_t} (hg : Good g) (hg' : Good g')
    (hb : g'.board = g.board) (hw : g'.width = g.width) (hh : g'.heigth = g.heigth) :
    g'.busy_fields = g.busy_fields
    ∧ ∀ q, q ≠ EMPTY → (g'.players q).fields = (g.players q).fields
        ∧ (g'.players q).border = (g.players q).border
        ∧ (g'.players q).areas = (g.players q).areas := by
  refine ⟨?_, ?_⟩
  · rw [hg'.core.busy_ok, hg.core.busy_ok, busy_cells_congr hb hw hh]
  · intro q hq
    refine ⟨?_, ?_, ?_⟩
    · rw [hg'.core.fields_ok q hq, hg.core.fields_ok q hq, owned_cells_congr hb hw hh]
    · rw [hg'.border_ok q hq, hg.border_ok q hq, border_cells_congr hb hw hh]
    · rw [hg'.areas_ok.plain q hq, hg.areas_ok.plain q hq]
      have h1 : Components g q (area_ids g q).card := (hg.components q hq _).2 rfl
      exact ((hg'.components q hq _).1 (h1.congr_comps hb hw hh)).symm

theorem IdxFrame.refl_idx (p x y : Nat) (g : gamma_t) : IdxFrame p x y g g :=
  fun _ _ _ => ⟨rfl, fun _ => rfl⟩

theorem IdxFrame.trans_idx {p x y : Nat} {g1 g2 g3 : gamma_t} (h1 : IdxFrame p x y g1 g2)
    (h2 : IdxFrame p x y g2 g3) : IdxFrame p x y g1 g3 := by
  intro a b hne
  obtain ⟨e1, f1⟩ := h1 a b hne
  obtain ⟨e2, f2⟩ := h2 a b hne
  refine ⟨e2.trans e1, fun hq => ?_⟩
  rw [f2 (by rw [e1]; exact hq), f1 hq]

theorem IdxFrame.of_eq {p x y : Nat} {g g' : gamma_t} (hb : g'.board = g.board)
    (hi : g'.indexes = g.indexes) : IdxFrame p x y g g' := by
  intro a b _
  rw [hb, hi]
  exact ⟨rfl, fun _ => rfl⟩

theorem IdxFrame.of_set {p x y v w : Nat} (g g' : gamma_t)
    (hb : g'.board = set_cell g.board x y v) (hi : g'.indexes = set_cell g.indexes x y w) :
    IdxFrame p x y g g' := by
  intro a b hne
  rw [hb, hi, set_cell_apply, set_cell_apply, if_neg hne, if_neg hne]
  exact ⟨rfl, fun _ => rfl⟩

theorem reindexify_idx {fuel : Nat} {g g' : gamma_t} {p a b f t x y : Nat} (hft : f ≠ t)
    (h : reindexify fuel g p a b f t = some g') : IdxFrame p x y g g' := by
  have hfl := reindexify_floods p f t hft fuel g g' a b h
  have hbd : g'.board = g.board := by rw [hfl.frame]
  intro c d _
  refine ⟨by rw [hbd], fun hq => ?_⟩
  rcases hfl.only c d with e | ⟨hw, _⟩
  · exact e
  · exact absurd hw.2.1 hq

theorem gamma_move_dir_idx {fuel : Nat} {g g' : gamma_t} {p x y i : Nat}
    (h : gamma_move_dir fuel g p x y i = some g') : IdxFrame p x y g g' := by
  unfold gamma_move_dir at h
  split at h
  · split at h
    · simp only [Option.some.injEq] at h
      rw [← h]
      exact IdxFrame.of_set g _ rfl rfl
    · split at h
      · rename_i hne
        simp only [Option.map_eq_some'] at h
        obtain ⟨g1, e1, e2⟩ := h
        rw [← e2]
        exact (reindexify_idx (fun e => hne e.symm) e1).trans_idx (IdxFrame.of_eq rfl rfl)
      · simp only [Option.some.injEq] at h
        rw [← h]
        exact IdxFrame.refl_idx p x y g
  · simp only [Option.some.injEq] at h
    rw [← h]
    exact IdxFrame.refl_idx p x y g

theorem place_and_update_idx (G : gamma_t) (p x y : Nat) :
    IdxFrame p x y G (place_and_update G p x y) := by
  have h := place_and_update_change G p x y
  intro a b hne
  have hb : (place_and_update G p x y).board = set_cell G.board x y p := h.board
  have hi : (place_and_update G p x y).indexes = G.indexes := h.indexes
  rw [hb, hi, set_cell_apply, if_neg hne]
  exact ⟨rfl, fun _ => rfl⟩

theorem fresh_area_idx (g : gamma_t) (p x y : Nat) : IdxFrame p x y g (fresh_area g p x y) := by
  intro a b hne
  refine ⟨rfl, fun _ => ?_⟩
  show set_cell g.indexes x y _ a b = _
  rw [set_cell_apply, if_neg hne]

/-- The function `gamma_move` changes owners only at `(x, y)` and area ids only
there and on cells of the mover. -/
theorem gamma_move_idx {fuel : Nat} {g g' : gamma_t} {p x y : Nat} {b : Bool}
    (h : gamma_move fuel g p x y = some (b, g')) : IdxFrame p x y g g' := by
  rw [gamma_move_unfold] at h
  split at h
  · simp only [Option.bind_eq_some] at h
    obtain ⟨g1, e1, g2, e2, g3, e3, g4, e4, h⟩ := h
    have h4 : IdxFrame p x y g g4 :=
      (((gamma_move_dir_idx e1).trans_idx (gamma_move_dir_idx e2)).trans_idx
        (gamma_move_dir_idx e3)).trans_idx (gamma_move_dir_idx e4)
    split at h
    · simp only [Option.some.injEq, Prod.mk.injEq] at h
      rw [← h.2]
      exact h4.trans_idx (place_and_update_idx g4 p x y)
    · split at h
      · simp only [Option.some.injEq, Prod.mk.injEq] at h
        rw [← h.2]
        exact (h4.trans_idx (fresh_area_idx g4 p x y)).trans_idx (place_and_update_idx _ p x y)
      · simp only [Option.some.injEq, Prod.mk.injEq] at h
        rw [← h.2]
        exact h4
  · simp only [Option.some.injEq, Prod.mk.injEq] at h
    rw [← h.2]
    exact IdxFrame.refl_idx p x y g

theorem Restored.refl_restored (g : gamma_t) (v : Nat) : Restored g v g :=
  ⟨rfl, rfl, rfl, rfl, rfl, rfl, rfl, fun _ _ => ⟨rfl, rfl, rfl⟩, fun _ => rfl,
    fun _ _ => rfl, le_refl _, fun _ _ _ => rfl⟩

/-- Changing the owner of `(x, y)` does not change which owners its neighbours have. -/
theorem has_neighbour_at_set (g : gamma_t) (x y w q : Nat) :
    has_neighbour { g with board := set_cell g.board x y w } q x y ↔ has_neighbour g q x y := by
  unfold has_neighbour
  constructor
  · rintro ⟨i, hi, hf, hb⟩
    change set_cell g.board x y w _ _ = q at hb
    rw [set_cell_apply, if_neg (nb_ne_self x y i hi)] at hb
    exact ⟨i, hi, hf, hb⟩
  · rintro ⟨i, hi, hf, hb⟩
    refine ⟨i, hi, hf, ?_⟩
    show set_cell g.board x y w _ _ = q
    rw [set_cell_apply, if_neg (nb_ne_self x y i hi)]
    exact hb

theorem Removed.has_neighbour_iff_removed {g g5 : gamma_t} {p v x y : Nat}
    (h : Removed g p v x y g5) (q : Nat) :
    has_neighbour g5 q x y ↔ has_neighbour g q x y := by
  rw [← has_neighbour_at_set g x y EMPTY q]
  exact @has_neighbour_congr { g with board := set_cell g.board x y EMPTY } g5
    h.board_eq h.width_eq h.heigth_eq q x y

theorem Removed.fine_iff_removed {g g5 : gamma_t} {p v x y : Nat} (h : Removed g p v x y g5)
    (a b : Nat) : coords_are_fine a b g5 ↔ coords_are_fine a b g := by
  unfold coords_are_fine
  rw [h.width_eq, h.heigth_eq]

theorem Removed.board_z_removed {g g5 : gamma_t} {p v x y : Nat} (h : Removed g p v x y g5) :
    g5.board x y = EMPTY := by
  rw [h.board_eq, set_cell_same]

/-- The other players keep their areas when the cell is taken away. -/
theorem Removed.areas_other {g g5 : gamma_t} {p v x y : Nat} (h : Removed g p v x y g5)
    (hg : Good g) (hv : g.board x y = v) (q : Nat) (hq : q ≠ EMPTY) (hqv : q ≠ v) :
    (g5.players q).areas = (g.players q).areas := by
  rw [h.good.areas_ok.plain q hq, hg.areas_ok.plain q hq]
  congr 1
  ext i
  rw [mem_area_ids, mem_area_ids]
  have key : ∀ a b, White g5 q i a b ↔ White g q i a b := by
    intro a b
    unfold White
    rw [h.fine_iff_removed]
    by_cases hne : a = x ∧ b = y
    · rw [hne.1, hne.2, h.board_z_removed, hv]
      constructor
      · rintro ⟨_, e, _⟩
        exact absurd e.symm hq
      · rintro ⟨_, e, _⟩
        exact absurd e.symm hqv
    · have hb : g5.board a b = g.board a b := by
        rw [h.board_eq, set_cell_apply, if_neg hne]
      rw [hb]
      constructor
      · rintro ⟨h1, h2, h3⟩
        refine ⟨h1, h2, ?_⟩
        rw [← h.idx_o a b (by rw [h2]; exact hqv)]
        exact h3
      · rintro ⟨h1, h2, h3⟩
        refine ⟨h1, h2, ?_⟩
        rw [h.idx_o a b (by rw [h2]; exact hqv)]
        exact h3
  simp only [key]

/-- After the removal the former owner can always take the cell back. -/
theorem Removed.legal_back {g g5 : gamma_t} {p v x y : Nat} (h : Removed g p v x y g5)
    (hg : Good g) (hcap : Capped g) (hz : coords_are_fine x y g) (hv : g.board x y = v)
    (hv0 : v ≠ EMPTY) : legal_move g5 v x y := by
  refine ⟨(h.fine_iff_removed x y).2 hz, ?_, h.board_z_removed, ?_⟩
  · have := (hg.core.owner_ok x y (by rw [hv]; exact hv0)).2
    rw [hv] at this
    unfold player_is_fine
    rw [h.number_eq]
    unfold EMPTY at hv0
    exact ⟨by omega, this⟩
  · by_cases hn : has_neighbour g v x y
    · exact Or.inl ((h.has_neighbour_iff_removed v).2 hn)
    · right
      have := h.lonely hn
      have := hcap v hv0
      rw [h.max_eq]
      omega

/-- Putting the cell back restores the owner grid and with it every counter. -/
theorem rollback_spec {fuel : Nat} {g g5 : gamma_t} {p v x y : Nat} {r : Bool × gamma_t}
    (hg : Good g) (hcap : Capped g) (hz : coords_are_fine x y g) (hv : g.board x y = v)
    (hv0 : v ≠ EMPTY) (hrem : Removed g p v x y g5)
    (h : gamma_move fuel g5 v x y = some r) (hfit : ids_fit r.2) :
    r.1 = true ∧ Good r.2 ∧ Restored g v r.2 := by
  obtain ⟨h1, -, h3⟩ := gamma_move_spec fuel g5 v x y r.1 r.2 hrem.good h hfit
  have hb : r.1 = true := h1.2 (hrem.legal_back hg hcap hz hv hv0)
  obtain ⟨hgood, heff⟩ := h3 hb
  have hbd : r.2.board = g.board := by
    rw [heff.board_eq, hrem.board_eq, set_cell_set_cell, set_cell_eq_self _ _ _ _ hv]
  have hw : r.2.width = g.width := heff.width_eq.trans hrem.width_eq
  have hh : r.2.heigth = g.heigth := heff.heigth_eq.trans hrem.heigth_eq
  obtain ⟨hbusy, hcnt⟩ := hg.determined hgood hbd hw hh
  have hidx := gamma_move_idx h
  refine ⟨hb, hgood, hbd, hw, hh, heff.number_eq.trans hrem.number_eq,
    heff.max_eq.trans hrem.max_eq, heff.golden_eq.trans hrem.golden_eq, hbusy, hcnt, ?_, ?_, ?_,
    ?_⟩
  · intro q
    by_cases hq : q = v
    · rw [hq, heff.flag_eq]
      exact hrem.flag_eq v
    · rw [(heff.others q hq).2.2.1]
      exact hrem.flag_eq q
  · intro q hq
    rw [(heff.others q hq).2.2.2]
    exact hrem.next_o q hq
  · have e := heff.next_eq
    have := hrem.next_v
    by_cases hn : has_neighbour g5 v x y
    · rw [if_pos hn] at e
      omega
    · rw [if_neg hn] at e
      omega
  · intro a b hab
    have hne : ¬ (a = x ∧ b = y) := by
      intro e
      rw [e.1, e.2] at hab
      exact hab hv
    have hb5 : g5.board a b = g.board a b := by
      rw [hrem.board_eq, set_cell_apply, if_neg hne]
    rw [(hidx a b hne).2 (by rw [hb5]; exact hab)]
    exact hrem.idx_o a b hab

theorem gamma_golden_move_unfold (fuel : Nat) (game : gamma_t) (player x y : Nat) :
    gamma_golden_move fuel game player x y =
      if ¬ gamma_golden_possible_con game player ∨ ¬ coords_are_fine x y game
          ∨ game.board x y = EMPTY ∨ game.board x y = player then
        some (false, game)
      else
        (golden_move_dir fuel game (to_uint (game.players (game.board x y)).next_ind) player
          (game.board x y) (to_uint (game.indexes x y)) x y 0).bind fun s1 =>
        (golden_move_dir fuel s1.1 s1.2 player (game.board x y)
          (to_uint (game.indexes x y)) x y 1).bind fun s2 =>
        (golden_move_dir fuel s2.1 s2.2 player (game.board x y)
          (to_uint (game.indexes x y)) x y 2).bind fun s3 =>
        (golden_move_dir fuel s3.1 s3.2 player (game.board x y)
          (to_uint (game.indexes x y)) x y 3).bind fun s4 =>
        if (golden_move_lonely s4.1 player (game.board x y) x y).max_areas
            < ((golden_move_lonely s4.1 player (game.board x y) x y).players
                (game.board x y)).areas then
          (gamma_move fuel (golden_move_lonely s4.1 player (game.board x y) x y)
            (game.board x y) x y).map fun r => (false, r.2)
        else
          (gamma_move fuel (golden_move_lonely s4.1 player (game.board x y) x y)
              player x y).bind fun r =>
            if r.1 then
              some (true,
                { r.2 with
                  players := set_at r.2.players player
                    { r.2.players player with free_golden_move := false }
                  golden_moves_used := inc32 r.2.golden_moves_used })
            else (gamma_move fuel r.2 (game.board x y) x y).map fun r2 => (false, r2.2) :=
  rfl

theorem flagged_players (g : gamma_t) (p q : Nat) :
    (flagged g p).players q
      = if q = p then { g.players p with free_golden_move := false } else g.players q :=
  set_at_apply _ _ _ _

theorem flagged_player (g : gamma_t) (p q : Nat) :
    ((flagged g p).players q).fields = (g.players q).fields
    ∧ ((flagged g p).players q).areas = (g.players q).areas
    ∧ ((flagged g p).players q).border = (g.players q).border
    ∧ ((flagged g p).players q).next_ind = (g.players q).next_ind := by
  rw [flagged_players]
  by_cases hq : q = p
  · rw [if_pos hq, hq]
    exact ⟨rfl, rfl, rfl, rfl⟩
  · rw [if_neg hq]
    exact ⟨rfl, rfl, rfl, rfl⟩

theorem flagged_good {g : gamma_t} (hg : Good g) (p : Nat) : Good (flagged g p) :=
  ⟨hg.core.congr_core rfl rfl rfl rfl rfl rfl rfl (fun q => (flagged_player g p q).1)
      (fun q => (flagged_player g p q).2.2.2),
    hg.border_ok.congr_border rfl rfl rfl (fun q => (flagged_player g p q).2.2.1),
    hg.adj.congr rfl rfl rfl rfl, hg.conn.congr_conn rfl rfl rfl rfl,
    hg.areas_ok.congr_areas rfl rfl rfl rfl (fun q => (flagged_player g p q).2.1)⟩

theorem flagged_next (g : gamma_t) (p : Nat) : NextSame g (flagged g p) :=
  fun q => (flagged_player g p q).2.2.2

/-- A player that does not own every busy cell has fewer cells than there are
busy cells. -/
theorem fields_lt_busy {g : gamma_t} (hg : Good g) (p x y : Nat) (hp : p ≠ EMPTY)
    (hz : coords_are_fine x y g) (h0 : g.board x y ≠ EMPTY) (hne : g.board x y ≠ p) :
    (g.players p).fields < g.busy_fields := by
  rw [hg.core.fields_ok p hp, hg.core.busy_ok]
  apply Finset.card_lt_card
  rw [Finset.ssubset_iff_of_subset]
  · refine ⟨(x, y), (mem_busy_cells g (x, y)).2 ⟨hz, h0⟩, ?_⟩
    rw [mem_owned_cells]
    exact fun h => hne h.2
  · intro c hc
    rw [mem_owned_cells] at hc
    rw [mem_busy_cells]
    exact ⟨hc.1, by rw [hc.2]; exact hp⟩

/-- After the removal the area counter of the former owner is the number of
areas it has on the grid without the cell. -/
theorem Removed.components_removed {g g5 : gamma_t} {p v x y : Nat} (h : Removed g p v x y g5)
    (hv0 : v ≠ EMPTY) (n : Nat) :
    Components { g with board := set_cell g.board x y EMPTY } v n
      ↔ n = (g5.players v).areas := by
  rw [h.good.areas_ok.plain v hv0, ← h.good.components v hv0 n]
  constructor
  · intro hc
    exact @Components.congr_comps { g with board := set_cell g.board x y EMPTY } g5
      h.board_eq h.width_eq h.heigth_eq v n hc
  · intro hc
    exact @Components.congr_comps g5 { g with board := set_cell g.board x y EMPTY }
      h.board_eq.symm h.width_eq.symm h.heigth_eq.symm v n hc

theorem Restored.capped {g g' : gamma_t} {v : Nat} (h : Restored g v g') (hcap : Capped g) :
    Capped g' := by
  intro q hq
  rw [(h.counters q hq).2.2, h.max_eq]
  exact hcap q hq

/-- The mover can place on the emptied cell exactly when it could on the taken one. -/
theorem Removed.legal_mover {g g5 : gamma_t} {p v x y : Nat} (h : Removed g p v x y g5)
    (hg : Good g) (hz : coords_are_fine x y g) (hv : g.board x y = v)
    (hp : player_is_fine p g) (hpv : v ≠ p) :
    legal_move g5 p x y ↔ (has_neighbour g p x y ∨ (g.players p).areas < g.max_areas) := by
  have hp0 : p ≠ EMPTY := by
    unfold player_is_fine at hp
    unfold EMPTY
    omega
  unfold legal_move
  rw [h.has_neighbour_iff_removed p, h.areas_other hg hv p hp0 (fun e => hpv e.symm), h.max_eq]
  constructor
  · exact fun e => e.2.2.2
  · intro e
    refine ⟨(h.fine_iff_removed x y).2 hz, ?_, h.board_z_removed, e⟩
    unfold player_is_fine at hp ⊢
    rw [h.number_eq]
    exact hp

/-- Specification of `gamma_golden_move`: the move is accepted exactly when it
is legal; a rejected move restores the owner grid and the counters; both keep
the invariant. -/
theorem gamma_golden_move_spec (fuel : Nat) (g : gamma_t) (p x y : Nat) (b : Bool)
    (g' : gamma_t) (hg : Good g) (hcap : Capped g)
    (h : gamma_golden_move fuel g p x y = some (b, g')) (hfit : ids_fit g') :
    Good g' ∧ Capped g' ∧ (b = true ↔ golden_legal g p x y)
      ∧ (b = false → Restored g (g.board x y) g')
      ∧ (b = true → GoldenEffect g p x y g') := by
  rw [gamma_golden_move_unfold] at h
  by_cases hguard : ¬ gamma_golden_possible_con g p ∨ ¬ coords_are_fine x y g
      ∨ g.board x y = EMPTY ∨ g.board x y = p
  · rw [if_pos hguard] at h
    simp only [Option.some.injEq, Prod.mk.injEq] at h
    obtain ⟨hb, hg'⟩ := h
    rw [← hg', ← hb]
    refine ⟨hg, hcap, ⟨fun e => absurd e (by decide), fun hl => ?_⟩,
      fun _ => Restored.refl_restored _ _, fun e => absurd e (by decide)⟩
    exfalso
    rcases hguard with h1 | h1 | h1 | h1
    · exact h1 hl.1
    · exact h1 hl.2.1
    · exact hl.2.2.1 h1
    · exact hl.2.2.2.1 h1
  · rw [if_neg hguard] at h
    have hcon : gamma_golden_possible_con g p := by
      by_contra hc
      exact hguard (Or.inl hc)
    have hz : coords_are_fine x y g := by
      by_contra hc
      exact hguard (Or.inr (Or.inl hc))
    have h0 : g.board x y ≠ EMPTY := fun hc => hguard (Or.inr (Or.inr (Or.inl hc)))
    have hnp : g.board x y ≠ p := fun hc => hguard (Or.inr (Or.inr (Or.inr hc)))
    have hlegal : ∀ P : Prop, (golden_legal g p x y ↔
        ((∃ n, Components { g with board := set_cell g.board x y EMPTY } (g.board x y) n
          ∧ n ≤ g.max_areas)
        ∧ (has_neighbour g p x y ∨ (g.players p).areas < g.max_areas))) := by
      intro _
      unfold golden_legal
      exact ⟨fun e => ⟨e.2.2.2.2.1, e.2.2.2.2.2⟩, fun e => ⟨hcon, hz, h0, hnp, e.1, e.2⟩⟩
    rw [hlegal True]
    obtain ⟨v, hv⟩ : ∃ v, g.board x y = v := ⟨_, rfl⟩
    rw [hv] at h0 hnp h ⊢
    simp only [Option.bind_eq_some] at h
    obtain ⟨s1, e1, s2, e2, s3, e3, s4, e4, h⟩ := h
    have n1 := golden_move_dir_next e1
    have n2 := golden_move_dir_next e2
    have n3 := golden_move_dir_next e3
    have n4 := golden_move_dir_next e4
    have n5 := golden_move_lonely_next s4.1 p v x y
    have b0 : ∀ q, (g.players q).next_ind ≤ 4294967296 := hg.core.fit
    have b1 := n1.grow _ (by omega) b0
    have b2 := n2.grow _ (by omega) b1
    have b3 := n3.grow _ (by omega) b2
    have b4 := n4.grow _ (by omega) b3
    have hrem0 : ids_fit (golden_move_lonely s4.1 p v x y) →
        Removed g p v x y (golden_move_lonely s4.1 p v x y) :=
      removal_spec hg hz hv h0 e1 e2 e3 e4
    have b5 : ∀ q, ((golden_move_lonely s4.1 p v x y).players q).next_ind ≤ 4294967300 := by
      intro q
      rw [n5 q]
      exact b4 q
    generalize golden_move_lonely s4.1 p v x y = g5 at h hrem0 b5
    by_cases hmax : g5.max_areas < (g5.players v).areas
    · rw [if_pos hmax] at h
      simp only [Option.map_eq_some', Prod.mk.injEq] at h
      obtain ⟨r, er, hb, hg'⟩ := h
      have er' : gamma_move fuel g5 v x y = some (r.1, r.2) := er
      have nr := gamma_move_next er'
      rw [← hg'] at hfit ⊢
      have hrem := hrem0 (nr.fit_back (fun q => le_trans (b5 q) (by omega)) hfit)
      obtain ⟨-, hgood, hres⟩ := rollback_spec hg hcap hz hv h0 hrem er hfit
      rw [← hb]
      refine ⟨hgood, hres.capped hcap, ⟨fun e => absurd e (by decide), fun hl => ?_⟩,
        fun _ => hres, fun e => absurd e (by decide)⟩
      exfalso
      obtain ⟨⟨n, hn, hle⟩, -⟩ := hl
      have := (hrem.components_removed h0 n).1 hn
      rw [hrem.max_eq] at hmax
      omega
    · rw [if_neg hmax] at h
      simp only [Option.bind_eq_some] at h
      obtain ⟨r, er, h⟩ := h
      have er' : gamma_move fuel g5 p x y = some (r.1, r.2) := er
      have nr := gamma_move_next er'
      have b6 := nr.grow _ (by omega) b5
      have hp0 : p ≠ EMPTY := by
        have := hcon.1
        unfold player_is_fine at this
        unfold EMPTY
        omega
      by_cases hr1 : r.1 = true
      · rw [if_pos hr1] at h
        simp only [Option.some.injEq, Prod.mk.injEq] at h
        obtain ⟨hb, hg'⟩ := h
        change flagged r.2 p = g' at hg'
        rw [← hg'] at hfit ⊢
        have hfr : ids_fit r.2 := fun q => by rw [← flagged_next r.2 p q]; exact hfit q
        have hrem := hrem0 (nr.fit_back (fun q => le_trans (b5 q) (by omega)) hfr)
        obtain ⟨h1, -, h3⟩ := gamma_move_spec fuel g5 p x y r.1 r.2 hrem.good er' hfr
        obtain ⟨hgood, heff⟩ := h3 hr1
        have hleg := (hrem.legal_mover hg hz hv hcon.1 hnp).1 (h1.1 hr1)
        rw [← hb]
        refine ⟨flagged_good hgood p, ?_, ⟨fun _ => ⟨⟨_, (hrem.components_removed h0 _).2 rfl, ?_⟩, hleg⟩,
          fun _ => rfl⟩, fun e => absurd e (by decide), fun _ => ?_⟩
        · intro q hq
          rw [(flagged_player r.2 p q).2.1]
          show _ ≤ r.2.max_areas
          rw [heff.max_eq]
          by_cases hqp : q = p
          · rw [hqp]
            have hle := heff.areas_le
            have hl2 := h1.1 hr1
            rcases hl2.2.2.2 with hn | hn
            · rw [if_pos hn] at hle
              have e := hrem.areas_other hg hv p hp0 (fun e => hnp e.symm)
              have := hcap p hp0
              rw [hrem.max_eq]
              omega
            · by_cases hn2 : has_neighbour g5 p x y
              · rw [if_pos hn2] at hle
                omega
              · rw [if_neg hn2] at hle
                omega
          · rw [(heff.others q hqp).2.1]
            by_cases hqv : q = v
            · rw [hqv]
              omega
            · rw [hrem.areas_other hg hv q hq hqv, hrem.max_eq]
              exact hcap q hq
        · rw [← hrem.max_eq]
          omega
        · refine ⟨?_, heff.width_eq.trans hrem.width_eq, heff.heigth_eq.trans hrem.heigth_eq,
            heff.number_eq.trans hrem.number_eq, heff.max_eq.trans hrem.max_eq, ?_, ?_, ?_⟩
          · show r.2.board = _
            rw [heff.board_eq, hrem.board_eq, set_cell_set_cell]
          · show inc32 r.2.golden_moves_used = _
            rw [heff.golden_eq, hrem.golden_eq]
          · rw [flagged_players, if_pos rfl]
          · intro q hq
            rw [flagged_players, if_neg hq, (heff.others q hq).2.2.1]
            exact hrem.flag_eq q
      · rw [if_neg hr1] at h
        simp only [Option.map_eq_some', Prod.mk.injEq] at h
        obtain ⟨r2, er2, hb, hg'⟩ := h
        have er2' : gamma_move fuel r.2 v x y = some (r2.1, r2.2) := er2
        have nr2 := gamma_move_next er2'
        rw [← hg'] at hfit ⊢
        have hfr : ids_fit r.2 := nr2.fit_back (fun q => le_trans (b6 q) (by omega)) hfit
        have hrem := hrem0 (nr.fit_back (fun q => le_trans (b5 q) (by omega)) hfr)
        obtain ⟨h1, h2, -⟩ := gamma_move_spec fuel g5 p x y r.1 r.2 hrem.good er' hfr
        have hrf : r.1 = false := by
          cases hh : r.1
          · rfl
          · exact absurd hh hr1
        have hsame : r.2 = g5 := h2 hrf
        rw [hsame] at er2
        obtain ⟨-, hgood, hres⟩ := rollback_spec hg hcap hz hv h0 hrem er2 hfit
        rw [← hb]
        refine ⟨hgood, hres.capped hcap, ⟨fun e => absurd e (by decide), fun hl => ?_⟩,
          fun _ => hres, fun e => absurd e (by decide)⟩
        exfalso
        exact hr1 (h1.2 ((hrem.legal_mover hg hz hv hcon.1 hnp).2 hl.2))

theorem room_fit {n : Nat} {g : gamma_t} (h : room n g) : ids_fit g :=
  fun q => le_trans (Nat.le_add_right _ _) (h q)

theorem NextStep.room {g g' : gamma_t} (h : NextStep g g') (n : Nat) (hr : room (n + 1) g) :
    room n g' := by
  intro q
  have h1 := hr q
  rcases h q with e | e
  · rw [e]; omega
  · rw [e, inc64_small _ (by omega)]; omega

theorem NextSame.room_same {g g' : gamma_t} (h : NextSame g g') (n : Nat) (hr : Gamma.room n g) :
    Gamma.room n g' := by
  intro q
  rw [h q]
  exact hr q

/-- With recursion depth above the number of cells and room for six more ids,
`gamma_golden_move` returns and the ids still fit. -/
theorem gamma_golden_move_total (fuel : Nat) (g : gamma_t) (p x y : Nat) (hg : Good g)
    (hcap : Capped g) (hfuel : g.width * g.heigth < fuel) (hroom : room 6 g) :
    ∃ b g', gamma_golden_move fuel g p x y = some (b, g') ∧ ids_fit g' := by
  rw [gamma_golden_move_unfold]
  by_cases hguard : ¬ gamma_golden_possible_con g p ∨ ¬ coords_are_fine x y g
      ∨ g.board x y = EMPTY ∨ g.board x y = p
  · rw [if_pos hguard]
    exact ⟨false, g, rfl, hg.core.fit⟩
  · rw [if_neg hguard]
    have hcon : gamma_golden_possible_con g p := by
      by_contra hc
      exact hguard (Or.inl hc)
    have hz : coords_are_fine x y g := by
      by_contra hc
      exact hguard (Or.inr (Or.inl hc))
    have h0 : g.board x y ≠ EMPTY := fun hc => hguard (Or.inr (Or.inr (Or.inl hc)))
    have hnp : g.board x y ≠ p := fun hc => hguard (Or.inr (Or.inr (Or.inr hc)))
    obtain ⟨v, hv⟩ : ∃ v, g.board x y = v := ⟨_, rfl⟩
    rw [hv] at h0 hnp ⊢
    have i0 : RemInv g p v x y 0 (g, to_uint (g.players v).next_ind) :=
      Or.inl ⟨rfl, rfl, fun j hj => absurd hj (Nat.not_lt_zero j)⟩
    obtain ⟨s1, e1⟩ := golden_move_dir_total hg hz hv h0 i0 hfuel
    have r1 := (golden_move_dir_next e1).room 5 hroom
    have i1 := golden_move_dir_step hg hz hv h0 (by omega) i0 e1 (room_fit r1)
    obtain ⟨s2, e2⟩ := golden_move_dir_total hg hz hv h0 i1 hfuel
    have r2 := (golden_move_dir_next e2).room 4 r1
    have i2 := golden_move_dir_step hg hz hv h0 (by omega) i1 e2 (room_fit r2)
    obtain ⟨s3, e3⟩ := golden_move_dir_total hg hz hv h0 i2 hfuel
    have r3 := (golden_move_dir_next e3).room 3 r2
    have i3 := golden_move_dir_step hg hz hv h0 (by omega) i2 e3 (room_fit r3)
    obtain ⟨s4, e4⟩ := golden_move_dir_total hg hz hv h0 i3 hfuel
    have r4 := (golden_move_dir_next e4).room 2 r3
    have i4 := golden_move_dir_step hg hz hv h0 (by omega) i3 e4 (room_fit r4)
    have hrem := i4.removed_inv hg hz hv h0
    have r5 := (golden_move_lonely_next s4.1 p v x y).room_same 2 r4
    change golden_move_dir fuel g _ p v _ x y 0 = some s1 at e1
    rw [e1, Option.some_bind, e2, Option.some_bind, e3, Option.some_bind, e4, Option.some_bind]
    generalize golden_move_lonely s4.1 p v x y = g5 at hrem r5
    have hfuel5 : g5.width * g5.heigth < fuel := by
      rw [hrem.width_eq, hrem.heigth_eq]
      exact hfuel
    by_cases hmax : g5.max_areas < (g5.players v).areas
    · simp only [if_pos hmax]
      obtain ⟨r, er⟩ := gamma_move_total fuel g5 v x y hrem.good hfuel5
      have er' : gamma_move fuel g5 v x y = some (r.1, r.2) := er
      rw [er]
      exact ⟨false, r.2, rfl, room_fit ((gamma_move_next er').room 1 r5)⟩
    · simp only [if_neg hmax]
      obtain ⟨r, er⟩ := gamma_move_total fuel g5 p x y hrem.good hfuel5
      have er' : gamma_move fuel g5 p x y = some (r.1, r.2) := er
      have r6 := (gamma_move_next er').room 1 r5
      rw [er, Option.some_bind]
      by_cases hr1 : r.1 = true
      · rw [if_pos hr1]
        exact ⟨true, _, rfl, room_fit ((flagged_next r.2 p).room_same 1 r6)⟩
      · rw [if_neg hr1]
        obtain ⟨-, h2, -⟩ := gamma_move_spec fuel g5 p x y r.1 r.2 hrem.good er' (room_fit r6)
        have hrf : r.1 = false := by
          cases hh : r.1
          · rfl
          · exact absurd hh hr1
        have hsame : r.2 = g5 := h2 hrf
        rw [hsame] at r6 ⊢
        obtain ⟨r2, er2⟩ := gamma_move_total fuel g5 v x y hrem.good hfuel5
        have er2' : gamma_move fuel g5 v x y = some (r2.1, r2.2) := er2
        rw [er2]
        exact ⟨false, r2.2, rfl, room_fit ((gamma_move_next er2').room 0 r6)⟩

theorem trial_start_players (g : gamma_t) (v new x y q : Nat) :
    ((trial_start g v new x y).players q).fields = (g.players q).fields
    ∧ ((trial_start g v new x y).players q).areas = (g.players q).areas
    ∧ ((trial_start g v new x y).players q).border = (g.players q).border
    ∧ ((trial_start g v new x y).players q).free_golden_move = (g.players q).free_golden_move
    ∧ ((trial_start g v new x y).players q).next_ind
        = if q = v then new + 1 else (g.players q).next_ind := by
  have e : (trial_start g v new x y).players q
      = if q = v then { g.players v with next_ind := new + 1 } else g.players q :=
    set_at_apply _ _ _ _
  rw [e]
  by_cases hq : q = v
  · rw [if_pos hq, if_pos hq, hq]
    exact ⟨rfl, rfl, rfl, rfl, rfl⟩
  · rw [if_neg hq, if_neg hq]
    exact ⟨rfl, rfl, rfl, rfl, rfl⟩

theorem trial_start_white (g : gamma_t) (v new x y q f a b : Nat)
    (hne : ¬ (a = x ∧ b = y)) :
    White (trial_start g v new x y) q f a b ↔ White g q f a b := by
  unfold White
  show _ ∧ _ ∧ set_cell g.indexes x y new a b = f ↔ _
  rw [set_cell_apply, if_neg hne]
  exact Iff.rfl

theorem trial_start_core {g : gamma_t} {v new x y : Nat} (hg : Good g)
    (hv : g.board x y = v) (hv0 : v ≠ EMPTY)
    (hnew : new = (g.players v).next_ind) (hfit : new < 4294967296) :
    Core (trial_start g v new x y) := by
  have hc := hg.core
  have hvfine : player_is_fine v g := by
    have := (hc.owner_ok x y (by rw [hv]; exact hv0)).2
    rw [hv] at this
    unfold player_is_fine
    unfold EMPTY at hv0
    exact ⟨by omega, this⟩
  have hpos := hc.next_pos v hvfine
  refine ⟨⟨hc.sized.width_lt, hc.sized.heigth_lt, hc.sized.players_lt, hc.sized.areas_lt⟩,
    hc.owner_ok, ?_, ?_, ?_, ?_, ?_, hc.busy_ok⟩
  · intro a b hab
    show set_cell g.indexes x y new a b = EMPTY
    rw [set_cell_apply]
    by_cases hne : a = x ∧ b = y
    · rw [hne.1, hne.2] at hab
      exact absurd (hv.symm.trans hab) hv0
    · rw [if_neg hne]
      exact hc.idx_empty a b hab
  · intro a b hab
    change g.board a b ≠ EMPTY at hab
    show 1 ≤ set_cell g.indexes x y new a b
      ∧ set_cell g.indexes x y new a b < ((trial_start g v new x y).players (g.board a b)).next_ind
    rw [(trial_start_players g v new x y _).2.2.2.2, set_cell_apply]
    have := hc.idx_owned a b hab
    by_cases hne : a = x ∧ b = y
    · rw [if_pos hne, hne.1, hne.2, hv, if_pos rfl]
      omega
    · rw [if_neg hne]
      by_cases hq : g.board a b = v
      · rw [if_pos hq]
        rw [hq] at this
        omega
      · rw [if_neg hq]
        exact this
  · intro q
    rw [(trial_start_players g v new x y q).2.2.2.2]
    by_cases hq : q = v
    · rw [if_pos hq]; omega
    · rw [if_neg hq]; exact hc.fit q
  · intro q hq
    rw [(trial_start_players g v new x y q).2.2.2.2]
    by_cases hqv : q = v
    · rw [if_pos hqv]; omega
    · rw [if_neg hqv]; exact hc.next_pos q hq
  · intro q hq
    rw [(trial_start_players g v new x y q).1]
    exact hc.fields_ok q hq

/-- The trial starts in a state that satisfies its invariant. -/
theorem trial_init {g : gamma_t} {v new x y : Nat} (hg : Good g)
    (hz : coords_are_fine x y g) (hv : g.board x y = v) (hv0 : v ≠ EMPTY)
    (hnew : new = (g.players v).next_ind) (hfit : new < 4294967296) :
    TrialInv g v (g.indexes x y) new x y 0 (trial_start g v new x y) := by
  have hc := hg.core
  have hcore := trial_start_core hg hv hv0 hnew hfit
  have hzo := hc.idx_owned x y (by rw [hv]; exact hv0)
  rw [hv] at hzo
  have hold : g.indexes x y < new := by omega
  have hidz : (trial_start g v new x y).indexes x y = new := by
    show set_cell g.indexes x y new x y = new
    rw [set_cell_same]
  have hido : ∀ a b, ¬ (a = x ∧ b = y) →
      (trial_start g v new x y).indexes a b = g.indexes a b := by
    intro a b hne
    show set_cell g.indexes x y new a b = _
    rw [set_cell_apply, if_neg hne]
  have hlt : ∀ a b, g.board a b = v → g.indexes a b < new := by
    intro a b hab
    have := hc.idx_owned a b (by rw [hab]; exact hv0)
    rw [hab] at this
    omega
  have hwz : White (trial_start g v new x y) v new x y := ⟨hz, hv, hidz⟩
  -- the only cell with the new id is the cell of the trial
  have honly : ∀ c d, White (trial_start g v new x y) v new c d → c = x ∧ d = y := by
    intro c d hw
    by_contra hne
    have := (trial_start_white g v new x y v new c d hne).1 hw
    have := hlt c d this.2.1
    have e : g.indexes c d = new := ‹White g v new c d›.2.2
    omega
  have hbo : BorderOk (trial_start g v new x y) :=
    hg.border_ok.congr_border rfl rfl rfl (fun q => (trial_start_players g v new x y q).2.2.1)
  refine ⟨⟨hcore, hbo, hz, hv0, ?_, ?_, ?_, ?_⟩, ?_, hwz, ?_, ?_, ?_, ?_, rfl, rfl⟩
  · intro a b i hi h1 h2 hab hf hb
    rw [hido _ _ h1, hido _ _ h2]
    exact hg.adj a b i hi (fun f => f) (fun f => f) hab hf hb
  · intro a b c d hab hex hcd hi
    change g.board a b ≠ EMPTY at hab
    change g.board c d = g.board a b at hcd
    show Reach (trial_start g v new x y) (g.board a b) _ a b c d
    by_cases hne : a = x ∧ b = y
    · rw [hne.1, hne.2] at hcd hi ⊢
      rw [hidz] at hi ⊢
      rw [hv] at hcd ⊢
      obtain ⟨e1, e2⟩ := honly c d ⟨(hc.owner_ok c d (by rw [hcd]; exact hv0)).1, hcd, hi⟩
      rw [e1, e2]
      exact Reach.seed hwz
    · rw [hido a b hne] at hex hi ⊢
      change ¬ (g.board a b = v ∧ _) at hex
      have hne2 : ¬ (c = x ∧ d = y) := by
        intro e
        rw [e.1, e.2, hidz] at hi
        rw [e.1, e.2, hv] at hcd
        have := hlt a b hcd.symm
        omega
      rw [hido c d hne2] at hi
      have hr := hg.conn a b c d hab (fun e => hab e.1) hcd hi
      refine Reach.mono ?_ hr
      intro e f hw
      have hne3 : ¬ (e = x ∧ f = y) := by
        intro e3
        rw [e3.1, e3.2] at hw
        exact hex ⟨hw.2.1.symm.trans hv, hw.2.2.symm⟩
      exact (trial_start_white g v new x y _ _ e f hne3).2 hw
  · intro c d hw
    have hne : ¬ (c = x ∧ d = y) := by
      intro e
      rw [e.1, e.2] at hw
      have := hw.2.2
      rw [hidz] at this
      omega
    have hw0 := (trial_start_white g v new x y v _ c d hne).1 hw
    have hr : Reach g v (g.indexes x y) x y c d := by
      have := hg.conn x y c d (by rw [hv]; exact hv0) (fun e => by rw [hv] at e; exact hv0 e.1)
        (hw0.2.1.trans hv.symm) hw0.2.2
      rw [hv] at this
      exact this
    obtain ⟨j, hj, hwj, hrj⟩ := hr.first_step hne
      (fun a b hab hwab => (trial_start_white g v new x y v _ a b hab).2 hwab)
    exact ⟨j, Nat.zero_le j, hj,
      (trial_start_white g v new x y v _ _ _ (nb_ne_self x y j hj)).2 hwj, hrj⟩
  · intro hw
    have := hw.2.2
    rw [hidz] at this
    omega
  · intro c d hw
    obtain ⟨e1, e2⟩ := honly c d hw
    rw [e1, e2]
    exact Reach.seed hwz
  · intro j hj
    exact absurd hj (Nat.not_lt_zero j)
  · intro j hj hf hb
    left
    rw [hido _ _ (nb_ne_self x y j hj)]
    exact hg.adj x y j hj (fun f => f) (fun f => f) (by rw [hv]; exact hv0) hf
      (hb.trans hv.symm)
  · ext i
    rw [Finset.mem_filter, Finset.mem_insert, Finset.mem_filter, mem_area_ids, mem_area_ids]
    constructor
    · rintro ⟨⟨a, b, hw⟩, hi⟩
      by_cases hne : a = x ∧ b = y
      · left
        rw [hne.1, hne.2] at hw
        exact hw.2.2.symm.trans hidz
      · exact Or.inr ⟨⟨a, b, (trial_start_white g v new x y v i a b hne).1 hw⟩, hi⟩
    · rintro (e | ⟨⟨a, b, hw⟩, hi⟩)
      · rw [e]
        exact ⟨⟨x, y, hwz⟩, fun f => by omega⟩
      · have hne : ¬ (a = x ∧ b = y) := by
          intro e
          rw [e.1, e.2] at hw
          exact hi ⟨rfl, hw.2.2.symm⟩
        exact ⟨⟨a, b, (trial_start_white g v new x y v i a b hne).2 hw⟩, hi⟩
  · intro q hq
    ext i
    rw [mem_area_ids, mem_area_ids]
    have key : ∀ a b, White (trial_start g v new x y) q i a b ↔ White g q i a b := by
      intro a b
      by_cases hne : a = x ∧ b = y
      · rw [hne.1, hne.2]
        constructor
        · intro hw
          exact absurd (hw.2.1.symm.trans hv) hq
        · intro hw
          exact absurd (hw.2.1.symm.trans hv) hq
      · exact trial_start_white g v new x y q i a b hne
    simp only [key]

theorem TrialInv.skip_trial {g gk : gamma_t} {v old new x y k : Nat}
    (h : TrialInv g v old new x y k gk) (hk : k < 4)
    (hn : ¬ White gk v old (nbx x k) (nby y k)) : TrialInv g v old new x y (k + 1) gk := by
  refine ⟨h.split.skip_split hn, h.joined, h.zwhite, ?_, h.nbrs, h.ids_v, h.ids_o, h.frame,
    h.players_eq⟩
  intro j hj hf hb
  by_cases hjk : j = k
  · rw [hjk] at hf hb ⊢
    rcases h.nbrs k hk hf hb with e | e
    · exact absurd ⟨hf, hb, e⟩ hn
    · exact e
  · exact h.done j (by omega) hf hb

theorem TrialInv.relabel_trial {g gk g1 : gamma_t} {v old new x y k : Nat}
    (h : TrialInv g v old new x y k gk) (hk : k < 4)
    (hw : White gk v old (nbx x k) (nby y k))
    (hr : Relabelled gk v old new (nbx x k) (nby y k) g1) (hne : old ≠ new)
    (h1 : 1 ≤ new) : TrialInv g v old new x y (k + 1) g1 := by
  have hnext : new < (gk.players v).next_ind := by
    rw [h.players_eq, set_at_same]
    exact Nat.lt_succ_self _
  have hsplit := h.split.relabel hk hw hr hne h1 hnext (fun c d hc => ⟨h.zwhite, h.joined c d hc⟩)
  have hzw : White g1 v new x y := hr.white_keep hne x y h.zwhite
  have hnw : White g1 v new (nbx x k) (nby y k) := hr.white_new _ _ (Reach.seed hw)
  have hfine : ∀ a b, coords_are_fine a b g1 ↔ coords_are_fine a b gk := by
    intro a b
    unfold coords_are_fine
    rw [hr.width_relab, hr.heigth_relab]
  refine ⟨hsplit, ?_, hzw, ?_, ?_, ?_, ?_, ?_, hr.players.trans h.players_eq⟩
  · intro c d hc
    rcases hr.indexes_eq c d with ⟨hrc, _⟩ | ⟨_, e⟩
    · have r1 := hr.reach_new _ _ c d (Reach.seed hw) hrc
      exact (Reach.step x y k (Reach.seed hzw) hk hnw).trans r1
    · have hwc : White gk v new c d :=
        ⟨(hfine c d).1 hc.1, by rw [← hr.board_relab]; exact hc.2.1, e.symm.trans hc.2.2⟩
      exact hr.reach_keep hne _ _ _ _ (h.joined c d hwc)
  · intro j hj hf hb
    by_cases hjk : j = k
    · rw [hjk]
      exact hnw.2.2
    · have := h.done j (by omega) ((hfine _ _).1 hf) (by rw [← hr.board_relab]; exact hb)
      rw [hr.other_id _ _ (by rw [this]; exact fun e => hne e.symm)]
      exact this
  · intro j hj hf hb
    rcases hr.indexes_eq (nbx x j) (nby y j) with ⟨_, e⟩ | ⟨_, e⟩
    · exact Or.inr e
    · rw [e]
      exact h.nbrs j hj ((hfine _ _).1 hf) (by rw [← hr.board_relab]; exact hb)
  · rw [hr.area_ids_split hw hne, h.ids_v, Finset.insert_idem]
  · intro q hq
    rw [hr.area_ids_other q hq]
    exact h.ids_o q hq
  · have e1 := hr.frame
    have e2 := h.frame
    rw [e1]
    conv_lhs => rw [e2]

/-- One round of the loop of the trial keeps its invariant. -/
theorem golden_possible_dir_step {g gk : gamma_t} {v old new x y k fuel : Nat} {cnt : Int}
    {s : gamma_t × Int} (h : TrialInv g v old new x y k gk) (hk : k < 4) (hne : old ≠ new)
    (h1 : 1 ≤ new)
    (e : golden_possible_dir fuel gk cnt v x y old new k = some s) :
    TrialInv g v old new x y (k + 1) s.1 := by
  unfold golden_possible_dir at e
  by_cases hc : coords_are_fine (nbx x k) (nby y k) gk ∧ gk.board (nbx x k) (nby y k) = v
      ∧ gk.indexes (nbx x k) (nby y k) = old
  · rw [if_pos hc] at e
    simp only [Option.map_eq_some'] at e
    obtain ⟨g1, e1, e2⟩ := e
    rw [← e2]
    exact h.relabel_trial hk hc (reindexify_relabels fuel gk g1 v _ _ old new hne e1) hne h1
  · rw [if_neg hc] at e
    simp only [Option.some.injEq] at e
    rw [← e]
    exact h.skip_trial hk hc

theorem Renumbered.refl_renum (g : gamma_t) : Renumbered g g :=
  ⟨rfl, fun _ => ⟨rfl, rfl, rfl, rfl⟩, fun _ => le_refl _⟩

theorem Renumbered.trans_renum {g1 g2 g3 : gamma_t} (h1 : Renumbered g1 g2) (h2 : Renumbered g2 g3) :
    Renumbered g1 g3 := by
  refine ⟨?_, ?_, fun q => le_trans (h1.next_ge q) (h2.next_ge q)⟩
  · have e1 := h1.frame
    have e2 := h2.frame
    rw [e2]
    conv_lhs => rw [e1]
  · intro q
    obtain ⟨a1, a2, a3, a4⟩ := h1.counters q
    obtain ⟨b1, b2, b3, b4⟩ := h2.counters q
    exact ⟨b1.trans a1, b2.trans a2, b3.trans a3, b4.trans a4⟩

/-- After the four rounds the area of the cell carries the new id and the
invariant of the engine holds. -/
theorem TrialInv.finish {g g4 : gamma_t} {v new x y : Nat}
    (h : TrialInv g v (g.indexes x y) new x y 4 g4) (hg : Good g)
    (hz : coords_are_fine x y g) (hv : g.board x y = v)
    (hnew : new = (g.players v).next_ind) : Good g4 ∧ Renumbered g g4 := by
  have hv0 := h.split.vne
  have hs := hg.core.sized
  have hbd : g4.board = g.board := by rw [h.frame]
  have hwd : g4.width = g.width := by rw [h.frame]
  have hht : g4.heigth = g.heigth := by rw [h.frame]
  have hpl : ∀ q, g4.players q
      = if q = v then { g.players v with next_ind := new + 1 } else g.players q := by
    intro q
    rw [h.players_eq, set_at_apply]
  have hcnt : ∀ q, (g4.players q).fields = (g.players q).fields
      ∧ (g4.players q).areas = (g.players q).areas
      ∧ (g4.players q).border = (g.players q).border
      ∧ (g4.players q).free_golden_move = (g.players q).free_golden_move
      ∧ (g.players q).next_ind ≤ (g4.players q).next_ind := by
    intro q
    rw [hpl]
    by_cases hq : q = v
    · rw [if_pos hq, hq]
      exact ⟨rfl, rfl, rfl, rfl, by rw [← hnew]; exact Nat.le_succ _⟩
    · rw [if_neg hq]
      exact ⟨rfl, rfl, rfl, rfl, le_refl _⟩
  refine ⟨⟨h.split.core, h.split.border_ok, ?_, h.split.conn_all, ?_⟩,
    h.frame, fun q => ⟨(hcnt q).1, (hcnt q).2.1, (hcnt q).2.2.1, (hcnt q).2.2.2.1⟩,
    fun q => (hcnt q).2.2.2.2⟩
  · intro a b i hi _ _ hab hf hb
    by_cases h1 : a = x ∧ b = y
    · rw [h1.1, h1.2] at hb hf ⊢
      rw [h.zwhite.2.1] at hb
      rw [h.done i hi hf hb]
      exact h.zwhite.2.2.symm
    · by_cases h2 : nbx a i = x ∧ nby b i = y
      · have hac := (h.split.core.owner_ok a b hab).1
        have hback := nb_back g4.width g4.heigth a b i hi h.split.core.sized.width_lt
          h.split.core.sized.heigth_lt hac.1 hac.2 hf.1 hf.2
        rw [h2.1, h2.2] at hback hb ⊢
        rw [h.zwhite.2.1] at hb
        have := h.done (opp i) (opp_lt i) (by rw [hback.1, hback.2]; exact hac)
          (by rw [hback.1, hback.2]; exact hb.symm)
        rw [hback.1, hback.2] at this
        rw [this]
        exact h.zwhite.2.2
      · exact h.split.adj a b i hi h1 h2 hab hf hb
  · apply AreasOk.of_plain
    intro q hq
    rw [(hcnt q).2.1, hg.areas_ok.plain q hq]
    by_cases hqv : q = v
    · rw [hqv]
      have hnone : ((area_ids g4 v).filter fun i => ¬ (v = v ∧ i = g.indexes x y))
          = area_ids g4 v := by
        apply Finset.filter_true_of_mem
        intro i hi hc
        rw [mem_area_ids] at hi
        obtain ⟨a, b, hw⟩ := hi
        rw [hc.2] at hw
        exact h.split.none_left a b hw
      have hmem : g.indexes x y ∈ area_ids g v := area_ids_old_mem hz hv
      have hnot : new ∉ (area_ids g v).filter fun i => ¬ (v = v ∧ i = g.indexes x y) := by
        intro hm
        have := Finset.mem_of_mem_filter _ hm
        rw [mem_area_ids] at this
        obtain ⟨a, b, hw⟩ := this
        have := hg.core.idx_owned a b (by rw [hw.2.1]; exact hv0)
        rw [hw.2.1, hw.2.2] at this
        omega
      have herase : ((area_ids g v).filter fun i => ¬ (v = v ∧ i = g.indexes x y))
          = (area_ids g v).erase (g.indexes x y) := by
        ext i
        rw [Finset.mem_filter, Finset.mem_erase]
        constructor
        · rintro ⟨h1, h2⟩
          exact ⟨fun e => h2 ⟨rfl, e⟩, h1⟩
        · rintro ⟨h1, h2⟩
          exact ⟨h2, fun e => h1 e.2⟩
      rw [← hnone, h.ids_v, Finset.card_insert_of_not_mem hnot, herase,
        Finset.card_erase_of_mem hmem]
      have : 0 < (area_ids g v).card := Finset.card_pos.2 ⟨_, hmem⟩
      omega
    · rw [h.ids_o q hqv]

theorem NextGrow.refl_grow (g : gamma_t) : NextGrow 0 g g :=
  ⟨rfl, fun _ hB _ q => ⟨le_refl _, hB q⟩⟩

theorem NextGrow.mono_grow {n m : Nat} {g g' : gamma_t} (h : NextGrow n g g') (hnm : n ≤ m) :
    NextGrow m g g' := by
  refine ⟨h.1, fun B hB hlt q => ?_⟩
  have := h.2 B hB (by omega) q
  omega

theorem NextGrow.trans_grow {a b : Nat} {g g1 g2 : gamma_t} (h1 : NextGrow a g g1)
    (h2 : NextGrow b g1 g2) : NextGrow (a + b) g g2 := by
  refine ⟨h2.1.trans h1.1, fun B hB hlt q => ?_⟩
  have k1 := h1.2 B hB (by omega)
  have k2 := h2.2 (B + a) (fun q => (k1 q).2) (by omega) q
  have := k1 q
  omega

theorem NextStep.grow_one {g g' : gamma_t} (h : NextStep g g') (hh : g'.heigth = g.heigth) :
    NextGrow 1 g g' :=
  ⟨hh, fun B hB hlt q => h.bound B (by omega) hB q⟩

/-- If the counters fit after a scan, they fitted before it. -/
theorem NextGrow.fit_back_grow {n : Nat} {g g' : gamma_t} (h : NextGrow n g g') (B : Nat)
    (hB : ∀ q, (g.players q).next_ind ≤ B) (hlt : B + n < 18446744073709551615)
    (hfit : ids_fit g') : ids_fit g := by
  intro q
  have := (h.2 B hB hlt q).1
  have := hfit q
  omega

theorem golden_possible_dir_frame {fuel : Nat} {gk : gamma_t} {cnt : Int}
    {v x y old new k : Nat} {s : gamma_t × Int}
    (e : golden_possible_dir fuel gk cnt v x y old new k = some s) :
    s.1 = { gk with indexes := s.1.indexes } := by
  unfold golden_possible_dir at e
  split at e
  · simp only [Option.map_eq_some'] at e
    obtain ⟨g1, e1, e2⟩ := e
    rw [← e2]
    exact reindexify_frame v old new fuel gk g1 _ _ e1
  · simp only [Option.some.injEq] at e
    rw [← e]

theorem golden_possible_cell_unfold (fuel : Nat) (game : gamma_t) (player x y : Nat) :
    golden_possible_cell fuel game player x y =
      if game.board x y ≠ EMPTY ∧ game.board x y ≠ player then
        if neighbourhood_is_fine game player x y then
          (golden_possible_dir fuel
            { game with
              players := set_at game.players (game.board x y)
                { game.players (game.board x y) with
                  next_ind := inc64 (game.players (game.board x y)).next_ind }
              indexes := set_cell game.indexes x y
                (to_uint (game.players (game.board x y)).next_ind) }
            (-1) (game.board x y) x y (to_uint (game.indexes x y))
            (to_uint (game.players (game.board x y)).next_ind) 0).bind fun s1 =>
          (golden_possible_dir fuel s1.1 s1.2 (game.board x y) x y (to_uint (game.indexes x y))
            (to_uint (game.players (game.board x y)).next_ind) 1).bind fun s2 =>
          (golden_possible_dir fuel s2.1 s2.2 (game.board x y) x y (to_uint (game.indexes x y))
            (to_uint (game.players (game.board x y)).next_ind) 2).bind fun s3 =>
          (golden_possible_dir fuel s3.1 s3.2 (game.board x y) x y (to_uint (game.indexes x y))
            (to_uint (game.players (game.board x y)).next_ind) 3).bind fun s4 =>
          if Int.toNat ((((s4.1.players (game.board x y)).areas : Int) + s4.2) % 4294967296)
              ≤ s4.1.max_areas then
            some (true, s4.1)
          else some (false, s4.1)
        else some (false, game)
      else some (false, game) := rfl

/-- What the trial at one cell does to the players and the board size, whatever the state. -/
theorem golden_possible_cell_frame {fuel : Nat} {g : gamma_t} {p x y : Nat}
    {r : Bool × gamma_t} (h : golden_possible_cell fuel g p x y = some r) :
    r.2 = g ∨ (r.2.heigth = g.heigth ∧ r.2.players = set_at g.players (g.board x y)
      { g.players (g.board x y) with
        next_ind := inc64 (g.players (g.board x y)).next_ind }) := by
  rw [golden_possible_cell_unfold] at h
  split at h
  · split at h
    · simp only [Option.bind_eq_some] at h
      obtain ⟨s1, e1, s2, e2, s3, e3, s4, e4, h⟩ := h
      have f1 := golden_possible_dir_frame e1
      have f2 := golden_possible_dir_frame e2
      have f3 := golden_possible_dir_frame e3
      have f4 := golden_possible_dir_frame e4
      have hs4 : s4.1.heigth = g.heigth ∧ s4.1.players = set_at g.players (g.board x y)
          { g.players (g.board x y) with
            next_ind := inc64 (g.players (g.board x y)).next_ind } := by
        rw [f4, f3, f2, f1]
        exact ⟨rfl, rfl⟩
      right
      split at h
      · simp only [Option.some.injEq] at h
        rw [← h]
        exact hs4
      · simp only [Option.some.injEq] at h
        rw [← h]
        exact hs4
    · simp only [Option.some.injEq] at h
      left
      rw [← h]
  · simp only [Option.some.injEq] at h
    left
    rw [← h]

theorem golden_possible_cell_grow {fuel : Nat} {g : gamma_t} {p x y : Nat}
    {r : Bool × gamma_t} (h : golden_possible_cell fuel g p x y = some r) :
    NextGrow 1 g r.2 := by
  rcases golden_possible_cell_frame h with e | ⟨e1, e2⟩
  · rw [e]
    exact (NextGrow.refl_grow g).mono_grow (Nat.zero_le 1)
  · have : NextStep g r.2 := by
      intro q
      rw [e2, set_at_apply]
      by_cases hq : q = g.board x y
      · rw [if_pos hq, hq]
        exact Or.inr rfl
      · rw [if_neg hq]
        exact Or.inl rfl
    exact this.grow_one e1

theorem golden_possible_rows_grow (fuel p x : Nat) :
    ∀ (ys : List Nat) (g : gamma_t) (r : Bool × gamma_t),
      golden_possible_rows fuel p x ys g = some r → NextGrow ys.length g r.2 := by
  intro ys
  induction ys with
  | nil =>
    intro g r h
    simp only [golden_possible_rows, Option.some.injEq] at h
    rw [← h]
    exact NextGrow.refl_grow g
  | cons y ys ih =>
    intro g r h
    simp only [golden_possible_rows, Option.bind_eq_some] at h
    obtain ⟨r1, e1, h⟩ := h
    have g1 := golden_possible_cell_grow e1
    by_cases hr : r1.1 = true
    · rw [if_pos hr] at h
      simp only [Option.some.injEq] at h
      rw [← h]
      exact g1.mono_grow (by simp only [List.length_cons]; omega)
    · rw [if_neg hr] at h
      have := g1.trans_grow (ih r1.2 r h)
      rw [List.length_cons, Nat.add_comm]
      exact this

theorem golden_possible_cols_grow (fuel p : Nat) :
    ∀ (xs : List Nat) (g : gamma_t) (r : Bool × gamma_t),
      golden_possible_cols fuel p xs g = some r →
        NextGrow (xs.length * g.heigth) g r.2 := by
  intro xs
  induction xs with
  | nil =>
    intro g r h
    simp only [golden_possible_cols, Option.some.injEq] at h
    rw [← h]
    simp only [List.length_nil, Nat.zero_mul]
    exact NextGrow.refl_grow g
  | cons x xs ih =>
    intro g r h
    simp only [golden_possible_cols, Option.bind_eq_some] at h
    obtain ⟨r1, e1, h⟩ := h
    have g1 := golden_possible_rows_grow fuel p x _ g r1 e1
    rw [List.length_range] at g1
    by_cases hr : r1.1 = true
    · rw [if_pos hr] at h
      simp only [Option.some.injEq] at h
      rw [← h]
      refine g1.mono_grow ?_
      rw [List.length_cons, Nat.succ_mul]
      exact Nat.le_add_left _ _
    · rw [if_neg hr] at h
      have g2 := ih r1.2 r h
      rw [g1.1] at g2
      have := g1.trans_grow g2
      rw [List.length_cons, Nat.succ_mul, Nat.add_comm]
      exact this

/-! ## `gamma_golden_possible` on a game that satisfies the invariant -/

/-- The trial at one cell keeps the invariant and changes only area ids and an
id counter. -/
theorem golden_possible_cell_spec {fuel : Nat} {g : gamma_t} {p x y : Nat}
    {r : Bool × gamma_t} (hg : Good g) (h : golden_possible_cell fuel g p x y = some r)
    (hfit : ids_fit r.2) : Good r.2 ∧ Renumbered g r.2 := by
  have hframe := golden_possible_cell_frame h
  rw [golden_possible_cell_unfold] at h
  by_cases c1 : g.board x y ≠ EMPTY ∧ g.board x y ≠ p
  · rw [if_pos c1] at h
    by_cases c2 : neighbourhood_is_fine g p x y = true
    · rw [if_pos c2] at h
      have hz : coords_are_fine x y g := (hg.core.owner_ok x y c1.1).1
      obtain ⟨v, hv⟩ : ∃ v, g.board x y = v := ⟨_, rfl⟩
      rw [hv] at h hframe c1
      have hv0 : v ≠ EMPTY := c1.1
      have hzo := hg.core.idx_owned x y (by rw [hv]; exact hv0)
      rw [hv] at hzo
      have hn32 : (g.players v).next_ind < 4294967296 := by
        rcases hframe with e | ⟨_, e⟩
        · -- the state cannot be unchanged: the trial was run
          simp only [Option.bind_eq_some] at h
          obtain ⟨s1, e1, s2, e2, s3, e3, s4, e4, h⟩ := h
          have f1 := golden_possible_dir_frame e1
          have f2 := golden_possible_dir_frame e2
          have f3 := golden_possible_dir_frame e3
          have f4 := golden_possible_dir_frame e4
          have hs4 : s4.1.players = set_at g.players v
              { g.players v with next_ind := inc64 (g.players v).next_ind } := by
            rw [f4, f3, f2, f1]
          have hr2 : r.2 = s4.1 := by
            split at h
            · simp only [Option.some.injEq] at h
              rw [← h]
            · simp only [Option.some.injEq] at h
              rw [← h]
          have := hfit v
          rw [hr2, hs4, set_at_same] at this
          change inc64 (g.players v).next_ind ≤ _ at this
          have := hg.core.fit v
          unfold inc64 at *
          omega
        · have := hfit v
          rw [e, set_at_same] at this
          change inc64 (g.players v).next_ind ≤ _ at this
          have := hg.core.fit v
          unfold inc64 at *
          omega
      have hinc : inc64 (g.players v).next_ind = (g.players v).next_ind + 1 :=
        inc64_small _ (by omega)
      have htn : to_uint (g.players v).next_ind = (g.players v).next_ind :=
        to_uint_small _ hn32
      have hto : to_uint (g.indexes x y) = g.indexes x y := to_uint_small _ (by omega)
      rw [htn, hto, hinc] at h
      simp only [Option.bind_eq_some] at h
      obtain ⟨s1, e1, s2, e2, s3, e3, s4, e4, h⟩ := h
      change golden_possible_dir fuel (trial_start g v (g.players v).next_ind x y) _ _ _ _ _ _ 0
        = some s1 at e1
      have hne : g.indexes x y ≠ (g.players v).next_ind := by omega
      have h1 : 1 ≤ (g.players v).next_ind := by omega
      have i0 := trial_init hg hz hv hv0 rfl hn32
      have i1 := golden_possible_dir_step i0 (by omega) hne h1 e1
      have i2 := golden_possible_dir_step i1 (by omega) hne h1 e2
      have i3 := golden_possible_dir_step i2 (by omega) hne h1 e3
      have i4 := golden_possible_dir_step i3 (by omega) hne h1 e4
      have hfin := i4.finish hg hz hv rfl
      have hr2 : r.2 = s4.1 := by
        split at h
        · simp only [Option.some.injEq] at h
          rw [← h]
        · simp only [Option.some.injEq] at h
          rw [← h]
      rw [hr2]
      exact hfin
    · rw [if_neg c2] at h
      simp only [Option.some.injEq] at h
      rw [← h]
      exact ⟨hg, Renumbered.refl_renum g⟩
  · rw [if_neg c1] at h
    simp only [Option.some.injEq] at h
    rw [← h]
    exact ⟨hg, Renumbered.refl_renum g⟩

theorem Renumbered.heigth_renum {g g' : gamma_t} (h : Renumbered g g') : g'.heigth = g.heigth := by
  rw [h.frame]

theorem Renumbered.width_renum {g g' : gamma_t} (h : Renumbered g g') : g'.width = g.width := by
  rw [h.frame]

theorem golden_possible_rows_spec (fuel p x : Nat) :
    ∀ (ys : List Nat) (g : gamma_t) (r : Bool × gamma_t), Good g → ys.length ≤ 4294967296 →
      golden_possible_rows fuel p x ys g = some r → ids_fit r.2 →
        Good r.2 ∧ Renumbered g r.2 := by
  intro ys
  induction ys with
  | nil =>
    intro g r hg _ h _
    simp only [golden_possible_rows, Option.some.injEq] at h
    rw [← h]
    exact ⟨hg, Renumbered.refl_renum g⟩
  | cons y ys ih =>
    intro g r hg hlen h hfit
    simp only [golden_possible_rows, Option.bind_eq_some] at h
    obtain ⟨r1, e1, h⟩ := h
    have g1 := golden_possible_cell_grow e1
    rw [List.length_cons] at hlen
    by_cases hr : r1.1 = true
    · rw [if_pos hr] at h
      simp only [Option.some.injEq] at h
      rw [← h] at hfit ⊢
      exact golden_possible_cell_spec hg e1 hfit
    · rw [if_neg hr] at h
      have g2 := golden_possible_rows_grow fuel p x ys r1.2 r h
      have b1 := g1.2 4294967296 hg.core.fit (by omega)
      have hf1 : ids_fit r1.2 :=
        g2.fit_back_grow 4294967297 (fun q => (b1 q).2) (by omega) hfit
      obtain ⟨hg1, hn1⟩ := golden_possible_cell_spec hg e1 hf1
      obtain ⟨hg2, hn2⟩ := ih r1.2 r hg1 (by omega) h hfit
      exact ⟨hg2, hn1.trans_renum hn2⟩

theorem golden_possible_cols_spec (fuel p : Nat) :
    ∀ (xs : List Nat) (g : gamma_t) (r : Bool × gamma_t), Good g → xs.length < 4294967296 →
      golden_possible_cols fuel p xs g = some r → ids_fit r.2 →
        Good r.2 ∧ Renumbered g r.2 := by
  intro xs
  induction xs with
  | nil =>
    intro g r hg _ h _
    simp only [golden_possible_cols, Option.some.injEq] at h
    rw [← h]
    exact ⟨hg, Renumbered.refl_renum g⟩
  | cons x xs ih =>
    intro g r hg hlen h hfit
    simp only [golden_possible_cols, Option.bind_eq_some] at h
    obtain ⟨r1, e1, h⟩ := h
    have hH := hg.core.sized.heigth_lt
    have g1 := golden_possible_rows_grow fuel p x _ g r1 e1
    rw [List.length_range] at g1
    rw [List.length_cons] at hlen
    have hrows := golden_possible_rows_spec fuel p x (List.range g.heigth) g r1 hg
      (by rw [List.length_range]; omega) e1
    by_cases hr : r1.1 = true
    · rw [if_pos hr] at h
      simp only [Option.some.injEq] at h
      rw [← h] at hfit ⊢
      exact hrows hfit
    · rw [if_neg hr] at h
      have g2 := golden_possible_cols_grow fuel p xs r1.2 r h
      rw [g1.1] at g2
      have b1 := g1.2 4294967296 hg.core.fit (by omega)
      have hmul : (xs.length + 1) * g.heigth ≤ 4294967295 * 4294967295 :=
        Nat.mul_le_mul (by omega) (by omega)
      rw [Nat.succ_mul] at hmul
      have hf1 : ids_fit r1.2 :=
        g2.fit_back_grow (4294967296 + g.heigth) (fun q => (b1 q).2) (by omega) hfit
      obtain ⟨hg1, hn1⟩ := hrows hf1
      obtain ⟨hg2, hn2⟩ := ih r1.2 r hg1 (by omega) h hfit
      exact ⟨hg2, hn1.trans_renum hn2⟩

/-- Specification of `gamma_golden_possible` as far as the state goes: the
invariant is kept and only area ids and id counters change. -/
theorem gamma_golden_possible_spec (fuel : Nat) (g : gamma_t) (p : Nat) (b : Bool)
    (g' : gamma_t) (hg : Good g) (h : gamma_golden_possible fuel g p = some (b, g'))
    (hfit : ids_fit g') : Good g' ∧ Renumbered g g' := by
  unfold gamma_golden_possible at h
  split at h
  · simp only [Option.some.injEq, Prod.mk.injEq] at h
    rw [← h.2]
    exact ⟨hg, Renumbered.refl_renum g⟩
  · split at h
    · simp only [Option.some.injEq, Prod.mk.injEq] at h
      rw [← h.2]
      exact ⟨hg, Renumbered.refl_renum g⟩
    · exact golden_possible_cols_spec fuel p _ g (b, g') hg
        (by rw [List.length_range]; exact hg.core.sized.width_lt) h hfit

theorem Renumbered.capped_renum {g g' : gamma_t} (h : Renumbered g g') (hcap : Capped g) :
    Capped g' := by
  intro q hq
  have e : g'.max_areas = g.max_areas := by rw [h.frame]
  rw [(h.counters q).2.1, e]
  exact hcap q hq

/-! ## The game that `gamma_new` returns -/

/-- With `players = 2^32 - 1` the loop of `gamma_new` never leaves. -/
theorem init_players_stuck (players : Nat) (hp : players = 4294967295) :
    ∀ (fuel i : Nat) (ps : Nat → player), i < 4294967296 →
      init_players fuel i players ps = none := by
  intro fuel
  induction fuel with
  | zero => intro i ps _; rfl
  | succ n ih =>
    intro i ps hi
    unfold init_players
    rw [if_pos (by omega)]
    exact ih _ _ (by unfold inc32; exact Nat.mod_lt _ (by omega))

/-- What the loop of `gamma_new` writes when it leaves. -/
theorem init_players_spec (players : Nat) (hp : players < 4294967296) :
    ∀ (fuel i : Nat) (ps r : Nat → player), i < 4294967296 →
      init_players fuel i players ps = some r →
        ∀ q, r q = if i ≤ q ∧ q ≤ players then fresh_player else ps q := by
  intro fuel
  induction fuel with
  | zero => intro i ps r _ h; simp [init_players] at h
  | succ n ih =>
    intro i ps r hi h q
    unfold init_players at h
    by_cases hle : i ≤ players
    · rw [if_pos hle] at h
      by_cases hmax : i = 4294967295
      · have hpl : players = 4294967295 := by omega
        rw [init_players_stuck players hpl n (inc32 i) _
          (by unfold inc32; exact Nat.mod_lt _ (by omega))] at h
        exact absurd h (by simp)
      · have hinc : inc32 i = i + 1 := inc32_small _ (by omega)
        rw [hinc] at h
        rw [ih (i + 1) _ r (by omega) h q, set_at_apply]
        by_cases hq : q = i
        · rw [hq, if_pos rfl]
          rw [if_neg (by omega)]
          rw [if_pos ⟨le_refl _, hle⟩]
        · rw [if_neg hq]
          by_cases h2 : i + 1 ≤ q ∧ q ≤ players
          · rw [if_pos h2, if_pos ⟨by omega, h2.2⟩]
          · rw [if_neg h2, if_neg (by omega)]
    · rw [if_neg hle] at h
      simp only [Option.some.injEq] at h
      rw [← h, if_neg (by omega)]

/-- The game `gamma_new` returns satisfies the invariant of the engine. -/
theorem gamma_new_good (fuel width height players areas : Nat) (g : gamma_t)
    (hw : width < 4294967296) (hh : height < 4294967296) (hp : players < 4294967296)
    (ha : areas < 4294967296)
    (h : gamma_new fuel width height players areas = some (some g)) :
    Good g ∧ Capped g := by
  unfold gamma_new at h
  split at h
  · simp at h
  · simp only [Option.map_eq_some', Option.some.injEq] at h
    obtain ⟨ps, e1, e2⟩ := h
    have hps := init_players_spec players hp fuel 1 _ ps (by omega) e1
    have hbd : g.board = fun _ _ => EMPTY := by rw [← e2]
    have hix : g.indexes = fun _ _ => EMPTY := by rw [← e2]
    have hwd : g.width = width := by rw [← e2]
    have hht : g.heigth = height := by rw [← e2]
    have hnp : g.number_of_players = players := by rw [← e2]
    have hmx : g.max_areas = areas := by rw [← e2]
    have hbz : g.busy_fields = 0 := by rw [← e2]
    have hpl : g.players = ps := by rw [← e2]
    have hcell : ∀ a b, g.board a b = EMPTY := fun a b => by rw [hbd]
    have hplayer : ∀ q, (g.players q).fields = 0 ∧ (g.players q).areas = 0
        ∧ (g.players q).border = 0 ∧ (g.players q).next_ind ≤ 1
        ∧ (player_is_fine q g → (g.players q).next_ind = 1) := by
      intro q
      rw [hpl, hps q]
      by_cases hq : 1 ≤ q ∧ q ≤ players
      · rw [if_pos hq]
        exact ⟨rfl, rfl, rfl, le_refl _, fun _ => rfl⟩
      · rw [if_neg hq]
        refine ⟨rfl, rfl, rfl, Nat.zero_le _, fun hf => ?_⟩
        unfold player_is_fine at hf
        rw [hnp] at hf
        exact absurd ⟨hf.1, hf.2⟩ hq
    have hown : ∀ q, q ≠ EMPTY → owned_cells g q = ∅ := by
      intro q hq
      apply Finset.eq_empty_of_forall_not_mem
      intro c hc
      rw [mem_owned_cells, hcell] at hc
      exact hq hc.2.symm
    refine ⟨⟨⟨⟨by rw [hwd]; exact hw, by rw [hht]; exact hh, by rw [hnp]; exact hp,
        by rw [hmx]; exact ha⟩, ?_, ?_, ?_, ?_, ?_, ?_, ?_⟩, ?_, ?_, ?_, ?_⟩, ?_⟩
    · intro a b hab
      exact absurd (hcell a b) hab
    · intro a b _
      rw [hix]
    · intro a b hab
      exact absurd (hcell a b) hab
    · intro q
      have := (hplayer q).2.2.2.1
      omega
    · intro q hq
      rw [(hplayer q).2.2.2.2 hq]
    · intro q hq
      rw [(hplayer q).1, hown q hq]
      rfl
    · rw [hbz]
      symm
      apply Finset.card_eq_zero.2
      apply Finset.eq_empty_of_forall_not_mem
      intro c hc
      rw [mem_busy_cells] at hc
      exact hc.2 (hcell _ _)
    · intro q hq
      rw [(hplayer q).2.2.1]
      symm
      apply Finset.card_eq_zero.2
      apply Finset.eq_empty_of_forall_not_mem
      intro c hc
      rw [mem_border_cells] at hc
      obtain ⟨_, _, i, _, _, hb⟩ := hc
      rw [hcell] at hb
      exact hq hb.symm
    · intro a b i _ _ _ hab
      exact absurd (hcell a b) hab
    · intro a b c d hab
      exact absurd (hcell a b) hab
    · apply AreasOk.of_plain
      intro q hq
      rw [(hplayer q).2.1]
      unfold area_ids
      rw [hown q hq]
      rfl
    · intro q _
      rw [(hplayer q).2.1]
      exact Nat.zero_le _

theorem FitReachable.reachable {g : gamma_t} (h : FitReachable g) : Reachable g := by
  induction h with
  | init g hi => exact Reachable.init g hi
  | step g g' _ hs _ ih => exact Reachable.step g g' ih hs

/-- An accepted or rejected `gamma_move` keeps the area cap. -/
theorem gamma_move_capped (fuel : Nat) (g : gamma_t) (p x y : Nat) (b : Bool) (g' : gamma_t)
    (hg : Good g) (hcap : Capped g) (h : gamma_move fuel g p x y = some (b, g'))
    (hfit : ids_fit g') : Good g' ∧ Capped g' := by
  obtain ⟨h1, h2, h3⟩ := gamma_move_spec fuel g p x y b g' hg h hfit
  cases hb : b
  · rw [h2 hb]
    exact ⟨hg, hcap⟩
  · obtain ⟨hgood, heff⟩ := h3 hb
    refine ⟨hgood, ?_⟩
    intro q hq
    rw [heff.max_eq]
    by_cases hqp : q = p
    · rw [hqp]
      have hle := heff.areas_le
      have hl := (h1.1 hb).2.2.2
      have := hcap p (by rw [← hqp]; exact hq)
      by_cases hn : has_neighbour g p x y
      · rw [if_pos hn] at hle
        omega
      · rw [if_neg hn] at hle
        rcases hl with hl | hl
        · exact absurd hl hn
        · omega
    · rw [(heff.others q hqp).2.1]
      exact hcap q hq

/-- Every state reached while the ids fit satisfies the invariant of the
engine and the area cap. -/
theorem FitReachable.good {g : gamma_t} (h : FitReachable g) : Good g ∧ Capped g := by
  induction h with
  | init g hi =>
    obtain ⟨fuel, w, hh, n, a, h1, h2, h3, h4, e⟩ := hi
    exact gamma_new_good fuel w hh n a g h1 h2 h3 h4 e
  | step g g' _ hs hfit ih =>
    obtain ⟨fuel, p, x, y, b, -, -, -, e | e | e⟩ := hs
    · exact gamma_move_capped fuel g p x y b g' ih.1 ih.2 e hfit
    · obtain ⟨k1, k2, -⟩ := gamma_golden_move_spec fuel g p x y b g' ih.1 ih.2 e hfit
      exact ⟨k1, k2⟩
    · obtain ⟨k1, k2⟩ := gamma_golden_possible_spec fuel g p b g' ih.1 e hfit
      exact ⟨k1, k2.capped_renum ih.2⟩

theorem after_eq (r : Option (Bool × gamma_t)) (d : gamma_t) (h : r.isSome = true) :
    r = some (answer r, after r d) := by
  cases r with
  | none => exact absurd h (by decide)
  | some x => rfl

theorem ids_fit_of_le {g : gamma_t} (B : Nat) (hB : B ≤ 4294967296)
    (h : ∀ q, (g.players q).next_ind ≤ B) : ids_fit g :=
  fun q => le_trans (h q) hB

theorem T0_initial : Initial T0 :=
  ⟨3, 3, 1, 2, 1, by decide, by decide, by decide, by decide, rfl⟩

theorem new_next_le (q : Nat) :
    ((set_at (set_at (fun _ => blank_player) 1 fresh_player) 2 fresh_player) q).next_ind
      ≤ 1 := by
  rw [set_at_apply]
  by_cases h2 : q = 2
  · rw [if_pos h2]
    exact le_refl _
  · rw [if_neg h2, set_at_apply]
    by_cases h1 : q = 1
    · rw [if_pos h1]
      exact le_refl _
    · rw [if_neg h1]
      exact Nat.zero_le _

set_option maxRecDepth 100000 in
theorem T1_step : gamma_move 4 T0 2 0 0 = some (answer (gamma_move 4 T0 2 0 0), T1) :=
  after_eq _ _ (by decide)

set_option maxRecDepth 100000 in
theorem T2_step : gamma_move 4 T1 2 1 0 = some (answer (gamma_move 4 T1 2 1 0), T2) :=
  after_eq _ _ (by decide)

set_option maxRecDepth 100000 in
theorem T3_step : gamma_move 4 T2 2 2 0 = some (answer (gamma_move 4 T2 2 2 0), T3) :=
  after_eq _ _ (by decide)

theorem T0_next (q : Nat) : (T0.players q).next_ind ≤ 1 := new_next_le q

theorem T1_next (q : Nat) : (T1.players q).next_ind ≤ 2 :=
  (gamma_move_next T1_step).grow 1 (by omega) T0_next q

theorem T2_next (q : Nat) : (T2.players q).next_ind ≤ 3 :=
  (gamma_move_next T2_step).grow 2 (by omega) T1_next q

theorem T3_next (q : Nat) : (T3.players q).next_ind ≤ 4 :=
  (gamma_move_next T3_step).grow 3 (by omega) T2_next q

theorem T3_fit : FitReachable T3 := by
  have h0 : FitReachable T0 := FitReachable.init T0 T0_initial
  have h1 : FitReachable T1 := FitReachable.step T0 T1 h0
    ⟨4, 2, 0, 0, _, by decide, by decide, by decide, Or.inl T1_step⟩
    (ids_fit_of_le 2 (by omega) T1_next)
  have h2 : FitReachable T2 := FitReachable.step T1 T2 h1
    ⟨4, 2, 1, 0, _, by decide, by decide, by decide, Or.inl T2_step⟩
    (ids_fit_of_le 3 (by omega) T2_next)
  exact FitReachable.step T2 T3 h2
    ⟨4, 2, 2, 0, _, by decide, by decide, by decide, Or.inl T3_step⟩
    (ids_fit_of_le 4 (by omega) T3_next)

theorem T3_room : room 6 T3 := fun q => by
  have := T3_next q
  omega

/-! ## Properties of games in which fewer than `2^32` area ids were minted -/

/-- The condition of the code for an ordinary move in the words of the spec. -/
theorem legal_move_iff (g : gamma_t) (hs : Sized g) (p x y : Nat) :
    legal_move g p x y ↔ (1 ≤ p ∧ p ≤ g.number_of_players ∧ x < g.width ∧ y < g.heigth
      ∧ g.board x y = EMPTY ∧ (next_to g p x y ∨ gamma_areas g p < g.max_areas)) := by
  unfold legal_move gamma_areas player_is_fine
  constructor
  · rintro ⟨hz, hp, he, hn⟩
    refine ⟨hp.1, hp.2, hz.1, hz.2, he, ?_⟩
    rw [← has_neighbour_iff g hs p x y hz]
    exact hn
  · rintro ⟨h1, h2, h3, h4, h5, h6⟩
    refine ⟨⟨h3, h4⟩, ⟨h1, h2⟩, h5, ?_⟩
    rw [has_neighbour_iff g hs p x y ⟨h3, h4⟩]
    exact h6

/-- In every state reached from `gamma_new` while fewer than `2^32`
area ids were minted for each player, `gamma_move(g, p, x, y)` returns, and it
returns `true` if and only if `1 <= p <= N`, `x < W`, `y < H`, the cell `(x, y)`
is empty and (some 4-neighbour of `(x, y)` on the board is owned by `p`, or
`areas(p) < max_areas`). -/
theorem gamma_move_true_iff_legal (g : gamma_t) (h : FitReachable g) (p x y fuel : Nat)
    (hfuel : g.width * g.heigth < fuel) :
    ∃ b g', gamma_move fuel g p x y = some (b, g') ∧
      (b = true ↔ (1 ≤ p ∧ p ≤ g.number_of_players ∧ x < g.width ∧ y < g.heigth
        ∧ g.board x y = EMPTY ∧ (next_to g p x y ∨ gamma_areas g p < g.max_areas))) := by
  have hg := h.good.1
  obtain ⟨r, e⟩ := gamma_move_total fuel g p x y hg hfuel
  refine ⟨r.1, r.2, e, ?_⟩
  rw [← legal_move_iff g hg.core.sized p x y]
  exact (gamma_move_accepts fuel g p x y r.1 r.2 hg e).1

/-- In every state reached from `gamma_new` while fewer than `2^32`
area ids were minted for each player, `gamma_move(g, p, x, y)` returns, and if
it returns `false` the whole state is the state before the call. -/
theorem gamma_move_false_unchanged (g : gamma_t) (h : FitReachable g) (p x y fuel : Nat)
    (hfuel : g.width * g.heigth < fuel) :
    ∃ b g', gamma_move fuel g p x y = some (b, g') ∧ (b = false → g' = g) := by
  have hg := h.good.1
  obtain ⟨r, e⟩ := gamma_move_total fuel g p x y hg hfuel
  exact ⟨r.1, r.2, e, (gamma_move_accepts fuel g p x y r.1 r.2 hg e).2⟩

/-- C3, amended: in every state reached from `gamma_new` while fewer than `2^32`
area ids were minted for each player, a call `gamma_golden_move(g, p, x, y)`
that returns `false` and leaves every id counter at most `2^32` leaves the
owner grid, `busy_fields` and every player's fields, areas, border and golden
flag as they were; the id counters of all players but the owner of `(x, y)`
and the area ids of all cells but that owner's are as they were, and two cells
of that owner carry the same id afterwards exactly when they did before (its
areas may have been renumbered with new ids). The call returns when every id
counter is at most `2^32 - 6`. -/
theorem golden_move_false_restores (g : gamma_t) (h : FitReachable g) (p x y : Nat) :
    (∀ fuel, g.width * g.heigth < fuel → room 6 g →
      ∃ b g', gamma_golden_move fuel g p x y = some (b, g') ∧ ids_fit g')
    ∧ ∀ fuel g', gamma_golden_move fuel g p x y = some (false, g') → ids_fit g' →
      g'.board = g.board ∧ g'.busy_fields = g.busy_fields
      ∧ (∀ q, 1 ≤ q → (g'.players q).fields = (g.players q).fields
          ∧ (g'.players q).areas = (g.players q).areas
          ∧ (g'.players q).border = (g.players q).border
          ∧ (g'.players q).free_golden_move = (g.players q).free_golden_move)
      ∧ (∀ q, q ≠ g.board x y → (g'.players q).next_ind = (g.players q).next_ind)
      ∧ (∀ a b, g.board a b ≠ g.board x y → g'.indexes a b = g.indexes a b)
      ∧ (∀ a b c d, owns g (g.board x y) a b → owns g (g.board x y) c d →
          (g'.indexes a b = g'.indexes c d ↔ g.indexes a b = g.indexes c d)) := by
  obtain ⟨hg, hcap⟩ := h.good
  refine ⟨fun fuel hfuel hroom => gamma_golden_move_total fuel g p x y hg hcap hfuel hroom, ?_⟩
  intro fuel g' e hfit
  obtain ⟨hg', -, -, hres, -⟩ := gamma_golden_move_spec fuel g p x y false g' hg hcap e hfit
  have hr := hres rfl
  refine ⟨hr.board_eq, hr.busy_eq, ?_, hr.next_o, hr.idx_o, ?_⟩
  · intro q hq
    have hq0 : q ≠ EMPTY := by unfold EMPTY; omega
    obtain ⟨c1, c2, c3⟩ := hr.counters q hq0
    exact ⟨c1, c3, c2, hr.flag_eq q⟩
  · intro a b c d h1 h2
    by_cases hv0 : g.board x y = EMPTY
    · rw [hv0] at h1 h2
      have e1 : g.board a b = EMPTY := h1.2.2
      have e2 : g.board c d = EMPTY := h2.2.2
      rw [hg.core.idx_empty a b e1, hg.core.idx_empty c d e2,
        hg'.core.idx_empty a b (by rw [hr.board_eq]; exact e1),
        hg'.core.idx_empty c d (by rw [hr.board_eq]; exact e2)]
    · have o1 : owns g' (g.board x y) a b := by
        unfold owns at h1 ⊢
        rw [hr.board_eq, hr.width_eq, hr.heigth_eq]
        exact h1
      have o2 : owns g' (g.board x y) c d := by
        unfold owns at h2 ⊢
        rw [hr.board_eq, hr.width_eq, hr.heigth_eq]
        exact h2
      rw [hg.same_id_iff _ hv0 a b c d h1 h2, hg'.same_id_iff _ hv0 a b c d o1 o2]
      constructor
      · intro hc
        exact hc.congr_connected hr.board_eq.symm hr.width_eq.symm hr.heigth_eq.symm
      · intro hc
        exact hc.congr_connected hr.board_eq hr.width_eq hr.heigth_eq

/-- In every state reached from `gamma_new` while fewer than `2^32`
area ids were minted for each player, a call `gamma_golden_move(g, p, x, y)`
that returns `false` and leaves every id counter at most `2^32` leaves the
owner of every cell (so the cell `(x, y)` with its owner), `busy_fields` and
every player's fields, areas, border and golden flag as they were. The call
returns when every id counter is at most `2^32 - 6`. -/
theorem golden_move_false_keeps (g : gamma_t) (h : FitReachable g) (p x y : Nat) :
    (∀ fuel, g.width * g.heigth < fuel → room 6 g →
      ∃ b g', gamma_golden_move fuel g p x y = some (b, g') ∧ ids_fit g')
    ∧ ∀ fuel g', gamma_golden_move fuel g p x y = some (false, g') → ids_fit g' →
      (∀ a b, g'.board a b = g.board a b) ∧ g'.busy_fields = g.busy_fields
      ∧ ∀ q, 1 ≤ q → q ≤ g.number_of_players →
          gamma_busy_fields g' q = gamma_busy_fields g q
          ∧ gamma_areas g' q = gamma_areas g q
          ∧ (g'.players q).border = (g.players q).border
          ∧ (g'.players q).free_golden_move = (g.players q).free_golden_move := by
  obtain ⟨hg, hcap⟩ := h.good
  refine ⟨fun fuel hfuel hroom => gamma_golden_move_total fuel g p x y hg hcap hfuel hroom, ?_⟩
  intro fuel g' e hfit
  obtain ⟨-, -, -, hres, -⟩ := gamma_golden_move_spec fuel g p x y false g' hg hcap e hfit
  have hr := hres rfl
  refine ⟨fun a b => by rw [hr.board_eq], hr.busy_eq, ?_⟩
  intro q hq1 hq2
  have hq0 : q ≠ EMPTY := by unfold EMPTY; omega
  obtain ⟨c1, c2, c3⟩ := hr.counters q hq0
  refine ⟨?_, c3, c2, hr.flag_eq q⟩
  unfold gamma_busy_fields player_is_fine
  rw [hr.number_eq, c1]

/-- The condition of the code for a golden move in the words of the spec. -/
theorem golden_legal_iff (g : gamma_t) (hg : Good g) (p x y : Nat) :
    golden_legal g p x y ↔ (1 ≤ p ∧ p ≤ g.number_of_players
      ∧ (g.players p).free_golden_move = true ∧ x < g.width ∧ y < g.heigth
      ∧ g.board x y ≠ EMPTY ∧ g.board x y ≠ p
      ∧ (∃ n, Components { g with board := set_cell g.board x y EMPTY } (g.board x y) n
          ∧ n ≤ g.max_areas)
      ∧ (next_to g p x y ∨ gamma_areas g p < g.max_areas)) := by
  unfold golden_legal gamma_golden_possible_con player_is_fine gamma_areas
  constructor
  · rintro ⟨⟨hp, hf, -⟩, hz, h0, hne, hc, hn⟩
    refine ⟨hp.1, hp.2, hf, hz.1, hz.2, h0, hne, hc, ?_⟩
    rw [← has_neighbour_iff g hg.core.sized p x y hz]
    exact hn
  · rintro ⟨h1, h2, h3, h4, h5, h6, h7, h8, h9⟩
    have hp0 : p ≠ EMPTY := by unfold EMPTY; omega
    refine ⟨⟨⟨h1, h2⟩, h3, fields_lt_busy hg p x y hp0 ⟨h4, h5⟩ h6 h7⟩, ⟨h4, h5⟩, h6, h7, h8, ?_⟩
    rw [has_neighbour_iff g hg.core.sized p x y ⟨h4, h5⟩]
    exact h9

/-- In every state reached from `gamma_new` while fewer than `2^32`
area ids were minted for each player, a call `gamma_golden_move(g, p, x, y)`
that leaves every id counter at most `2^32` returns `true` if and only if
`1 <= p <= N`, `p` has not used its golden move, `(x, y)` is on the board, the
cell is owned by some player other than `p`, the cells of that player without
`(x, y)` form at most `max_areas` areas, and (`p` owns a 4-neighbour of
`(x, y)` or `areas(p) < max_areas`). The call returns when every id counter is
at most `2^32 - 6`. -/
theorem golden_move_true_iff_legal (g : gamma_t) (h : FitReachable g) (p x y : Nat) :
    (∀ fuel, g.width * g.heigth < fuel → room 6 g →
      ∃ b g', gamma_golden_move fuel g p x y = some (b, g') ∧ ids_fit g')
    ∧ ∀ fuel b g', gamma_golden_move fuel g p x y = some (b, g') → ids_fit g' →
      (b = true ↔ (1 ≤ p ∧ p ≤ g.number_of_players
        ∧ (g.players p).free_golden_move = true ∧ x < g.width ∧ y < g.heigth
        ∧ g.board x y ≠ EMPTY ∧ g.board x y ≠ p
        ∧ (∃ n, Components { g with board := set_cell g.board x y EMPTY } (g.board x y) n
            ∧ n ≤ g.max_areas)
        ∧ (next_to g p x y ∨ gamma_areas g p < g.max_areas))) := by
  obtain ⟨hg, hcap⟩ := h.good
  refine ⟨fun fuel hfuel hroom => gamma_golden_move_total fuel g p x y hg hcap hfuel hroom, ?_⟩
  intro fuel b g' e hfit
  rw [← golden_legal_iff g hg p x y]
  exact (gamma_golden_move_spec fuel g p x y b g' hg hcap e hfit).2.2.1

/-- In every state reached from `gamma_new` by calls of
`gamma_move`, `gamma_golden_move` and `gamma_golden_possible` during which fewer
than `2^32` area ids were minted for each player, every player `p` in `1..N`
has `areas(p) <= max_areas`. -/
theorem areas_le_max (g : gamma_t) (h : FitReachable g) (p : Nat) (hp1 : 1 ≤ p)
    (hp2 : p ≤ g.number_of_players) : gamma_areas g p ≤ g.max_areas :=
  h.good.2 p (by unfold EMPTY; omega)

/-- The busy cells are the cells of the players `1..N`. -/
theorem busy_card_sum (g : gamma_t) (hc : Core g) :
    (busy_cells g).card = ∑ p in Finset.Icc 1 g.number_of_players, (owned_cells g p).card := by
  rw [Finset.card_eq_sum_card_fiberwise (f := fun c : Nat × Nat => g.board c.1 c.2)
    (t := Finset.Icc 1 g.number_of_players)]
  · apply Finset.sum_congr rfl
    intro p hp
    rw [Finset.mem_Icc] at hp
    congr 1
    ext c
    rw [Finset.mem_filter, mem_busy_cells, mem_owned_cells]
    constructor
    · rintro ⟨⟨h1, _⟩, h2⟩
      exact ⟨h1, h2⟩
    · rintro ⟨h1, h2⟩
      refine ⟨⟨h1, ?_⟩, h2⟩
      rw [h2]
      unfold EMPTY
      omega
  · intro c hc2
    rw [mem_busy_cells] at hc2
    rw [Finset.mem_Icc]
    have := (hc.owner_ok c.1 c.2 hc2.2).2
    have h0 := hc2.2
    unfold EMPTY at h0
    exact ⟨by omega, this⟩

/-- In every state reached from `gamma_new` while fewer than `2^32`
area ids were minted for each player, `gamma_busy_fields(g, p)` is the number
of cells owned by `p` for every player `p` in `1..N`, and `busy_fields` is the
sum of these numbers and the number of cells that are not empty. -/
theorem fields_count_cells (g : gamma_t) (h : FitReachable g) :
    (∀ p, 1 ≤ p → p ≤ g.number_of_players → gamma_busy_fields g p = (owned_cells g p).card)
    ∧ g.busy_fields = ∑ p in Finset.Icc 1 g.number_of_players, gamma_busy_fields g p
    ∧ g.busy_fields = (busy_cells g).card := by
  have hg := h.good.1
  have hf : ∀ p, 1 ≤ p → p ≤ g.number_of_players →
      gamma_busy_fields g p = (owned_cells g p).card := by
    intro p hp1 hp2
    unfold gamma_busy_fields player_is_fine
    rw [if_pos ⟨by omega, hp2⟩]
    exact hg.core.fields_ok p (by unfold EMPTY; omega)
  refine ⟨hf, ?_, hg.core.busy_ok⟩
  rw [hg.core.busy_ok, busy_card_sum g hg.core]
  apply Finset.sum_congr rfl
  intro p hp
  rw [Finset.mem_Icc] at hp
  exact (hf p hp.1 hp.2).symm

/-- In every state reached from `gamma_new` while fewer than `2^32`
area ids were minted for each player, two cells owned by the same player carry
the same area id if and only if they are 4-connected through cells of that
player. -/
theorem same_id_iff_connected (g : gamma_t) (h : FitReachable g) (p a b c d : Nat)
    (hp : 1 ≤ p) (h1 : owns g p a b) (h2 : owns g p c d) :
    g.indexes a b = g.indexes c d ↔ Connected g p a b c d :=
  h.good.1.same_id_iff p (by unfold EMPTY; omega) a b c d h1 h2

/-- In every state reached from `gamma_new` while fewer than `2^32`
area ids were minted for each player, for every player `p` in `1..N` the cells
of `p` form exactly `gamma_areas(g, p)` maximal 4-connected sets, and no other
number of them. -/
theorem areas_count_components (g : gamma_t) (h : FitReachable g) (p : Nat) (hp1 : 1 ≤ p)
    (hp2 : p ≤ g.number_of_players) (n : Nat) :
    Components g p n ↔ n = gamma_areas g p := by
  have hp0 : p ≠ EMPTY := by unfold EMPTY; omega
  have hg := h.good.1
  unfold gamma_areas
  rw [hg.areas_ok.plain p hp0]
  exact hg.components p hp0 n

/-- In every state reached from `gamma_new` while fewer than
`2^32` area ids were minted for each player, for every player `p` in `1..N`
the border counter of `p` is the number of empty cells of the board with a
4-neighbour owned by `p`. -/
theorem border_counts_cells (g : gamma_t) (h : FitReachable g) (p : Nat) (hp1 : 1 ≤ p)
    (hp2 : p ≤ g.number_of_players) :
    (g.players p).border
      = ((cells g).filter fun c => g.board c.1 c.2 = EMPTY ∧ next_to g p c.1 c.2).card := by
  have hg := h.good.1
  rw [hg.border_ok p (by unfold EMPTY; omega)]
  congr 1
  ext c
  rw [mem_border_cells, Finset.mem_filter, mem_cells]
  constructor
  · rintro ⟨hc, he, hn⟩
    exact ⟨hc, he, (has_neighbour_iff g hg.core.sized p c.1 c.2 hc).1 hn⟩
  · rintro ⟨hc, he, hn⟩
    exact ⟨hc, he, (has_neighbour_iff g hg.core.sized p c.1 c.2 hc).2 hn⟩

theorem B0_initial : Initial B0 :=
  ⟨3, 9, 1, 2, 2, by decide, by decide, by decide, by decide, rfl⟩

set_option maxRecDepth 100000 in
theorem B1_step : gamma_move 10 B0 2 1 0 = some (answer (gamma_move 10 B0 2 1 0), B1) :=
  after_eq _ _ (by decide)

set_option maxRecDepth 100000 in
theorem B2_step : gamma_move 10 B1 1 2 0 = some (answer (gamma_move 10 B1 1 2 0), B2) :=
  after_eq _ _ (by decide)

set_option maxRecDepth 100000 in
theorem B3_step : gamma_move 10 B2 2 4 0 = some (answer (gamma_move 10 B2 2 4 0), B3) :=
  after_eq _ _ (by decide)

set_option maxRecDepth 100000 in
theorem B4_step : gamma_move 10 B3 2 5 0 = some (answer (gamma_move 10 B3 2 5 0), B4) :=
  after_eq _ _ (by decide)

set_option maxRecDepth 100000 in
theorem B5_step : gamma_move 10 B4 2 6 0 = some (answer (gamma_move 10 B4 2 6 0), B5) :=
  after_eq _ _ (by decide)

set_option maxRecDepth 100000 in
theorem B6_step : gamma_move 10 B5 1 8 0 = some (answer (gamma_move 10 B5 1 8 0), B6) :=
  after_eq _ _ (by decide)

theorem B6_reachable : Reachable B6 := by
  have h0 : Reachable B0 := Reachable.init B0 B0_initial
  have h1 : Reachable B1 := Reachable.step B0 B1 h0
    ⟨10, 2, 1, 0, _, by decide, by decide, by decide, Or.inl B1_step⟩
  have h2 : Reachable B2 := Reachable.step B1 B2 h1
    ⟨10, 1, 2, 0, _, by decide, by decide, by decide, Or.inl B2_step⟩
  have h3 : Reachable B3 := Reachable.step B2 B3 h2
    ⟨10, 2, 4, 0, _, by decide, by decide, by decide, Or.inl B3_step⟩
  have h4 : Reachable B4 := Reachable.step B3 B4 h3
    ⟨10, 2, 5, 0, _, by decide, by decide, by decide, Or.inl B4_step⟩
  have h5 : Reachable B5 := Reachable.step B4 B5 h4
    ⟨10, 2, 6, 0, _, by decide, by decide, by decide, Or.inl B5_step⟩
  exact Reachable.step B5 B6 h5
    ⟨10, 1, 8, 0, _, by decide, by decide, by decide, Or.inl B6_step⟩

set_option maxRecDepth 100000 in
theorem B6_facts :
    B6.width = 9 ∧ B6.heigth = 1 ∧ B6.number_of_players = 2 ∧ B6.max_areas = 2
    ∧ B6.busy_fields = 6 ∧ B6.board 0 0 = 0 ∧ B6.board 1 0 = 2 ∧ B6.board 2 0 = 1
    ∧ B6.board 1 1 = 0 ∧ B6.board 1 4294967295 = 0 ∧ B6.indexes 1 0 = 1
    ∧ (B6.players 1).free_golden_move = true ∧ (B6.players 1).fields = 2
    ∧ (B6.players 1).areas = 2 ∧ (B6.players 2).areas = 2
    ∧ (B6.players 2).next_ind = 3 := by decide

set_option maxRecDepth 100000 in
theorem B6_fine : neighbourhood_is_fine B6 1 1 0 = true := by decide

/-- The rejected golden move on `B6`: the ids of the victim changed. -/
theorem B6r_facts :
    (gamma_golden_move 10 B6 1 5 0).isSome = true
    ∧ answer (gamma_golden_move 10 B6 1 5 0) = false
    ∧ B6.indexes 5 0 = 2 ∧ B6r.indexes 5 0 = 3 := by
  set_option maxRecDepth 100000 in decide

/-- The rejected golden move on `OV0`. -/
theorem OV0r_facts :
    (gamma_golden_move 10 OV0 1 5 0).isSome = true
    ∧ answer (gamma_golden_move 10 OV0 1 5 0) = false
    ∧ OV0r.width = 9 ∧ OV0r.heigth = 1 ∧ OV0r.number_of_players = 2 ∧ OV0r.max_areas = 2
    ∧ (OV0r.players 2).areas = 3 ∧ (OV0r.players 2).fields = 5 ∧ (OV0.players 2).fields = 4
    ∧ OV0r.busy_fields = 7
    ∧ OV0r.board 5 0 = 2 ∧ OV0r.board 6 0 = 2 ∧ OV0r.indexes 5 0 = 1
    ∧ OV0r.indexes 6 0 = 0 ∧ OV0r.board 1 0 = 2 ∧ OV0r.board 4 0 = 2 := by
  set_option maxRecDepth 100000 in decide

theorem OV0r_cards : (owned_cells OV0r 2).card = 4 ∧ (busy_cells OV0r).card = 6 := by
  set_option maxRecDepth 100000 in decide

/-- The cells of player 2 in `OV0r` and what lies next to them. -/
theorem OV0r_cells :
    (∀ c, c < 9 → ∀ d, d < 1 → OV0r.board c d = 2 → c = 1 ∨ c = 4 ∨ c = 5 ∨ c = 6)
    ∧ OV0r.board 0 0 ≠ 2 ∧ OV0r.board 2 0 ≠ 2 ∧ OV0r.board 3 0 ≠ 2 := by
  set_option maxRecDepth 100000 in decide

/-- The rejected ordinary move on `OV1`. -/
theorem OV1r_facts :
    (gamma_move 10 OV1 2 0 0).isSome = true
    ∧ answer (gamma_move 10 OV1 2 0 0) = false
    ∧ OV1.width = 9 ∧ OV1.heigth = 1 ∧ OV1.number_of_players = 2
    ∧ OV1.board 0 0 = 0 ∧ next_to OV1 2 0 0 ∧ OV1r.board 0 0 = 2
    ∧ OV1r.number_of_players = 2 ∧ (OV1r.players 2).border = 3
    ∧ ((cells OV1r).filter fun c =>
        OV1r.board c.1 c.2 = EMPTY ∧ next_to OV1r 2 c.1 c.2).card = 2 := by
  set_option maxRecDepth 100000 in decide

/-- The rejected golden move of player 2 on `OV1`. -/
theorem OV1g_facts :
    (gamma_golden_move 10 OV1 2 2 0).isSome = true
    ∧ answer (gamma_golden_move 10 OV1 2 2 0) = false
    ∧ (OV1.players 2).free_golden_move = true ∧ OV1.board 2 0 = 1 ∧ OV1.max_areas = 2
    ∧ next_to OV1 2 2 0 ∧ OV1.board 8 0 = 1
    ∧ (∀ c, c < 9 → ∀ d, d < 1 → set_cell OV1.board 2 0 EMPTY c d = 1 → c = 8 ∧ d = 0) := by
  set_option maxRecDepth 100000 in decide

attribute [irreducible] B6

theorem set_at_set_at {α : Type} (a : Nat → α) (i : Nat) (v w : α) :
    set_at (set_at a i v) i w = set_at a i w := by
  funext j
  simp only [set_at_apply]
  by_cases h : j = i
  · rw [if_pos h, if_pos h]
  · rw [if_neg h, if_neg h, if_neg h]

theorem set_at_eq_self {α : Type} (a : Nat → α) (i : Nat) (v : α) (h : a i = v) :
    set_at a i v = a := by
  funext j
  rw [set_at_apply]
  by_cases hj : j = i
  · rw [if_pos hj, hj, h]
  · rw [if_neg hj]

/-- The game `B6` is the first member of the family. -/
theorem B6_eq : B6 = Hn 1 3 := by
  unfold Hn
  have e1 : set_cell B6.indexes 1 0 1 = B6.indexes :=
    set_cell_eq_self _ _ _ _ B6_facts.2.2.2.2.2.2.2.2.2.2.1
  have e2 : set_at B6.players 2 { B6.players 2 with next_ind := 3 } = B6.players := by
    apply set_at_eq_self
    have := B6_facts.2.2.2.2.2.2.2.2.2.2.2.2.2.2.2
    rw [← this]
  rw [e1, e2]

theorem Hn_board (a n : Nat) : (Hn a n).board = B6.board := rfl

theorem Hn_width (a n : Nat) : (Hn a n).width = 9 := B6_facts.1

theorem Hn_heigth (a n : Nat) : (Hn a n).heigth = 1 := B6_facts.2.1

theorem Hn_player_two (a n : Nat) :
    (Hn a n).players 2 = { B6.players 2 with next_ind := n } := by
  exact set_at_same B6.players 2 { B6.players 2 with next_ind := n }

theorem Hn_player_one (a n : Nat) : (Hn a n).players 1 = B6.players 1 := by
  exact set_at_other B6.players 2 1 { B6.players 2 with next_ind := n } (by decide)

/-- No neighbour of the cell `(1, 0)` is owned by player 2, so the rounds of
the trial for that cell change nothing. -/
theorem trial_dir_skip (fuel : Nat) (G : gamma_t) (hb : G.board = B6.board) (cnt : Int)
    (old new k : Nat) (hk : k < 4) :
    golden_possible_dir fuel G cnt 2 1 0 old new k = some (G, cnt) := by
  unfold golden_possible_dir
  rw [if_neg]
  rintro ⟨-, h, -⟩
  rw [hb] at h
  have hcases : k = 0 ∨ k = 1 ∨ k = 2 ∨ k = 3 := by omega
  have f := B6_facts
  rcases hcases with e | e | e | e
  · rw [e] at h
    have : B6.board (nbx 1 0) (nby 0 0) = 1 := f.2.2.2.2.2.2.2.1
    rw [this] at h
    exact absurd h (by decide)
  · rw [e] at h
    have : B6.board (nbx 1 1) (nby 0 1) = 0 := f.2.2.2.2.2.2.2.2.1
    rw [this] at h
    exact absurd h (by decide)
  · rw [e] at h
    have : B6.board (nbx 1 2) (nby 0 2) = 0 := f.2.2.2.2.2.1
    rw [this] at h
    exact absurd h (by decide)
  · rw [e] at h
    have : B6.board (nbx 1 3) (nby 0 3) = 0 := f.2.2.2.2.2.2.2.2.2.1
    rw [this] at h
    exact absurd h (by decide)

theorem trial_binds (fuel : Nat) (G : gamma_t) (hb : G.board = B6.board) (old new : Nat)
    (F : gamma_t × Int → Option (Bool × gamma_t)) :
    ((golden_possible_dir fuel G (-1) 2 1 0 old new 0).bind fun s1 =>
      (golden_possible_dir fuel s1.1 s1.2 2 1 0 old new 1).bind fun s2 =>
      (golden_possible_dir fuel s2.1 s2.2 2 1 0 old new 2).bind fun s3 =>
      (golden_possible_dir fuel s3.1 s3.2 2 1 0 old new 3).bind F) = F (G, -1) := by
  rw [trial_dir_skip fuel G hb (-1) old new 0 (by omega), Option.some_bind]
  show ((golden_possible_dir fuel G (-1) 2 1 0 old new 1).bind _) = _
  rw [trial_dir_skip fuel G hb (-1) old new 1 (by omega), Option.some_bind]
  show ((golden_possible_dir fuel G (-1) 2 1 0 old new 2).bind _) = _
  rw [trial_dir_skip fuel G hb (-1) old new 2 (by omega), Option.some_bind]
  show ((golden_possible_dir fuel G (-1) 2 1 0 old new 3).bind _) = _
  rw [trial_dir_skip fuel G hb (-1) old new 3 (by omega), Option.some_bind]

theorem Hn_cell_zero (fuel a n : Nat) :
    golden_possible_cell fuel (Hn a n) 1 0 0 = some (false, Hn a n) := by
  rw [golden_possible_cell_unfold, if_neg]
  rintro ⟨h, -⟩
  rw [Hn_board] at h
  exact h B6_facts.2.2.2.2.2.1

theorem Hn_fine (a n : Nat) : neighbourhood_is_fine (Hn a n) 1 1 0 = true := by
  rw [neighbourhood_is_fine_iff]
  exact (@has_neighbour_congr B6 (Hn a n) rfl rfl rfl 1 1 0).2
    ((neighbourhood_is_fine_iff B6 1 1 0).1 B6_fine)

/-- The trial at the cell `(1, 0)` mints an id for it and succeeds. -/
theorem Hn_cell_one (fuel a n : Nat) :
    golden_possible_cell fuel (Hn a n) 1 1 0 = some (true, Hn (to_uint n) (inc64 n)) := by
  have f := B6_facts
  have hb10 : (Hn a n).board 1 0 = 2 := f.2.2.2.2.2.2.1
  rw [golden_possible_cell_unfold, if_pos (by rw [hb10]; decide), if_pos (Hn_fine a n), hb10,
    Hn_player_two]
  refine (trial_binds fuel _ ?_ _ _ _).trans ?_
  · rfl
  have hm : (B6.players 2).areas = 2 := f.2.2.2.2.2.2.2.2.2.2.2.2.2.2.1
  have hx : B6.max_areas = 2 := f.2.2.2.1
  simp only [set_at_same]
  show (if ((((B6.players 2).areas : Int) + -1) % 4294967296).toNat ≤ B6.max_areas then _
    else _) = _
  have hcond : ((((B6.players 2).areas : Int) + -1) % 4294967296).toNat ≤ B6.max_areas := by
    rw [hm, hx]
    decide
  rw [if_pos hcond]
  congr 2
  unfold Hn
  congr 1
  · exact set_cell_set_cell B6.indexes 1 0 _ _
  · exact set_at_set_at B6.players 2 _ _

/-- Each call `gamma_golden_possible(g, 1)` renumbers the cell `(1, 0)` of
player 2 with the next id of player 2, cut to 32 bits. -/
theorem Hn_possible (fuel a n : Nat) :
    gamma_golden_possible fuel (Hn a n) 1 = some (true, Hn (to_uint n) (inc64 n)) := by
  have f := B6_facts
  unfold gamma_golden_possible
  have hcon : gamma_golden_possible_con (Hn a n) 1 := by
    unfold gamma_golden_possible_con player_is_fine
    rw [Hn_player_one]
    refine ⟨⟨by decide, ?_⟩, f.2.2.2.2.2.2.2.2.2.2.2.1, ?_⟩
    · show 1 ≤ B6.number_of_players
      rw [f.2.2.1]
      decide
    · show (B6.players 1).fields < B6.busy_fields
      rw [f.2.2.2.2.2.2.2.2.2.2.2.2.1, f.2.2.2.2.1]
      decide
  have hcap : ¬ ((Hn a n).players 1).areas < (Hn a n).max_areas := by
    rw [Hn_player_one]
    show ¬ (B6.players 1).areas < B6.max_areas
    rw [f.2.2.2.2.2.2.2.2.2.2.2.2.2.1, f.2.2.2.1]
    decide
  rw [if_neg (not_not.2 hcon), if_neg hcap, Hn_width]
  have hr : List.range 9 = 0 :: 1 :: [2, 3, 4, 5, 6, 7, 8] := by decide
  have hr1 : List.range 1 = [0] := by decide
  rw [hr]
  simp only [golden_possible_cols, golden_possible_rows, Hn_heigth, hr1, Hn_cell_zero,
    Hn_cell_one, Option.some_bind, if_true, if_false, Bool.false_eq_true]

/-- The games of the family are reachable. -/
theorem Hn_reachable (n : Nat) (h3 : 3 ≤ n) (hn : n ≤ 8589934592) :
    Reachable (Hn (to_uint n) (n + 1)) := by
  induction n, h3 using Nat.le_induction with
  | base =>
    have h := Hn_possible 10 1 3
    have e1 : inc64 3 = 3 + 1 := by decide
    rw [e1, ← B6_eq] at h
    exact Reachable.step _ _ B6_reachable
      ⟨10, 1, 0, 0, true, by decide, by decide, by decide, Or.inr (Or.inr h)⟩
  | succ m hm ih =>
    have h := Hn_possible 10 (to_uint m) (m + 1)
    rw [inc64_small _ (by omega)] at h
    exact Reachable.step _ _ (ih (by omega))
      ⟨10, 1, 0, 0, true, by decide, by decide, by decide, Or.inr (Or.inr h)⟩

theorem OV0_reachable : Reachable OV0 := by
  have h := Hn_reachable 4294967295 (by omega) (by omega)
  have e : to_uint 4294967295 = 4294967295 := by decide
  rw [e] at h
  exact h

theorem OV1_reachable : Reachable OV1 := by
  have h := Hn_reachable 4294967296 (by omega) (by omega)
  have e : to_uint 4294967296 = 0 := by decide
  rw [e] at h
  exact h

theorem OV0r_reachable : Reachable OV0r :=
  Reachable.step _ _ OV0_reachable
    ⟨10, 1, 5, 0, _, by decide, by decide, by decide,
      Or.inr (Or.inl (after_eq _ OV0 OV0r_facts.1))⟩

theorem OV1r_reachable : Reachable OV1r :=
  Reachable.step _ _ OV1_reachable
    ⟨10, 2, 0, 0, _, by decide, by decide, by decide, Or.inl (after_eq _ OV1 OV1r_facts.1)⟩

/-! ## Behaviour once `2^32` area ids have been minted -/

/-- C1 fails on the code: in the reachable state `OV1` the move of player 2 on
the empty cell `(0, 0)` next to its cell `(1, 0)` is legal, and `gamma_move`
returns `false`. -/
theorem gamma_move_rejects_legal :
    Reachable OV1 ∧ gamma_move 10 OV1 2 0 0 = some (false, OV1r)
    ∧ (1 ≤ 2 ∧ 2 ≤ OV1.number_of_players ∧ 0 < OV1.width ∧ 0 < OV1.heigth
      ∧ OV1.board 0 0 = EMPTY ∧ next_to OV1 2 0 0) := by
  have f := OV1r_facts
  have e := after_eq (gamma_move 10 OV1 2 0 0) OV1 f.1
  rw [f.2.1] at e
  refine ⟨OV1_reachable, e, by decide, ?_, ?_, ?_, f.2.2.2.2.2.1, f.2.2.2.2.2.2.1⟩
  · rw [f.2.2.2.2.1]
  · rw [f.2.2.1]; decide
  · rw [f.2.2.2.1]; decide

/-- C2 fails on the code: in the reachable state `OV1` the call
`gamma_move(g, 2, 0, 0)` returns `false` and yet changes the owner of `(0, 0)`. -/
theorem gamma_move_false_changes :
    Reachable OV1 ∧ gamma_move 10 OV1 2 0 0 = some (false, OV1r)
    ∧ OV1r.board 0 0 ≠ OV1.board 0 0 := by
  have f := OV1r_facts
  have e := after_eq (gamma_move 10 OV1 2 0 0) OV1 f.1
  rw [f.2.1] at e
  refine ⟨OV1_reachable, e, ?_⟩
  rw [f.2.2.2.2.2.1, f.2.2.2.2.2.2.2.1]
  decide

/-- C3 as stated fails: in the reachable state `B6`, in which three ids were
minted, the call `gamma_golden_move(g, 1, 5, 0)` returns `false` after a
rollback and the cell `(5, 0)` carries another area id than before. -/
theorem golden_move_false_renumbers :
    Reachable B6 ∧ gamma_golden_move 10 B6 1 5 0 = some (false, B6r)
    ∧ B6r.indexes 5 0 ≠ B6.indexes 5 0 := by
  have f := B6r_facts
  have e := after_eq (gamma_golden_move 10 B6 1 5 0) B6 f.1
  rw [f.2.1] at e
  refine ⟨B6_reachable, e, ?_⟩
  rw [f.2.2.1, f.2.2.2]
  decide

/-- C4 fails on the code: in the reachable state `OV0` the call
`gamma_golden_move(g, 1, 5, 0)` returns `false` and the number of fields of
player 2 is 5 afterwards, 4 before. -/
theorem golden_move_false_miscounts :
    Reachable OV0 ∧ gamma_golden_move 10 OV0 1 5 0 = some (false, OV0r)
    ∧ (OV0r.players 2).fields ≠ (OV0.players 2).fields := by
  have f := OV0r_facts
  have e := after_eq (gamma_golden_move 10 OV0 1 5 0) OV0 f.1
  rw [f.2.1] at e
  refine ⟨OV0_reachable, e, ?_⟩
  rw [f.2.2.2.2.2.2.2.1, f.2.2.2.2.2.2.2.2.1]
  decide

/-- C5 fails on the code: in the reachable state `OV1` the golden move of player
2 on the cell `(2, 0)` of player 1 meets every condition of the claim, and
`gamma_golden_move` returns `false`. -/
theorem golden_move_rejects_legal :
    Reachable OV1 ∧ gamma_golden_move 10 OV1 2 2 0 = some (false, OV1g)
    ∧ (1 ≤ 2 ∧ 2 ≤ OV1.number_of_players ∧ (OV1.players 2).free_golden_move = true
      ∧ 2 < OV1.width ∧ 0 < OV1.heigth ∧ OV1.board 2 0 ≠ EMPTY ∧ OV1.board 2 0 ≠ 2
      ∧ (∃ n, Components { OV1 with board := set_cell OV1.board 2 0 EMPTY } (OV1.board 2 0) n
          ∧ n ≤ OV1.max_areas)
      ∧ next_to OV1 2 2 0) := by
  have f := OV1g_facts
  have f1 := OV1r_facts
  have e := after_eq (gamma_golden_move 10 OV1 2 2 0) OV1 f.1
  rw [f.2.1] at e
  have hw : OV1.width = 9 := f1.2.2.1
  have hh : OV1.heigth = 1 := f1.2.2.2.1
  refine ⟨OV1_reachable, e, by decide, ?_, f.2.2.1, ?_, ?_, ?_, ?_, ?_, f.2.2.2.2.2.1⟩
  · rw [f1.2.2.2.2.1]
  · rw [hw]; decide
  · rw [hh]; decide
  · rw [f.2.2.2.1]; decide
  · rw [f.2.2.2.1]; decide
  · rw [f.2.2.2.1, f.2.2.2.2.1]
    refine ⟨1, ⟨{(8, 0)}, rfl, ?_, ?_, ?_⟩, by decide⟩
    · intro r hr
      rw [Finset.mem_singleton] at hr
      rw [hr]
      refine ⟨by show 8 < OV1.width; rw [hw]; decide, by show 0 < OV1.heigth; rw [hh]; decide, ?_⟩
      show set_cell OV1.board 2 0 EMPTY 8 0 = 1
      rw [set_cell_apply, if_neg (by decide)]
      exact f.2.2.2.2.2.2.1
    · intro r hr s hs _
      rw [Finset.mem_singleton] at hr hs
      rw [hr, hs]
    · intro a b hab
      have ha : a < 9 := by rw [← hw]; exact hab.1
      have hb : b < 1 := by rw [← hh]; exact hab.2.1
      obtain ⟨e1, e2⟩ := f.2.2.2.2.2.2.2 a ha b hb hab.2.2
      refine ⟨(8, 0), Finset.mem_singleton_self _, ?_⟩
      rw [e1, e2] at hab ⊢
      exact Connected.start hab

/-- C6 fails on the code: in the reachable state `OV0r` player 2 has 3 areas
while `max_areas` is 2. -/
theorem areas_exceed_max :
    Reachable OV0r ∧ 1 ≤ 2 ∧ 2 ≤ OV0r.number_of_players
    ∧ OV0r.max_areas < gamma_areas OV0r 2 := by
  have f := OV0r_facts
  refine ⟨OV0r_reachable, by decide, ?_, ?_⟩
  · rw [f.2.2.2.2.1]
  · unfold gamma_areas
    rw [f.2.2.2.2.2.1, f.2.2.2.2.2.2.1]
    decide

/-- C7 fails on the code: in the reachable state `OV0r` player 2 has 5 fields and
owns 4 cells, and `busy_fields` is 7 with 6 cells that are not empty. -/
theorem fields_exceed_cells :
    Reachable OV0r ∧ 1 ≤ 2 ∧ 2 ≤ OV0r.number_of_players
    ∧ gamma_busy_fields OV0r 2 ≠ (owned_cells OV0r 2).card
    ∧ OV0r.busy_fields ≠ (busy_cells OV0r).card := by
  have f := OV0r_facts
  have c := OV0r_cards
  refine ⟨OV0r_reachable, by decide, ?_, ?_, ?_⟩
  · rw [f.2.2.2.2.1]
  · unfold gamma_busy_fields player_is_fine
    rw [if_pos ⟨by decide, by rw [f.2.2.2.2.1]⟩, f.2.2.2.2.2.2.2.1, c.1]
    decide
  · rw [f.2.2.2.2.2.2.2.2.2.1, c.2]
    decide

/-- C8 fails on the code: in the reachable state `OV0r` the neighbouring cells
`(5, 0)` and `(6, 0)` of player 2 carry different area ids. -/
theorem connected_cells_differ :
    Reachable OV0r ∧ owns OV0r 2 5 0 ∧ owns OV0r 2 6 0 ∧ Connected OV0r 2 5 0 6 0
    ∧ OV0r.indexes 5 0 ≠ OV0r.indexes 6 0 := by
  have f := OV0r_facts
  have hw : OV0r.width = 9 := f.2.2.1
  have hh : OV0r.heigth = 1 := f.2.2.2.1
  have o5 : owns OV0r 2 5 0 :=
    ⟨by rw [hw]; decide, by rw [hh]; decide, f.2.2.2.2.2.2.2.2.2.2.1⟩
  have o6 : owns OV0r 2 6 0 :=
    ⟨by rw [hw]; decide, by rw [hh]; decide, f.2.2.2.2.2.2.2.2.2.2.2.1⟩
  refine ⟨OV0r_reachable, o5, o6, ?_, ?_⟩
  · exact Connected.step 5 0 6 0 (Connected.start o5) (by decide) o6
  · rw [f.2.2.2.2.2.2.2.2.2.2.2.2.1, f.2.2.2.2.2.2.2.2.2.2.2.2.2.1]
    decide

/-- In `OV0r` the cell `(1, 0)` of player 2 is connected to no other cell. -/
theorem OV0r_island_one (a b : Nat) (h : Connected OV0r 2 1 0 a b) : a = 1 ∧ b = 0 := by
  have c := OV0r_cells
  have f := OV0r_facts
  induction h with
  | start _ => exact ⟨rfl, rfl⟩
  | step a b c' d _ hadj ho ih =>
    obtain ⟨ea, eb⟩ := ih
    have hd : d < 1 := by rw [← f.2.2.2.1]; exact ho.2.1
    have hb := ho.2.2
    unfold adjacent at hadj
    have hc : c' = 0 ∨ c' = 2 := by omega
    have hd0 : d = 0 := by omega
    rw [hd0] at hb
    rcases hc with e | e
    · rw [e] at hb; exact absurd hb c.2.1
    · rw [e] at hb; exact absurd hb c.2.2.1

/-- In `OV0r` no cell left of `(4, 0)` is connected to it through player 2. -/
theorem OV0r_island_two (a b : Nat) (h : Connected OV0r 2 4 0 a b) : 4 ≤ a := by
  have c := OV0r_cells
  have f := OV0r_facts
  induction h with
  | start _ => exact le_refl _
  | step a b c' d _ hadj ho ih =>
    have hc : c' < 9 := by rw [← f.2.2.1]; exact ho.1
    have hd : d < 1 := by rw [← f.2.2.2.1]; exact ho.2.1
    have := c.1 c' hc d hd ho.2.2
    unfold adjacent at hadj
    omega

/-- C9 fails on the code: in the reachable state `OV0r` the cells of player 2
form exactly 2 maximal 4-connected sets while `gamma_areas(g, 2)` is 3. -/
theorem areas_exceed_components :
    Reachable OV0r ∧ 1 ≤ 2 ∧ 2 ≤ OV0r.number_of_players
    ∧ Components OV0r 2 2 ∧ gamma_areas OV0r 2 = 3 := by
  have f := OV0r_facts
  have c := OV0r_cells
  have hw : OV0r.width = 9 := f.2.2.1
  have hh : OV0r.heigth = 1 := f.2.2.2.1
  have own : ∀ a, a < 9 → OV0r.board a 0 = 2 → owns OV0r 2 a 0 := fun a ha hb =>
    ⟨by rw [hw]; exact ha, by rw [hh]; decide, hb⟩
  have o1 : owns OV0r 2 1 0 := own 1 (by decide) f.2.2.2.2.2.2.2.2.2.2.2.2.2.2.1
  have o4 : owns OV0r 2 4 0 := own 4 (by decide) f.2.2.2.2.2.2.2.2.2.2.2.2.2.2.2
  have o5 : owns OV0r 2 5 0 := own 5 (by decide) f.2.2.2.2.2.2.2.2.2.2.1
  have o6 : owns OV0r 2 6 0 := own 6 (by decide) f.2.2.2.2.2.2.2.2.2.2.2.1
  have c5 : Connected OV0r 2 4 0 5 0 := Connected.step 4 0 5 0 (Connected.start o4) (by decide) o5
  have c6 : Connected OV0r 2 4 0 6 0 := Connected.step 5 0 6 0 c5 (by decide) o6
  refine ⟨OV0r_reachable, by decide, by rw [f.2.2.2.2.1], ⟨{(1, 0), (4, 0)}, rfl, ?_, ?_, ?_⟩, ?_⟩
  · intro r hr
    rw [Finset.mem_insert, Finset.mem_singleton] at hr
    rcases hr with e | e
    · rw [e]; exact o1
    · rw [e]; exact o4
  · intro r hr s hs hc
    rw [Finset.mem_insert, Finset.mem_singleton] at hr hs
    rcases hr with e | e <;> rcases hs with e' | e'
    · rw [e, e']
    · rw [e, e'] at hc
      have := (OV0r_island_one _ _ hc).1
      omega
    · rw [e, e'] at hc
      have := OV0r_island_two _ _ hc
      omega
    · rw [e, e']
  · intro a b hab
    have ha : a < 9 := by rw [← hw]; exact hab.1
    have hb : b < 1 := by rw [← hh]; exact hab.2.1
    have hb0 : b = 0 := by omega
    rw [hb0] at hab ⊢
    rcases c.1 a ha b hb (by rw [hb0]; exact hab.2.2) with e | e | e | e
    · exact ⟨(1, 0), by simp, by rw [e]; exact Connected.start o1⟩
    · exact ⟨(4, 0), by simp, by rw [e]; exact Connected.start o4⟩
    · exact ⟨(4, 0), by simp, by rw [e]; exact c5⟩
    · exact ⟨(4, 0), by simp, by rw [e]; exact c6⟩
  · unfold gamma_areas
    exact f.2.2.2.2.2.2.1

/-- C10 fails on the code: in the reachable state `OV1r` the border counter of
player 2 is 3 while 2 empty cells have a 4-neighbour owned by player 2. -/
theorem border_exceeds_cells :
    Reachable OV1r ∧ 1 ≤ 2 ∧ 2 ≤ OV1r.number_of_players
    ∧ (OV1r.players 2).border
      ≠ ((cells OV1r).filter fun c => OV1r.board c.1 c.2 = EMPTY ∧ next_to OV1r 2 c.1 c.2).card := by
  have f := OV1r_facts
  refine ⟨OV1r_reachable, by decide, by rw [f.2.2.2.2.2.2.2.2.1], ?_⟩
  rw [f.2.2.2.2.2.2.2.2.2.1, f.2.2.2.2.2.2.2.2.2.2]
  decide

/-! ## The properties at the state `T3` -/

/-- The golden move of player 1 on the middle cell of `T3` is rejected. -/
theorem T3_golden : answer (gamma_golden_move 4 T3 1 1 0) = false := by
  set_option maxRecDepth 100000 in decide

/-- An instance at the state `T3`, for the move of player 1 on the cell `(0, 0)`. -/
theorem gamma_move_true_iff_legal_witness :
    FitReachable T3 ∧ T3.width * T3.heigth < 4
    ∧ ∃ b g', gamma_move 4 T3 1 0 0 = some (b, g') ∧
      (b = true ↔ (1 ≤ 1 ∧ 1 ≤ T3.number_of_players ∧ 0 < T3.width ∧ 0 < T3.heigth
        ∧ T3.board 0 0 = EMPTY ∧ (next_to T3 1 0 0 ∨ gamma_areas T3 1 < T3.max_areas))) :=
  ⟨T3_fit, by decide, gamma_move_true_iff_legal T3 T3_fit 1 0 0 4 (by decide)⟩

/-- An instance at the state `T3`, for the move of player 1 on the cell `(0, 0)`. -/
theorem gamma_move_false_unchanged_witness :
    FitReachable T3 ∧ T3.width * T3.heigth < 4
    ∧ ∃ b g', gamma_move 4 T3 1 0 0 = some (b, g') ∧ (b = false → g' = T3) :=
  ⟨T3_fit, by decide, gamma_move_false_unchanged T3 T3_fit 1 0 0 4 (by decide)⟩

/-- C3 at the state `T3`: the golden move of player 1 on `(1, 0)` returns `false`
and restores the state up to the ids of player 2. -/
theorem golden_move_false_restores_witness :
    FitReachable T3 ∧ T3.width * T3.heigth < 4 ∧ room 6 T3
    ∧ ∃ g', gamma_golden_move 4 T3 1 1 0 = some (false, g') ∧ ids_fit g'
      ∧ g'.board = T3.board ∧ g'.busy_fields = T3.busy_fields
      ∧ (∀ q, 1 ≤ q → (g'.players q).fields = (T3.players q).fields
          ∧ (g'.players q).areas = (T3.players q).areas
          ∧ (g'.players q).border = (T3.players q).border
          ∧ (g'.players q).free_golden_move = (T3.players q).free_golden_move)
      ∧ (∀ q, q ≠ T3.board 1 0 → (g'.players q).next_ind = (T3.players q).next_ind)
      ∧ (∀ a b, T3.board a b ≠ T3.board 1 0 → g'.indexes a b = T3.indexes a b)
      ∧ (∀ a b c d, owns T3 (T3.board 1 0) a b → owns T3 (T3.board 1 0) c d →
          (g'.indexes a b = g'.indexes c d ↔ T3.indexes a b = T3.indexes c d)) := by
  obtain ⟨b, g', e, hf⟩ := (golden_move_false_restores T3 T3_fit 1 1 0).1 4 (by decide) T3_room
  have hb := T3_golden
  rw [e] at hb
  have hb' : b = false := hb
  rw [hb'] at e
  exact ⟨T3_fit, by decide, T3_room, g', e, hf,
    (golden_move_false_restores T3 T3_fit 1 1 0).2 4 g' e hf⟩

/-- An instance at the state `T3`: the golden move of player 1 on `(1, 0)` returns `false`
and keeps the owners and the counters. -/
theorem golden_move_false_keeps_witness :
    FitReachable T3 ∧ T3.width * T3.heigth < 4 ∧ room 6 T3
    ∧ ∃ g', gamma_golden_move 4 T3 1 1 0 = some (false, g') ∧ ids_fit g'
      ∧ (∀ a b, g'.board a b = T3.board a b) ∧ g'.busy_fields = T3.busy_fields
      ∧ ∀ q, 1 ≤ q → q ≤ T3.number_of_players →
          gamma_busy_fields g' q = gamma_busy_fields T3 q
          ∧ gamma_areas g' q = gamma_areas T3 q
          ∧ (g'.players q).border = (T3.players q).border
          ∧ (g'.players q).free_golden_move = (T3.players q).free_golden_move := by
  obtain ⟨b, g', e, hf⟩ := (golden_move_false_keeps T3 T3_fit 1 1 0).1 4 (by decide) T3_room
  have hb := T3_golden
  rw [e] at hb
  have hb' : b = false := hb
  rw [hb'] at e
  exact ⟨T3_fit, by decide, T3_room, g', e, hf,
    (golden_move_false_keeps T3 T3_fit 1 1 0).2 4 g' e hf⟩

/-- An instance at the state `T3`, for the golden move of player 1 on `(1, 0)`. -/
theorem golden_move_true_iff_legal_witness :
    FitReachable T3 ∧ T3.width * T3.heigth < 4 ∧ room 6 T3
    ∧ ∃ b g', gamma_golden_move 4 T3 1 1 0 = some (b, g') ∧ ids_fit g'
      ∧ (b = true ↔ (1 ≤ 1 ∧ 1 ≤ T3.number_of_players
        ∧ (T3.players 1).free_golden_move = true ∧ 1 < T3.width ∧ 0 < T3.heigth
        ∧ T3.board 1 0 ≠ EMPTY ∧ T3.board 1 0 ≠ 1
        ∧ (∃ n, Components { T3 with board := set_cell T3.board 1 0 EMPTY } (T3.board 1 0) n
            ∧ n ≤ T3.max_areas)
        ∧ (next_to T3 1 1 0 ∨ gamma_areas T3 1 < T3.max_areas))) := by
  obtain ⟨b, g', e, hf⟩ := (golden_move_true_iff_legal T3 T3_fit 1 1 0).1 4 (by decide) T3_room
  exact ⟨T3_fit, by decide, T3_room, b, g', e, hf,
    (golden_move_true_iff_legal T3 T3_fit 1 1 0).2 4 b g' e hf⟩

/-- An instance at the state `T3`, for player 2. -/
theorem areas_le_max_witness :
    FitReachable T3 ∧ 1 ≤ 2 ∧ 2 ≤ T3.number_of_players ∧ gamma_areas T3 2 ≤ T3.max_areas :=
  ⟨T3_fit, by decide, by decide, areas_le_max T3 T3_fit 2 (by decide) (by decide)⟩

/-- An instance at the state `T3`. -/
theorem fields_count_cells_witness :
    FitReachable T3
    ∧ (∀ p, 1 ≤ p → p ≤ T3.number_of_players → gamma_busy_fields T3 p = (owned_cells T3 p).card)
    ∧ T3.busy_fields = ∑ p in Finset.Icc 1 T3.number_of_players, gamma_busy_fields T3 p
    ∧ T3.busy_fields = (busy_cells T3).card :=
  ⟨T3_fit, fields_count_cells T3 T3_fit⟩

/-- An instance at the state `T3`, for the cells `(0, 0)` and `(2, 0)` of player 2. -/
theorem same_id_iff_connected_witness :
    FitReachable T3 ∧ 1 ≤ 2 ∧ owns T3 2 0 0 ∧ owns T3 2 2 0
    ∧ (T3.indexes 0 0 = T3.indexes 2 0 ↔ Connected T3 2 0 0 2 0) :=
  ⟨T3_fit, by decide, by decide, by decide,
    same_id_iff_connected T3 T3_fit 2 0 0 2 0 (by decide) (by decide) (by decide)⟩

/-- An instance at the state `T3`, for player 2 and one area. -/
theorem areas_count_components_witness :
    FitReachable T3 ∧ 1 ≤ 2 ∧ 2 ≤ T3.number_of_players
    ∧ (Components T3 2 1 ↔ 1 = gamma_areas T3 2) :=
  ⟨T3_fit, by decide, by decide,
    areas_count_components T3 T3_fit 2 (by decide) (by decide) 1⟩

/-- An instance at the state `T3`, for player 2. -/
theorem border_counts_cells_witness :
    FitReachable T3 ∧ 1 ≤ 2 ∧ 2 ≤ T3.number_of_players
    ∧ (T3.players 2).border
      = ((cells T3).filter fun c => T3.board c.1 c.2 = EMPTY ∧ next_to T3 2 c.1 c.2).card :=
  ⟨T3_fit, by decide, by decide, border_counts_cells T3 T3_fit 2 (by decide) (by decide)⟩

theorem FlagSame.refl_flag (g : gamma_t) : FlagSame g g := fun _ => rfl

theorem FlagSame.trans_flag {g1 g2 g3 : gamma_t} (h1 : FlagSame g1 g2) (h2 : FlagSame g2 g3) :
    FlagSame g1 g3 := fun q => (h2 q).trans (h1 q)

theorem BorderChange.flag_same {g g' : gamma_t} (h : BorderChange g g') : FlagSame g g' := by
  intro q
  rw [h.same q]

theorem reindexify_flag {fuel : Nat} {g g' : gamma_t} {p x y f t : Nat}
    (h : reindexify fuel g p x y f t = some g') : FlagSame g g' := by
  intro q
  have := reindexify_frame p f t fuel g g' x y h
  rw [this]

/-- Writing a record with the old flag into a slot changes no flag. -/
theorem set_player_flag (g : gamma_t) (v : Nat) (r : player)
    (hr : r.free_golden_move = (g.players v).free_golden_move) (q : Nat) :
    (set_at g.players v r q).free_golden_move = (g.players q).free_golden_move := by
  rw [set_at_apply]
  by_cases hq : q = v
  · rw [if_pos hq, hq]
    exact hr
  · rw [if_neg hq]

theorem gamma_move_dir_flag {fuel : Nat} {g g' : gamma_t} {p x y i : Nat}
    (h : gamma_move_dir fuel g p x y i = some g') : FlagSame g g' := by
  unfold gamma_move_dir at h
  split at h
  · split at h
    · simp only [Option.some.injEq] at h
      rw [← h]
      intro q
      show (set_at g.players p _ q).free_golden_move = _
      exact set_player_flag g p _ (by rfl) q
    · split at h
      · simp only [Option.map_eq_some'] at h
        obtain ⟨g1, e1, e2⟩ := h
        rw [← e2]
        intro q
        show (set_at g1.players p _ q).free_golden_move = _
        exact (set_player_flag g1 p _ (by rfl) q).trans (reindexify_flag e1 q)
      · simp only [Option.some.injEq] at h
        rw [← h]
        exact FlagSame.refl_flag g
  · simp only [Option.some.injEq] at h
    rw [← h]
    exact FlagSame.refl_flag g

theorem place_and_update_flag (G : gamma_t) (p x y : Nat) :
    FlagSame G (place_and_update G p x y) := by
  intro q
  rw [(place_and_update_change G p x y).same q]

theorem fresh_area_flag (g : gamma_t) (p x y : Nat) : FlagSame g (fresh_area g p x y) := by
  intro q
  rw [fresh_area_players]
  by_cases hq : q = p
  · rw [if_pos hq, hq]
  · rw [if_neg hq]

/-- `gamma_move` changes no golden flag, whatever the state and the result. -/
theorem gamma_move_flag {fuel : Nat} {g g' : gamma_t} {p x y : Nat} {b : Bool}
    (h : gamma_move fuel g p x y = some (b, g')) : FlagSame g g' := by
  rw [gamma_move_unfold] at h
  split at h
  · simp only [Option.bind_eq_some] at h
    obtain ⟨g1, e1, g2, e2, g3, e3, g4, e4, h⟩ := h
    have h4 : FlagSame g g4 :=
      (((gamma_move_dir_flag e1).trans_flag (gamma_move_dir_flag e2)).trans_flag
        (gamma_move_dir_flag e3)).trans_flag (gamma_move_dir_flag e4)
    split at h
    · simp only [Option.some.injEq, Prod.mk.injEq] at h
      rw [← h.2]
      exact h4.trans_flag (place_and_update_flag g4 p x y)
    · split at h
      · simp only [Option.some.injEq, Prod.mk.injEq] at h
        rw [← h.2]
        exact (h4.trans_flag (fresh_area_flag g4 p x y)).trans_flag
          (place_and_update_flag _ p x y)
      · simp only [Option.some.injEq, Prod.mk.injEq] at h
        rw [← h.2]
        exact h4
  · simp only [Option.some.injEq, Prod.mk.injEq] at h
    rw [← h.2]
    exact FlagSame.refl_flag g

theorem vacated_uncount_flag (G3 : gamma_t) (p v x y : Nat) :
    FlagSame G3 (uncount_field { G3 with indexes := set_cell G3.indexes x y EMPTY } p v) := by
  intro q
  show (set_at G3.players v _ q).free_golden_move = _
  exact set_player_flag G3 v _ (by rfl) q

theorem empty_cell_flag (g : gamma_t) (x y : Nat) :
    FlagSame g { g with board := set_cell g.board x y EMPTY } := fun _ => rfl

theorem golden_move_dir_flag {fuel : Nat} {g : gamma_t} {ni p v io x y i : Nat}
    {s' : gamma_t × Nat} (h : golden_move_dir fuel g ni p v io x y i = some s') :
    FlagSame g s'.1 := by
  unfold golden_move_dir at h
  split at h
  · split at h
    · simp only [Option.map_eq_some'] at h
      obtain ⟨g5, e5, e6⟩ := h
      rw [← e6]
      have h1 : FlagSame g g5 :=
        ((((empty_cell_flag g x y).trans_flag
          (update_blank_all_neighbours_eq _ x y).1.flag_same).trans_flag
          (lost_independent_borders_eq _ v x y).1.flag_same).trans_flag
          (vacated_uncount_flag _ p v x y)).trans_flag (reindexify_flag e5)
      intro q
      show (set_at g5.players v _ q).free_golden_move = _
      exact (set_player_flag g5 v _ (by rfl) q).trans (h1 q)
    · split at h
      · simp only [Option.map_eq_some'] at h
        obtain ⟨g5, e5, e6⟩ := h
        rw [← e6]
        intro q
        show (set_at g5.players v _ q).free_golden_move = _
        exact (set_player_flag g5 v _ (by rfl) q).trans (reindexify_flag e5 q)
      · simp only [Option.some.injEq] at h
        rw [← h]
        exact FlagSame.refl_flag g
  · simp only [Option.some.injEq] at h
    rw [← h]
    exact FlagSame.refl_flag g

theorem golden_move_lonely_flag (g : gamma_t) (p v x y : Nat) :
    FlagSame g (golden_move_lonely g p v x y) := by
  unfold golden_move_lonely
  split
  · have h1 : FlagSame g (uncount_field
        { (update_blank_all_neighbours
            (lost_independent_borders { g with board := set_cell g.board x y EMPTY } v x y)
            x y) with
          indexes := set_cell (update_blank_all_neighbours
            (lost_independent_borders { g with board := set_cell g.board x y EMPTY } v x y)
            x y).indexes x y EMPTY } p v) :=
      (((empty_cell_flag g x y).trans_flag
        (lost_independent_borders_eq _ v x y).1.flag_same).trans_flag
        (update_blank_all_neighbours_eq _ x y).1.flag_same).trans_flag
        (vacated_uncount_flag _ p v x y)
    intro q
    show player.free_golden_move (set_at _ v _ q) = _
    rw [set_at_apply]
    by_cases hq : q = v
    · rw [if_pos hq, hq]
      exact h1 v
    · rw [if_neg hq]
      exact h1 q
  · exact FlagSame.refl_flag g

/-- What `gamma_golden_move` does to the golden flags, whatever the state: a
call that returns `true` clears the flag of the mover and no other, a call
that returns `false` changes none; and a call that returns `true` was made by
a player whose flag was set. -/
theorem gamma_golden_move_flag {fuel : Nat} {g g' : gamma_t} {p x y : Nat} {b : Bool}
    (h : gamma_golden_move fuel g p x y = some (b, g')) :
    (∀ q, q ≠ p → (g'.players q).free_golden_move = (g.players q).free_golden_move)
    ∧ (b = false → FlagSame g g')
    ∧ (b = true → (g'.players p).free_golden_move = false
        ∧ (g.players p).free_golden_move = true) := by
  rw [gamma_golden_move_unfold] at h
  split at h
  · simp only [Option.some.injEq, Prod.mk.injEq] at h
    rw [← h.1, ← h.2]
    exact ⟨fun _ _ => rfl, fun _ => FlagSame.refl_flag g, fun hb => absurd hb (by decide)⟩
  · rename_i hc
    have hcon : (g.players p).free_golden_move = true := by
      by_contra hf
      exact hc (Or.inl fun hh => hf hh.2.1)
    simp only [Option.bind_eq_some] at h
    obtain ⟨s1, e1, s2, e2, s3, e3, s4, e4, h⟩ := h
    have h5 : FlagSame g (golden_move_lonely s4.1 p (g.board x y) x y) :=
      ((((golden_move_dir_flag e1).trans_flag (golden_move_dir_flag e2)).trans_flag
        (golden_move_dir_flag e3)).trans_flag (golden_move_dir_flag e4)).trans_flag
        (golden_move_lonely_flag s4.1 p (g.board x y) x y)
    split at h
    · simp only [Option.map_eq_some'] at h
      obtain ⟨r, er, h⟩ := h
      simp only [Prod.mk.injEq] at h
      have hr : FlagSame g r.2 := h5.trans_flag (gamma_move_flag (b := r.1) er)
      rw [← h.1, ← h.2]
      exact ⟨fun q _ => hr q, fun _ => hr, fun hb => absurd hb (by decide)⟩
    · simp only [Option.bind_eq_some] at h
      obtain ⟨r, er, h⟩ := h
      have hr : FlagSame g r.2 := h5.trans_flag (gamma_move_flag (b := r.1) er)
      split at h
      · simp only [Option.some.injEq, Prod.mk.injEq] at h
        rw [← h.1, ← h.2]
        refine ⟨fun q hq => ?_, fun hb => absurd hb (by decide), fun _ => ⟨?_, hcon⟩⟩
        · show (set_at r.2.players p _ q).free_golden_move = _
          rw [set_at_other _ _ _ _ hq]
          exact hr q
        · show (set_at r.2.players p _ p).free_golden_move = _
          rw [set_at_same]
      · simp only [Option.map_eq_some'] at h
        obtain ⟨r2, er2, h⟩ := h
        simp only [Prod.mk.injEq] at h
        have hr2 : FlagSame g r2.2 := hr.trans_flag (gamma_move_flag (b := r2.1) er2)
        rw [← h.1, ← h.2]
        exact ⟨fun q _ => hr2 q, fun _ => hr2, fun hb => absurd hb (by decide)⟩

theorem Untouched.refl_kept (g : gamma_t) : Untouched g g :=
  ⟨rfl, rfl, rfl, rfl, rfl, rfl, rfl, rfl, fun _ => ⟨rfl, rfl, rfl, rfl⟩⟩

theorem Untouched.trans_kept {g1 g2 g3 : gamma_t} (h1 : Untouched g1 g2)
    (h2 : Untouched g2 g3) : Untouched g1 g3 :=
  ⟨h2.board_eq.trans h1.board_eq, h2.width_eq.trans h1.width_eq,
    h2.heigth_eq.trans h1.heigth_eq, h2.number_eq.trans h1.number_eq,
    h2.max_eq.trans h1.max_eq, h2.busy_eq.trans h1.busy_eq, h2.wider_eq.trans h1.wider_eq,
    h2.golden_eq.trans h1.golden_eq,
    fun q => ⟨(h2.counters q).1.trans (h1.counters q).1,
      (h2.counters q).2.1.trans (h1.counters q).2.1,
      (h2.counters q).2.2.1.trans (h1.counters q).2.2.1,
      (h2.counters q).2.2.2.trans (h1.counters q).2.2.2⟩⟩

theorem golden_possible_cell_same {fuel : Nat} {g : gamma_t} {p x y : Nat}
    {r : Bool × gamma_t} (h : golden_possible_cell fuel g p x y = some r) :
    Untouched g r.2 := by
  rw [golden_possible_cell_unfold] at h
  split at h
  · split at h
    · simp only [Option.bind_eq_some] at h
      obtain ⟨s1, e1, s2, e2, s3, e3, s4, e4, h⟩ := h
      have f1 := golden_possible_dir_frame e1
      have f2 := golden_possible_dir_frame e2
      have f3 := golden_possible_dir_frame e3
      have f4 := golden_possible_dir_frame e4
      have hs4 : Untouched g s4.1 := by
        rw [f4, f3, f2, f1]
        refine ⟨rfl, rfl, rfl, rfl, rfl, rfl, rfl, rfl, fun q => ?_⟩
        show (set_at g.players (g.board x y) _ q).fields = _
          ∧ (set_at g.players (g.board x y) _ q).areas = _
          ∧ (set_at g.players (g.board x y) _ q).border = _
          ∧ (set_at g.players (g.board x y) _ q).free_golden_move = _
        rw [set_at_apply]
        by_cases hq : q = g.board x y
        · rw [if_pos hq, hq]
          exact ⟨rfl, rfl, rfl, rfl⟩
        · rw [if_neg hq]
          exact ⟨rfl, rfl, rfl, rfl⟩
      split at h
      · simp only [Option.some.injEq] at h
        rw [← h]
        exact hs4
      · simp only [Option.some.injEq] at h
        rw [← h]
        exact hs4
    · simp only [Option.some.injEq] at h
      rw [← h]
      exact Untouched.refl_kept g
  · simp only [Option.some.injEq] at h
    rw [← h]
    exact Untouched.refl_kept g

theorem golden_possible_rows_same (fuel p x : Nat) :
    ∀ (ys : List Nat) (g : gamma_t) (r : Bool × gamma_t),
      golden_possible_rows fuel p x ys g = some r → Untouched g r.2 := by
  intro ys
  induction ys with
  | nil =>
    intro g r h
    simp only [golden_possible_rows, Option.some.injEq] at h
    rw [← h]
    exact Untouched.refl_kept g
  | cons y ys ih =>
    intro g r h
    simp only [golden_possible_rows, Option.bind_eq_some] at h
    obtain ⟨r1, e1, h⟩ := h
    have g1 := golden_possible_cell_same e1
    by_cases hr : r1.1 = true
    · rw [if_pos hr] at h
      simp only [Option.some.injEq] at h
      rw [← h]
      exact g1
    · rw [if_neg hr] at h
      exact g1.trans_kept (ih r1.2 r h)

theorem golden_possible_cols_same (fuel p : Nat) :
    ∀ (xs : List Nat) (g : gamma_t) (r : Bool × gamma_t),
      golden_possible_cols fuel p xs g = some r → Untouched g r.2 := by
  intro xs
  induction xs with
  | nil =>
    intro g r h
    simp only [golden_possible_cols, Option.some.injEq] at h
    rw [← h]
    exact Untouched.refl_kept g
  | cons x xs ih =>
    intro g r h
    simp only [golden_possible_cols, Option.bind_eq_some] at h
    obtain ⟨r1, e1, h⟩ := h
    have g1 := golden_possible_rows_same fuel p x _ g r1 e1
    by_cases hr : r1.1 = true
    · rw [if_pos hr] at h
      simp only [Option.some.injEq] at h
      rw [← h]
      exact g1
    · rw [if_neg hr] at h
      exact g1.trans_kept (ih r1.2 r h)

/-- Whatever the state, a call of `gamma_golden_possible` that returns has
changed only area ids and id counters. -/
theorem gamma_golden_possible_same {fuel : Nat} {g g' : gamma_t} {p : Nat} {b : Bool}
    (h : gamma_golden_possible fuel g p = some (b, g')) : Untouched g g' := by
  unfold gamma_golden_possible at h
  split at h
  · simp only [Option.some.injEq, Prod.mk.injEq] at h
    rw [← h.2]
    exact Untouched.refl_kept g
  · split at h
    · simp only [Option.some.injEq, Prod.mk.injEq] at h
      rw [← h.2]
      exact Untouched.refl_kept g
    · exact golden_possible_cols_same fuel p _ g (b, g') h

/-- A player whose golden flag is cleared gets `false` from both golden
operations at once, the state unchanged. -/
theorem golden_refused (fuel : Nat) (g : gamma_t) (p : Nat)
    (hf : (g.players p).free_golden_move = false) :
    (∀ x y, gamma_golden_move fuel g p x y = some (false, g))
    ∧ gamma_golden_possible fuel g p = some (false, g) := by
  have hcon : ¬ gamma_golden_possible_con g p := by
    rintro ⟨-, h, -⟩
    rw [hf] at h
    exact absurd h (by decide)
  constructor
  · intro x y
    rw [gamma_golden_move_unfold, if_pos (Or.inl hcon)]
  · unfold gamma_golden_possible
    rw [if_pos hcon]

/-- What a call of one of the three operations does to the golden flag of a
player `q`: it stays, unless the call is an accepted golden move of `q`. -/
theorem Step.flag {g g' : gamma_t} (h : Step g g') (q : Nat) :
    (g'.players q).free_golden_move = (g.players q).free_golden_move
    ∨ (∃ fuel x y, gamma_golden_move fuel g q x y = some (true, g')
        ∧ (g.players q).free_golden_move = true
        ∧ (g'.players q).free_golden_move = false) := by
  obtain ⟨fuel, p, x, y, b, -, -, -, h⟩ := h
  rcases h with h | h | h
  · exact Or.inl (gamma_move_flag h q)
  · obtain ⟨h1, h2, h3⟩ := gamma_golden_move_flag h
    by_cases hq : q = p
    · cases b with
      | false => exact Or.inl (h2 rfl q)
      | true =>
        right
        rw [hq]
        exact ⟨fuel, x, y, h, (h3 rfl).2, (h3 rfl).1⟩
    · exact Or.inl (h1 q hq)
  · exact Or.inl ((gamma_golden_possible_same h).counters q).2.2.2

/-- A cleared golden flag stays cleared. -/
theorem Later.flag_off {g g' : gamma_t} (h : Later g g') (q : Nat)
    (hf : (g.players q).free_golden_move = false) :
    (g'.players q).free_golden_move = false := by
  induction h with
  | now => exact hf
  | next g1 g2 _ hs ih =>
    rcases hs.flag q with e | ⟨_, _, _, _, _, e⟩
    · rw [e]; exact ih
    · exact e

/-! ## Early answers of `gamma_golden_possible`, the golden flag, accepted moves -/

/-- In a state of the invariant no player has more cells than there are busy
cells. -/
theorem Good.fields_le_busy {g : gamma_t} (hg : Good g) (p : Nat) :
    gamma_busy_fields g p ≤ g.busy_fields := by
  unfold gamma_busy_fields
  split
  · rename_i hp
    have hp0 : p ≠ EMPTY := by unfold EMPTY; unfold player_is_fine at hp; omega
    rw [hg.core.fields_ok p hp0, hg.core.busy_ok]
    apply Finset.card_le_card
    intro c hc
    rw [mem_owned_cells] at hc
    rw [mem_busy_cells]
    exact ⟨hc.1, by rw [hc.2]; exact hp0⟩
  · exact Nat.zero_le _

/-- Giving a busy cell to another player keeps the set of busy cells. -/
theorem busy_cells_set_busy (g : gamma_t) (x y p : Nat) (h1 : g.board x y ≠ EMPTY)
    (hp : p ≠ EMPTY) :
    busy_cells { g with board := set_cell g.board x y p } = busy_cells g := by
  ext c
  rw [mem_busy_cells, mem_busy_cells]
  show coords_are_fine c.1 c.2 g ∧ set_cell g.board x y p c.1 c.2 ≠ EMPTY ↔ _
  rw [set_cell_apply]
  by_cases hc : c.1 = x ∧ c.2 = y
  · rw [if_pos hc, hc.1, hc.2]
    exact ⟨fun h => ⟨h.1, h1⟩, fun h => ⟨h.1, hp⟩⟩
  · rw [if_neg hc]

/-- C13: in a game in which `p` has no more cells than `busy_fields` (every
game reached while fewer than `2^32` area ids were minted for each player is
one), `gamma_golden_possible(g, p)` returns `false`, the state unchanged, when
`p` is not a valid player id, when `p` has used its golden move, and when
`fields(p)` equals `busy_fields`; and it returns `true`, the state unchanged,
when none of these holds and `areas(p) < max_areas`. -/
theorem golden_possible_early (g : gamma_t) (p fuel : Nat)
    (hle : gamma_busy_fields g p ≤ g.busy_fields) :
    ((¬ (1 ≤ p ∧ p ≤ g.number_of_players) ∨ (g.players p).free_golden_move = false
        ∨ gamma_busy_fields g p = g.busy_fields) →
      gamma_golden_possible fuel g p = some (false, g))
    ∧ ((1 ≤ p ∧ p ≤ g.number_of_players) → (g.players p).free_golden_move = true →
        gamma_busy_fields g p ≠ g.busy_fields → gamma_areas g p < g.max_areas →
        gamma_golden_possible fuel g p = some (true, g)) := by
  constructor
  · intro h
    unfold gamma_golden_possible
    rw [if_pos]
    rintro ⟨h1, h2, h3⟩
    rcases h with h | h | h
    · exact h h1
    · rw [h] at h2
      exact absurd h2 (by decide)
    · unfold gamma_busy_fields at h
      rw [if_pos h1] at h
      omega
  · intro h1 h2 h3 h4
    have h1' : player_is_fine p g := h1
    unfold gamma_busy_fields at h3 hle
    rw [if_pos h1'] at h3 hle
    unfold gamma_golden_possible
    have h4' : (g.players p).areas < g.max_areas := h4
    rw [if_neg (not_not.2 ⟨h1, h2, by omega⟩), if_pos h4']

/-- C15: once `gamma_golden_move(g, p, x, y)` has returned `true`, in every
later state every call `gamma_golden_move(g, p, x', y')` and the call
`gamma_golden_possible(g, p)` return `false`; and a call of one of the three
operations that changes the golden flag of `p` is a call of
`gamma_golden_move` by `p` that returns `true`. -/
theorem golden_move_once (g g1 g2 : gamma_t) (p x y fuel : Nat)
    (h : gamma_golden_move fuel g p x y = some (true, g1)) (hl : Later g1 g2) :
    (∀ fuel2 x2 y2, gamma_golden_move fuel2 g2 p x2 y2 = some (false, g2))
    ∧ (∀ fuel2, gamma_golden_possible fuel2 g2 p = some (false, g2))
    ∧ (∀ ga gb, Step ga gb →
        (gb.players p).free_golden_move ≠ (ga.players p).free_golden_move →
        ∃ fuel3 x3 y3, gamma_golden_move fuel3 ga p x3 y3 = some (true, gb)) := by
  have h1 : (g1.players p).free_golden_move = false := ((gamma_golden_move_flag h).2.2 rfl).1
  have h2 := hl.flag_off p h1
  refine ⟨fun fuel2 => (golden_refused fuel2 g2 p h2).1,
    fun fuel2 => (golden_refused fuel2 g2 p h2).2, ?_⟩
  intro ga gb hs hne
  rcases hs.flag p with e | ⟨f, a, b, e, -, -⟩
  · exact absurd e hne
  · exact ⟨f, a, b, e⟩

/-- In every state reached from `gamma_new` while fewer than
`2^32` area ids were minted for each player, if `gamma_golden_move(g, p, x, y)`
returns `true` and leaves every id counter at most `2^32`, and `v` was the owner
of `(x, y)`, then afterwards `(x, y)` is owned by `p`, every other cell has the
owner it had, `fields(v)` is one less, `fields(p)` is one more, the fields of
every other player are unchanged and `busy_fields` is unchanged. -/
theorem golden_move_true_effect (g : gamma_t) (h : FitReachable g) (p x y fuel : Nat)
    (g' : gamma_t) (e : gamma_golden_move fuel g p x y = some (true, g'))
    (hfit : ids_fit g') :
    g'.board x y = p
    ∧ (∀ a b, ¬ (a = x ∧ b = y) → g'.board a b = g.board a b)
    ∧ gamma_busy_fields g' (g.board x y) + 1 = gamma_busy_fields g (g.board x y)
    ∧ gamma_busy_fields g' p = gamma_busy_fields g p + 1
    ∧ (∀ q, 1 ≤ q → q ≤ g.number_of_players → q ≠ p → q ≠ g.board x y →
        gamma_busy_fields g' q = gamma_busy_fields g q)
    ∧ g'.busy_fields = g.busy_fields := by
  obtain ⟨hg, hcap⟩ := h.good
  obtain ⟨hg', -, hleg, -, heff⟩ := gamma_golden_move_spec fuel g p x y true g' hg hcap e hfit
  have hl := hleg.1 rfl
  have he := heff rfl
  obtain ⟨hcon, hz, hv0, hvp, -, -⟩ := hl
  have hp : player_is_fine p g := hcon.1
  have hp0 : p ≠ EMPTY := by unfold EMPTY; unfold player_is_fine at hp; omega
  have hv : player_is_fine (g.board x y) g := by
    have := (hg.core.owner_ok x y hv0).2
    unfold player_is_fine
    unfold EMPTY at hv0
    omega
  have hfields : ∀ q, q ≠ EMPTY → (g'.players q).fields
      = (owned_cells { g with board := set_cell g.board x y p } q).card := by
    intro q hq
    rw [hg'.core.fields_ok q hq]
    exact congrArg Finset.card
      (@owned_cells_congr { g with board := set_cell g.board x y p } g' he.board_eq
        he.width_eq he.heigth_eq q)
  have hfine : ∀ q, player_is_fine q g' ↔ player_is_fine q g := by
    intro q
    unfold player_is_fine
    rw [he.number_eq]
  refine ⟨?_, ?_, ?_, ?_, ?_, ?_⟩
  · rw [he.board_eq, set_cell_same]
  · intro a b hab
    rw [he.board_eq, set_cell_other _ _ _ _ _ _ hab]
  · unfold gamma_busy_fields
    rw [if_pos ((hfine _).2 hv), if_pos hv, hfields _ hv0, hg.core.fields_ok _ hv0]
    exact owned_cells_set_old g x y (g.board x y) p hz rfl (fun e => hvp e.symm)
  · unfold gamma_busy_fields
    rw [if_pos ((hfine _).2 hp), if_pos hp, hfields _ hp0, hg.core.fields_ok _ hp0]
    exact owned_cells_set_new g x y p hz hvp
  · intro q hq1 hq2 hqp hqv
    have hq : player_is_fine q g := ⟨hq1, hq2⟩
    have hq0 : q ≠ EMPTY := by unfold EMPTY; omega
    unfold gamma_busy_fields
    rw [if_pos ((hfine _).2 hq), if_pos hq, hfields _ hq0, hg.core.fields_ok _ hq0,
      owned_cells_set_other g x y p q (fun e => hqv e.symm) (fun e => hqp e.symm)]
  · rw [hg'.core.busy_ok, hg.core.busy_ok, ← busy_cells_set_busy g x y p hv0 hp0]
    exact congrArg Finset.card
      (@busy_cells_congr { g with board := set_cell g.board x y p } g' he.board_eq
        he.width_eq he.heigth_eq)

/-- In every state reached from `gamma_new` while fewer than
`2^32` area ids were minted for each player, if `gamma_move(g, p, x, y)` returns
`true` and leaves every id counter at most `2^32`, then afterwards `(x, y)` is
owned by `p`, every other cell has the owner it had, `fields(p)` and
`busy_fields` are each one more, and the fields, areas and golden flag of every
other player are unchanged. -/
theorem gamma_move_true_effect (g : gamma_t) (h : FitReachable g) (p x y fuel : Nat)
    (g' : gamma_t) (e : gamma_move fuel g p x y = some (true, g')) (hfit : ids_fit g') :
    g'.board x y = p
    ∧ (∀ a b, ¬ (a = x ∧ b = y) → g'.board a b = g.board a b)
    ∧ gamma_busy_fields g' p = gamma_busy_fields g p + 1
    ∧ g'.busy_fields = g.busy_fields + 1
    ∧ (∀ q, q ≠ p → gamma_busy_fields g' q = gamma_busy_fields g q
        ∧ gamma_areas g' q = gamma_areas g q
        ∧ (g'.players q).free_golden_move = (g.players q).free_golden_move) := by
  have hg := h.good.1
  obtain ⟨hleg, -, heff⟩ := gamma_move_spec fuel g p x y true g' hg e hfit
  obtain ⟨-, he⟩ := heff rfl
  have hp : player_is_fine p g := (hleg.1 rfl).2.1
  refine ⟨?_, ?_, ?_, he.busy_eq, ?_⟩
  · rw [he.board_eq, set_cell_same]
  · intro a b hab
    rw [he.board_eq, set_cell_other _ _ _ _ _ _ hab]
  · unfold gamma_busy_fields player_is_fine
    rw [he.number_eq, if_pos hp, if_pos hp, he.fields_eq]
  · intro q hq
    obtain ⟨o1, o2, o3, -⟩ := he.others q hq
    refine ⟨?_, o2, o3⟩
    unfold gamma_busy_fields player_is_fine
    rw [he.number_eq, o1]

/-- In every state reached from `gamma_new` while fewer than
`2^32` area ids were minted for each player, if `gamma_golden_move(g, p, x, y)`
returns `true` taking the cell from `v` and the following
`gamma_golden_move(g, v, x, y)` returns `true` too, both leaving every id
counter at most `2^32`, then the owner of every cell, `busy_fields` and the
fields, areas and border of every player are what they were before the first
of the two calls. -/
theorem golden_move_round_trip (g : gamma_t) (h : FitReachable g) (p x y fuel1 fuel2 : Nat)
    (g1 g2 : gamma_t) (e1 : gamma_golden_move fuel1 g p x y = some (true, g1))
    (hfit1 : ids_fit g1)
    (e2 : gamma_golden_move fuel2 g1 (g.board x y) x y = some (true, g2))
    (hfit2 : ids_fit g2) :
    (∀ a b, g2.board a b = g.board a b) ∧ g2.busy_fields = g.busy_fields
    ∧ ∀ q, 1 ≤ q → q ≤ g.number_of_players →
        gamma_busy_fields g2 q = gamma_busy_fields g q
        ∧ gamma_areas g2 q = gamma_areas g q
        ∧ (g2.players q).border = (g.players q).border := by
  obtain ⟨hg, hcap⟩ := h.good
  obtain ⟨hg1, hcap1, -, -, heff1⟩ :=
    gamma_golden_move_spec fuel1 g p x y true g1 hg hcap e1 hfit1
  obtain ⟨hg2, -, -, -, heff2⟩ :=
    gamma_golden_move_spec fuel2 g1 (g.board x y) x y true g2 hg1 hcap1 e2 hfit2
  have f1 := heff1 rfl
  have f2 := heff2 rfl
  have hb : g2.board = g.board := by
    rw [f2.board_eq, f1.board_eq, set_cell_set_cell]
    exact set_cell_eq_self _ _ _ _ rfl
  have hw : g2.width = g.width := f2.width_eq.trans f1.width_eq
  have hh : g2.heigth = g.heigth := f2.heigth_eq.trans f1.heigth_eq
  obtain ⟨d1, d2⟩ := hg.determined hg2 hb hw hh
  refine ⟨fun a b => by rw [hb], d1, ?_⟩
  intro q hq1 hq2
  have hq0 : q ≠ EMPTY := by unfold EMPTY; omega
  obtain ⟨c1, c2, c3⟩ := d2 q hq0
  refine ⟨?_, c3, c2⟩
  unfold gamma_busy_fields player_is_fine
  rw [f2.number_eq, f1.number_eq, c1]

/-! ## `gamma_free_fields` -/

/-- The empty cells are the cells that are not busy. -/
theorem empty_cells_card (g : gamma_t) :
    ((cells g).filter fun c => g.board c.1 c.2 = EMPTY).card + (busy_cells g).card
      = g.width * g.heigth := by
  have h := Finset.filter_card_add_filter_neg_card_eq_card (s := cells g)
    (fun c : Nat × Nat => g.board c.1 c.2 = EMPTY)
  have hc : (cells g).card = g.width * g.heigth := by simp [cells]
  rw [hc] at h
  exact h

/-- In a state of the invariant `gamma_move` returns `true` exactly on the
cells that are legal for the player. -/
theorem gamma_move_answer (g : gamma_t) (hg : Good g) (p x y fuel : Nat)
    (hfuel : g.width * g.heigth < fuel) :
    (gamma_move fuel g p x y).map Prod.fst = some true ↔ legal_move g p x y := by
  obtain ⟨r, e⟩ := gamma_move_total fuel g p x y hg hfuel
  rw [e, Option.map_some', Option.some.injEq]
  exact (gamma_move_accepts fuel g p x y r.1 r.2 hg e).1

/-- In every state reached from `gamma_new` while fewer than
`2^32` area ids were minted for each player, for every player `p` in `1..N`,
`gamma_free_fields(g, p)` is the number of cells `(x, y)` of the board for which
`gamma_move(g, p, x, y)` returns `true` in that state; it is `W * H` minus
`busy_fields` while `areas(p) < max_areas`, and the border counter of `p`
otherwise. -/
theorem free_fields_counts_moves (g : gamma_t) (h : FitReachable g) (p fuel : Nat)
    (hp1 : 1 ≤ p) (hp2 : p ≤ g.number_of_players) (hfuel : g.width * g.heigth < fuel) :
    gamma_free_fields g p
      = ((cells g).filter fun c =>
          (gamma_move fuel g p c.1 c.2).map Prod.fst = some true).card
    ∧ gamma_free_fields g p
      = if gamma_areas g p < g.max_areas then g.width * g.heigth - g.busy_fields
        else (g.players p).border := by
  have hg := h.good.1
  have hp : player_is_fine p g := ⟨hp1, hp2⟩
  have hp0 : p ≠ EMPTY := by unfold EMPTY; omega
  have hcells := cells_lt g hg.core.sized
  have hbusy := busy_cells_le g
  have hval : gamma_free_fields g p
      = if gamma_areas g p < g.max_areas then g.width * g.heigth - g.busy_fields
        else (g.players p).border := by
    unfold gamma_free_fields gamma_areas
    rw [if_pos hp]
    by_cases hlt : (g.players p).areas < g.max_areas
    · rw [if_pos hlt, if_pos hlt, hg.core.busy_ok]
      omega
    · rw [if_neg hlt, if_neg hlt]
  refine ⟨?_, hval⟩
  rw [hval]
  have hset : ((cells g).filter fun c =>
      (gamma_move fuel g p c.1 c.2).map Prod.fst = some true)
      = (cells g).filter fun c => g.board c.1 c.2 = EMPTY
          ∧ (has_neighbour g p c.1 c.2 ∨ (g.players p).areas < g.max_areas) := by
    apply Finset.filter_congr
    intro c hc
    rw [mem_cells] at hc
    rw [gamma_move_answer g hg p c.1 c.2 fuel hfuel]
    unfold legal_move
    exact ⟨fun hl => ⟨hl.2.2.1, hl.2.2.2⟩, fun hl => ⟨hc, hp, hl.1, hl.2⟩⟩
  rw [hset]
  unfold gamma_areas
  by_cases hlt : (g.players p).areas < g.max_areas
  · rw [if_pos hlt]
    have e : ((cells g).filter fun c => g.board c.1 c.2 = EMPTY
        ∧ (has_neighbour g p c.1 c.2 ∨ (g.players p).areas < g.max_areas))
        = (cells g).filter fun c => g.board c.1 c.2 = EMPTY := by
      apply Finset.filter_congr
      intro c _
      exact ⟨fun hl => hl.1, fun hl => ⟨hl, Or.inr hlt⟩⟩
    rw [e, hg.core.busy_ok]
    have := empty_cells_card g
    omega
  · rw [if_neg hlt, hg.border_ok p hp0]
    unfold border_cells
    congr 1
    apply Finset.filter_congr
    intro c _
    constructor
    · rintro ⟨h1, h2⟩
      exact ⟨h1, Or.inl h2⟩
    · rintro ⟨h1, h2 | h2⟩
      · exact ⟨h1, h2⟩
      · exact absurd h2 hlt

theorem D0_initial : Initial D0 :=
  ⟨3, 5, 1, 2, 2, by decide, by decide, by decide, by decide, rfl⟩

set_option maxRecDepth 100000 in
theorem D1_step : gamma_move 10 D0 2 1 0 = some (answer (gamma_move 10 D0 2 1 0), D1) :=
  after_eq _ _ (by decide)

set_option maxRecDepth 100000 in
theorem D2_step : gamma_move 10 D1 1 2 0 = some (answer (gamma_move 10 D1 1 2 0), D2) :=
  after_eq _ _ (by decide)

set_option maxRecDepth 100000 in
theorem D3_step : gamma_move 10 D2 1 4 0 = some (answer (gamma_move 10 D2 1 4 0), D3) :=
  after_eq _ _ (by decide)

theorem D3_reachable : Reachable D3 := by
  have h0 : Reachable D0 := Reachable.init D0 D0_initial
  have h1 : Reachable D1 := Reachable.step D0 D1 h0
    ⟨10, 2, 1, 0, _, by decide, by decide, by decide, Or.inl D1_step⟩
  have h2 : Reachable D2 := Reachable.step D1 D2 h1
    ⟨10, 1, 2, 0, _, by decide, by decide, by decide, Or.inl D2_step⟩
  exact Reachable.step D2 D3 h2
    ⟨10, 1, 4, 0, _, by decide, by decide, by decide, Or.inl D3_step⟩

set_option maxRecDepth 100000 in
theorem D3_facts :
    D3.width = 5 ∧ D3.heigth = 1 ∧ D3.number_of_players = 2 ∧ D3.max_areas = 2
    ∧ D3.busy_fields = 3 ∧ D3.board 0 0 = 0 ∧ D3.board 1 0 = 2 ∧ D3.board 2 0 = 1
    ∧ D3.board 1 1 = 0 ∧ D3.board 1 4294967295 = 0 ∧ D3.indexes 1 0 = 1
    ∧ (D3.players 1).free_golden_move = true ∧ (D3.players 1).fields = 2
    ∧ (D3.players 1).areas = 2 ∧ (D3.players 2).areas = 1
    ∧ (D3.players 2).next_ind = 2 := by decide

set_option maxRecDepth 100000 in
theorem D3_fine : neighbourhood_is_fine D3 1 1 0 = true := by decide

/-- The accepted ordinary move on `K1`: the cell is counted twice. -/
theorem K1m_facts :
    (gamma_move 10 K1 2 0 0).isSome = true
    ∧ answer (gamma_move 10 K1 2 0 0) = true
    ∧ gamma_busy_fields K1 2 = 1 ∧ gamma_busy_fields K1m 2 = 3
    ∧ K1.busy_fields = 3 ∧ K1m.busy_fields = 5 := by
  set_option maxRecDepth 100000 in decide

/-- The accepted golden move of player 2 on `K1`, and the accepted golden move
of player 1 that takes the cell back. -/
theorem K1g_facts :
    (gamma_golden_move 10 K1 2 2 0).isSome = true
    ∧ answer (gamma_golden_move 10 K1 2 2 0) = true
    ∧ K1.board 2 0 = 1
    ∧ gamma_busy_fields K1g 2 = 3 ∧ K1g.busy_fields = 4
    ∧ (gamma_golden_move 10 K1g 1 2 0).isSome = true
    ∧ answer (gamma_golden_move 10 K1g 1 2 0) = true
    ∧ gamma_busy_fields K1b 2 = 2 ∧ gamma_areas K1b 2 = 2 ∧ gamma_areas K1 2 = 1 := by
  set_option maxRecDepth 100000 in decide

attribute [irreducible] D3

/-- The game `D3` is the first member of the family. -/
theorem D3_eq : D3 = Kn 1 2 := by
  unfold Kn
  have e1 : set_cell D3.indexes 1 0 1 = D3.indexes :=
    set_cell_eq_self _ _ _ _ D3_facts.2.2.2.2.2.2.2.2.2.2.1
  have e2 : set_at D3.players 2 { D3.players 2 with next_ind := 2 } = D3.players := by
    apply set_at_eq_self
    have hn := D3_facts.2.2.2.2.2.2.2.2.2.2.2.2.2.2.2
    generalize D3.players 2 = r at hn
    cases r
    simp only at hn
    rw [hn]
  rw [e1, e2]

theorem Kn_board (a n : Nat) : (Kn a n).board = D3.board := rfl

theorem Kn_width (a n : Nat) : (Kn a n).width = 5 := D3_facts.1

theorem Kn_heigth (a n : Nat) : (Kn a n).heigth = 1 := D3_facts.2.1

theorem Kn_player_two (a n : Nat) :
    (Kn a n).players 2 = { D3.players 2 with next_ind := n } := by
  exact set_at_same D3.players 2 { D3.players 2 with next_ind := n }

theorem Kn_player_one (a n : Nat) : (Kn a n).players 1 = D3.players 1 := by
  exact set_at_other D3.players 2 1 { D3.players 2 with next_ind := n } (by decide)

/-- No neighbour of the cell `(1, 0)` is owned by player 2, so the rounds of
the trial for that cell change nothing. -/
theorem Kn_dir_skip (fuel : Nat) (G : gamma_t) (hb : G.board = D3.board) (cnt : Int)
    (old new k : Nat) (hk : k < 4) :
    golden_possible_dir fuel G cnt 2 1 0 old new k = some (G, cnt) := by
  unfold golden_possible_dir
  rw [if_neg]
  rintro ⟨-, h, -⟩
  rw [hb] at h
  have hcases : k = 0 ∨ k = 1 ∨ k = 2 ∨ k = 3 := by omega
  have f := D3_facts
  rcases hcases with e | e | e | e
  · rw [e] at h
    have : D3.board (nbx 1 0) (nby 0 0) = 1 := f.2.2.2.2.2.2.2.1
    rw [this] at h
    exact absurd h (by decide)
  · rw [e] at h
    have : D3.board (nbx 1 1) (nby 0 1) = 0 := f.2.2.2.2.2.2.2.2.1
    rw [this] at h
    exact absurd h (by decide)
  · rw [e] at h
    have : D3.board (nbx 1 2) (nby 0 2) = 0 := f.2.2.2.2.2.1
    rw [this] at h
    exact absurd h (by decide)
  · rw [e] at h
    have : D3.board (nbx 1 3) (nby 0 3) = 0 := f.2.2.2.2.2.2.2.2.2.1
    rw [this] at h
    exact absurd h (by decide)

theorem Kn_binds (fuel : Nat) (G : gamma_t) (hb : G.board = D3.board) (old new : Nat)
    (F : gamma_t × Int → Option (Bool × gamma_t)) :
    ((golden_possible_dir fuel G (-1) 2 1 0 old new 0).bind fun s1 =>
      (golden_possible_dir fuel s1.1 s1.2 2 1 0 old new 1).bind fun s2 =>
      (golden_possible_dir fuel s2.1 s2.2 2 1 0 old new 2).bind fun s3 =>
      (golden_possible_dir fuel s3.1 s3.2 2 1 0 old new 3).bind F) = F (G, -1) := by
  rw [Kn_dir_skip fuel G hb (-1) old new 0 (by omega), Option.some_bind]
  show ((golden_possible_dir fuel G (-1) 2 1 0 old new 1).bind _) = _
  rw [Kn_dir_skip fuel G hb (-1) old new 1 (by omega), Option.some_bind]
  show ((golden_possible_dir fuel G (-1) 2 1 0 old new 2).bind _) = _
  rw [Kn_dir_skip fuel G hb (-1) old new 2 (by omega), Option.some_bind]
  show ((golden_possible_dir fuel G (-1) 2 1 0 old new 3).bind _) = _
  rw [Kn_dir_skip fuel G hb (-1) old new 3 (by omega), Option.some_bind]

theorem Kn_cell_zero (fuel a n : Nat) :
    golden_possible_cell fuel (Kn a n) 1 0 0 = some (false, Kn a n) := by
  rw [golden_possible_cell_unfold, if_neg]
  rintro ⟨h, -⟩
  rw [Kn_board] at h
  exact h D3_facts.2.2.2.2.2.1

theorem Kn_fine (a n : Nat) : neighbourhood_is_fine (Kn a n) 1 1 0 = true := by
  rw [neighbourhood_is_fine_iff]
  exact (@has_neighbour_congr D3 (Kn a n) rfl rfl rfl 1 1 0).2
    ((neighbourhood_is_fine_iff D3 1 1 0).1 D3_fine)

/-- The trial at the cell `(1, 0)` mints an id for it and succeeds. -/
theorem Kn_cell_one (fuel a n : Nat) :
    golden_possible_cell fuel (Kn a n) 1 1 0 = some (true, Kn (to_uint n) (inc64 n)) := by
  have f := D3_facts
  have hb10 : (Kn a n).board 1 0 = 2 := f.2.2.2.2.2.2.1
  rw [golden_possible_cell_unfold, if_pos (by rw [hb10]; decide), if_pos (Kn_fine a n), hb10,
    Kn_player_two]
  refine (Kn_binds fuel _ ?_ _ _ _).trans ?_
  · rfl
  have hm : (D3.players 2).areas = 1 := f.2.2.2.2.2.2.2.2.2.2.2.2.2.2.1
  have hx : D3.max_areas = 2 := f.2.2.2.1
  simp only [set_at_same]
  show (if ((((D3.players 2).areas : Int) + -1) % 4294967296).toNat ≤ D3.max_areas then _
    else _) = _
  have hcond : ((((D3.players 2).areas : Int) + -1) % 4294967296).toNat ≤ D3.max_areas := by
    rw [hm, hx]
    decide
  rw [if_pos hcond]
  congr 2
  unfold Kn
  congr 1
  · exact set_cell_set_cell D3.indexes 1 0 _ _
  · exact set_at_set_at D3.players 2 _ _

/-- Each call `gamma_golden_possible(g, 1)` renumbers the cell `(1, 0)` of
player 2 with the next id of player 2, cut to 32 bits. -/
theorem Kn_possible (fuel a n : Nat) :
    gamma_golden_possible fuel (Kn a n) 1 = some (true, Kn (to_uint n) (inc64 n)) := by
  have f := D3_facts
  unfold gamma_golden_possible
  have hcon : gamma_golden_possible_con (Kn a n) 1 := by
    unfold gamma_golden_possible_con player_is_fine
    rw [Kn_player_one]
    refine ⟨⟨by decide, ?_⟩, f.2.2.2.2.2.2.2.2.2.2.2.1, ?_⟩
    · show 1 ≤ D3.number_of_players
      rw [f.2.2.1]
      decide
    · show (D3.players 1).fields < D3.busy_fields
      rw [f.2.2.2.2.2.2.2.2.2.2.2.2.1, f.2.2.2.2.1]
      decide
  have hcap : ¬ ((Kn a n).players 1).areas < (Kn a n).max_areas := by
    rw [Kn_player_one]
    show ¬ (D3.players 1).areas < D3.max_areas
    rw [f.2.2.2.2.2.2.2.2.2.2.2.2.2.1, f.2.2.2.1]
    decide
  rw [if_neg (not_not.2 hcon), if_neg hcap, Kn_width]
  have hr : List.range 5 = 0 :: 1 :: [2, 3, 4] := by decide
  have hr1 : List.range 1 = [0] := by decide
  rw [hr]
  simp only [golden_possible_cols, golden_possible_rows, Kn_heigth, hr1, Kn_cell_zero,
    Kn_cell_one, Option.some_bind, if_true, if_false, Bool.false_eq_true]

/-- The games of the family are reachable. -/
theorem Kn_reachable (n : Nat) (h2 : 2 ≤ n) (hn : n ≤ 8589934592) :
    Reachable (Kn (to_uint n) (n + 1)) := by
  induction n, h2 using Nat.le_induction with
  | base =>
    have h := Kn_possible 10 1 2
    have e1 : inc64 2 = 2 + 1 := by decide
    rw [e1, ← D3_eq] at h
    exact Reachable.step _ _ D3_reachable
      ⟨10, 1, 0, 0, true, by decide, by decide, by decide, Or.inr (Or.inr h)⟩
  | succ m hm ih =>
    have h := Kn_possible 10 (to_uint m) (m + 1)
    rw [inc64_small _ (by omega)] at h
    exact Reachable.step _ _ (ih (by omega))
      ⟨10, 1, 0, 0, true, by decide, by decide, by decide, Or.inr (Or.inr h)⟩

theorem K1_reachable : Reachable K1 := by
  have h := Kn_reachable 4294967296 (by omega) (by omega)
  have e : to_uint 4294967296 = 0 := by decide
  rw [e] at h
  exact h

/-! ## The compact picture of the board -/

theorem range_map_store (buf : Nat → Char) (n : Nat) (c : Char) :
    (List.range (n + 1)).map (set_at buf n c) = (List.range n).map buf ++ [c] := by
  rw [List.range_succ, List.map_append, List.map_singleton, set_at_same]
  congr 1
  apply List.map_congr_left
  intro i hi
  rw [List.mem_range] at hi
  rw [set_at_other _ _ _ _ (by omega)]

/-- The character `gamma_board` writes for a cell with an owner up to 9. -/
theorem board_char (v : Nat) (hv : v ≤ 9) :
    (if v = EMPTY then some '.' else digits v) = some (cell_char v) := by
  unfold cell_char digits
  by_cases h : v = EMPTY
  · rw [if_pos h, if_pos h]
  · rw [if_neg h, if_neg h, if_pos (by omega)]

theorem cell_char_ne (v : Nat) (hv : v ≤ 9) : cell_char v ≠ NUL := by
  unfold cell_char NUL EMPTY
  interval_cases v <;> decide

/-- A row of `gamma_board`, as long as `pos` stays below `2^32` and inside the
buffer: the characters of the cells are appended to what the buffer holds. -/
theorem board_row_spec (g : gamma_t) (len x : Nat) :
    ∀ (ys : List Nat) (buf : Nat → Char) (pos : Nat),
      pos + ys.length ≤ len → pos + ys.length < 4294967296 →
      (∀ y ∈ ys, g.board y (dec32 (sub32 g.heigth x)) ≤ 9) →
      ∃ buf', board_row g len x ys (buf, pos) = some (buf', pos + ys.length)
        ∧ (List.range (pos + ys.length)).map buf'
          = (List.range pos).map buf
            ++ ys.map fun y => cell_char (g.board y (dec32 (sub32 g.heigth x))) := by
  intro ys
  induction ys with
  | nil =>
    intro buf pos _ _ _
    exact ⟨buf, rfl, by simp⟩
  | cons y ys ih =>
    intro buf pos h1 h2 h3
    rw [List.length_cons] at h1 h2
    have hc := board_char _ (h3 y (List.mem_cons_self _ _))
    obtain ⟨buf', e, hm⟩ := ih (set_at buf pos (cell_char (g.board y (dec32 (sub32 g.heigth x)))))
      (pos + 1) (by omega) (by omega) (fun z hz => h3 z (List.mem_cons_of_mem _ hz))
    refine ⟨buf', ?_, ?_⟩
    · unfold board_row
      rw [hc, Option.some_bind]
      unfold store
      rw [if_pos (by omega), Option.some_bind]
      have hp : inc32 pos = pos + 1 := inc32_small _ (by omega)
      show board_row g len x ys (_, inc32 pos) = _
      rw [hp, e, List.length_cons]
      congr 2
      omega
    · rw [List.length_cons, show pos + (ys.length + 1) = pos + 1 + ys.length by omega, hm,
        range_map_store, List.map_cons, List.append_assoc]
      rfl

/-- The rows of `gamma_board`, as long as `pos` stays below `2^32` and inside
the buffer. -/
theorem board_rows_spec (g : gamma_t) (len : Nat) :
    ∀ (xs : List Nat) (buf : Nat → Char) (pos : Nat),
      pos + xs.length * (g.width + 1) ≤ len →
      pos + xs.length * (g.width + 1) < 4294967296 →
      (∀ x ∈ xs, ∀ y, y < g.width → g.board y (dec32 (sub32 g.heigth x)) ≤ 9) →
      ∃ buf', board_rows g len xs (buf, pos) = some (buf', pos + xs.length * (g.width + 1))
        ∧ (List.range (pos + xs.length * (g.width + 1))).map buf'
          = (List.range pos).map buf
            ++ (xs.map fun x => compact_row g (dec32 (sub32 g.heigth x))).flatten := by
  intro xs
  induction xs with
  | nil =>
    intro buf pos _ _ _
    exact ⟨buf, by simp [board_rows], by simp⟩
  | cons x xs ih =>
    intro buf pos h1 h2 h3
    rw [List.length_cons, Nat.succ_mul] at h1 h2
    obtain ⟨b1, e1, m1⟩ := board_row_spec g len x (List.range g.width) buf pos
      (by rw [List.length_range]; omega) (by rw [List.length_range]; omega)
      (fun y hy => h3 x (List.mem_cons_self _ _) y (List.mem_range.1 hy))
    rw [List.length_range] at e1 m1
    obtain ⟨buf', e, hm⟩ := ih (set_at b1 (pos + g.width) '\n') (pos + g.width + 1)
      (by omega) (by omega) (fun z hz => h3 z (List.mem_cons_of_mem _ hz))
    refine ⟨buf', ?_, ?_⟩
    · unfold board_rows
      rw [e1, Option.some_bind]
      unfold store
      rw [if_pos (by show pos + g.width < len; omega), Option.some_bind]
      have hp : inc32 (pos + g.width) = pos + g.width + 1 := inc32_small _ (by omega)
      show board_rows g len xs (_, inc32 (pos + g.width)) = _
      rw [hp, e, List.length_cons, Nat.succ_mul]
      congr 2
      omega
    · rw [List.length_cons, Nat.succ_mul,
        show pos + (xs.length * (g.width + 1) + (g.width + 1))
          = pos + g.width + 1 + xs.length * (g.width + 1) by omega,
        hm, range_map_store, m1, List.map_cons, List.flatten_cons]
      unfold compact_row
      simp only [List.append_assoc]

/-- The string of a buffer that holds no `NUL` before its last byte. -/
theorem c_string_append (l : List Char) (h : ∀ c ∈ l, c ≠ NUL) : c_string (l ++ [NUL]) = l := by
  unfold c_string
  induction l with
  | nil => simp [List.takeWhile]
  | cons a l ih =>
    have ha : a ≠ NUL := h a (List.mem_cons_self _ _)
    rw [List.cons_append, List.takeWhile_cons, if_pos (by simpa using ha),
      ih (fun c hc => h c (List.mem_cons_of_mem _ hc))]

/-- The row of the board shown in the row `x` of the picture. -/
theorem shown_row (g : gamma_t) (x : Nat) (hx : x < g.heigth) (hh : g.heigth < 4294967296) :
    dec32 (sub32 g.heigth x) = g.heigth - 1 - x := by
  unfold dec32 sub32
  rw [Nat.mod_eq_of_lt (by omega : x < 4294967296)]
  have e1 : g.heigth + (4294967296 - x) = (g.heigth - x) + 4294967296 := by omega
  rw [e1, Nat.add_mod_right, Nat.mod_eq_of_lt (by omega : g.heigth - x < 4294967296)]
  have e2 : g.heigth - x + 4294967295 = (g.heigth - 1 - x) + 4294967296 := by omega
  rw [e2, Nat.add_mod_right, Nat.mod_eq_of_lt (by omega)]

/-- On a board whose picture with the `NUL` that ends it has fewer than `2^32` characters, with no owner
above 9 and the counter of cells of wide players at 0, `gamma_board` gives
exactly the compact picture: `H` rows from the top, each of `W` characters and
a newline, `.` for an empty cell and the decimal digit of the owner otherwise. -/
theorem gamma_board_compact (g : gamma_t) (hw : 1 ≤ g.width) (hh : 1 ≤ g.heigth)
    (hsmall : (g.width + 1) * g.heigth + 1 < 4294967296)
    (hcells : ∀ x y, x < g.width → y < g.heigth → g.board x y ≤ 9)
    (hwide : g.fields_of_wider_players = 0) (fuel : Nat) (mem : Nat → Char) :
    gamma_board fuel mem g = some (compact_picture g) := by
  have hW : g.width + 1 < 4294967296 := by nlinarith
  have hH : g.heigth + 1 < 4294967296 := by nlinarith
  have hcomm : g.heigth * (g.width + 1) = (g.width + 1) * g.heigth := Nat.mul_comm _ _
  have hsucc : (g.width + 1) * (g.heigth + 1) = (g.width + 1) * g.heigth + (g.width + 1) :=
    Nat.mul_succ _ _
  unfold gamma_board
  rw [if_neg (by unfold board_is_spaced; omega)]
  have hlen : to_uint (g.width + 1) * to_uint (g.heigth + 1) % 18446744073709551616
      = (g.width + 1) * (g.heigth + 1) := by
    unfold to_uint
    rw [Nat.mod_eq_of_lt hW, Nat.mod_eq_of_lt hH]
    apply Nat.mod_eq_of_lt
    nlinarith
  simp only [hlen]
  have hrow : ∀ x ∈ List.range g.heigth, ∀ y, y < g.width →
      g.board y (dec32 (sub32 g.heigth x)) ≤ 9 := by
    intro x hx y hy
    rw [List.mem_range] at hx
    rw [shown_row g x hx (by omega)]
    exact hcells y _ hy (by omega)
  obtain ⟨buf', e, hm⟩ := board_rows_spec g ((g.width + 1) * (g.heigth + 1))
    (List.range g.heigth) mem 0
    (by rw [List.length_range, hcomm, hsucc]; omega) (by rw [List.length_range, hcomm]; omega)
    hrow
  rw [List.length_range, Nat.zero_add] at e hm
  rw [e, Option.some_bind]
  unfold store
  have hpos : g.heigth * (g.width + 1) < (g.width + 1) * (g.heigth + 1) := by
    rw [hcomm, hsucc]; omega
  rw [if_pos hpos, Option.some_bind]
  have hp : inc32 (g.heigth * (g.width + 1)) = g.heigth * (g.width + 1) + 1 :=
    inc32_small _ (by rw [hcomm]; omega)
  simp only [hp]
  rw [if_neg (Nat.succ_ne_zero _)]
  have hst := range_map_store buf' (g.heigth * (g.width + 1)) NUL
  rw [hm] at hst
  simp only [List.range_zero, List.map_nil, List.nil_append] at hst
  rw [hst]
  have hpic : (List.map (fun x => compact_row g (dec32 (sub32 g.heigth x)))
      (List.range g.heigth)).flatten = compact_picture g := by
    have hmap : List.map (fun x => compact_row g (dec32 (sub32 g.heigth x)))
        (List.range g.heigth)
        = List.map (fun r => compact_row g (g.heigth - 1 - r)) (List.range g.heigth) := by
      apply List.map_congr_left
      intro x hx
      rw [List.mem_range] at hx
      rw [shown_row g x hx (by omega)]
    unfold compact_picture
    rw [hmap]
  rw [hpic, c_string_append]
  intro c hc
  unfold compact_picture at hc
  rw [List.mem_flatten] at hc
  obtain ⟨l, hl, hcl⟩ := hc
  rw [List.mem_map] at hl
  obtain ⟨r, hr, rfl⟩ := hl
  rw [List.mem_range] at hr
  unfold compact_row at hcl
  rw [List.mem_append] at hcl
  rcases hcl with h1 | h1
  · rw [List.mem_map] at h1
    obtain ⟨x, hx, rfl⟩ := h1
    rw [List.mem_range] at hx
    exact cell_char_ne _ (hcells x _ hx (by omega))
  · rw [List.mem_singleton] at h1
    rw [h1]
    decide

theorem made_eq (r : Option (Option gamma_t)) (d : gamma_t)
    (h : (r.bind id).isSome = true) : r = some (some (made r d)) := by
  cases r with
  | none => exact absurd h (by decide)
  | some x =>
    cases x with
    | none => exact absurd h (by decide)
    | some g => rfl

/-- A new game has minted no id. -/
theorem Initial.next_le {g : gamma_t} (h : Initial g) (q : Nat) :
    (g.players q).next_ind ≤ 1 := by
  obtain ⟨fuel, w, hh, n, a, -, -, hn, -, e⟩ := h
  unfold gamma_new at e
  split at e
  · simp at e
  · simp only [Option.map_eq_some', Option.some.injEq] at e
    obtain ⟨ps, e1, e2⟩ := e
    have hps := init_players_spec n hn fuel 1 _ ps (by omega) e1 q
    rw [← e2]
    show (ps q).next_ind ≤ 1
    rw [hps]
    split
    · exact le_refl _
    · exact Nat.zero_le _

theorem W0_initial : Initial W0 :=
  ⟨11, 2, 1, 10, 2, by decide, by decide, by decide, by decide, made_eq _ _ (by decide)⟩

set_option maxRecDepth 100000 in
theorem W1_step : gamma_move 4 W0 1 0 0 = some (answer (gamma_move 4 W0 1 0 0), W1) :=
  after_eq _ _ (by decide)

set_option maxRecDepth 100000 in
theorem W2_step :
    gamma_golden_move 4 W1 10 0 0 = some (answer (gamma_golden_move 4 W1 10 0 0), W2) :=
  after_eq _ _ (by decide)

set_option maxRecDepth 100000 in
theorem W2_facts :
    answer (gamma_move 4 W0 1 0 0) = true ∧ answer (gamma_golden_move 4 W1 10 0 0) = true
    ∧ W1.width * W1.heigth < 4
    ∧ W2.width = 2 ∧ W2.heigth = 1 ∧ W2.board 0 0 = 10 ∧ W2.board 1 0 = 0
    ∧ W2.fields_of_wider_players = 0 ∧ W1.fields_of_wider_players = 0
    ∧ W2.number_of_players = 10 := by decide

theorem W1_next (q : Nat) : (W1.players q).next_ind ≤ 2 :=
  (gamma_move_next W1_step).grow 1 (by omega) W0_initial.next_le q

theorem W1_fit : FitReachable W1 :=
  FitReachable.step W0 W1 (FitReachable.init W0 W0_initial)
    ⟨4, 1, 0, 0, _, by decide, by decide, by decide, Or.inl W1_step⟩
    (ids_fit_of_le 2 (by omega) W1_next)

theorem W2_fit : FitReachable W2 := by
  have h1 := W1_fit
  obtain ⟨b, g', e, hfit⟩ := gamma_golden_move_total 4 W1 10 0 0 h1.good.1 h1.good.2
    W2_facts.2.2.1 (fun q => by have := W1_next q; omega)
  rw [W2_step] at e
  simp only [Option.some.injEq, Prod.mk.injEq] at e
  rw [← e.2] at hfit
  exact FitReachable.step W1 W2 h1
    ⟨4, 10, 0, 0, _, by decide, by decide, by decide, Or.inr (Or.inl W2_step)⟩ hfit

attribute [irreducible] W2

/-- The compact picture of `W2`: the cell of player 10 is written as the `NUL`
of `digits`, which ends the string at once. -/
theorem W2_board (fuel : Nat) (mem : Nat → Char) : gamma_board fuel mem W2 = some [] := by
  have f := W2_facts
  have hb0 : W2.board 0 0 = 10 := f.2.2.2.2.2.1
  have hb1 : W2.board 1 0 = 0 := f.2.2.2.2.2.2.1
  have hw : W2.width = 2 := f.2.2.2.1
  have hh : W2.heigth = 1 := f.2.2.2.2.1
  have hr2 : List.range 2 = [0, 1] := by decide
  have hr1 : List.range 1 = [0] := by decide
  have hrow : dec32 (sub32 1 0) = 0 := by decide
  have hd : digits 10 = some NUL := by decide
  unfold gamma_board
  rw [if_neg (by unfold board_is_spaced; rw [f.2.2.2.2.2.2.2.1]; decide)]
  have hlen : to_uint (2 + 1) * to_uint (1 + 1) % 18446744073709551616 = 6 := by decide
  have hi0 : inc32 0 = 1 := by decide
  have hi1 : inc32 1 = 2 := by decide
  have hi2 : inc32 2 = 3 := by decide
  have hi3 : inc32 3 = 4 := by decide
  have hr4 : List.range 4 = [0, 1, 2, 3] := by decide
  simp only [hw, hh, hr1, hr2, board_rows, board_row, hrow, hb0, hb1, hd, store, EMPTY,
    Option.some_bind, hlen, hi0, hi1, hi2, hi3, hr4]
  simp [c_string, set_at, NUL, hi2, hi3, hr4]

/-! ## A picture of more than `2^32` characters -/

theorem Big_initial : Initial Big :=
  ⟨2, 2147483648, 2, 1, 1, by decide, by decide, by decide, by decide, rfl⟩

/-- A row of `gamma_board` over empty cells in a buffer of at least `2^32`
bytes: `pos` is counted modulo `2^32`, every byte of the buffer is left as it
was or holds a `.`, and the byte at the first `pos` holds a `.`. -/
theorem dots_row (g : gamma_t) (len x : Nat) (hlen : 4294967296 ≤ len) :
    ∀ (ys : List Nat) (buf : Nat → Char) (pos : Nat),
      (∀ y ∈ ys, g.board y (dec32 (sub32 g.heigth x)) = EMPTY) → pos < 4294967296 →
      ∃ b', board_row g len x ys (buf, pos) = some (b', (pos + ys.length) % 4294967296)
        ∧ (∀ i, b' i = '.' ∨ b' i = buf i) ∧ (ys ≠ [] → b' pos = '.') := by
  intro ys
  induction ys with
  | nil =>
    intro buf pos _ hp
    refine ⟨buf, ?_, fun i => Or.inr rfl, fun h => absurd rfl h⟩
    rw [List.length_nil, Nat.add_zero, Nat.mod_eq_of_lt hp]
    rfl
  | cons y ys ih =>
    intro buf pos h1 hp
    have hin : inc32 pos < 4294967296 := by unfold inc32; exact Nat.mod_lt _ (by omega)
    obtain ⟨b', e, k1, -⟩ := ih (set_at buf pos '.') (inc32 pos)
      (fun z hz => h1 z (List.mem_cons_of_mem _ hz)) hin
    have hpos : (inc32 pos + ys.length) % 4294967296
        = (pos + (ys.length + 1)) % 4294967296 := by
      unfold inc32
      omega
    have kp : b' pos = '.' := by
      rcases k1 pos with h | h
      · exact h
      · rw [h, set_at_same]
    refine ⟨b', ?_, ?_, fun _ => kp⟩
    · unfold board_row
      rw [if_pos (h1 y (List.mem_cons_self _ _)), Option.some_bind]
      unfold store
      rw [if_pos (by omega), Option.some_bind]
      show board_row g len x ys (_, inc32 pos) = _
      rw [e, List.length_cons, hpos]
    · intro i
      rcases k1 i with h | h
      · exact Or.inl h
      · rw [h, set_at_apply]
        by_cases hi : i = pos
        · rw [if_pos hi]
          exact Or.inl rfl
        · rw [if_neg hi]
          exact Or.inr rfl

/-- The picture of the empty board `Big` of 2 rows and `2^31` columns: `pos`
wraps around in the second row, and the string returned is one `.` and one
newline. -/
theorem Big_board (fuel : Nat) (mem : Nat → Char) :
    gamma_board fuel mem Big = some ['.', '\n'] := by
  have hlen : to_uint (Big.width + 1) * to_uint (Big.heigth + 1) % 18446744073709551616
      = 6442450947 := by decide
  have hr2 : List.range Big.heigth = [0, 1] := by decide
  have he : ∀ x, ∀ y ∈ List.range Big.width, Big.board y (dec32 (sub32 Big.heigth x)) = EMPTY :=
    fun _ _ _ => rfl
  have hne : List.range Big.width ≠ [] := by
    intro h
    have := congrArg List.length h
    rw [List.length_range] at this
    exact absurd this (by decide)
  obtain ⟨b0, e0, -, p0⟩ := dots_row Big 6442450947 0 (by omega) (List.range Big.width) mem 0
    (he 0) (by omega)
  have hp0 : (0 + (List.range Big.width).length) % 4294967296 = 2147483648 := by
    rw [List.length_range]
    decide
  rw [hp0] at e0
  have hi0 : inc32 2147483648 = 2147483649 := by decide
  obtain ⟨b1, e1, k1, -⟩ := dots_row Big 6442450947 1 (by omega) (List.range Big.width)
    (set_at b0 2147483648 '\n') 2147483649 (he 1) (by omega)
  have hp1 : (2147483649 + (List.range Big.width).length) % 4294967296 = 1 := by
    rw [List.length_range]
    decide
  rw [hp1] at e1
  have hb1 : b1 0 = '.' := by
    rcases k1 0 with h | h
    · exact h
    · rw [h, set_at_other _ _ _ _ (by decide)]
      exact p0 hne
  have hi1 : inc32 1 = 2 := by decide
  have hi2 : inc32 2 = 3 := by decide
  have hr3 : List.range 3 = [0, 1, 2] := by decide
  unfold gamma_board
  rw [if_neg (by unfold board_is_spaced; decide)]
  simp only [hlen, hr2]
  have hs0 : store 6442450947 b0 2147483648 '\n' = some (set_at b0 2147483648 '\n') := by
    unfold store
    rw [if_pos (by omega)]
  have hs1 : store 6442450947 b1 1 '\n' = some (set_at b1 1 '\n') := by
    unfold store
    rw [if_pos (by omega)]
  have hs2 : store 6442450947 (set_at b1 1 '\n') 2 NUL
      = some (set_at (set_at b1 1 '\n') 2 NUL) := by
    unfold store
    rw [if_pos (by omega)]
  have hrows : board_rows Big 6442450947 [0, 1] (mem, 0) = some (set_at b1 1 '\n', 2) := by
    have step : ∀ (x : Nat) (xs : List Nat) (s : (Nat → Char) × Nat),
        board_rows Big 6442450947 (x :: xs) s
          = (board_row Big 6442450947 x (List.range Big.width) s).bind fun s1 =>
            (store 6442450947 s1.1 s1.2 '\n').bind fun b =>
              board_rows Big 6442450947 xs (b, inc32 s1.2) := fun _ _ _ => rfl
    have stop : ∀ s : (Nat → Char) × Nat, board_rows Big 6442450947 [] s = some s :=
      fun _ => rfl
    rw [step, e0, Option.some_bind]
    show (store 6442450947 b0 2147483648 '\n').bind _ = _
    rw [hs0, Option.some_bind]
    show board_rows Big 6442450947 [1] (set_at b0 2147483648 '\n', inc32 2147483648) = _
    rw [hi0, step, e1, Option.some_bind]
    show (store 6442450947 b1 1 '\n').bind _ = _
    rw [hs1, Option.some_bind]
    show board_rows Big 6442450947 [] (set_at b1 1 '\n', inc32 1) = _
    rw [hi1, stop]
  rw [hrows, Option.some_bind]
  show (store 6442450947 (set_at b1 1 '\n') 2 NUL).bind _ = _
  rw [hs2, Option.some_bind]
  show (if inc32 2 = 0 then none
    else some (c_string ((List.range (inc32 2)).map (set_at (set_at b1 1 '\n') 2 NUL)))) = _
  rw [hi2, if_neg (by decide), hr3]
  simp [c_string, set_at, NUL, hb1]

theorem adjacent_symm {a b c d : Nat} (h : adjacent a b c d) : adjacent c d a b := by
  unfold adjacent at h ⊢
  omega

theorem Connected.trans_conn {g : gamma_t} {p x y a b c d : Nat}
    (h1 : Connected g p x y a b) (h2 : Connected g p a b c d) : Connected g p x y c d := by
  induction h2 with
  | start _ => exact h1
  | step e f c d _ hadj ho ih => exact Connected.step e f c d ih hadj ho

theorem Connected.symm_conn {g : gamma_t} {p x y a b : Nat} (h : Connected g p x y a b) :
    Connected g p a b x y := by
  induction h with
  | start h => exact Connected.start h
  | step a b c d hc hadj ho ih =>
    exact (Connected.step c d a b (Connected.start ho) (adjacent_symm hadj) hc.owns_end).trans_conn
      ih

/-- A connection carries over to another grid on which the cells it passes are
owned by the player. -/
theorem Connected.map_conn {g g' : gamma_t} {p x y a b : Nat} (h : Connected g p x y a b)
    (ho : ∀ c d, Connected g p x y c d → owns g' p c d) : Connected g' p x y a b := by
  induction h with
  | start h => exact Connected.start (ho _ _ (Connected.start h))
  | step a b c d hc hadj hcd ih =>
    exact Connected.step a b c d ih hadj (ho c d (Connected.step a b c d hc hadj hcd))

theorem owns_without (g : gamma_t) (x y v a b : Nat) (hv : v ≠ EMPTY) :
    owns (without g x y) v a b ↔ owns g v a b ∧ ¬ (a = x ∧ b = y) := by
  unfold owns without
  show a < g.width ∧ b < g.heigth ∧ set_cell g.board x y EMPTY a b = v ↔ _
  rw [set_cell_apply]
  by_cases h : a = x ∧ b = y
  · rw [if_pos h]
    constructor
    · rintro ⟨-, -, e⟩
      exact absurd e.symm hv
    · rintro ⟨-, e⟩
      exact absurd h e
  · rw [if_neg h]
    exact ⟨fun e => ⟨e, h⟩, fun e => e.1⟩

/-- A connection on the grid without a cell is a connection on the grid. -/
theorem Connected.of_without {g : gamma_t} {x y v a b c d : Nat} (hv : v ≠ EMPTY)
    (h : Connected (without g x y) v a b c d) : Connected g v a b c d :=
  h.map_conn fun _ _ hc => ((owns_without g x y v _ _ hv).1 hc.owns_end).1

/-- A connection on the grid that starts outside the area of `(x, y)` is a
connection on the grid without that cell. -/
theorem Connected.to_without {g : gamma_t} {x y v a b c d : Nat} (hv : v ≠ EMPTY)
    (h : Connected g v a b c d) (hout : ¬ Connected g v a b x y) :
    Connected (without g x y) v a b c d := by
  refine h.map_conn fun e f hc => (owns_without g x y v _ _ hv).2 ⟨hc.owns_end, ?_⟩
  rintro ⟨rfl, rfl⟩
  exact hout hc

/-- The number of areas of a player on a grid is determined by the grid. -/
theorem Components.le_of {g : gamma_t} {p n m : Nat} (h1 : Components g p n)
    (h2 : Components g p m) : n ≤ m := by
  obtain ⟨r1, c1, o1, i1, -⟩ := h1
  obtain ⟨r2, c2, -, -, v2⟩ := h2
  rw [← c1, ← c2]
  have hex : ∀ r : Nat × Nat, ∃ s : Nat × Nat, r ∈ r1 → s ∈ r2 ∧ Connected g p s.1 s.2 r.1 r.2 := by
    intro r
    by_cases hr : r ∈ r1
    · obtain ⟨s, hs, hc⟩ := v2 r.1 r.2 (o1 r hr)
      exact ⟨s, fun _ => ⟨hs, hc⟩⟩
    · exact ⟨r, fun h => absurd h hr⟩
  choose φ hφ using hex
  apply Finset.card_le_card_of_injOn φ
  · intro r hr
    exact (hφ r hr).1
  · intro r hr s hs e
    have k1 := (hφ r hr).2
    have k2 := (hφ s hs).2
    rw [e] at k1
    exact i1 r hr s hs (k1.symm_conn.trans_conn k2)

theorem Components.unique {g : gamma_t} {p n m : Nat} (h1 : Components g p n)
    (h2 : Components g p m) : n = m :=
  le_antisymm (h1.le_of h2) (h2.le_of h1)

/-! ## Counting the pieces of an area around a cell -/

/-- After a relabelling the cells that still carry the old id are those the
flood fill did not reach. -/
theorem Relabelled.white_old {gk g1 : gamma_t} {v old new sx sy : Nat}
    (hr : Relabelled gk v old new sx sy g1) (hne : old ≠ new) (c d : Nat) :
    White g1 v old c d ↔ White gk v old c d ∧ ¬ Reach gk v old sx sy c d := by
  have hb : g1.board = gk.board := by rw [hr.frame]
  have hw : g1.width = gk.width := by rw [hr.frame]
  have hh : g1.heigth = gk.heigth := by rw [hr.frame]
  unfold White coords_are_fine
  rw [hb, hw, hh]
  constructor
  · rintro ⟨h1, h2, h3⟩
    rcases hr.indexes_eq c d with ⟨_, e⟩ | ⟨hn, e⟩
    · exact absurd (h3.symm.trans e) hne
    · exact ⟨⟨h1, h2, e.symm.trans h3⟩, hn⟩
  · rintro ⟨⟨h1, h2, h3⟩, hn⟩
    exact ⟨h1, h2, (hr.miss c d hn).trans h3⟩

/-- A walk of the flood fill is a connection on any grid on which the cells
with the id walked through are owned by the player. -/
theorem Reach.conn_in {gk g' : gamma_t} {v f a b c d : Nat} (hwd : gk.width < 4294967296)
    (hht : gk.heigth < 4294967296)
    (ho : ∀ c d, White gk v f c d → owns g' v c d) (h : Reach gk v f a b c d) :
    Connected g' v a b c d := by
  induction h with
  | seed hw => exact Connected.start (ho _ _ hw)
  | step a b i hr hi hw ih =>
    have hab := hr.white
    exact Connected.step a b _ _ ih
      (nb_adjacent gk.width gk.heigth a b i hi hwd hht hab.1.1 hab.1.2 hw.1.1 hw.1.2)
      (ho _ _ hw)

theorem CountInv.init_count (g : gamma_t) (v new x y : Nat) (hne : g.indexes x y ≠ new) :
    CountInv g v (g.indexes x y) x y (trial_start g v new x y) ∅ := by
  refine ⟨rfl, rfl, rfl, ?_, ?_, ?_, ?_, ?_, ?_⟩
  · intro e he
    exact absurd he (Finset.not_mem_empty e)
  · intro e he
    exact absurd he (Finset.not_mem_empty e)
  · intro c d hw hz
    exact Or.inl ((trial_start_white g v new x y v _ c d hz).2 hw)
  · intro e he
    exact absurd he (Finset.not_mem_empty e)
  · intro e he
    exact absurd he (Finset.not_mem_empty e)
  · intro c d hw
    have hz : ¬ (c = x ∧ d = y) := by
      rintro ⟨rfl, rfl⟩
      have e : set_cell g.indexes c d new c d = g.indexes c d := hw.2.2
      rw [set_cell_same] at e
      exact hne e.symm
    exact ⟨(trial_start_white g v new x y v _ c d hz).1 hw, hz⟩

/-- A cell with the old id is owned by the player on the grid without `(x, y)`. -/
theorem CountInv.owns_of {g gk : gamma_t} {v old x y : Nat} {E : Finset (Nat × Nat)}
    (h : CountInv g v old x y gk E) (hv0 : v ≠ EMPTY) (c d : Nat)
    (hw : White gk v old c d) : owns (without g x y) v c d := by
  obtain ⟨h1, h2⟩ := h.inside c d hw
  exact (owns_without g x y v c d hv0).2 ⟨(owns_iff g v c d).2 ⟨h1.1, h1.2.1⟩, h2⟩

/-- The flood fill from a cell with the old id reaches every cell connected to it
on the grid without `(x, y)`. -/
theorem CountInv.flood {g gk : gamma_t} {v old x y sx sy c d : Nat}
    {E : Finset (Nat × Nat)} (h : CountInv g v old x y gk E) (hg : Good g) (hv0 : v ≠ EMPTY)
    (hw : White gk v old sx sy) (hc : Connected (without g x y) v sx sy c d) :
    Reach gk v old sx sy c d := by
  induction hc with
  | start _ => exact Reach.seed hw
  | step a b c d hab hadj ho ih =>
    have wab := ih.white
    obtain ⟨wg, -⟩ := h.inside a b wab
    obtain ⟨og, hz⟩ := (owns_without g x y v c d hv0).1 ho
    have ocd := (owns_iff g v c d).1 og
    obtain ⟨i, hi, e1, e2⟩ := adjacent_nb g.width g.heigth a b c d hg.core.sized.width_lt
      hg.core.sized.heigth_lt wg.1.1 wg.1.2 ocd.1.1 ocd.1.2 hadj
    have hid : g.indexes c d = old := by
      have := hg.adj a b i hi (fun f => f) (fun f => f) (by rw [wg.2.1]; exact hv0)
        (by rw [e1, e2]; exact ocd.1) (by rw [e1, e2, wg.2.1]; exact ocd.2)
      rw [e1, e2] at this
      rw [this]
      exact wg.2.2
    rcases h.cover c d ⟨ocd.1, ocd.2, hid⟩ hz with hk | ⟨e, he, hce⟩
    · have := Reach.step a b i ih hi (by rw [e1, e2]; exact hk)
      rw [e1, e2] at this
      exact this
    · exfalso
      have hback : Connected (without g x y) v e.1 e.2 a b :=
        Connected.step c d a b hce (adjacent_symm hadj) hab.owns_end
      exact h.full e he a b hback wab

/-- The flood fill from a neighbour that still carries the old id finds one more
piece. -/
theorem CountInv.event {g gk g1 : gamma_t} {v old new x y sx sy : Nat}
    {E : Finset (Nat × Nat)} (h : CountInv g v old x y gk E) (hg : Good g) (hv0 : v ≠ EMPTY)
    (hw : White gk v old sx sy) (hr : Relabelled gk v old new sx sy g1) (hne : old ≠ new) :
    CountInv g v old x y g1 (insert (sx, sy) E) ∧ (sx, sy) ∉ E := by
  have hwd : gk.width < 4294967296 := by rw [h.width_eq]; exact hg.core.sized.width_lt
  have hht : gk.heigth < 4294967296 := by rw [h.heigth_eq]; exact hg.core.sized.heigth_lt
  have hb : g1.board = gk.board := by rw [hr.frame]
  have hw1 : g1.width = gk.width := by rw [hr.frame]
  have hh1 : g1.heigth = gk.heigth := by rw [hr.frame]
  have hso : owns (without g x y) v sx sy := h.owns_of hv0 sx sy hw
  have hnot : (sx, sy) ∉ E := fun he => h.full _ he sx sy (Connected.start hso) hw
  refine ⟨⟨hb.trans h.board_eq, hw1.trans h.width_eq, hh1.trans h.heigth_eq, ?_, ?_, ?_, ?_, ?_,
    ?_⟩, hnot⟩
  · intro e he
    rcases Finset.mem_insert.1 he with rfl | he
    · exact hso
    · exact h.seeds e he
  · intro e he
    rcases Finset.mem_insert.1 he with rfl | he
    · exact (h.inside sx sy hw).1
    · exact h.known e he
  · intro c d hwg hz
    rcases h.cover c d hwg hz with hk | ⟨e, he, hce⟩
    · by_cases hre : Reach gk v old sx sy c d
      · exact Or.inr ⟨(sx, sy), Finset.mem_insert_self _ _,
          hre.conn_in hwd hht (fun a b => h.owns_of hv0 a b)⟩
      · exact Or.inl ((hr.white_old hne c d).2 ⟨hk, hre⟩)
    · exact Or.inr ⟨e, Finset.mem_insert_of_mem he, hce⟩
  · intro e he c d hce hw1
    obtain ⟨hk, hre⟩ := (hr.white_old hne c d).1 hw1
    rcases Finset.mem_insert.1 he with rfl | he
    · exact hre (h.flood hg hv0 hw hce)
    · exact h.full e he c d hce hk
  · intro e he f hf hc
    rcases Finset.mem_insert.1 he with rfl | he
    · rcases Finset.mem_insert.1 hf with rfl | hf
      · rfl
      · exact absurd hw (h.full f hf sx sy hc.symm_conn)
    · rcases Finset.mem_insert.1 hf with rfl | hf
      · exact absurd hw (h.full e he sx sy hc)
      · exact h.apart e he f hf hc
  · intro c d hw1
    exact h.inside c d ((hr.white_old hne c d).1 hw1).1

/-- One round of the loop of the trial keeps the counting invariant: the counter
is one less than the number of pieces found. -/
theorem golden_possible_dir_count {g gk : gamma_t} {v old new x y k fuel : Nat} {cnt : Int}
    {s : gamma_t × Int} {E : Finset (Nat × Nat)} (h : CountInv g v old x y gk E)
    (hg : Good g) (hv0 : v ≠ EMPTY) (hne : old ≠ new) (hcnt : cnt + 1 = E.card)
    (e : golden_possible_dir fuel gk cnt v x y old new k = some s) :
    ∃ E1 : Finset (Nat × Nat), CountInv g v old x y s.1 E1 ∧ s.2 + 1 = E1.card
      ∧ E1.card ≤ E.card + 1 := by
  unfold golden_possible_dir at e
  by_cases hc : coords_are_fine (nbx x k) (nby y k) gk ∧ gk.board (nbx x k) (nby y k) = v
      ∧ gk.indexes (nbx x k) (nby y k) = old
  · rw [if_pos hc] at e
    simp only [Option.map_eq_some'] at e
    obtain ⟨g1, e1, e2⟩ := e
    rw [← e2]
    obtain ⟨hi, hn⟩ := h.event hg hv0 hc (reindexify_relabels fuel gk g1 v _ _ old new hne e1) hne
    refine ⟨_, hi, ?_, ?_⟩
    · rw [Finset.card_insert_of_not_mem hn]
      push_cast
      omega
    · rw [Finset.card_insert_of_not_mem hn]
  · rw [if_neg hc] at e
    simp only [Option.some.injEq] at e
    rw [← e]
    exact ⟨E, h, hcnt, Nat.le_succ _⟩

/-- The areas of a player after one of its cells is emptied: the areas that do
not hold the cell, and the pieces of the area that holds it, one cell of each
piece listed in `E`. -/
theorem components_without {g : gamma_t} {v x y : Nat} (hg : Good g) (hv0 : v ≠ EMPTY)
    (hz : owns g v x y) (E : Finset (Nat × Nat))
    (hE1 : ∀ e ∈ E, owns (without g x y) v e.1 e.2 ∧ Connected g v x y e.1 e.2)
    (hE2 : ∀ e ∈ E, ∀ f ∈ E, Connected (without g x y) v e.1 e.2 f.1 f.2 → e = f)
    (hE3 : ∀ c d, Connected g v x y c d → ¬ (c = x ∧ d = y) →
      ∃ e ∈ E, Connected (without g x y) v e.1 e.2 c d) :
    Components (without g x y) v ((g.players v).areas - 1 + E.card)
      ∧ 1 ≤ (g.players v).areas := by
  have hcomp : Components g v (g.players v).areas :=
    (hg.components v hv0 _).2 (hg.areas_ok.plain v hv0)
  obtain ⟨reps, c0, o0, i0, v0⟩ := hcomp
  obtain ⟨rA, hrA, hcA⟩ := v0 x y hz
  have hnz : ∀ r ∈ reps.erase rA, ¬ Connected g v r.1 r.2 x y := by
    intro r hr hc
    obtain ⟨hne, hm⟩ := Finset.mem_erase.1 hr
    exact hne (i0 r hm rA hrA (hc.trans_conn hcA.symm_conn))
  have hdisj : Disjoint (reps.erase rA) E := by
    rw [Finset.disjoint_left]
    intro a ha haE
    exact hnz a ha (hE1 a haE).2.symm_conn
  refine ⟨⟨reps.erase rA ∪ E, ?_, ?_, ?_, ?_⟩, ?_⟩
  · rw [Finset.card_union_of_disjoint hdisj, Finset.card_erase_of_mem hrA, c0]
  · intro r hr
    rcases Finset.mem_union.1 hr with h1 | h1
    · refine (owns_without g x y v _ _ hv0).2 ⟨o0 r (Finset.mem_erase.1 h1).2, ?_⟩
      rintro ⟨e1, e2⟩
      apply hnz r h1
      rw [← e1, ← e2]
      exact Connected.start (o0 r (Finset.mem_erase.1 h1).2)
    · exact (hE1 r h1).1
  · intro r hr s hs hc
    rcases Finset.mem_union.1 hr with h1 | h1
    · rcases Finset.mem_union.1 hs with h2 | h2
      · exact i0 r (Finset.mem_erase.1 h1).2 s (Finset.mem_erase.1 h2).2 (hc.of_without hv0)
      · exact absurd ((hc.of_without hv0).trans_conn (hE1 s h2).2.symm_conn) (hnz r h1)
    · rcases Finset.mem_union.1 hs with h2 | h2
      · exact absurd ((hc.of_without hv0).symm_conn.trans_conn (hE1 r h1).2.symm_conn) (hnz s h2)
      · exact hE2 r h1 s h2 hc
  · intro c d hcd
    obtain ⟨og, hne⟩ := (owns_without g x y v c d hv0).1 hcd
    obtain ⟨r, hr, hrc⟩ := v0 c d og
    by_cases hra : r = rA
    · rw [hra] at hrc
      obtain ⟨e, he, hec⟩ := hE3 c d (hcA.symm_conn.trans_conn hrc) hne
      exact ⟨e, Finset.mem_union_right _ he, hec⟩
    · have hm : r ∈ reps.erase rA := Finset.mem_erase.2 ⟨hra, hr⟩
      exact ⟨r, Finset.mem_union_left _ hm, hrc.to_without hv0 (hnz r hm)⟩
  · rw [← c0]
    exact Finset.card_pos.2 ⟨rA, hrA⟩

/-- When the loop of the trial is over, the counter tells how many areas the
owner of the cell has once the cell is emptied. -/
theorem CountInv.components_count {g g4 : gamma_t} {v x y : Nat} {E : Finset (Nat × Nat)}
    (h : CountInv g v (g.indexes x y) x y g4 E) (hg : Good g) (hv0 : v ≠ EMPTY)
    (hz : owns g v x y) (hnone : ∀ c d, ¬ White g4 v (g.indexes x y) c d) :
    Components (without g x y) v ((g.players v).areas - 1 + E.card)
      ∧ 1 ≤ (g.players v).areas := by
  refine components_without hg hv0 hz E (fun e he => ⟨h.seeds e he, ?_⟩) h.apart ?_
  · have hw := h.known e he
    exact (hg.same_id_iff v hv0 x y e.1 e.2 hz ((owns_iff g v _ _).2 ⟨hw.1, hw.2.1⟩)).1
      hw.2.2.symm
  · intro c d hc hne
    have oc := (owns_iff g v c d).1 hc.owns_end
    have hid := (hg.same_id_iff v hv0 x y c d hz hc.owns_end).2 hc
    rcases h.cover c d ⟨oc.1, oc.2, hid.symm⟩ hne with hk | he
    · exact absurd hk (hnone c d)
    · exact he

/-- A player has fewer areas than ids minted. -/
theorem Good.areas_lt_next {g : gamma_t} (hg : Good g) (v : Nat) (hv0 : v ≠ EMPTY) :
    (g.players v).areas + 1 ≤ (g.players v).next_ind ∨ (g.players v).areas = 0 := by
  rw [hg.areas_ok.plain v hv0]
  have hsub : area_ids g v ⊆ Finset.Ico 1 (g.players v).next_ind := by
    intro i hi
    rw [mem_area_ids] at hi
    obtain ⟨a, b, hw⟩ := hi
    have := hg.core.idx_owned a b (by rw [hw.2.1]; exact hv0)
    rw [hw.2.1, hw.2.2] at this
    exact Finset.mem_Ico.2 this
  have := Finset.card_le_card hsub
  rw [Nat.card_Ico] at this
  omega

theorem golden_possible_dir_total (fuel : Nat) (gk : gamma_t) (cnt : Int)
    (v x y old new k : Nat) (hne : old ≠ new) (hfuel : gk.width * gk.heigth < fuel) :
    ∃ s, golden_possible_dir fuel gk cnt v x y old new k = some s := by
  unfold golden_possible_dir
  split
  · obtain ⟨g1, e1⟩ := reindexify_total fuel gk v (nbx x k) (nby y k) old new hne hfuel
    rw [e1]
    exact ⟨_, rfl⟩
  · exact ⟨_, rfl⟩

/-- With recursion depth above the number of cells and room for four more ids,
the trial at one cell returns, and it answers `true` exactly when the owner of
the cell keeps at most `max_areas` areas without it. -/
theorem golden_possible_cell_run {fuel : Nat} {g : gamma_t} {p x y : Nat} (hg : Good g)
    (hroom : room 4 g) (hfuel : g.width * g.heigth < fuel) :
    ∃ r, golden_possible_cell fuel g p x y = some r ∧ (r.1 = true ↔ trial_ok g p x y) := by
  rw [golden_possible_cell_unfold]
  by_cases c1 : g.board x y ≠ EMPTY ∧ g.board x y ≠ p
  · rw [if_pos c1]
    by_cases c2 : neighbourhood_is_fine g p x y = true
    · rw [if_pos c2]
      have hz : coords_are_fine x y g := (hg.core.owner_ok x y c1.1).1
      have hnb := (neighbourhood_is_fine_iff g p x y).1 c2
      obtain ⟨v, hv⟩ : ∃ v, g.board x y = v := ⟨_, rfl⟩
      have hv0 : v ≠ EMPTY := by rw [← hv]; exact c1.1
      have hzo := hg.core.idx_owned x y c1.1
      rw [hv] at hzo
      have hn32 : (g.players v).next_ind < 4294967296 := by
        have := hroom v
        omega
      have hinc : inc64 (g.players v).next_ind = (g.players v).next_ind + 1 :=
        inc64_small _ (by omega)
      have htn : to_uint (g.players v).next_ind = (g.players v).next_ind :=
        to_uint_small _ hn32
      have hto : to_uint (g.indexes x y) = g.indexes x y := to_uint_small _ (by omega)
      have hne : g.indexes x y ≠ (g.players v).next_ind := by omega
      have h1 : 1 ≤ (g.players v).next_ind := by omega
      have hzv : owns g v x y := (owns_iff g v x y).2 ⟨hz, hv⟩
      rw [hv, htn, hto, hinc]
      have i0 := trial_init hg hz hv hv0 rfl hn32
      have k0 := CountInv.init_count g v (g.players v).next_ind x y hne
      have hf0 : (trial_start g v (g.players v).next_ind x y).width
          * (trial_start g v (g.players v).next_ind x y).heigth < fuel := hfuel
      obtain ⟨s1, e1⟩ := golden_possible_dir_total fuel _ (-1) v x y _ _ 0 hne hf0
      have i1 := golden_possible_dir_step i0 (by omega) hne h1 e1
      obtain ⟨E1, k1, n1, b1⟩ := golden_possible_dir_count k0 hg hv0 hne (by simp) e1
      have hf1 : s1.1.width * s1.1.heigth < fuel := by
        rw [k1.width_eq, k1.heigth_eq]
        exact hfuel
      obtain ⟨s2, e2⟩ := golden_possible_dir_total fuel _ s1.2 v x y _ _ 1 hne hf1
      have i2 := golden_possible_dir_step i1 (by omega) hne h1 e2
      obtain ⟨E2, k2, n2, b2⟩ := golden_possible_dir_count k1 hg hv0 hne n1 e2
      have hf2 : s2.1.width * s2.1.heigth < fuel := by
        rw [k2.width_eq, k2.heigth_eq]
        exact hfuel
      obtain ⟨s3, e3⟩ := golden_possible_dir_total fuel _ s2.2 v x y _ _ 2 hne hf2
      have i3 := golden_possible_dir_step i2 (by omega) hne h1 e3
      obtain ⟨E3, k3, n3, b3⟩ := golden_possible_dir_count k2 hg hv0 hne n2 e3
      have hf3 : s3.1.width * s3.1.heigth < fuel := by
        rw [k3.width_eq, k3.heigth_eq]
        exact hfuel
      obtain ⟨s4, e4⟩ := golden_possible_dir_total fuel _ s3.2 v x y _ _ 3 hne hf3
      have i4 := golden_possible_dir_step i3 (by omega) hne h1 e4
      obtain ⟨E4, k4, n4, b4⟩ := golden_possible_dir_count k3 hg hv0 hne n3 e4
      have e1' : golden_possible_dir fuel
          { g with
            players := set_at g.players v
              { g.players v with next_ind := (g.players v).next_ind + 1 }
            indexes := set_cell g.indexes x y (g.players v).next_ind }
          (-1) v x y (g.indexes x y) (g.players v).next_ind 0 = some s1 := e1
      rw [e1', Option.some_bind, e2, Option.some_bind, e3, Option.some_bind, e4,
        Option.some_bind]
      obtain ⟨hcomp, hpos⟩ := k4.components_count hg hv0 hzv i4.split.none_left
      have har : (s4.1.players v).areas = (g.players v).areas := by
        rw [i4.players_eq, set_at_same]
      have hmx : s4.1.max_areas = g.max_areas := by rw [i4.frame]
      have hb0 : (∅ : Finset (Nat × Nat)).card = 0 := Finset.card_empty
      have hbound := hg.areas_lt_next v hv0
      have hr4 := hroom v
      have hval : Int.toNat ((((s4.1.players v).areas : Int) + s4.2) % 4294967296)
          = (g.players v).areas - 1 + E4.card := by
        rw [har]
        omega
      rw [hval, hmx]
      by_cases hle : (g.players v).areas - 1 + E4.card ≤ g.max_areas
      · rw [if_pos hle]
        refine ⟨_, rfl, iff_of_true rfl ?_⟩
        unfold trial_ok
        rw [hv]
        exact ⟨hv0, by rw [← hv]; exact c1.2, hnb, _, hcomp, hle⟩
      · rw [if_neg hle]
        refine ⟨_, rfl, iff_of_false (by simp) ?_⟩
        unfold trial_ok
        rw [hv]
        rintro ⟨-, -, -, n, hn, hnle⟩
        rw [Components.unique hn hcomp] at hnle
        exact hle hnle
    · rw [if_neg c2]
      refine ⟨_, rfl, iff_of_false (by simp) ?_⟩
      rintro ⟨-, -, hnb, -⟩
      exact c2 ((neighbourhood_is_fine_iff g p x y).2 hnb)
  · rw [if_neg c1]
    refine ⟨_, rfl, iff_of_false (by simp) ?_⟩
    rintro ⟨h1, h2, -⟩
    exact c1 ⟨h1, h2⟩

theorem room_le {n m : Nat} {g : gamma_t} (h : room n g) (hmn : m ≤ n) : room m g := by
  intro q
  have := h q
  omega

/-- Counters that grow by at most `n` use up `n` of the room. -/
theorem NextGrow.room_grow {n m : Nat} {g g1 : gamma_t} (h : NextGrow n g g1)
    (hr : room (n + m) g) : room m g1 := by
  intro q
  have h0 := hr q
  have := (h.2 (4294967296 - (n + m)) (fun q => by have := hr q; omega) (by omega) q).2
  omega

theorem Renumbered.trial_ok_iff {g g1 : gamma_t} (h : Renumbered g g1) (p x y : Nat) :
    trial_ok g1 p x y ↔ trial_ok g p x y := by
  have hb : g1.board = g.board := by rw [h.frame]
  have hw : g1.width = g.width := by rw [h.frame]
  have hh : g1.heigth = g.heigth := by rw [h.frame]
  have hm : g1.max_areas = g.max_areas := by rw [h.frame]
  have hwb : (without g1 x y).board = (without g x y).board := by
    show set_cell g1.board x y EMPTY = set_cell g.board x y EMPTY
    rw [hb]
  have hww : (without g1 x y).width = (without g x y).width := hw
  have hwh : (without g1 x y).heigth = (without g x y).heigth := hh
  unfold trial_ok has_neighbour coords_are_fine
  rw [hb, hw, hh, hm]
  constructor
  · rintro ⟨h1, h2, h3, n, h4, h5⟩
    exact ⟨h1, h2, h3, n, h4.congr_comps hwb.symm hww.symm hwh.symm, h5⟩
  · rintro ⟨h1, h2, h3, n, h4, h5⟩
    exact ⟨h1, h2, h3, n, h4.congr_comps hwb hww hwh, h5⟩

/-- The trial at one cell, with the state it leaves. -/
theorem golden_possible_cell_full {fuel : Nat} {g : gamma_t} {p x y m : Nat} (hg : Good g)
    (hm : 4 ≤ m) (hroom : room (1 + m) g) (hfuel : g.width * g.heigth < fuel) :
    ∃ r, golden_possible_cell fuel g p x y = some r ∧ Good r.2 ∧ Renumbered g r.2
      ∧ room m r.2 ∧ (r.1 = true ↔ trial_ok g p x y) := by
  obtain ⟨r, e, hiff⟩ := golden_possible_cell_run (p := p) (x := x) (y := y) hg
    (room_le hroom (by omega)) hfuel
  have hr := (golden_possible_cell_grow e).room_grow hroom
  obtain ⟨h1, h2⟩ := golden_possible_cell_spec hg e (room_fit hr)
  exact ⟨r, e, h1, h2, hr, hiff⟩

/-- The scan of a column: it returns, and answers `true` exactly when the trial
succeeds at one of the cells listed. -/
theorem golden_possible_rows_run (fuel p x : Nat) :
    ∀ (ys : List Nat) (g : gamma_t) (m : Nat), Good g → 4 ≤ m → room (ys.length + m) g →
      g.width * g.heigth < fuel →
      ∃ r, golden_possible_rows fuel p x ys g = some r ∧ Good r.2 ∧ Renumbered g r.2
        ∧ room m r.2 ∧ (r.1 = true ↔ ∃ y ∈ ys, trial_ok g p x y) := by
  intro ys
  induction ys with
  | nil =>
    intro g m hg _ hroom _
    refine ⟨(false, g), rfl, hg, Renumbered.refl_renum g, room_le hroom (by simp), ?_⟩
    simp
  | cons y ys ih =>
    intro g m hg hm hroom hfuel
    rw [List.length_cons] at hroom
    obtain ⟨r1, e1, hg1, hn1, hr1, hiff1⟩ := golden_possible_cell_full (p := p) (x := x)
      (y := y) (m := ys.length + m) hg (by omega) (room_le hroom (by omega)) hfuel
    simp only [golden_possible_rows, e1, Option.some_bind]
    by_cases hr : r1.1 = true
    · rw [if_pos hr]
      refine ⟨r1, rfl, hg1, hn1, room_le hr1 (by omega), iff_of_true hr ?_⟩
      exact ⟨y, List.mem_cons_self _ _, hiff1.1 hr⟩
    · rw [if_neg hr]
      have hfuel1 : r1.2.width * r1.2.heigth < fuel := by
        rw [hn1.width_renum, hn1.heigth_renum]
        exact hfuel
      obtain ⟨r, e, hg2, hn2, hr2, hiff2⟩ := ih r1.2 m hg1 hm hr1 hfuel1
      refine ⟨r, e, hg2, hn1.trans_renum hn2, hr2, ?_⟩
      rw [hiff2]
      constructor
      · rintro ⟨y1, hy1, hok⟩
        exact ⟨y1, List.mem_cons_of_mem _ hy1, (hn1.trial_ok_iff p x y1).1 hok⟩
      · rintro ⟨y1, hy1, hok⟩
        rcases List.mem_cons.1 hy1 with rfl | hy1
        · exact absurd (hiff1.2 hok) hr
        · exact ⟨y1, hy1, (hn1.trial_ok_iff p x y1).2 hok⟩

/-- The scan of the board: it returns, and answers `true` exactly when the trial
succeeds at a cell of one of the columns listed. -/
theorem golden_possible_cols_run (fuel p : Nat) :
    ∀ (xs : List Nat) (g : gamma_t) (m : Nat), Good g → 4 ≤ m →
      room (xs.length * g.heigth + m) g → g.width * g.heigth < fuel →
      ∃ r, golden_possible_cols fuel p xs g = some r ∧ Good r.2 ∧ Renumbered g r.2
        ∧ room m r.2
        ∧ (r.1 = true ↔ ∃ x ∈ xs, ∃ y ∈ List.range g.heigth, trial_ok g p x y) := by
  intro xs
  induction xs with
  | nil =>
    intro g m hg _ hroom _
    refine ⟨(false, g), rfl, hg, Renumbered.refl_renum g, room_le hroom (by simp), ?_⟩
    simp
  | cons x xs ih =>
    intro g m hg hm hroom hfuel
    rw [List.length_cons, Nat.succ_mul] at hroom
    obtain ⟨r1, e1, hg1, hn1, hr1, hiff1⟩ := golden_possible_rows_run fuel p x
      (List.range g.heigth) g (xs.length * g.heigth + m) hg (by omega)
      (by rw [List.length_range]; exact room_le hroom (by omega)) hfuel
    simp only [golden_possible_cols, e1, Option.some_bind]
    by_cases hr : r1.1 = true
    · rw [if_pos hr]
      refine ⟨r1, rfl, hg1, hn1, room_le hr1 (by omega), iff_of_true hr ?_⟩
      exact ⟨x, List.mem_cons_self _ _, hiff1.1 hr⟩
    · rw [if_neg hr]
      have hfuel1 : r1.2.width * r1.2.heigth < fuel := by
        rw [hn1.width_renum, hn1.heigth_renum]
        exact hfuel
      have hr1' : room (xs.length * r1.2.heigth + m) r1.2 := by
        rw [hn1.heigth_renum]
        exact hr1
      obtain ⟨r, e, hg2, hn2, hr2, hiff2⟩ := ih r1.2 m hg1 hm hr1' hfuel1
      refine ⟨r, e, hg2, hn1.trans_renum hn2, hr2, ?_⟩
      rw [hiff2, hn1.heigth_renum]
      constructor
      · rintro ⟨x1, hx1, y1, hy1, hok⟩
        exact ⟨x1, List.mem_cons_of_mem _ hx1, y1, hy1, (hn1.trial_ok_iff p x1 y1).1 hok⟩
      · rintro ⟨x1, hx1, y1, hy1, hok⟩
        rcases List.mem_cons.1 hx1 with rfl | hx1
        · exact absurd (hiff1.2 ⟨y1, hy1, hok⟩) hr
        · exact ⟨x1, hx1, y1, hy1, (hn1.trial_ok_iff p x1 y1).2 hok⟩

theorem Within.connected_within {g : gamma_t} {p x y n a b : Nat} (h : Within g p x y n a b) :
    Connected g p x y a b := by
  induction h with
  | start h => exact Connected.start h
  | step n a b c d _ hadj ho ih => exact Connected.step a b c d ih hadj ho

theorem Connected.within {g : gamma_t} {p x y a b : Nat} (h : Connected g p x y a b) :
    ∃ n, Within g p x y n a b := by
  induction h with
  | start h => exact ⟨0, Within.start h⟩
  | step a b c d _ hadj ho ih =>
    obtain ⟨n, hn⟩ := ih
    exact ⟨n + 1, Within.step n a b c d hn hadj ho⟩

/-- A walk none of whose cells is `(zx, zy)` is a connection on the grid without
that cell. -/
theorem Within.avoid {g : gamma_t} {p x y n c d zx zy : Nat} (hp : p ≠ EMPTY)
    (h : Within g p x y n c d)
    (hfar : ∀ m a b, m < n → Within g p x y m a b → ¬ (a = zx ∧ b = zy))
    (hne : ¬ (c = zx ∧ d = zy)) : Connected (without g zx zy) p x y c d := by
  induction h with
  | start h => exact Connected.start ((owns_without g zx zy p x y hp).2 ⟨h, hne⟩)
  | step n a b c d hw hadj ho ih =>
    have hab : ¬ (a = zx ∧ b = zy) := hfar n a b (Nat.lt_succ_self n) hw
    exact Connected.step a b c d
      (ih (fun m a' b' hm => hfar m a' b' (Nat.lt_succ_of_lt hm)) hab) hadj
      ((owns_without g zx zy p c d hp).2 ⟨ho, hne⟩)

/-- Every area has a cell without which the rest of the area is still connected:
a cell farthest from a given cell of the area. -/
theorem exists_far_cell (g : gamma_t) (p x y : Nat) (hp : p ≠ EMPTY) (ho : owns g p x y) :
    ∃ zx zy, Connected g p x y zx zy ∧ ∀ c d, Connected g p x y c d → ¬ (c = zx ∧ d = zy) →
      Connected (without g zx zy) p x y c d := by
  classical
  have hex : ∀ c : Nat × Nat, ∃ n, Connected g p x y c.1 c.2 →
      (Within g p x y n c.1 c.2 ∧ ∀ m, Within g p x y m c.1 c.2 → n ≤ m) := by
    intro c
    by_cases hc : Connected g p x y c.1 c.2
    · have hn := hc.within
      exact ⟨Nat.find hn, fun _ => ⟨Nat.find_spec hn, fun m hm => Nat.find_min' hn hm⟩⟩
    · exact ⟨0, fun h => absurd h hc⟩
  choose dist hdist using hex
  have hmem : ∀ c : Nat × Nat, Connected g p x y c.1 c.2 →
      c ∈ (cells g).filter fun c => Connected g p x y c.1 c.2 := by
    intro c hc
    rw [Finset.mem_filter, mem_cells]
    exact ⟨⟨hc.owns_end.1, hc.owns_end.2.1⟩, hc⟩
  obtain ⟨z, hz, hmax⟩ := Finset.exists_max_image
    ((cells g).filter fun c => Connected g p x y c.1 c.2) dist
    ⟨(x, y), hmem (x, y) (Connected.start ho)⟩
  have hzc : Connected g p x y z.1 z.2 := (Finset.mem_filter.1 hz).2
  refine ⟨z.1, z.2, hzc, fun c d hc hne => ?_⟩
  obtain ⟨hw, -⟩ := hdist (c, d) hc
  refine hw.avoid hp ?_ hne
  rintro m a b hm hwm ⟨e1, e2⟩
  rw [e1, e2] at hwm
  have h1 := (hdist z hzc).2 m hwm
  have h2 := hmax (c, d) (hmem (c, d) hc)
  omega

/-- A player who owns a cell owns a cell without which the player's cells form
no more areas than before. -/
theorem Good.spare_cell {g : gamma_t} (hg : Good g) (v a b : Nat) (hv0 : v ≠ EMPTY)
    (ho : owns g v a b) :
    ∃ x y, owns g v x y ∧ ∃ n, Components (without g x y) v n ∧ n ≤ (g.players v).areas := by
  obtain ⟨zx, zy, hz, hrest⟩ := exists_far_cell g v a b hv0 ho
  refine ⟨zx, zy, hz.owns_end, ?_⟩
  by_cases hroot : a = zx ∧ b = zy
  · obtain ⟨h1, -⟩ := components_without hg hv0 hz.owns_end ∅
      (fun e he => absurd he (Finset.not_mem_empty e))
      (fun e he => absurd he (Finset.not_mem_empty e))
      (by
        intro c d hc hne
        have hs := (hrest c d (hz.trans_conn hc) hne).owns_start
        exact absurd hroot ((owns_without g zx zy v a b hv0).1 hs).2)
    refine ⟨_, h1, ?_⟩
    rw [Finset.card_empty]
    omega
  · obtain ⟨h1, h2⟩ := components_without hg hv0 hz.owns_end {(a, b)}
      (by
        intro e he
        rw [Finset.mem_singleton.1 he]
        exact ⟨(owns_without g zx zy v a b hv0).2 ⟨ho, hroot⟩, hz.symm_conn⟩)
      (by
        intro e he f hf _
        rw [Finset.mem_singleton.1 he, Finset.mem_singleton.1 hf])
      (by
        intro c d hc hne
        exact ⟨(a, b), Finset.mem_singleton_self _, hrest c d (hz.trans_conn hc) hne⟩)
    refine ⟨_, h1, ?_⟩
    rw [Finset.card_singleton]
    omega

/-! ## The answer of `gamma_golden_possible` -/

/-- A player with fewer cells than there are busy cells leaves a busy cell to
another player. -/
theorem Good.other_cell {g : gamma_t} (hg : Good g) (p : Nat) (hp0 : p ≠ EMPTY)
    (hlt : (g.players p).fields < g.busy_fields) :
    ∃ a b, coords_are_fine a b g ∧ g.board a b ≠ EMPTY ∧ g.board a b ≠ p := by
  by_contra hno
  have hsub : busy_cells g ⊆ owned_cells g p := by
    intro c hc
    rw [mem_busy_cells] at hc
    rw [mem_owned_cells]
    refine ⟨hc.1, ?_⟩
    by_contra hne
    exact hno ⟨c.1, c.2, hc.1, hc.2, hne⟩
  have := Finset.card_le_card hsub
  rw [← hg.core.fields_ok p hp0, ← hg.core.busy_ok] at this
  omega

/-- With recursion depth above the number of cells and room for an id per cell,
`gamma_golden_possible` returns, and it answers `true` exactly when some golden
move of the player is legal. -/
theorem gamma_golden_possible_run (fuel : Nat) (g : gamma_t) (p : Nat) (hg : Good g)
    (hcap : Capped g) (hroom : room (g.width * g.heigth + 4) g)
    (hfuel : g.width * g.heigth < fuel) :
    ∃ b g', gamma_golden_possible fuel g p = some (b, g') ∧ Good g' ∧ Renumbered g g'
      ∧ room 4 g' ∧ (b = true ↔ ∃ x y, golden_legal g p x y) := by
  unfold gamma_golden_possible
  by_cases hcon : gamma_golden_possible_con g p
  · rw [if_neg (not_not.2 hcon)]
    have hp0 : p ≠ EMPTY := by
      have := hcon.1
      unfold player_is_fine at this
      unfold EMPTY
      omega
    by_cases har : (g.players p).areas < g.max_areas
    · rw [if_pos har]
      refine ⟨true, g, rfl, hg, Renumbered.refl_renum g, room_le hroom (by omega),
        iff_of_true rfl ?_⟩
      obtain ⟨a, b, hab, h0, hne⟩ := hg.other_cell p hp0 hcon.2.2
      obtain ⟨x, y, ho, n, hn, hle⟩ := hg.spare_cell (g.board a b) a b h0
        ((owns_iff g _ a b).2 ⟨hab, rfl⟩)
      have hxy := (owns_iff g _ x y).1 ho
      refine ⟨x, y, hcon, hxy.1, by rw [hxy.2]; exact h0, by rw [hxy.2]; exact hne, ?_,
        Or.inr har⟩
      rw [hxy.2]
      exact ⟨n, hn, le_trans hle (hcap _ h0)⟩
    · rw [if_neg har]
      obtain ⟨r, e, hg1, hn1, hr1, hiff⟩ := golden_possible_cols_run fuel p
        (List.range g.width) g 4 hg (le_refl 4) (by rw [List.length_range]; exact hroom) hfuel
      refine ⟨r.1, r.2, e, hg1, hn1, hr1, ?_⟩
      rw [hiff]
      constructor
      · rintro ⟨x, hx, y, hy, h1, h2, h3, h4⟩
        exact ⟨x, y, hcon, ⟨List.mem_range.1 hx, List.mem_range.1 hy⟩, h1, h2, h4, Or.inl h3⟩
      · rintro ⟨x, y, -, hz, h1, h2, h3, h4⟩
        refine ⟨x, List.mem_range.2 hz.1, y, List.mem_range.2 hz.2, h1, h2, ?_, h3⟩
        rcases h4 with h4 | h4
        · exact h4
        · exact absurd h4 har
  · rw [if_pos hcon]
    refine ⟨false, g, rfl, hg, Renumbered.refl_renum g, room_le hroom (by omega),
      iff_of_false (by simp) ?_⟩
    rintro ⟨x, y, h, -⟩
    exact hcon h

theorem after_true (r : Option (Bool × gamma_t)) (d : gamma_t) (h : r.isSome = true)
    (ht : answer r = true) : r = some (true, after r d) := by
  have e := after_eq r d h
  rw [ht] at e
  exact e

/-- A call of `gamma_golden_move` mints at most six ids for a player. -/
theorem gamma_golden_move_grow {fuel : Nat} {g g' : gamma_t} {p x y : Nat} {b : Bool}
    (h : gamma_golden_move fuel g p x y = some (b, g')) (B : Nat) (hB : B ≤ 4294967296)
    (hb : ∀ q, (g.players q).next_ind ≤ B) : ∀ q, (g'.players q).next_ind ≤ B + 6 := by
  rw [gamma_golden_move_unfold] at h
  by_cases hguard : ¬ gamma_golden_possible_con g p ∨ ¬ coords_are_fine x y g
      ∨ g.board x y = EMPTY ∨ g.board x y = p
  · rw [if_pos hguard] at h
    simp only [Option.some.injEq, Prod.mk.injEq] at h
    rw [← h.2]
    intro q
    exact le_trans (hb q) (Nat.le_add_right _ _)
  · rw [if_neg hguard] at h
    simp only [Option.bind_eq_some] at h
    obtain ⟨s1, e1, s2, e2, s3, e3, s4, e4, h⟩ := h
    have b1 := (golden_move_dir_next e1).grow _ (by omega) hb
    have b2 := (golden_move_dir_next e2).grow _ (by omega) b1
    have b3 := (golden_move_dir_next e3).grow _ (by omega) b2
    have b4 := (golden_move_dir_next e4).grow _ (by omega) b3
    have n5 := golden_move_lonely_next s4.1 p (g.board x y) x y
    have b5 : ∀ q, ((golden_move_lonely s4.1 p (g.board x y) x y).players q).next_ind
        ≤ B + 1 + 1 + 1 + 1 := by
      intro q
      rw [n5 q]
      exact b4 q
    generalize golden_move_lonely s4.1 p (g.board x y) x y = g5 at h b5
    split at h
    · simp only [Option.map_eq_some', Prod.mk.injEq] at h
      obtain ⟨r, er, -, hg'⟩ := h
      have er' : gamma_move fuel g5 (g.board x y) x y = some (r.1, r.2) := er
      have := (gamma_move_next er').grow _ (by omega) b5
      rw [← hg']
      intro q
      exact le_trans (this q) (by omega)
    · simp only [Option.bind_eq_some] at h
      obtain ⟨r, er, h⟩ := h
      have er' : gamma_move fuel g5 p x y = some (r.1, r.2) := er
      have b6 := (gamma_move_next er').grow _ (by omega) b5
      split at h
      · simp only [Option.some.injEq, Prod.mk.injEq] at h
        obtain ⟨-, hg'⟩ := h
        change flagged r.2 p = g' at hg'
        rw [← hg']
        intro q
        rw [flagged_next r.2 p q]
        exact le_trans (b6 q) (by omega)
      · simp only [Option.map_eq_some', Prod.mk.injEq] at h
        obtain ⟨r2, er2, -, hg'⟩ := h
        have er2' : gamma_move fuel r.2 (g.board x y) x y = some (r2.1, r2.2) := er2
        have := (gamma_move_next er2').grow _ (by omega) b6
        rw [← hg']
        intro q
        exact le_trans (this q) (by omega)

set_option maxRecDepth 100000 in
theorem T4_facts :
    (gamma_golden_move 4 T3 1 0 0).isSome = true
    ∧ answer (gamma_golden_move 4 T3 1 0 0) = true
    ∧ (gamma_golden_move 4 T4 2 0 0).isSome = true
    ∧ answer (gamma_golden_move 4 T4 2 0 0) = true
    ∧ T3.board 0 0 = 2 ∧ T3.width * T3.heigth = 3 ∧ T4.width * T4.heigth = 3
    ∧ gamma_busy_fields T3 1 ≤ T3.busy_fields := by decide

theorem T4_step : gamma_golden_move 4 T3 1 0 0 = some (true, T4) :=
  after_true _ _ T4_facts.1 T4_facts.2.1

theorem T5_step : gamma_golden_move 4 T4 2 0 0 = some (true, T5) :=
  after_true _ _ T4_facts.2.2.1 T4_facts.2.2.2.1

theorem T4_next (q : Nat) : (T4.players q).next_ind ≤ 10 :=
  gamma_golden_move_grow T4_step 4 (by omega) T3_next q

theorem T5_next (q : Nat) : (T5.players q).next_ind ≤ 16 :=
  gamma_golden_move_grow T5_step 10 (by omega) T4_next q

theorem T4_fit : FitReachable T4 :=
  FitReachable.step T3 T4 T3_fit
    ⟨4, 1, 0, 0, _, by decide, by decide, by decide, Or.inr (Or.inl T4_step)⟩
    (ids_fit_of_le 10 (by omega) T4_next)

set_option maxRecDepth 100000 in
theorem U2_facts :
    (gamma_move 4 T0 1 0 0).isSome = true ∧ answer (gamma_move 4 T0 1 0 0) = true
    ∧ (gamma_move 4 U1 2 1 0).isSome = true ∧ answer (gamma_move 4 U1 2 1 0) = true
    ∧ U2.width * U2.heigth = 3 ∧ T0.width * T0.heigth = 3 := by decide

theorem U1_step : gamma_move 4 T0 1 0 0 = some (true, U1) :=
  after_true _ _ U2_facts.1 U2_facts.2.1

theorem U2_step : gamma_move 4 U1 2 1 0 = some (true, U2) :=
  after_true _ _ U2_facts.2.2.1 U2_facts.2.2.2.1

theorem U1_next (q : Nat) : (U1.players q).next_ind ≤ 2 :=
  (gamma_move_next U1_step).grow 1 (by omega) T0_next q

theorem U2_next (q : Nat) : (U2.players q).next_ind ≤ 3 :=
  (gamma_move_next U2_step).grow 2 (by omega) U1_next q

theorem U2_fit : FitReachable U2 :=
  FitReachable.step U1 U2
    (FitReachable.step T0 U1 (FitReachable.init T0 T0_initial)
      ⟨4, 1, 0, 0, _, by decide, by decide, by decide, Or.inl U1_step⟩
      (ids_fit_of_le 2 (by omega) U1_next))
    ⟨4, 2, 1, 0, _, by decide, by decide, by decide, Or.inl U2_step⟩
    (ids_fit_of_le 3 (by omega) U2_next)

/-! ## The queries and the effects of accepted moves -/

theorem after_false (r : Option (Bool × gamma_t)) (d : gamma_t) (h : r.isSome = true)
    (hf : answer r = false) : r = some (false, after r d) := by
  have e := after_eq r d h
  rw [hf] at e
  exact e

attribute [local semireducible] B6

/-- In `OV1` the query of player 2 answers `true` and every golden move of
player 2 on the board is rejected. -/
theorem OV1_possible_facts :
    (gamma_golden_possible 10 OV1 2).isSome = true
    ∧ answer (gamma_golden_possible 10 OV1 2) = true
    ∧ ∀ x, x < 9 → (gamma_golden_move 10 OV1 2 x 0).isSome = true
        ∧ answer (gamma_golden_move 10 OV1 2 x 0) = false := by
  set_option maxRecDepth 100000 in decide

/-- In `OV1r` player 2 is told of three free cells and can move to two. -/
theorem OV1r_free_facts :
    gamma_free_fields OV1r 2 = 3
    ∧ ((cells OV1r).filter fun c =>
        (gamma_move 10 OV1r 2 c.1 c.2).map Prod.fst = some true).card = 2
    ∧ OV1r.width * OV1r.heigth < 10 := by
  set_option maxRecDepth 100000 in decide

attribute [local irreducible] B6

/-- C11 fails on the code: in the reachable state `OV1r`, `gamma_free_fields(g, 2)`
is 3 while `gamma_move(g, 2, x, y)` returns `true` for 2 cells of the board. -/
theorem free_fields_exceed_moves :
    Reachable OV1r ∧ 1 ≤ 2 ∧ 2 ≤ OV1r.number_of_players ∧ OV1r.width * OV1r.heigth < 10
    ∧ gamma_free_fields OV1r 2
      ≠ ((cells OV1r).filter fun c =>
          (gamma_move 10 OV1r 2 c.1 c.2).map Prod.fst = some true).card := by
  have f := OV1r_free_facts
  refine ⟨OV1r_reachable, by decide, by rw [OV1r_facts.2.2.2.2.2.2.2.2.1], f.2.2, ?_⟩
  rw [f.1, f.2.1]
  decide

/-- An instance at the state `T3`, for player 1. -/
theorem free_fields_counts_moves_witness :
    FitReachable T3 ∧ 1 ≤ 1 ∧ 1 ≤ T3.number_of_players ∧ T3.width * T3.heigth < 4
    ∧ gamma_free_fields T3 1
      = ((cells T3).filter fun c =>
          (gamma_move 4 T3 1 c.1 c.2).map Prod.fst = some true).card
    ∧ gamma_free_fields T3 1
      = if gamma_areas T3 1 < T3.max_areas then T3.width * T3.heigth - T3.busy_fields
        else (T3.players 1).border :=
  ⟨T3_fit, by decide, by decide, by decide,
    free_fields_counts_moves T3 T3_fit 1 4 (by decide) (by decide) (by decide)⟩

/-- In every state reached from `gamma_new` while fewer than
`2^32` area ids were minted for each player and in which every id counter is at
most `2^32 - W * H - 6`, a call `gamma_golden_possible(g, p)` returns, and it
returns `true` if and only if there is a cell `(x, y)` for which
`gamma_golden_move(g, p, x, y)` returns `true` in that state. -/
theorem golden_possible_iff_move (g : gamma_t) (h : FitReachable g) (p fuel : Nat)
    (hfuel : g.width * g.heigth < fuel) (hroom : room (g.width * g.heigth + 6) g) :
    ∃ b g', gamma_golden_possible fuel g p = some (b, g')
      ∧ (b = true ↔ ∃ x y g2, gamma_golden_move fuel g p x y = some (true, g2)) := by
  obtain ⟨hg, hcap⟩ := h.good
  obtain ⟨b, g', e, -, -, -, hiff⟩ := gamma_golden_possible_run fuel g p hg hcap
    (room_le hroom (by omega)) hfuel
  refine ⟨b, g', e, ?_⟩
  rw [hiff]
  have hr6 : room 6 g := room_le hroom (by omega)
  constructor
  · rintro ⟨x, y, hl⟩
    obtain ⟨b2, g2, e2, hf2⟩ := gamma_golden_move_total fuel g p x y hg hcap hfuel hr6
    have hb := (gamma_golden_move_spec fuel g p x y b2 g2 hg hcap e2 hf2).2.2.1.2 hl
    rw [hb] at e2
    exact ⟨x, y, g2, e2⟩
  · rintro ⟨x, y, g2, e2⟩
    obtain ⟨b3, g3, e3, hf3⟩ := gamma_golden_move_total fuel g p x y hg hcap hfuel hr6
    rw [e2] at e3
    simp only [Option.some.injEq, Prod.mk.injEq] at e3
    rw [← e3.2] at hf3
    exact ⟨x, y, (gamma_golden_move_spec fuel g p x y true g2 hg hcap e2 hf3).2.2.1.1 rfl⟩

/-- C12 fails on the code: in the reachable state `OV1`, `gamma_golden_possible(g, 2)`
returns `true` while `gamma_golden_move(g, 2, x, y)` returns `false` for every
cell `(x, y)`. -/
theorem golden_possible_true_no_move :
    Reachable OV1 ∧ (∃ g', gamma_golden_possible 10 OV1 2 = some (true, g'))
    ∧ ∀ x y, ∃ g2, gamma_golden_move 10 OV1 2 x y = some (false, g2) := by
  have f := OV1_possible_facts
  have hw : OV1.width = 9 := OV1r_facts.2.2.1
  have hh : OV1.heigth = 1 := OV1r_facts.2.2.2.1
  refine ⟨OV1_reachable, ⟨_, after_true _ OV1 f.1 f.2.1⟩, ?_⟩
  intro x y
  by_cases hxy : x < 9 ∧ y = 0
  · obtain ⟨hx, rfl⟩ := hxy
    exact ⟨_, after_false _ OV1 (f.2.2 x hx).1 (f.2.2 x hx).2⟩
  · refine ⟨OV1, ?_⟩
    rw [gamma_golden_move_unfold, if_pos]
    refine Or.inr (Or.inl ?_)
    unfold coords_are_fine
    rw [hw, hh]
    omega

/-- An instance at the state `U2`, for player 1. -/
theorem golden_possible_iff_move_witness :
    FitReachable U2 ∧ U2.width * U2.heigth < 4 ∧ room (U2.width * U2.heigth + 6) U2
    ∧ ∃ b g', gamma_golden_possible 4 U2 1 = some (b, g')
      ∧ (b = true ↔ ∃ x y g2, gamma_golden_move 4 U2 1 x y = some (true, g2)) := by
  have hwh : U2.width * U2.heigth = 3 := U2_facts.2.2.2.2.1
  have hroom : room (U2.width * U2.heigth + 6) U2 := fun q => by
    have := U2_next q
    omega
  exact ⟨U2_fit, by omega, hroom, golden_possible_iff_move U2 U2_fit 1 4 (by omega) hroom⟩

/-- C13 at the state `T3`, for player 1. -/
theorem golden_possible_early_witness :
    gamma_busy_fields T3 1 ≤ T3.busy_fields
    ∧ ((¬ (1 ≤ 1 ∧ 1 ≤ T3.number_of_players) ∨ (T3.players 1).free_golden_move = false
          ∨ gamma_busy_fields T3 1 = T3.busy_fields) →
        gamma_golden_possible 4 T3 1 = some (false, T3))
    ∧ ((1 ≤ 1 ∧ 1 ≤ T3.number_of_players) → (T3.players 1).free_golden_move = true →
        gamma_busy_fields T3 1 ≠ T3.busy_fields → gamma_areas T3 1 < T3.max_areas →
        gamma_golden_possible 4 T3 1 = some (true, T3)) :=
  ⟨T4_facts.2.2.2.2.2.2.2, golden_possible_early T3 1 4 T4_facts.2.2.2.2.2.2.2⟩

/-- C14: a call `gamma_golden_possible(g, p)` that returns leaves the owner grid,
`busy_fields` and the fields, areas, border and golden flag of every player
unchanged, in every state; and the call returns in every state reached from
`gamma_new` while fewer than `2^32` area ids were minted for each player in
which every id counter is at most `2^32 - W * H - 4`. -/
theorem golden_possible_keeps (g : gamma_t) (p : Nat) :
    (∀ fuel b g', gamma_golden_possible fuel g p = some (b, g') →
      g'.board = g.board ∧ g'.busy_fields = g.busy_fields
      ∧ ∀ q, (g'.players q).fields = (g.players q).fields
        ∧ (g'.players q).areas = (g.players q).areas
        ∧ (g'.players q).border = (g.players q).border
        ∧ (g'.players q).free_golden_move = (g.players q).free_golden_move)
    ∧ (FitReachable g → room (g.width * g.heigth + 4) g →
        ∀ fuel, g.width * g.heigth < fuel →
          ∃ b g', gamma_golden_possible fuel g p = some (b, g')) := by
  constructor
  · intro fuel b g' e
    have h := gamma_golden_possible_same e
    exact ⟨h.board_eq, h.busy_eq, h.counters⟩
  · intro h hroom fuel hfuel
    obtain ⟨b, g', e, -⟩ := gamma_golden_possible_run fuel g p h.good.1 h.good.2 hroom hfuel
    exact ⟨b, g', e⟩

/-- C14 at the state `U2`, for player 1. -/
theorem golden_possible_keeps_witness :
    FitReachable U2 ∧ room (U2.width * U2.heigth + 4) U2 ∧ U2.width * U2.heigth < 4
    ∧ ∃ b g', gamma_golden_possible 4 U2 1 = some (b, g')
      ∧ g'.board = U2.board ∧ g'.busy_fields = U2.busy_fields
      ∧ ∀ q, (g'.players q).fields = (U2.players q).fields
        ∧ (g'.players q).areas = (U2.players q).areas
        ∧ (g'.players q).border = (U2.players q).border
        ∧ (g'.players q).free_golden_move = (U2.players q).free_golden_move := by
  have hwh : U2.width * U2.heigth = 3 := U2_facts.2.2.2.2.1
  have hroom : room (U2.width * U2.heigth + 4) U2 := fun q => by
    have := U2_next q
    omega
  obtain ⟨b, g', e⟩ := (golden_possible_keeps U2 1).2 U2_fit hroom 4 (by omega)
  exact ⟨U2_fit, hroom, by omega, b, g', e, (golden_possible_keeps U2 1).1 4 b g' e⟩

/-- C15 at the states `T3`, `T4` and `T5`: player 1 makes its golden move on
`T3`, and player 2 makes a golden move after it. -/
theorem golden_move_once_witness :
    gamma_golden_move 4 T3 1 0 0 = some (true, T4) ∧ Later T4 T5
    ∧ (∀ fuel2 x2 y2, gamma_golden_move fuel2 T5 1 x2 y2 = some (false, T5))
    ∧ (∀ fuel2, gamma_golden_possible fuel2 T5 1 = some (false, T5))
    ∧ (∀ ga gb, Step ga gb →
        (gb.players 1).free_golden_move ≠ (ga.players 1).free_golden_move →
        ∃ fuel3 x3 y3, gamma_golden_move fuel3 ga 1 x3 y3 = some (true, gb)) := by
  have hl : Later T4 T5 := Later.next T4 T5 Later.now
    ⟨4, 2, 0, 0, _, by decide, by decide, by decide, Or.inr (Or.inl T5_step)⟩
  exact ⟨T4_step, hl, golden_move_once T3 T4 T5 1 0 0 4 T4_step hl⟩

/-- C16 fails on the code: in the reachable state `K1` the call
`gamma_golden_move(g, 2, 2, 0)` returns `true`, and afterwards `fields(2)` is 3,
not 2, and `busy_fields` is 4, not 3. -/
theorem golden_move_true_miscounts :
    Reachable K1 ∧ gamma_golden_move 10 K1 2 2 0 = some (true, K1g)
    ∧ gamma_busy_fields K1g 2 ≠ gamma_busy_fields K1 2 + 1
    ∧ K1g.busy_fields ≠ K1.busy_fields := by
  have f := K1g_facts
  have m := K1m_facts
  refine ⟨K1_reachable, after_true _ K1 f.1 f.2.1, ?_, ?_⟩
  · rw [f.2.2.2.1, m.2.2.1]
    decide
  · rw [f.2.2.2.2.1, m.2.2.2.2.1]
    decide

/-- An instance at the state `T3`, for the golden move of player 1 on `(0, 0)`. -/
theorem golden_move_true_effect_witness :
    FitReachable T3 ∧ gamma_golden_move 4 T3 1 0 0 = some (true, T4) ∧ ids_fit T4
    ∧ T4.board 0 0 = 1
    ∧ (∀ a b, ¬ (a = 0 ∧ b = 0) → T4.board a b = T3.board a b)
    ∧ gamma_busy_fields T4 (T3.board 0 0) + 1 = gamma_busy_fields T3 (T3.board 0 0)
    ∧ gamma_busy_fields T4 1 = gamma_busy_fields T3 1 + 1
    ∧ (∀ q, 1 ≤ q → q ≤ T3.number_of_players → q ≠ 1 → q ≠ T3.board 0 0 →
        gamma_busy_fields T4 q = gamma_busy_fields T3 q)
    ∧ T4.busy_fields = T3.busy_fields :=
  ⟨T3_fit, T4_step, ids_fit_of_le 10 (by omega) T4_next,
    golden_move_true_effect T3 T3_fit 1 0 0 4 T4 T4_step (ids_fit_of_le 10 (by omega) T4_next)⟩

/-- C17 fails on the code: in the reachable state `K1` the call
`gamma_move(g, 2, 0, 0)` returns `true`, and afterwards `fields(2)` and
`busy_fields` are each two more than before. -/
theorem gamma_move_true_miscounts :
    Reachable K1 ∧ gamma_move 10 K1 2 0 0 = some (true, K1m)
    ∧ gamma_busy_fields K1m 2 ≠ gamma_busy_fields K1 2 + 1
    ∧ K1m.busy_fields ≠ K1.busy_fields + 1 := by
  have m := K1m_facts
  refine ⟨K1_reachable, after_true _ K1 m.1 m.2.1, ?_, ?_⟩
  · rw [m.2.2.2.1, m.2.2.1]
    decide
  · rw [m.2.2.2.2.2, m.2.2.2.2.1]
    decide

/-- An instance at the new game `T0`, for the move of player 1 on `(0, 0)`. -/
theorem gamma_move_true_effect_witness :
    FitReachable T0 ∧ gamma_move 4 T0 1 0 0 = some (true, U1) ∧ ids_fit U1
    ∧ U1.board 0 0 = 1
    ∧ (∀ a b, ¬ (a = 0 ∧ b = 0) → U1.board a b = T0.board a b)
    ∧ gamma_busy_fields U1 1 = gamma_busy_fields T0 1 + 1
    ∧ U1.busy_fields = T0.busy_fields + 1
    ∧ (∀ q, q ≠ 1 → gamma_busy_fields U1 q = gamma_busy_fields T0 q
        ∧ gamma_areas U1 q = gamma_areas T0 q
        ∧ (U1.players q).free_golden_move = (T0.players q).free_golden_move) :=
  ⟨FitReachable.init T0 T0_initial, U1_step, ids_fit_of_le 2 (by omega) U1_next,
    gamma_move_true_effect T0 (FitReachable.init T0 T0_initial) 1 0 0 4 U1 U1_step
      (ids_fit_of_le 2 (by omega) U1_next)⟩

/-- C18 fails on the code: in the reachable state `K1` the call
`gamma_golden_move(g, 2, 2, 0)` takes the cell from player 1 and returns `true`,
the following `gamma_golden_move(g, 1, 2, 0)` returns `true` too, and afterwards
player 2 has 2 cells and 2 areas where it had 1 cell and 1 area. -/
theorem round_trip_differs :
    Reachable K1 ∧ K1.board 2 0 = 1 ∧ gamma_golden_move 10 K1 2 2 0 = some (true, K1g)
    ∧ gamma_golden_move 10 K1g 1 2 0 = some (true, K1b)
    ∧ gamma_busy_fields K1b 2 ≠ gamma_busy_fields K1 2
    ∧ gamma_areas K1b 2 ≠ gamma_areas K1 2 := by
  have f := K1g_facts
  have m := K1m_facts
  refine ⟨K1_reachable, f.2.2.1, after_true _ K1 f.1 f.2.1,
    after_true _ K1g f.2.2.2.2.2.1 f.2.2.2.2.2.2.1, ?_, ?_⟩
  · rw [f.2.2.2.2.2.2.2.1, m.2.2.1]
    decide
  · rw [f.2.2.2.2.2.2.2.2.1, f.2.2.2.2.2.2.2.2.2]
    decide

/-- An instance at the state `T3`: player 1 takes `(0, 0)` from player 2 and player 2
takes it back. -/
theorem golden_move_round_trip_witness :
    FitReachable T3 ∧ gamma_golden_move 4 T3 1 0 0 = some (true, T4) ∧ ids_fit T4
    ∧ gamma_golden_move 4 T4 (T3.board 0 0) 0 0 = some (true, T5) ∧ ids_fit T5
    ∧ (∀ a b, T5.board a b = T3.board a b) ∧ T5.busy_fields = T3.busy_fields
    ∧ ∀ q, 1 ≤ q → q ≤ T3.number_of_players →
        gamma_busy_fields T5 q = gamma_busy_fields T3 q
        ∧ gamma_areas T5 q = gamma_areas T3 q
        ∧ (T5.players q).border = (T3.players q).border := by
  have e2 : gamma_golden_move 4 T4 (T3.board 0 0) 0 0 = some (true, T5) := by
    rw [T4_facts.2.2.2.2.1]
    exact T5_step
  exact ⟨T3_fit, T4_step, ids_fit_of_le 10 (by omega) T4_next, e2,
    ids_fit_of_le 16 (by omega) T5_next,
    golden_move_round_trip T3 T3_fit 1 0 0 4 4 T4 T5 T4_step
      (ids_fit_of_le 10 (by omega) T4_next) e2 (ids_fit_of_le 16 (by omega) T5_next)⟩

/-- C19 fails on the code: after `gamma_new(2, 1, 10, 2)`, `gamma_move(g, 1, 0, 0)`
and `gamma_golden_move(g, 10, 0, 0)`, both returning `true`, the cell `(0, 0)`
is owned by player 10 while the counter of cells of players above 9 is 0, so
`gamma_board` takes the compact renderer; it returns the empty string. -/
theorem wide_owner_compact :
    FitReachable W2 ∧ W2.board 0 0 = 10 ∧ WIDE < W2.board 0 0
    ∧ W2.fields_of_wider_players = 0 ∧ ¬ board_is_spaced W2
    ∧ ∀ fuel mem, gamma_board fuel mem W2 = some [] := by
  have f := W2_facts
  refine ⟨W2_fit, f.2.2.2.2.2.1, ?_, f.2.2.2.2.2.2.2.1, ?_, W2_board⟩
  · rw [f.2.2.2.2.2.1]
    decide
  · unfold board_is_spaced
    rw [f.2.2.2.2.2.2.2.1]
    decide

/-- C20 fails on the code: on the new game `gamma_new(2147483648, 2, 1, 1)`, in
which every cell is empty and the counter of cells of players above 9 is 0,
`gamma_board` returns the string of a dot and a newline, not two rows of
2147483648 dots. -/
theorem board_position_wraps :
    Initial Big ∧ Big.width = 2147483648 ∧ Big.heigth = 2
    ∧ (∀ x y, Big.board x y = EMPTY) ∧ Big.fields_of_wider_players = 0
    ∧ ∀ fuel mem, gamma_board fuel mem Big = some ['.', '\n'] :=
  ⟨Big_initial, rfl, rfl, fun _ _ => rfl, rfl, Big_board⟩

/-! ## Invalid players, new games and small scenarios -/

/-- C23: for every game and every player argument that is 0 or greater than `N`,
`gamma_busy_fields` and `gamma_free_fields` return 0, and
`gamma_golden_possible`, `gamma_move` and `gamma_golden_move` return `false`
for all coordinates, the state unchanged. -/
theorem invalid_player_refused (g : gamma_t) (p : Nat)
    (hp : p = 0 ∨ g.number_of_players < p) :
    gamma_busy_fields g p = 0 ∧ gamma_free_fields g p = 0
    ∧ (∀ fuel, gamma_golden_possible fuel g p = some (false, g))
    ∧ (∀ fuel x y, gamma_move fuel g p x y = some (false, g))
    ∧ (∀ fuel x y, gamma_golden_move fuel g p x y = some (false, g)) := by
  have hnot : ¬ player_is_fine p g := by
    unfold player_is_fine
    omega
  have hcon : ¬ gamma_golden_possible_con g p := fun h => hnot h.1
  refine ⟨?_, ?_, ?_, ?_, ?_⟩
  · unfold gamma_busy_fields
    rw [if_neg hnot]
  · unfold gamma_free_fields
    rw [if_neg hnot]
  · intro fuel
    unfold gamma_golden_possible
    rw [if_pos hcon]
  · intro fuel x y
    rw [gamma_move_unfold, if_neg]
    exact fun h => hnot h.2.1
  · intro fuel x y
    rw [gamma_golden_move_unfold, if_pos (Or.inl hcon)]

/-- C23 at the state `T3`, for the player argument 3 above the two players. -/
theorem invalid_player_refused_witness :
    (3 = 0 ∨ T3.number_of_players < 3)
    ∧ gamma_busy_fields T3 3 = 0 ∧ gamma_free_fields T3 3 = 0
    ∧ (∀ fuel, gamma_golden_possible fuel T3 3 = some (false, T3))
    ∧ (∀ fuel x y, gamma_move fuel T3 3 x y = some (false, T3))
    ∧ (∀ fuel x y, gamma_golden_move fuel T3 3 x y = some (false, T3)) :=
  ⟨by decide, invalid_player_refused T3 3 (by decide)⟩

/-- C22 fails on the code: with `players = 4294967295` the loop
`for (uint i = 1; i <= players; ++i)` of `gamma_new` never leaves, whatever the
number of tests of its condition allowed, although no parameter is 0. -/
theorem gamma_new_never_returns :
    ∀ fuel, gamma_new fuel 1 1 4294967295 1 = none := by
  intro fuel
  unfold gamma_new
  rw [if_neg (by decide), init_players_stuck 4294967295 rfl fuel 1 _ (by decide)]
  rfl

/-- The loop of `gamma_new` leaves for fewer than `2^32 - 1` players. -/
theorem init_players_total (players : Nat) (hp : players < 4294967295) :
    ∀ (n fuel i : Nat) (ps : Nat → player), players + 1 = i + n → n < fuel →
      ∃ r, init_players fuel i players ps = some r := by
  intro n
  induction n with
  | zero =>
    intro fuel i ps hi hf
    obtain ⟨f, rfl⟩ : ∃ f, fuel = f + 1 := ⟨fuel - 1, by omega⟩
    unfold init_players
    rw [if_neg (by omega)]
    exact ⟨ps, rfl⟩
  | succ n ih =>
    intro fuel i ps hi hf
    obtain ⟨f, rfl⟩ : ∃ f, fuel = f + 1 := ⟨fuel - 1, by omega⟩
    unfold init_players
    rw [if_pos (by omega)]
    have hinc : inc32 i = i + 1 := by
      unfold inc32
      exact Nat.mod_eq_of_lt (by omega)
    rw [hinc]
    exact ih f (i + 1) _ (by omega) (by omega)

/-- What `gamma_new` yields: no game when a parameter is 0, and for fewer than
`2^32 - 1` players a game in which every cell is empty, `busy_fields` is 0 and
every player has no cell, no area, no border and an unused golden move. -/
theorem gamma_new_yields (fuel width height players areas : Nat)
    (hp : players < 4294967295) (hfuel : players < fuel) :
    ((width = 0 ∨ height = 0 ∨ players = 0 ∨ areas = 0) →
      gamma_new fuel width height players areas = some none)
    ∧ (¬ (width = 0 ∨ height = 0 ∨ players = 0 ∨ areas = 0) →
      ∃ g, gamma_new fuel width height players areas = some (some g)
        ∧ g.width = width ∧ g.heigth = height ∧ g.number_of_players = players
        ∧ g.max_areas = areas
        ∧ (∀ x y, g.board x y = EMPTY) ∧ g.busy_fields = 0
        ∧ ∀ p, 1 ≤ p → p ≤ players → (g.players p).fields = 0 ∧ (g.players p).areas = 0
          ∧ (g.players p).border = 0 ∧ (g.players p).free_golden_move = true) := by
  constructor
  · intro h
    unfold gamma_new
    rw [if_pos h]
  · intro h
    unfold gamma_new
    rw [if_neg h]
    obtain ⟨ps, e⟩ := init_players_total players hp players fuel 1 (fun _ => blank_player)
      (by omega) hfuel
    rw [e]
    refine ⟨_, rfl, rfl, rfl, rfl, rfl, fun _ _ => rfl, rfl, ?_⟩
    intro p h1 h2
    have hps := init_players_spec players (by omega) fuel 1 _ ps (by omega) e p
    show (ps p).fields = 0 ∧ (ps p).areas = 0 ∧ (ps p).border = 0
      ∧ (ps p).free_golden_move = true
    rw [hps, if_pos ⟨h1, h2⟩]
    exact ⟨rfl, rfl, rfl, rfl⟩

set_option maxRecDepth 100000 in

/-- The calls of the scenario on the board 1 x 1. -/
theorem G1_facts :
    ((gamma_new 3 1 1 1 1).bind id).isSome = true
    ∧ (gamma_move 2 G0 1 0 0).isSome = true ∧ answer (gamma_move 2 G0 1 0 0) = true
    ∧ G1.width = 1 ∧ G1.heigth = 1 ∧ G1.number_of_players = 1 ∧ G1.board 0 0 = 1
    ∧ (G1.players 1).fields = 1 ∧ G1.busy_fields = 1 ∧ gamma_free_fields G1 1 = 0 := by
  decide

/-- In `G1` every call returns `false` and leaves the state as it is. -/
theorem G1_closed (fuel p x y : Nat) :
    gamma_move fuel G1 p x y = some (false, G1)
    ∧ gamma_golden_move fuel G1 p x y = some (false, G1)
    ∧ gamma_golden_possible fuel G1 p = some (false, G1) := by
  have f := G1_facts
  have hcon : ¬ gamma_golden_possible_con G1 p := by
    rintro ⟨⟨h1, h2⟩, -, h3⟩
    rw [f.2.2.2.2.2.1] at h2
    have hp : p = 1 := by omega
    rw [hp, f.2.2.2.2.2.2.2.1, f.2.2.2.2.2.2.2.2.1] at h3
    omega
  refine ⟨?_, ?_, ?_⟩
  · rw [gamma_move_unfold, if_neg]
    rintro ⟨⟨h1, h2⟩, -, h3⟩
    rw [f.2.2.2.1] at h1
    rw [f.2.2.2.2.1] at h2
    have hx : x = 0 := by omega
    have hy : y = 0 := by omega
    rw [hx, hy, f.2.2.2.2.2.2.1] at h3
    exact absurd h3 (by decide)
  · rw [gamma_golden_move_unfold, if_pos (Or.inl hcon)]
  · unfold gamma_golden_possible
    rw [if_pos hcon]

/-- Every state that follows `G1` is `G1`. -/
theorem G1_later (g : gamma_t) (h : Later G1 g) : g = G1 := by
  induction h with
  | now => rfl
  | next g1 g2 _ hs ih =>
    obtain ⟨fuel, p, x, y, b, -, -, -, e⟩ := hs
    rw [ih] at e
    obtain ⟨h1, h2, h3⟩ := G1_closed fuel p x y
    rcases e with e | e | e
    · rw [h1] at e
      simp only [Option.some.injEq, Prod.mk.injEq] at e
      exact e.2.symm
    · rw [h2] at e
      simp only [Option.some.injEq, Prod.mk.injEq] at e
      exact e.2.symm
    · rw [h3] at e
      simp only [Option.some.injEq, Prod.mk.injEq] at e
      exact e.2.symm

/-- C26: on the game `gamma_new(1, 1, 1, 1)` the call `gamma_move(g, 1, 0, 0)`
returns `true`; afterwards `gamma_free_fields(g, 1)` is 0, and in every later
state every call of `gamma_move` and of `gamma_golden_move`, for any player and
coordinates, returns `false`. -/
theorem single_cell_board :
    gamma_new 3 1 1 1 1 = some (some G0)
    ∧ gamma_move 2 G0 1 0 0 = some (true, G1)
    ∧ gamma_free_fields G1 1 = 0
    ∧ ∀ g, Later G1 g → ∀ fuel p x y,
        gamma_move fuel g p x y = some (false, g)
        ∧ gamma_golden_move fuel g p x y = some (false, g) := by
  have f := G1_facts
  refine ⟨made_eq _ T0 f.1, after_true _ G0 f.2.1 f.2.2.1, f.2.2.2.2.2.2.2.2.2, ?_⟩
  intro g hl fuel p x y
  rw [G1_later g hl]
  exact ⟨(G1_closed fuel p x y).1, (G1_closed fuel p x y).2.1⟩

set_option maxRecDepth 100000 in

/-- The calls of the scenario on the board 4 x 4. -/
theorem R2_facts :
    ((gamma_new 4 4 4 2 1).bind id).isSome = true
    ∧ (gamma_move 17 R0 1 0 0).isSome = true ∧ answer (gamma_move 17 R0 1 0 0) = true
    ∧ gamma_areas R1 1 = 1
    ∧ (gamma_move 17 R1 1 1 0).isSome = true ∧ answer (gamma_move 17 R1 1 1 0) = true
    ∧ gamma_areas R2 1 = 1
    ∧ (gamma_move 17 R2 1 3 3).isSome = true ∧ answer (gamma_move 17 R2 1 3 3) = false
    ∧ R0.width * R0.heigth < 17 := by
  decide

/-- C27: on the game `gamma_new(4, 4, 2, 1)` the calls `gamma_move(g, 1, 0, 0)`
and `gamma_move(g, 1, 1, 0)` return `true` and leave `areas(1) = 1` each, and the
following `gamma_move(g, 1, 3, 3)` returns `false`. -/
theorem second_area_refused :
    gamma_new 4 4 4 2 1 = some (some R0)
    ∧ gamma_move 17 R0 1 0 0 = some (true, R1) ∧ gamma_areas R1 1 = 1
    ∧ gamma_move 17 R1 1 1 0 = some (true, R2) ∧ gamma_areas R2 1 = 1
    ∧ ∃ g, gamma_move 17 R2 1 3 3 = some (false, g) := by
  have f := R2_facts
  exact ⟨made_eq _ T0 f.1, after_true _ R0 f.2.1 f.2.2.1, f.2.2.2.1,
    after_true _ R1 f.2.2.2.2.1 f.2.2.2.2.2.1, f.2.2.2.2.2.2.1,
    _, after_false _ R2 f.2.2.2.2.2.2.2.1 f.2.2.2.2.2.2.2.2.1⟩

set_option maxRecDepth 100000 in

/-- The calls of the scenario on the board 3 x 1. -/
theorem V3_facts :
    ((gamma_new 4 3 1 2 2).bind id).isSome = true
    ∧ (gamma_move 4 V0 1 0 0).isSome = true ∧ answer (gamma_move 4 V0 1 0 0) = true
    ∧ (gamma_move 4 V1 2 2 0).isSome = true ∧ answer (gamma_move 4 V1 2 2 0) = true
    ∧ V2.board 1 0 = EMPTY
    ∧ (gamma_move 4 V2 1 1 0).isSome = true ∧ answer (gamma_move 4 V2 1 1 0) = true
    ∧ V3.board 0 0 = 1 ∧ V3.board 1 0 = 1 ∧ V3.indexes 0 0 = V3.indexes 1 0
    ∧ gamma_areas V3 1 = 1 := by
  decide

/-- C28 as stated fails: on the game `gamma_new(3, 1, 2, 2)`, after player 1
took `(0, 0)` and player 2 took `(2, 0)`, the cell `(1, 0)` is empty and
`gamma_golden_move(g, 1, 1, 0)` returns `false`. -/
theorem golden_move_on_empty_refused :
    gamma_new 4 3 1 2 2 = some (some V0)
    ∧ gamma_move 4 V0 1 0 0 = some (true, V1) ∧ gamma_move 4 V1 2 2 0 = some (true, V2)
    ∧ V2.board 1 0 = EMPTY
    ∧ ∀ fuel, gamma_golden_move fuel V2 1 1 0 = some (false, V2) := by
  have f := V3_facts
  refine ⟨made_eq _ T0 f.1, after_true _ V0 f.2.1 f.2.2.1,
    after_true _ V1 f.2.2.2.1 f.2.2.2.2.1, f.2.2.2.2.2.1, ?_⟩
  intro fuel
  rw [gamma_golden_move_unfold, if_pos (Or.inr (Or.inr (Or.inl f.2.2.2.2.2.1)))]

/-- C28, amended: on the game `gamma_new(3, 1, 2, 2)`, after player 1 took
`(0, 0)` and player 2 took `(2, 0)`, the golden move of player 1 on the empty
cell `(1, 0)` is refused and leaves the state as it is; the ordinary move of
player 1 on `(1, 0)` is accepted, and afterwards player 1 owns `(0, 0)` and
`(1, 0)` as one area, `areas(1) = 1`. -/
theorem empty_cell_taken_by_move :
    gamma_new 4 3 1 2 2 = some (some V0)
    ∧ gamma_move 4 V0 1 0 0 = some (true, V1) ∧ gamma_move 4 V1 2 2 0 = some (true, V2)
    ∧ (∀ fuel, gamma_golden_move fuel V2 1 1 0 = some (false, V2))
    ∧ gamma_move 4 V2 1 1 0 = some (true, V3)
    ∧ V3.board 0 0 = 1 ∧ V3.board 1 0 = 1 ∧ V3.indexes 0 0 = V3.indexes 1 0
    ∧ gamma_areas V3 1 = 1 := by
  have f := V3_facts
  refine ⟨made_eq _ T0 f.1, after_true _ V0 f.2.1 f.2.2.1,
    after_true _ V1 f.2.2.2.1 f.2.2.2.2.1, ?_,
    after_true _ V2 f.2.2.2.2.2.2.1 f.2.2.2.2.2.2.2.1, f.2.2.2.2.2.2.2.2⟩
  intro fuel
  rw [gamma_golden_move_unfold, if_pos (Or.inr (Or.inr (Or.inl f.2.2.2.2.2.1)))]

/-- C29 fails on the code: `ceil_log(1)` is 1 and `ceil_log(10)` is 2, while the
least `r` with `10^r >= 1` is 0 and the least `r` with `10^r >= 10` is 1. -/
theorem ceil_log_counts_digits :
    ceil_log 11 1 = some 1 ∧ 10 ^ 0 ≥ 1 ∧ ceil_log 11 10 = some 2 ∧ 10 ^ 1 ≥ 10 := by
  decide

/-- C30 fails on the code: `is_fine_number` returns `true` for the token
`4294967296`, which is above 4294967295. -/
theorem fine_number_out_of_range :
    is_fine_number (c_buffer ['4', '2', '9', '4', '9', '6', '7', '2', '9', '6']) 11 = true
    ∧ decimal_value ['4', '2', '9', '4', '9', '6', '7', '2', '9', '6'] = 4294967296
    ∧ 4294967295 < 4294967296 := by
  decide

/-- The loop of `gamma_best_result` when no player has `2^32` cells or more: it
leaves with the greatest number of cells seen. -/
theorem best_result_loop_spec (g : gamma_t) (hN : g.number_of_players < 4294967295)
    (hsmall : ∀ p, 1 ≤ p → p ≤ g.number_of_players → (g.players p).fields < 4294967296) :
    ∀ (n fuel i result : Nat), 1 ≤ i → g.number_of_players + 1 = i + n → n < fuel →
      best_result_loop fuel i g result
        = some (max result ((Finset.Icc i g.number_of_players).sup
            fun p => (g.players p).fields)) := by
  intro n
  induction n with
  | zero =>
    intro fuel i result _ hi hf
    obtain ⟨f, rfl⟩ : ∃ f, fuel = f + 1 := ⟨fuel - 1, by omega⟩
    unfold best_result_loop
    rw [if_neg (by omega), Finset.Icc_eq_empty (by omega), Finset.sup_empty]
    simp
  | succ n ih =>
    intro fuel i result h1 hi hf
    obtain ⟨f, rfl⟩ : ∃ f, fuel = f + 1 := ⟨fuel - 1, by omega⟩
    unfold best_result_loop
    have hle : i ≤ g.number_of_players := by omega
    rw [if_pos hle]
    have hinc : inc32 i = i + 1 := by
      unfold inc32
      exact Nat.mod_eq_of_lt (by omega)
    rw [hinc, ih f (i + 1) _ (by omega) (by omega) (by omega)]
    have hs := hsmall i h1 hle
    have hins : Finset.Icc i g.number_of_players
        = insert i (Finset.Icc (i + 1) g.number_of_players) :=
      (Nat.Icc_insert_succ_left hle).symm
    rw [hins, Finset.sup_insert, to_uint_small _ hs]
    congr 1
    by_cases hlt : result < (g.players i).fields
    · rw [if_pos hlt]
      show max (g.players i).fields _ = max result (max (g.players i).fields _)
      rw [← max_assoc, max_eq_right (le_of_lt hlt)]
    · rw [if_neg hlt]
      show max result _ = max result (max (g.players i).fields _)
      rw [← max_assoc, max_eq_left (not_lt.1 hlt)]

/-- When no player has `2^32` cells or more, `gamma_best_result` returns the
greatest number of cells a player in `1..N` has. -/
theorem gamma_best_result_small (g : gamma_t) (fuel : Nat)
    (hN : g.number_of_players < 4294967295) (hfuel : g.number_of_players < fuel)
    (hsmall : ∀ p, 1 ≤ p → p ≤ g.number_of_players → (g.players p).fields < 4294967296) :
    gamma_best_result fuel g
      = some ((Finset.Icc 1 g.number_of_players).sup fun p => gamma_busy_fields g p) := by
  unfold gamma_best_result
  rw [best_result_loop_spec g hN hsmall g.number_of_players fuel 1 0 (le_refl 1)
    (Nat.add_comm _ _) hfuel, Nat.zero_max]
  congr 1
  apply Finset.sup_congr rfl
  intro p hp
  rw [Finset.mem_Icc] at hp
  unfold gamma_busy_fields
  rw [if_pos ⟨hp.1, hp.2⟩]

/-- The move that takes the next cell of the bottom row. -/
theorem RowFill.next_cell {n : Nat} {g : gamma_t} (h : RowFill n g) (hn : n < 4294967295) :
    ∃ g', RowFill (n + 1) g' := by
  have hg := h.fit.good.1
  have hfuel : g.width * g.heigth < 8589934591 := by
    rw [h.width_eq, h.heigth_eq]
    decide
  obtain ⟨r, e⟩ := gamma_move_total 8589934591 g 1 n 0 hg hfuel
  have e' : gamma_move 8589934591 g 1 n 0 = some (r.1, r.2) := e
  have hfit : ids_fit r.2 := fun q =>
    le_trans ((gamma_move_next e').grow 2 (by omega) h.next_le q) (by omega)
  obtain ⟨h1, -, h3⟩ := gamma_move_spec 8589934591 g 1 n 0 r.1 r.2 hg e' hfit
  have hz : coords_are_fine n 0 g := by
    unfold coords_are_fine
    rw [h.width_eq, h.heigth_eq]
    omega
  have hnb : 1 ≤ n → has_neighbour g 1 n 0 := by
    intro h1n
    obtain ⟨i, hi, e1, e2⟩ := adjacent_nb g.width g.heigth n 0 (n - 1) 0
      hg.core.sized.width_lt hg.core.sized.heigth_lt hz.1 hz.2
      (by rw [h.width_eq]; omega) hz.2 (by unfold adjacent; omega)
    refine ⟨i, hi, ?_, ?_⟩
    · rw [e1, e2]
      unfold coords_are_fine
      rw [h.width_eq, h.heigth_eq]
      omega
    · rw [e1, e2, h.board_eq, if_pos ⟨rfl, by omega⟩]
  have hlegal : legal_move g 1 n 0 := by
    refine ⟨hz, ?_, ?_, ?_⟩
    · unfold player_is_fine
      rw [h.number_eq]
      omega
    · rw [h.board_eq, if_neg (by omega)]
    · by_cases h0 : n = 0
      · right
        rw [(h.start h0).1, h.max_eq]
        omega
      · exact Or.inl (hnb (by omega))
  have hb : r.1 = true := h1.2 hlegal
  obtain ⟨-, he⟩ := h3 hb
  rw [hb] at e'
  refine ⟨r.2, FitReachable.step g r.2 h.fit
      ⟨8589934591, 1, n, 0, true, by omega, by omega, by omega, Or.inl e'⟩ hfit,
    he.width_eq.trans h.width_eq, he.heigth_eq.trans h.heigth_eq,
    he.number_eq.trans h.number_eq, he.max_eq.trans h.max_eq, ?_, ?_, ?_, ?_⟩
  · intro x y
    rw [he.board_eq, set_cell_apply, h.board_eq]
    by_cases hxy : x = n ∧ y = 0
    · rw [if_pos hxy, if_pos ⟨hxy.2, by omega⟩]
    · rw [if_neg hxy]
      by_cases hc : y = 0 ∧ x < n
      · rw [if_pos hc, if_pos ⟨hc.1, by omega⟩]
      · rw [if_neg hc, if_neg]
        rintro ⟨c1, c2⟩
        have : x = n := by omega
        exact hxy ⟨this, c1⟩
  · rw [he.fields_eq, h.fields_eq]
  · intro q
    by_cases hq : q = 1
    · rw [hq, he.next_eq]
      by_cases h0 : n = 0
      · have := (h.start h0).2 1
        split <;> omega
      · rw [if_pos (hnb (by omega))]
        exact h.next_le 1
    · rw [(he.others q hq).2.2.2]
      exact h.next_le q
  · intro h0
    omega

/-- Every part of the bottom row can be filled. -/
theorem RowFill.reach_row (n : Nat) (hn : n ≤ 4294967295) : ∃ g, RowFill n g := by
  induction n with
  | zero =>
    obtain ⟨g, e, h1, h2, h3, h4, h5, -, h7⟩ :=
      (gamma_new_yields 2 4294967295 2 1 1 (by omega) (by omega)).2 (by omega)
    have hi : Initial g := ⟨2, 4294967295, 2, 1, 1, by omega, by omega, by omega, by omega, e⟩
    refine ⟨g, FitReachable.init g hi, h1, h2, h3, h4, ?_, (h7 1 (le_refl 1) (le_refl 1)).1,
      fun q => le_trans (hi.next_le q) (by omega), fun _ =>
        ⟨(h7 1 (le_refl 1) (le_refl 1)).2.1, hi.next_le⟩⟩
    intro x y
    rw [h5, if_neg (by omega)]
  | succ n ih =>
    obtain ⟨g, hg⟩ := ih (by omega)
    exact hg.next_cell (by omega)

/-- A game with one player who owns `2^32` cells can be reached while the ids
fit. -/
theorem full_row_reachable :
    ∃ g, FitReachable g ∧ g.number_of_players = 1 ∧ (g.players 1).fields = 4294967296 := by
  obtain ⟨g, h⟩ := RowFill.reach_row 4294967295 (le_refl _)
  have hg := h.fit.good.1
  have hfuel : g.width * g.heigth < 8589934591 := by
    rw [h.width_eq, h.heigth_eq]
    decide
  obtain ⟨r, e⟩ := gamma_move_total 8589934591 g 1 0 1 hg hfuel
  have e' : gamma_move 8589934591 g 1 0 1 = some (r.1, r.2) := e
  have hfit : ids_fit r.2 := fun q =>
    le_trans ((gamma_move_next e').grow 2 (by omega) h.next_le q) (by omega)
  obtain ⟨h1, -, h3⟩ := gamma_move_spec 8589934591 g 1 0 1 r.1 r.2 hg e' hfit
  have hz : coords_are_fine 0 1 g := by
    unfold coords_are_fine
    rw [h.width_eq, h.heigth_eq]
    omega
  have hlegal : legal_move g 1 0 1 := by
    refine ⟨hz, ?_, ?_, Or.inl ?_⟩
    · unfold player_is_fine
      rw [h.number_eq]
      omega
    · rw [h.board_eq, if_neg (by omega)]
    · obtain ⟨i, hi, e1, e2⟩ := adjacent_nb g.width g.heigth 0 1 0 0
        hg.core.sized.width_lt hg.core.sized.heigth_lt hz.1 hz.2 hz.1
        (by rw [h.heigth_eq]; omega) (by unfold adjacent; omega)
      refine ⟨i, hi, ?_, ?_⟩
      · rw [e1, e2]
        unfold coords_are_fine
        rw [h.width_eq, h.heigth_eq]
        omega
      · rw [e1, e2, h.board_eq, if_pos ⟨rfl, by omega⟩]
  have hb : r.1 = true := h1.2 hlegal
  obtain ⟨-, he⟩ := h3 hb
  rw [hb] at e'
  refine ⟨r.2, FitReachable.step g r.2 h.fit
      ⟨8589934591, 1, 0, 1, true, by omega, by omega, by omega, Or.inl e'⟩ hfit,
    he.number_eq.trans h.number_eq, ?_⟩
  rw [he.fields_eq, h.fields_eq]

/-- C24 fails on the code: a game is reached, no area id above `2^32` minted, in
which the only player has `2^32` cells and `gamma_best_result` returns 0. -/
theorem best_result_truncates :
    ∃ g, FitReachable g ∧ g.number_of_players = 1 ∧ gamma_busy_fields g 1 = 4294967296
      ∧ ∀ fuel, 1 < fuel → gamma_best_result fuel g = some 0 := by
  obtain ⟨g, hfit, hN, hf⟩ := full_row_reachable
  refine ⟨g, hfit, hN, ?_, ?_⟩
  · unfold gamma_busy_fields player_is_fine
    rw [hN, if_pos (by omega), hf]
  · intro fuel hfuel
    obtain ⟨f, rfl⟩ : ∃ f, fuel = f + 2 := ⟨fuel - 2, by omega⟩
    unfold gamma_best_result best_result_loop
    rw [hN, if_pos (le_refl 1), hf]
    have h2 : inc32 1 = 2 := by decide
    rw [h2]
    unfold best_result_loop
    rw [hN, if_neg (by omega)]
    rfl

/-! ## `gamma_spaced_board` on a board that does not fit `uint pos` -/

theorem store_some (len : Nat) (buf : Nat → Char) (i : Nat) (c : Char) (h : i < len) :
    store len buf i c = some (set_at buf i c) := by
  unfold store
  rw [if_pos h]

/-- In a buffer of at least `2^32` bytes the loop over the characters of a field
leaves `pos` advanced by their number, modulo `2^32`. -/
theorem spaced_digits_pos (len : Nat) (hlen : 4294967296 ≤ len) :
    ∀ (n : Nat) (buf : Nat → Char) (pos val move : Nat), pos < 4294967296 →
      ∃ b v m, spaced_digits len n (buf, pos, val, move)
        = some (b, (pos + n) % 4294967296, v, m) := by
  intro n
  induction n with
  | zero =>
    intro buf pos val move hpos
    refine ⟨buf, val, move, ?_⟩
    rw [Nat.add_zero, Nat.mod_eq_of_lt hpos]
    rfl
  | succ n ih =>
    intro buf pos val move hpos
    have hc : ∃ c, (if val ≠ 0 then digits (val % 10) else some ' ') = some c := by
      by_cases hv : val ≠ 0
      · rw [if_pos hv]
        unfold digits
        rw [if_pos (Nat.mod_lt _ (by omega))]
        exact ⟨_, rfl⟩
      · rw [if_neg hv]
        exact ⟨_, rfl⟩
    obtain ⟨c, ec⟩ := hc
    have hidx : to_uint (move + pos) < len := by
      unfold to_uint
      have := Nat.mod_lt (move + pos) (show 0 < 4294967296 by omega)
      omega
    have hinc : inc32 pos < 4294967296 := by
      unfold inc32
      exact Nat.mod_lt _ (by omega)
    obtain ⟨b, v, m, e⟩ := ih (set_at buf (to_uint (move + pos)) c) (inc32 pos) (val / 10)
      (sub32 move 2) hinc
    refine ⟨b, v, m, ?_⟩
    have hp : (inc32 pos + n) % 4294967296 = (pos + (n + 1)) % 4294967296 := by
      unfold inc32
      omega
    rw [hp] at e
    show ((if val ≠ 0 then digits (val % 10) else some ' ').bind fun c =>
      (store len buf (to_uint (move + pos)) c).bind fun b =>
        spaced_digits len n (b, inc32 pos, val / 10, sub32 move 2)) = _
    rw [ec, Option.some_bind, store_some _ _ _ _ hidx, Option.some_bind]
    exact e

/-- In a buffer of at least `2^32` bytes the loop over the cells of a row leaves
`pos` advanced by `cell_len` for each cell, modulo `2^32`. -/
theorem spaced_row_pos (g : gamma_t) (len cell_len x : Nat) (hlen : 4294967296 ≤ len) :
    ∀ (ys : List Nat) (buf : Nat → Char) (pos : Nat), pos < 4294967296 →
      ∃ b, spaced_row g len cell_len x ys (buf, pos)
        = some (b, (pos + cell_len * ys.length) % 4294967296) := by
  intro ys
  induction ys with
  | nil =>
    intro buf pos hpos
    refine ⟨buf, ?_⟩
    rw [List.length_nil, Nat.mul_zero, Nat.add_zero, Nat.mod_eq_of_lt hpos]
    rfl
  | cons y ys ih =>
    intro buf pos hpos
    obtain ⟨b1, v, m, e1⟩ := spaced_digits_pos len hlen cell_len buf pos
      (g.board y (dec32 (sub32 g.heigth x))) (dec32 cell_len) hpos
    have hlt : (pos + cell_len) % 4294967296 < 4294967296 := Nat.mod_lt _ (by omega)
    have hdot : ∃ b2, (if g.board y (dec32 (sub32 g.heigth x)) = 0
        then store len b1 (dec32 ((pos + cell_len) % 4294967296)) '.' else some b1)
          = some b2 := by
      by_cases h0 : g.board y (dec32 (sub32 g.heigth x)) = 0
      · rw [if_pos h0, store_some]
        · exact ⟨_, rfl⟩
        · have : dec32 ((pos + cell_len) % 4294967296) < 4294967296 := by
            unfold dec32
            exact Nat.mod_lt _ (by omega)
          omega
      · rw [if_neg h0]
        exact ⟨_, rfl⟩
    obtain ⟨b2, e2⟩ := hdot
    obtain ⟨b3, e3⟩ := ih b2 ((pos + cell_len) % 4294967296) hlt
    refine ⟨b3, ?_⟩
    have hp : ((pos + cell_len) % 4294967296 + cell_len * ys.length) % 4294967296
        = (pos + cell_len * (y :: ys).length) % 4294967296 := by
      rw [List.length_cons, Nat.mul_succ]
      omega
    rw [hp] at e3
    show ((spaced_digits len cell_len
      (buf, pos, g.board y (dec32 (sub32 g.heigth x)), dec32 cell_len)).bind fun t =>
      (if g.board y (dec32 (sub32 g.heigth x)) = 0 then store len t.1 (dec32 t.2.1) '.'
        else some t.1).bind fun b =>
        spaced_row g len cell_len x ys (b, t.2.1)) = _
    rw [e1, Option.some_bind]
    show ((if g.board y (dec32 (sub32 g.heigth x)) = 0
        then store len b1 (dec32 ((pos + cell_len) % 4294967296)) '.' else some b1).bind
      fun b => spaced_row g len cell_len x ys (b, (pos + cell_len) % 4294967296)) = _
    rw [e2, Option.some_bind]
    exact e3

theorem ceil_log_ten (fuel : Nat) (h : 2 < fuel) : ceil_log fuel 10 = some 2 := by
  obtain ⟨f, rfl⟩ : ∃ f, fuel = f + 3 := ⟨fuel - 3, by omega⟩
  rfl

/-- A game of one row of 1431655765 cells and ten players renders as the empty
string in the spaced format: the newline of the row is stored at index
`2^32 - 1` and the `NUL` that ends the string at index 0. -/
theorem spaced_board_empty (g : gamma_t) (hw : g.width = 1431655765) (hh : g.heigth = 1)
    (hn : g.number_of_players = 10) (fuel : Nat) (hfuel : 2 < fuel) (mem : Nat → Char) :
    gamma_spaced_board fuel mem g = some [] := by
  unfold gamma_spaced_board
  rw [hn, ceil_log_ten fuel hfuel, Option.some_bind]
  have hi3 : inc32 2 = 3 := by decide
  have hlen : to_uint (g.width + 1) * to_uint (g.heigth + 1) % 18446744073709551616
      * 3 % 18446744073709551616 = 8589934596 := by
    rw [hw, hh]
    decide
  have hr1 : List.range g.heigth = [0] := by
    rw [hh]
    decide
  obtain ⟨b0, e0⟩ := spaced_row_pos g 8589934596 3 0 (by decide) (List.range g.width) mem 0
    (by decide)
  have hp0 : (0 + 3 * (List.range g.width).length) % 4294967296 = 4294967295 := by
    rw [List.length_range, hw]
  rw [hp0] at e0
  have hi0 : inc32 4294967295 = 0 := by decide
  have hi1 : inc32 0 = 1 := by decide
  show ((spaced_rows g (to_uint (g.width + 1) * to_uint (g.heigth + 1) % 18446744073709551616
      * inc32 2 % 18446744073709551616) (inc32 2) (List.range g.heigth) (mem, 0)).bind fun s =>
    (store (to_uint (g.width + 1) * to_uint (g.heigth + 1) % 18446744073709551616
      * inc32 2 % 18446744073709551616) s.1 s.2 NUL).bind fun b =>
      if inc32 s.2 = 0 then none else some (c_string ((List.range (inc32 s.2)).map b))) = _
  rw [hi3, hlen, hr1]
  have hrows : spaced_rows g 8589934596 3 [0] (mem, 0)
      = some (set_at b0 4294967295 '\n', 0) := by
    show ((spaced_row g 8589934596 3 0 (List.range g.width) (mem, 0)).bind fun s1 =>
      (store 8589934596 s1.1 s1.2 '\n').bind fun b =>
        spaced_rows g 8589934596 3 [] (b, inc32 s1.2)) = _
    rw [e0, Option.some_bind]
    show ((store 8589934596 b0 4294967295 '\n').bind fun b =>
        spaced_rows g 8589934596 3 [] (b, inc32 4294967295)) = _
    rw [store_some 8589934596 b0 4294967295 '\n' (by decide), Option.some_bind, hi0]
    rfl
  rw [hrows, Option.some_bind]
  show ((store 8589934596 (set_at b0 4294967295 '\n') 0 NUL).bind fun b =>
      if inc32 0 = 0 then none else some (c_string ((List.range (inc32 0)).map b))) = _
  rw [store_some 8589934596 _ 0 NUL (by decide), Option.some_bind, hi1, if_neg (by decide)]
  have hr : List.range 1 = [0] := by decide
  rw [hr]
  show some (c_string [set_at (set_at b0 4294967295 '\n') 0 NUL 0]) = _
  rw [set_at_same]
  rfl

/-- C21 fails on the code: after `gamma_new(1431655765, 1, 10, 1)` and the
accepted `gamma_move(g, 10, 0, 0)` the board is rendered in the spaced format,
and `gamma_spaced_board` returns the empty string. -/
theorem spaced_board_wraps :
    ∃ g0 g1, gamma_new 11 1431655765 1 10 1 = some (some g0)
      ∧ gamma_move 1431655766 g0 10 0 0 = some (true, g1)
      ∧ FitReachable g1 ∧ g1.board 0 0 = 10 ∧ board_is_spaced g1
      ∧ ∀ fuel mem, 2 < fuel → gamma_spaced_board fuel mem g1 = some []
        ∧ gamma_board fuel mem g1 = some [] := by
  obtain ⟨g0, e0, h1, h2, h3, h4, h5, -, h7⟩ :=
    (gamma_new_yields 11 1431655765 1 10 1 (by omega) (by omega)).2 (by omega)
  have hi : Initial g0 := ⟨11, 1431655765, 1, 10, 1, by omega, by omega, by omega, by omega, e0⟩
  have hfit0 := FitReachable.init g0 hi
  have hg := hfit0.good.1
  have hfuel : g0.width * g0.heigth < 1431655766 := by
    rw [h1, h2]
    decide
  obtain ⟨r, e⟩ := gamma_move_total 1431655766 g0 10 0 0 hg hfuel
  have e' : gamma_move 1431655766 g0 10 0 0 = some (r.1, r.2) := e
  have hfit : ids_fit r.2 := fun q =>
    le_trans ((gamma_move_next e').grow 1 (by omega) hi.next_le q) (by omega)
  obtain ⟨k1, -, k3⟩ := gamma_move_spec 1431655766 g0 10 0 0 r.1 r.2 hg e' hfit
  have hlegal : legal_move g0 10 0 0 := by
    refine ⟨?_, ?_, h5 0 0, Or.inr ?_⟩
    · unfold coords_are_fine
      rw [h1, h2]
      omega
    · unfold player_is_fine
      rw [h3]
      omega
    · rw [(h7 10 (by omega) (by omega)).2.1, h4]
      omega
  have hb : r.1 = true := k1.2 hlegal
  obtain ⟨-, he⟩ := k3 hb
  rw [hb] at e'
  have hsp : board_is_spaced r.2 := by
    unfold board_is_spaced
    rw [he.wider, if_pos (by decide)]
    have hw0 : g0.fields_of_wider_players = 0 := by
      unfold gamma_new at e0
      rw [if_neg (by omega)] at e0
      simp only [Option.map_eq_some', Option.some.injEq] at e0
      obtain ⟨ps, -, e2⟩ := e0
      rw [← e2]
    rw [hw0]
    decide
  refine ⟨g0, r.2, e0, e', FitReachable.step g0 r.2 hfit0
      ⟨1431655766, 10, 0, 0, true, by omega, by omega, by omega, Or.inl e'⟩ hfit, ?_, hsp, ?_⟩
  · rw [he.board_eq, set_cell_same]
  · intro fuel mem hf
    have hs := spaced_board_empty r.2 (he.width_eq.trans h1) (he.heigth_eq.trans h2)
      (he.number_eq.trans h3) fuel hf mem
    refine ⟨hs, ?_⟩
    unfold gamma_board
    rw [if_pos hsp]
    exact hs

/-- A property that holds at one place of a line and passes to both neighbours
holds on the whole line. -/
theorem line_fill (P : Nat → Prop) (n a : Nat) (h0 : P a)
    (up : ∀ x, x + 1 < n → P x → P (x + 1)) (down : ∀ x, x + 1 < n → P (x + 1) → P x)
    (ha : a < n) : ∀ x, x < n → P x := by
  have hup : ∀ k, a + k < n → P (a + k) := by
    intro k
    induction k with
    | zero => intro _; exact h0
    | succ k ih =>
      intro hk
      exact up (a + k) hk (ih (by omega))
  have hdown : ∀ k, k ≤ a → P (a - k) := by
    intro k
    induction k with
    | zero => intro _; exact h0
    | succ k ih =>
      intro hk
      have h1 : a - (k + 1) + 1 = a - k := by omega
      apply down (a - (k + 1)) (by omega)
      rw [h1]
      exact ih (by omega)
  intro x hx
  by_cases hxa : a ≤ x
  · have := hup (x - a) (by omega)
    have e : a + (x - a) = x := by omega
    rw [e] at this
    exact this
  · have := hdown (a - x) (by omega)
    have e : a - (a - x) = x := by omega
    rw [e] at this
    exact this

/-- On a board with an empty cell and a busy cell some empty cell has a busy
4-neighbour. -/
theorem empty_next_to_busy (g : gamma_t) (hs : Sized g) (a b c d : Nat)
    (hab : coords_are_fine a b g) (he : g.board a b = EMPTY)
    (hcd : coords_are_fine c d g) (hb : g.board c d ≠ EMPTY) :
    ∃ x y i, coords_are_fine x y g ∧ g.board x y = EMPTY ∧ i < 4
      ∧ coords_are_fine (nbx x i) (nby y i) g ∧ g.board (nbx x i) (nby y i) ≠ EMPTY := by
  by_contra hno
  have hw := hs.width_lt
  have hh := hs.heigth_lt
  have H : ∀ x y i, coords_are_fine x y g → g.board x y = EMPTY → i < 4 →
      coords_are_fine (nbx x i) (nby y i) g → g.board (nbx x i) (nby y i) = EMPTY := by
    intro x y i h1 h2 h3 h4
    by_contra h5
    exact hno ⟨x, y, i, h1, h2, h3, h4, h5⟩
  have hrow : ∀ x, x < g.width → g.board x b = EMPTY := by
    apply line_fill (fun x => g.board x b = EMPTY) g.width a he ?_ ?_ hab.1
    · intro x hx hp
      have e1 : nbx x 0 = x + 1 := by rw [nbx_zero]; exact Nat.mod_eq_of_lt (by omega)
      have e2 : nby b 0 = b := by
        rw [nby_zero]
        exact Nat.mod_eq_of_lt (by have := hab.2; omega)
      have := H x b 0 ⟨by omega, hab.2⟩ hp (by omega)
        (by rw [e1, e2]; exact ⟨hx, hab.2⟩)
      rw [e1, e2] at this
      exact this
    · intro x hx hp
      have e1 : nbx (x + 1) 2 = x := by
        rw [nbx_two]
        omega
      have e2 : nby b 2 = b := by
        rw [nby_two]
        exact Nat.mod_eq_of_lt (by have := hab.2; omega)
      have := H (x + 1) b 2 ⟨hx, hab.2⟩ hp (by omega)
        (by rw [e1, e2]; exact ⟨by omega, hab.2⟩)
      rw [e1, e2] at this
      exact this
  have hcol : ∀ y, y < g.heigth → g.board c y = EMPTY := by
    apply line_fill (fun y => g.board c y = EMPTY) g.heigth b (hrow c hcd.1) ?_ ?_ hab.2
    · intro y hy hp
      have e1 : nbx c 1 = c := by
        rw [nbx_one]
        exact Nat.mod_eq_of_lt (by have := hcd.1; omega)
      have e2 : nby y 1 = y + 1 := by rw [nby_one]; exact Nat.mod_eq_of_lt (by omega)
      have := H c y 1 ⟨hcd.1, by omega⟩ hp (by omega)
        (by rw [e1, e2]; exact ⟨hcd.1, hy⟩)
      rw [e1, e2] at this
      exact this
    · intro y hy hp
      have e1 : nbx c 3 = c := by
        rw [nbx_three]
        exact Nat.mod_eq_of_lt (by have := hcd.1; omega)
      have e2 : nby (y + 1) 3 = y := by
        rw [nby_three]
        omega
      have := H c (y + 1) 3 ⟨hcd.1, hy⟩ hp (by omega)
        (by rw [e1, e2]; exact ⟨hcd.1, by omega⟩)
      rw [e1, e2] at this
      exact this
  exact hb (hcol d hcd.2)

/-- The value of `gamma_free_fields` for a player of the game. -/
theorem free_fields_value {g : gamma_t} (hg : Good g) (p : Nat) (hp : player_is_fine p g) :
    gamma_free_fields g p
      = if (g.players p).areas < g.max_areas then g.width * g.heigth - g.busy_fields
        else (g.players p).border := by
  have hcells := cells_lt g hg.core.sized
  have hbusy := busy_cells_le g
  unfold gamma_free_fields
  rw [if_pos hp]
  by_cases hlt : (g.players p).areas < g.max_areas
  · rw [if_pos hlt, if_pos hlt, hg.core.busy_ok]
    generalize g.width * g.heigth = A at hcells hbusy
    omega
  · rw [if_neg hlt, if_neg hlt]

/-- The board has an empty cell exactly when `busy_fields` is below the number
of cells. -/
theorem busy_lt_iff {g : gamma_t} (hg : Good g) :
    g.busy_fields < g.width * g.heigth
      ↔ ∃ a b, coords_are_fine a b g ∧ g.board a b = EMPTY := by
  have hcard : (cells g).card = g.width * g.heigth := by simp [cells]
  rw [hg.core.busy_ok, ← hcard]
  constructor
  · intro hlt
    by_contra hno
    have hall : busy_cells g = cells g := by
      unfold busy_cells
      apply Finset.filter_true_of_mem
      intro c hc h0
      rw [mem_cells] at hc
      exact hno ⟨c.1, c.2, hc, h0⟩
    rw [hall] at hlt
    exact absurd hlt (lt_irrefl _)
  · rintro ⟨a, b, hab, he⟩
    apply Finset.card_lt_card
    unfold busy_cells
    rw [Finset.filter_ssubset]
    exact ⟨(a, b), (mem_cells g (a, b)).2 hab, fun h => h he⟩

/-- When the board has an empty cell, some player has a legal move and a
positive number of free fields. -/
theorem Good.some_free {g : gamma_t} (hg : Good g) (hn : 1 ≤ g.number_of_players)
    (hm : 1 ≤ g.max_areas) (a b : Nat) (hab : coords_are_fine a b g)
    (he : g.board a b = EMPTY) :
    ∃ p x y, legal_move g p x y ∧ gamma_free_fields g p ≠ 0 := by
  have hlt := (busy_lt_iff hg).2 ⟨a, b, hab, he⟩
  by_cases hex : ∃ p, 1 ≤ p ∧ p ≤ g.number_of_players ∧ (g.players p).areas < g.max_areas
  · obtain ⟨p, h1, h2, h3⟩ := hex
    refine ⟨p, a, b, ⟨hab, ⟨h1, h2⟩, he, Or.inr h3⟩, ?_⟩
    rw [free_fields_value hg p ⟨h1, h2⟩, if_pos h3]
    omega
  · have hall : ∀ p, 1 ≤ p → p ≤ g.number_of_players → ¬ (g.players p).areas < g.max_areas :=
      fun p h1 h2 h3 => hex ⟨p, h1, h2, h3⟩
    -- player 1 has an area, hence a cell
    have h1 := hall 1 (le_refl 1) hn
    have hp1 : (1 : Nat) ≠ EMPTY := by decide
    have hcard : 0 < (area_ids g 1).card := by
      rw [← hg.areas_ok.plain 1 hp1]
      omega
    obtain ⟨i, hi⟩ := Finset.card_pos.1 hcard
    rw [mem_area_ids] at hi
    obtain ⟨c, d, hw⟩ := hi
    obtain ⟨x, y, k, hxy, hxe, hk, hnb, hnbb⟩ := empty_next_to_busy g hg.core.sized a b c d hab he
      hw.1 (by rw [hw.2.1]; exact hp1)
    have hq := hg.core.owner_ok _ _ hnbb
    have hq0 : 1 ≤ g.board (nbx x k) (nby y k) := by
      unfold EMPTY at hnbb
      omega
    refine ⟨g.board (nbx x k) (nby y k), x, y,
      ⟨hxy, ⟨hq0, hq.2⟩, hxe, Or.inl ⟨k, hk, hnb, rfl⟩⟩, ?_⟩
    rw [free_fields_value hg _ ⟨hq0, hq.2⟩, if_neg (hall _ hq0 hq.2), hg.border_ok _ hnbb]
    apply Nat.ne_of_gt
    apply Finset.card_pos.2
    exact ⟨(x, y), (mem_border_cells g _ (x, y)).2 ⟨hxy, hxe, k, hk, hnb, rfl⟩⟩

/-- A player who can place on a cell shows that the board has an empty cell. -/
theorem Good.free_empty {g : gamma_t} (hg : Good g) (p : Nat) (hp : player_is_fine p g)
    (hf : gamma_free_fields g p ≠ 0) : g.busy_fields < g.width * g.heigth := by
  rw [free_fields_value hg p hp] at hf
  by_cases hlt : (g.players p).areas < g.max_areas
  · rw [if_pos hlt] at hf
    omega
  · rw [if_neg hlt] at hf
    have hp0 : p ≠ EMPTY := by
      unfold player_is_fine at hp
      unfold EMPTY
      omega
    rw [hg.border_ok p hp0] at hf
    obtain ⟨c, hc⟩ := Finset.card_pos.1 (Nat.pos_of_ne_zero hf)
    rw [mem_border_cells] at hc
    exact (busy_lt_iff hg).2 ⟨c.1, c.2, hc.1, hc.2.1⟩

/-- A game reached from `gamma_new` has at least one player, fewer than
`2^32 - 1` players and a positive limit of areas. -/
theorem FitReachable.params {g : gamma_t} (h : FitReachable g) :
    1 ≤ g.number_of_players ∧ g.number_of_players < 4294967295 ∧ 1 ≤ g.max_areas := by
  induction h with
  | init g hi =>
    obtain ⟨fuel, w, hh, n, a, h1, h2, h3, h4, e⟩ := hi
    unfold gamma_new at e
    split at e
    · simp at e
    · rename_i hz
      simp only [Option.map_eq_some', Option.some.injEq] at e
      obtain ⟨ps, e1, e2⟩ := e
      have hnp : g.number_of_players = n := by rw [← e2]
      have hmx : g.max_areas = a := by rw [← e2]
      rw [hnp, hmx]
      refine ⟨by omega, ?_, by omega⟩
      by_contra hge
      have hn : n = 4294967295 := by omega
      rw [init_players_stuck n hn fuel 1 _ (by omega)] at e1
      exact absurd e1 (by simp)
  | step g g' hr hs hfit ih =>
    obtain ⟨hg, hcap⟩ := hr.good
    obtain ⟨fuel, p, x, y, b, -, -, -, e | e | e⟩ := hs
    · obtain ⟨-, h2, h3⟩ := gamma_move_spec fuel g p x y b g' hg e hfit
      cases hb : b
      · rw [h2 hb]
        exact ih
      · have heff := (h3 hb).2
        rw [heff.number_eq, heff.max_eq]
        exact ih
    · obtain ⟨-, -, -, h2, h3⟩ := gamma_golden_move_spec fuel g p x y b g' hg hcap e hfit
      cases hb : b
      · have heff := h2 hb
        rw [heff.number_eq, heff.max_eq]
        exact ih
      · have heff := h3 hb
        rw [heff.number_eq, heff.max_eq]
        exact ih
    · obtain ⟨-, k2⟩ := gamma_golden_possible_spec fuel g p b g' hg e hfit
      have hn : g'.number_of_players = g.number_of_players := by rw [k2.frame]
      have hm : g'.max_areas = g.max_areas := by rw [k2.frame]
      rw [hn, hm]
      exact ih

/-- Renumbering the areas does not change which golden moves are legal. -/
theorem Renumbered.legal_renum {g g1 : gamma_t} (h : Renumbered g g1) (p x y : Nat) :
    golden_legal g1 p x y ↔ golden_legal g p x y := by
  have hb : g1.board = g.board := by rw [h.frame]
  have hw : g1.width = g.width := by rw [h.frame]
  have hh : g1.heigth = g.heigth := by rw [h.frame]
  have hm : g1.max_areas = g.max_areas := by rw [h.frame]
  have hn : g1.number_of_players = g.number_of_players := by rw [h.frame]
  have hbf : g1.busy_fields = g.busy_fields := by rw [h.frame]
  have hc := h.counters p
  have hnb := has_neighbour_congr hb hw hh p x y
  unfold golden_legal gamma_golden_possible_con player_is_fine coords_are_fine
  rw [hnb, hb, hw, hh, hm, hn, hbf, hc.1, hc.2.1, hc.2.2.2]
  constructor
  · rintro ⟨h1, h2, h3, h4, ⟨n, h5, h6⟩, h7⟩
    exact ⟨h1, h2, h3, h4, ⟨n, Components.congr_comps (by rfl) (by rfl) (by rfl) h5, h6⟩, h7⟩
  · rintro ⟨h1, h2, h3, h4, ⟨n, h5, h6⟩, h7⟩
    exact ⟨h1, h2, h3, h4, ⟨n, Components.congr_comps (by rfl) (by rfl) (by rfl) h5, h6⟩, h7⟩

/-- A call of `gamma_golden_possible` uses up at most one id per cell of the
room of every counter. -/
theorem gamma_golden_possible_room (fuel : Nat) (g : gamma_t) (p m : Nat) (hg : Good g)
    (hm : 4 ≤ m) (hroom : room (g.width * g.heigth + m) g) (hfuel : g.width * g.heigth < fuel)
    (b : Bool) (g' : gamma_t) (e : gamma_golden_possible fuel g p = some (b, g')) :
    room m g' := by
  unfold gamma_golden_possible at e
  by_cases hcon : gamma_golden_possible_con g p
  · rw [if_neg (not_not.2 hcon)] at e
    by_cases har : (g.players p).areas < g.max_areas
    · rw [if_pos har] at e
      simp only [Option.some.injEq, Prod.mk.injEq] at e
      rw [← e.2]
      exact room_le hroom (by omega)
    · rw [if_neg har] at e
      obtain ⟨r, e1, -, -, hr1, -⟩ := golden_possible_cols_run fuel p
        (List.range g.width) g m hg hm (by rw [List.length_range]; exact hroom) hfuel
      rw [e] at e1
      simp only [Option.some.injEq] at e1
      rw [← e1] at hr1
      exact hr1
  · rw [if_pos hcon] at e
    simp only [Option.some.injEq, Prod.mk.injEq] at e
    rw [← e.2]
    exact room_le hroom (by omega)

/-- The loop of `game_in_progress` over the players `i..players`: it returns,
and answers `true` exactly when one of them has a legal golden move. -/
theorem progress_loop_run (fuel players : Nat) (hN : players < 4294967295) :
    ∀ (n tests i : Nat) (g : gamma_t), Good g → Capped g → i + n = players + 1 → 1 ≤ i →
      room (n * (g.width * g.heigth) + 4) g → g.width * g.heigth < fuel → n < tests →
      ∃ b g', progress_loop fuel tests i players g = some (b, g') ∧ Renumbered g g'
        ∧ (b = true ↔ ∃ p, i ≤ p ∧ p ≤ players ∧ ∃ x y, golden_legal g p x y) := by
  intro n
  induction n with
  | zero =>
    intro tests i g _ _ hin _ _ _ ht
    obtain ⟨t, rfl⟩ : ∃ t, tests = t + 1 := ⟨tests - 1, by omega⟩
    refine ⟨false, g, ?_, Renumbered.refl_renum g, iff_of_false (by simp) ?_⟩
    · rw [progress_loop, if_neg (by omega)]
    · rintro ⟨p, h1, h2, -⟩
      omega
  | succ n ih =>
    intro tests i g hg hcap hin hi hroom hfuel ht
    obtain ⟨t, rfl⟩ : ∃ t, tests = t + 1 := ⟨tests - 1, by omega⟩
    have hle : i ≤ players := by omega
    have hsplit : (n + 1) * (g.width * g.heigth) + 4
        = g.width * g.heigth + (n * (g.width * g.heigth) + 4) := by
      rw [Nat.succ_mul]
      omega
    rw [hsplit] at hroom
    obtain ⟨b1, g1, e1, hg1, hr1, -, hiff1⟩ := gamma_golden_possible_run fuel g i hg hcap
      (room_le hroom (by omega)) hfuel
    have hroom1 := gamma_golden_possible_room fuel g i (n * (g.width * g.heigth) + 4) hg
      (by omega) hroom hfuel b1 g1 e1
    rw [progress_loop, if_pos hle, e1]
    simp only [Option.some_bind]
    cases hb1 : b1
    · simp only [Bool.false_eq_true, if_false]
      have hw1 := hr1.width_renum
      have hh1 := hr1.heigth_renum
      have hinc : inc32 i = i + 1 := inc32_small _ (by omega)
      rw [hinc]
      obtain ⟨b2, g2, e2, hr2, hiff2⟩ := ih t (i + 1) g1 hg1 (hr1.capped_renum hcap)
        (by omega) (by omega) (by rw [hw1, hh1]; exact hroom1) (by rw [hw1, hh1]; exact hfuel)
        (by omega)
      refine ⟨b2, g2, e2, hr1.trans_renum hr2, ?_⟩
      rw [hiff2]
      have hnone : ¬ ∃ x y, golden_legal g i x y := by
        rw [← hiff1, hb1]
        simp
      constructor
      · rintro ⟨p, h1, h2, x, y, hl⟩
        exact ⟨p, by omega, h2, x, y, (hr1.legal_renum p x y).1 hl⟩
      · rintro ⟨p, h1, h2, x, y, hl⟩
        have hpi : p ≠ i := by
          rintro rfl
          exact hnone ⟨x, y, hl⟩
        exact ⟨p, by omega, h2, x, y, (hr1.legal_renum p x y).2 hl⟩
    · simp only [if_true]
      refine ⟨true, g1, rfl, hr1, iff_of_true rfl ?_⟩
      rw [hb1] at hiff1
      obtain ⟨x, y, hl⟩ := hiff1.1 rfl
      exact ⟨i, le_refl i, hle, x, y, hl⟩

attribute [local semireducible] D3

set_option maxRecDepth 100000 in
theorem K1z_facts :
    (gamma_move 10 K1b 2 0 0).isSome = true
    ∧ (game_in_progress 10 10 K1z.width K1z.heigth K1z K1z.number_of_players).isSome = true
    ∧ answer (game_in_progress 10 10 K1z.width K1z.heigth K1z K1z.number_of_players) = false
    ∧ K1z.number_of_players = 2 ∧ gamma_free_fields K1z 1 = 1
    ∧ K1z.width = 5 ∧ K1z.heigth = 1 ∧ K1z.board 3 0 = EMPTY
    ∧ (gamma_move 10 K1z 1 3 0).isSome = true ∧ answer (gamma_move 10 K1z 1 3 0) = true := by
  decide

attribute [local irreducible] D3

theorem K1z_reachable : Reachable K1z := by
  have f := K1g_facts
  have z := K1z_facts
  have h1 : Reachable K1g := Reachable.step K1 K1g K1_reachable
    ⟨10, 2, 2, 0, true, by decide, by decide, by decide,
      Or.inr (Or.inl (after_true _ K1 f.1 f.2.1))⟩
  have h2 : Reachable K1b := Reachable.step K1g K1b h1
    ⟨10, 1, 2, 0, true, by decide, by decide, by decide,
      Or.inr (Or.inl (after_true _ K1g f.2.2.2.2.2.1 f.2.2.2.2.2.2.1))⟩
  exact Reachable.step K1b K1z h2
    ⟨10, 2, 0, 0, _, by decide, by decide, by decide, Or.inl (after_eq _ K1b z.1)⟩

/-- In every state reached from `gamma_new` while fewer than
`2^32` area ids were minted for each player and in which every id counter is at
most `2^32 - N * W * H - 4`, `game_in_progress(g, N)` returns, and it returns
`false` if and only if for every player `p` in `1..N` both
`gamma_free_fields(g, p) == 0` and `gamma_golden_possible(g, p)` is `false`; and
whenever the board has an empty cell, some player `p` in `1..N` has
`gamma_free_fields(g, p) != 0` and a cell on which `gamma_move` returns
`true`. -/
theorem game_in_progress_iff (g : gamma_t) (h : FitReachable g) (fuel tests : Nat)
    (hfuel : g.width * g.heigth < fuel) (htests : g.number_of_players < tests)
    (hroom : room (g.number_of_players * (g.width * g.heigth) + 4) g) :
    (∃ b g', game_in_progress fuel tests g.width g.heigth g g.number_of_players = some (b, g')
      ∧ (b = false ↔ ∀ p, 1 ≤ p → p ≤ g.number_of_players →
            gamma_free_fields g p = 0
              ∧ ∃ g2, gamma_golden_possible fuel g p = some (false, g2)))
    ∧ ((∃ x y, coords_are_fine x y g ∧ g.board x y = EMPTY) →
        ∃ p x y g2, 1 ≤ p ∧ p ≤ g.number_of_players ∧ gamma_free_fields g p ≠ 0
          ∧ gamma_move fuel g p x y = some (true, g2)) := by
  obtain ⟨hg, hcap⟩ := h.good
  obtain ⟨hn1, hn2, hm1⟩ := h.params
  have hcells := cells_lt g hg.core.sized
  have hempty : (∃ x y, coords_are_fine x y g ∧ g.board x y = EMPTY) →
      ∃ p x y g2, 1 ≤ p ∧ p ≤ g.number_of_players ∧ gamma_free_fields g p ≠ 0
        ∧ gamma_move fuel g p x y = some (true, g2) := by
    rintro ⟨a, b, hab, he⟩
    obtain ⟨p, x, y, hl, hf⟩ := hg.some_free hn1 hm1 a b hab he
    obtain ⟨r, e⟩ := gamma_move_total fuel g p x y hg hfuel
    have hb := (gamma_move_accepts fuel g p x y r.1 r.2 hg e).1.2 hl
    refine ⟨p, x, y, r.2, hl.2.1.1, hl.2.1.2, hf, ?_⟩
    rw [e, ← hb]
  refine ⟨?_, hempty⟩
  have hroom1 : room (g.width * g.heigth + 4) g := by
    apply room_le hroom
    have : 1 * (g.width * g.heigth) ≤ g.number_of_players * (g.width * g.heigth) :=
      Nat.mul_le_mul_right _ hn1
    omega
  unfold game_in_progress free_fields_available gamma_all_busy_fields
  rw [Nat.mod_eq_of_lt (by omega)]
  by_cases hlt : g.busy_fields < g.width * g.heigth
  · rw [if_pos (decide_eq_true hlt)]
    refine ⟨true, g, rfl, iff_of_false (by simp) ?_⟩
    intro hall
    obtain ⟨p, x, y, g2, h1, h2, hf, -⟩ := hempty ((busy_lt_iff hg).1 hlt)
    exact hf (hall p h1 h2).1
  · rw [if_neg (by simpa using hlt)]
    obtain ⟨b, g', e, -, hiff⟩ := progress_loop_run fuel g.number_of_players hn2
      g.number_of_players tests 1 g hg hcap (by omega) (le_refl 1) hroom hfuel htests
    refine ⟨b, g', e, ?_⟩
    constructor
    · intro hb p h1 h2
      refine ⟨?_, ?_⟩
      · by_contra hf
        exact hlt (hg.free_empty p ⟨h1, h2⟩ hf)
      · obtain ⟨b1, g1, e1, -, -, -, hiff1⟩ := gamma_golden_possible_run fuel g p hg hcap
          hroom1 hfuel
        cases hb1 : b1
        · rw [hb1] at e1
          exact ⟨g1, e1⟩
        · exfalso
          rw [hb1] at hiff1
          have := hiff.2 ⟨p, h1, h2, hiff1.1 rfl⟩
          rw [hb] at this
          exact absurd this (by decide)
    · intro hall
      cases hb : b
      · rfl
      · exfalso
        rw [hb] at hiff
        obtain ⟨p, h1, h2, hl⟩ := hiff.1 rfl
        obtain ⟨g2, e2⟩ := (hall p h1 h2).2
        obtain ⟨b1, g1, e1, -, -, -, hiff1⟩ := gamma_golden_possible_run fuel g p hg hcap
          hroom1 hfuel
        rw [e2] at e1
        simp only [Option.some.injEq, Prod.mk.injEq] at e1
        rw [← e1.1] at hiff1
        exact absurd (hiff1.2 hl) (by decide)

/-- C25 fails on the code: in the reachable state `K1z` (the board `2 2 1 . 1`
with `busy_fields` 5), `game_in_progress(g, 2)` returns `false` although
`gamma_free_fields(g, 1)` is 1, the cell `(3, 0)` is empty and
`gamma_move(g, 1, 3, 0)` returns `true`. -/
theorem game_over_with_free_field :
    Reachable K1z
    ∧ (∃ g', game_in_progress 10 10 K1z.width K1z.heigth K1z K1z.number_of_players
        = some (false, g'))
    ∧ ¬ (∀ p, 1 ≤ p → p ≤ K1z.number_of_players →
          gamma_free_fields K1z p = 0
            ∧ ∃ g2, gamma_golden_possible 10 K1z p = some (false, g2))
    ∧ coords_are_fine 3 0 K1z ∧ K1z.board 3 0 = EMPTY
    ∧ ∃ g2, gamma_move 10 K1z 1 3 0 = some (true, g2) := by
  have z := K1z_facts
  refine ⟨K1z_reachable, ⟨_, after_false _ K1z z.2.1 z.2.2.1⟩, ?_, ?_, z.2.2.2.2.2.2.2.1,
    ⟨_, after_true _ K1z z.2.2.2.2.2.2.2.2.1 z.2.2.2.2.2.2.2.2.2⟩⟩
  · intro hall
    have h1 := (hall 1 (le_refl 1) (by rw [z.2.2.2.1]; decide)).1
    rw [z.2.2.2.2.1] at h1
    exact absurd h1 (by decide)
  · unfold coords_are_fine
    rw [z.2.2.2.2.2.1, z.2.2.2.2.2.2.1]
    decide

/-- An instance at the state `U2`. -/
theorem game_in_progress_iff_witness :
    FitReachable U2 ∧ U2.width * U2.heigth < 4 ∧ U2.number_of_players < 3
    ∧ room (U2.number_of_players * (U2.width * U2.heigth) + 4) U2
    ∧ ((∃ b g', game_in_progress 4 3 U2.width U2.heigth U2 U2.number_of_players = some (b, g')
        ∧ (b = false ↔ ∀ p, 1 ≤ p → p ≤ U2.number_of_players →
              gamma_free_fields U2 p = 0
                ∧ ∃ g2, gamma_golden_possible 4 U2 p = some (false, g2)))
      ∧ ((∃ x y, coords_are_fine x y U2 ∧ U2.board x y = EMPTY) →
          ∃ p x y g2, 1 ≤ p ∧ p ≤ U2.number_of_players ∧ gamma_free_fields U2 p ≠ 0
            ∧ gamma_move 4 U2 p x y = some (true, g2))) := by
  have hwh : U2.width * U2.heigth = 3 := U2_facts.2.2.2.2.1
  have hn : U2.number_of_players = 2 := by decide
  have hroom : room (U2.number_of_players * (U2.width * U2.heigth) + 4) U2 := fun q => by
    have := U2_next q
    rw [hn, hwh]
    omega
  exact ⟨U2_fit, by omega, by omega, hroom,
    game_in_progress_iff U2 U2_fit 4 3 (by omega) (by omega) hroom⟩

theorem manhattan_one_iff (a b c d : Nat) : manhattan a b c d = 1 ↔ adjacent a b c d := by
  unfold manhattan adjacent
  split_ifs <;> omega

/-- C40: on a board with `1 <= W, H <= 2^32 - 1`, for an in-bounds cell
`(x, y)`, the candidates `(x + X[i], y + Y[i])` computed modulo `2^32` that
pass `coords_are_fine` are exactly the in-bounds cells at Manhattan distance 1
from `(x, y)`; the wrapped coordinate `0 - 1 = 2^32 - 1` is never accepted. -/
theorem neighbours_exact (g : gamma_t) (hw1 : 1 ≤ g.width) (hw : g.width ≤ 4294967295)
    (hh1 : 1 ≤ g.heigth) (hh : g.heigth ≤ 4294967295) (x y : Nat)
    (hxy : coords_are_fine x y g) :
    (∀ c d, (∃ i, i < DIRECTIONS ∧ (x + X i) % 4294967296 = c ∧ (y + Y i) % 4294967296 = d
          ∧ coords_are_fine c d g)
        ↔ (coords_are_fine c d g ∧ manhattan x y c d = 1))
    ∧ (x = 0 → (x + X 2) % 4294967296 = 4294967295
        ∧ ¬ coords_are_fine ((x + X 2) % 4294967296) ((y + Y 2) % 4294967296) g)
    ∧ (y = 0 → (y + Y 3) % 4294967296 = 4294967295
        ∧ ¬ coords_are_fine ((x + X 3) % 4294967296) ((y + Y 3) % 4294967296) g) := by
  refine ⟨?_, ?_, ?_⟩
  · intro c d
    rw [manhattan_one_iff]
    constructor
    · rintro ⟨i, hi, e1, e2, hf⟩
      refine ⟨hf, ?_⟩
      have := nb_adjacent g.width g.heigth x y i hi (by omega) (by omega) hxy.1 hxy.2
        (by show (x + X i) % 4294967296 < g.width; rw [e1]; exact hf.1)
        (by show (y + Y i) % 4294967296 < g.heigth; rw [e2]; exact hf.2)
      have e1' : nbx x i = c := e1
      have e2' : nby y i = d := e2
      rw [e1', e2'] at this
      exact this
    · rintro ⟨hf, hadj⟩
      obtain ⟨i, hi, e1, e2⟩ := adjacent_nb g.width g.heigth x y c d (by omega) (by omega)
        hxy.1 hxy.2 hf.1 hf.2 hadj
      exact ⟨i, hi, e1, e2, hf⟩
  · intro hx
    have e : (x + X 2) % 4294967296 = 4294967295 := by
      rw [hx]
      rfl
    refine ⟨e, ?_⟩
    rintro ⟨h1, -⟩
    rw [e] at h1
    omega
  · intro hy
    have e : (y + Y 3) % 4294967296 = 4294967295 := by
      rw [hy]
      rfl
    refine ⟨e, ?_⟩
    rintro ⟨-, h2⟩
    rw [e] at h2
    omega

/-- C40 on the board of `T3`, at the cell `(0, 0)`. -/
theorem neighbours_exact_witness :
    1 ≤ T3.width ∧ T3.width ≤ 4294967295 ∧ 1 ≤ T3.heigth ∧ T3.heigth ≤ 4294967295
    ∧ coords_are_fine 0 0 T3
    ∧ (∀ c d, (∃ i, i < DIRECTIONS ∧ (0 + X i) % 4294967296 = c ∧ (0 + Y i) % 4294967296 = d
          ∧ coords_are_fine c d T3)
        ↔ (coords_are_fine c d T3 ∧ manhattan 0 0 c d = 1))
    ∧ (0 = 0 → (0 + X 2) % 4294967296 = 4294967295
        ∧ ¬ coords_are_fine ((0 + X 2) % 4294967296) ((0 + Y 2) % 4294967296) T3)
    ∧ (0 = 0 → (0 + Y 3) % 4294967296 = 4294967295
        ∧ ¬ coords_are_fine ((0 + X 3) % 4294967296) ((0 + Y 3) % 4294967296) T3) :=
  ⟨by decide, by decide, by decide, by decide, by decide,
    neighbours_exact T3 (by decide) (by decide) (by decide) (by decide) 0 0 (by decide)⟩

/-- The loop of `ceil_log` adds the number of decimal digits of `x` to `res`. -/
theorem ceil_log_loop_digits :
    ∀ (x fuel res : Nat), (Nat.digits 10 x).length < fuel →
      res + (Nat.digits 10 x).length < 4294967296 →
      ceil_log_loop fuel x res = some (res + (Nat.digits 10 x).length) := by
  intro x
  induction x using Nat.strong_induction_on with
  | _ x ih =>
    intro fuel res hfuel hres
    obtain ⟨f, rfl⟩ : ∃ f, fuel = f + 1 := ⟨fuel - 1, by omega⟩
    unfold ceil_log_loop
    by_cases hx : x = 0
    · rw [if_neg (not_not.2 hx), hx]
      simp
    · rw [if_pos hx]
      have hd : Nat.digits 10 x = (x % 10) :: Nat.digits 10 (x / 10) :=
        Nat.digits_def' (by omega) (Nat.pos_of_ne_zero hx)
      rw [hd, List.length_cons] at hfuel hres ⊢
      have hinc : inc32 res = res + 1 := inc32_small _ (by omega)
      rw [hinc, ih (x / 10) (Nat.div_lt_self (Nat.pos_of_ne_zero hx) (by omega)) f (res + 1)
        (by omega) (by omega)]
      congr 1
      omega

/-- A 32-bit number has at most ten decimal digits. -/
theorem digits_length_le (x : Nat) (hx : x < 4294967296) : (Nat.digits 10 x).length ≤ 10 := by
  by_contra h
  have h1 : 10 ^ 10 ≤ 10 ^ ((Nat.digits 10 x).length - 1) :=
    Nat.pow_le_pow_right (by omega) (by omega)
  have hx0 : x ≠ 0 := by
    rintro rfl
    simp at h
  have h2 := Nat.base_pow_length_digits_le 10 x (by omega) hx0
  have h3 : 10 ^ (Nat.digits 10 x).length = 10 ^ ((Nat.digits 10 x).length - 1) * 10 := by
    rw [← Nat.pow_succ]
    congr 1
    omega
  rw [h3] at h2
  have : (10 : Nat) ^ 10 = 10000000000 := by norm_num
  omega

/-- C38: for every 32-bit `x`, `ceil_log(x)` returns the number of decimal
digits of `x`: it is 0 for `x = 0`, and for `x >= 1` it is the `c` with
`10^(c-1) <= x < 10^c`; hence every player id in `1..x` is below
`10^ceil_log(x)` and has at most `ceil_log(x)` digits. -/
theorem ceil_log_digits (x fuel : Nat) (hx : x < 4294967296) (hfuel : 10 < fuel) :
    ∃ c, ceil_log fuel x = some c ∧ c = (Nat.digits 10 x).length
      ∧ (x = 0 → c = 0)
      ∧ (1 ≤ x → 10 ^ (c - 1) ≤ x ∧ x < 10 ^ c)
      ∧ ∀ p, 1 ≤ p → p ≤ x →
          p < 10 ^ c ∧ ∃ d, ceil_log fuel p = some d ∧ d = (Nat.digits 10 p).length ∧ d ≤ c := by
  have hlen := digits_length_le x hx
  have hc : ceil_log fuel x = some ((Nat.digits 10 x).length) := by
    unfold ceil_log
    rw [ceil_log_loop_digits x fuel 0 (by omega) (by omega), Nat.zero_add]
  have hlt : x < 10 ^ (Nat.digits 10 x).length := Nat.lt_base_pow_length_digits (by omega)
  refine ⟨_, hc, rfl, ?_, ?_, ?_⟩
  · rintro rfl
    simp
  · intro h1
    refine ⟨?_, hlt⟩
    have h2 := Nat.base_pow_length_digits_le 10 x (by omega) (by omega)
    have h3 : 10 ^ (Nat.digits 10 x).length = 10 ^ ((Nat.digits 10 x).length - 1) * 10 := by
      rw [← Nat.pow_succ]
      congr 1
      have : (Nat.digits 10 x).length ≠ 0 := by
        intro h0
        rw [h0] at hlt
        omega
      omega
    rw [h3] at h2
    omega
  · intro p hp1 hpx
    have hmono : (Nat.digits 10 p).length ≤ (Nat.digits 10 x).length :=
      Nat.le_digits_len_le 10 p x hpx
    refine ⟨lt_of_le_of_lt hpx hlt, _, ?_, rfl, hmono⟩
    unfold ceil_log
    rw [ceil_log_loop_digits p fuel 0 (by omega) (by omega), Nat.zero_add]

/-- C38 at `x = 4294967295`, with 11 tests of the loop condition. -/
theorem ceil_log_digits_witness :
    4294967295 < 4294967296 ∧ 10 < 11
    ∧ ∃ c, ceil_log 11 4294967295 = some c ∧ c = (Nat.digits 10 4294967295).length
      ∧ (4294967295 = 0 → c = 0)
      ∧ (1 ≤ 4294967295 → 10 ^ (c - 1) ≤ 4294967295 ∧ 4294967295 < 10 ^ c)
      ∧ ∀ p, 1 ≤ p → p ≤ 4294967295 →
          p < 10 ^ c ∧ ∃ d, ceil_log 11 p = some d ∧ d = (Nat.digits 10 p).length ∧ d ≤ c :=
  ⟨by decide, by decide, ceil_log_digits 4294967295 11 (by decide) (by decide)⟩

/-- C37 fails on the code: with `players = 4294967295` the loop
`for (uint i = 1; i <= players; ++i)` of `gamma_new` never reaches its exit,
for every width, height and limit of areas that are not 0 and however many
tests of the loop condition are allowed. -/
theorem gamma_new_loop_stuck :
    ∀ fuel w h a, gamma_new fuel (w + 1) (h + 1) 4294967295 (a + 1) = none := by
  intro fuel w h a
  unfold gamma_new
  rw [if_neg (by omega), init_players_stuck 4294967295 rfl fuel 1 _ (by decide)]
  rfl

theorem Reach.joined {g : gamma_t} {p f x y a b : Nat} (hw : g.width < 4294967296)
    (hh : g.heigth < 4294967296) (h : Reach g p f x y a b) : Joined g p f x y a b := by
  induction h with
  | seed hs => exact Joined.seed hs
  | step a b i hr hi hwh ih =>
    have hab := hr.white
    exact Joined.step a b _ _ ih
      (nb_adjacent g.width g.heigth a b i hi hw hh hab.1.1 hab.1.2 hwh.1.1 hwh.1.2) hwh

theorem Joined.to_reach {g : gamma_t} {p f x y a b : Nat} (hw : g.width < 4294967296)
    (hh : g.heigth < 4294967296) (h : Joined g p f x y a b) : Reach g p f x y a b := by
  induction h with
  | seed hs => exact Reach.seed hs
  | step a b c d hj hadj hwh ih =>
    have hab := ih.white
    obtain ⟨i, hi, e1, e2⟩ := adjacent_nb g.width g.heigth a b c d hw hh hab.1.1 hab.1.2
      hwh.1.1 hwh.1.2 hadj
    have := Reach.step a b i ih hi (by rw [e1, e2]; exact hwh)
    rw [e1, e2] at this
    exact this

/-- C32: for every grid, owner, seed and ids with `from != to`, a call
`reindexify(g, owner, x, y, from, to)` returns (with recursion depth above the
number of cells), and it rewrites to `to` the area id of exactly the cells
reached from `(x, y)` by steps between 4-neighbours through cells on the board
owned by `owner` whose id is `from` (none if the seed does not qualify); every
other area id, every owner and every other part of the game are unchanged. -/
theorem reindexify_rewrites (g : gamma_t) (hw : g.width < 4294967296)
    (hh : g.heigth < 4294967296) (owner x y from_ind to_ind fuel : Nat)
    (hft : from_ind ≠ to_ind) (hfuel : g.width * g.heigth < fuel) :
    ∃ g', reindexify fuel g owner x y from_ind to_ind = some g'
      ∧ (∀ a b, Joined g owner from_ind x y a b → g'.indexes a b = to_ind)
      ∧ (∀ a b, ¬ Joined g owner from_ind x y a b → g'.indexes a b = g.indexes a b)
      ∧ (¬ White g owner from_ind x y → ∀ a b, ¬ Joined g owner from_ind x y a b)
      ∧ g'.board = g.board ∧ g'.players = g.players
      ∧ g' = { g with indexes := g'.indexes } := by
  obtain ⟨g', e⟩ := reindexify_total fuel g owner x y from_ind to_ind hft hfuel
  have hr := reindexify_relabels fuel g g' owner x y from_ind to_ind hft e
  refine ⟨g', e, ?_, ?_, ?_, ?_, ?_, hr.frame⟩
  · intro a b hj
    exact hr.hit a b (hj.to_reach hw hh)
  · intro a b hj
    exact hr.miss a b (fun hre => hj (hre.joined hw hh))
  · intro hnw a b hj
    exact hnw (hj.to_reach hw hh).white_seed
  · rw [hr.frame]
  · rw [hr.frame]

/-- C32 on the game `T3`: the area of player 2 is renumbered from 1 to 7. -/
theorem reindexify_rewrites_witness :
    T3.width < 4294967296 ∧ T3.heigth < 4294967296 ∧ (1 : Nat) ≠ 7
    ∧ T3.width * T3.heigth < 4
    ∧ ∃ g', reindexify 4 T3 2 0 0 1 7 = some g'
      ∧ (∀ a b, Joined T3 2 1 0 0 a b → g'.indexes a b = 7)
      ∧ (∀ a b, ¬ Joined T3 2 1 0 0 a b → g'.indexes a b = T3.indexes a b)
      ∧ (¬ White T3 2 1 0 0 → ∀ a b, ¬ Joined T3 2 1 0 0 a b)
      ∧ g'.board = T3.board ∧ g'.players = T3.players
      ∧ g' = { T3 with indexes := g'.indexes } :=
  ⟨by decide, by decide, by decide, by decide,
    reindexify_rewrites T3 (by decide) (by decide) 2 0 0 1 7 4 (by decide) (by decide)⟩

theorem foldl_digits_ge (t : List Char) :
    ∀ n, n * 10 ^ t.length ≤ t.foldl (fun n c => 10 * n + (c.toNat - 48)) n := by
  induction t with
  | nil => intro n; simp
  | cons c t ih =>
    intro n
    rw [List.foldl_cons, List.length_cons]
    refine le_trans ?_ (ih _)
    rw [Nat.pow_succ]
    have : n * (10 ^ t.length * 10) = 10 * n * 10 ^ t.length := by ring
    rw [this]
    exact Nat.mul_le_mul_right _ (Nat.le_add_right _ _)

theorem foldl_digits_lt (t : List Char) (ht : ∀ c ∈ t, isdigit c = true) :
    ∀ n, t.foldl (fun n c => 10 * n + (c.toNat - 48)) n < (n + 1) * 10 ^ t.length := by
  induction t with
  | nil => intro n; simp
  | cons c t ih =>
    intro n
    rw [List.foldl_cons, List.length_cons]
    refine lt_of_lt_of_le (ih (fun d hd => ht d (List.mem_cons_of_mem _ hd)) _) ?_
    have hc := ht c (List.mem_cons_self _ _)
    unfold isdigit at hc
    have hc2 := of_decide_eq_true hc
    rw [Nat.pow_succ]
    have : (n + 1) * (10 ^ t.length * 10) = (10 * n + 10) * 10 ^ t.length := by ring
    rw [this]
    exact Nat.mul_le_mul_right _ (by omega)

theorem char_zero_iff (c : Char) : c = '0' ↔ c.toNat = 48 := by
  constructor
  · rintro rfl
    rfl
  · intro h
    have := Char.ofNat_toNat c
    rw [h] at this
    exact this.symm

/-- A numeral of more than one digit is at least `10^(length - 1)`. -/
theorem numeral_value_ge (t : List Char) (ht : ∀ c ∈ t, isdigit c = true)
    (hz : t.head? ≠ some '0') (hne : t ≠ []) : 10 ^ (t.length - 1) ≤ decimal_value t := by
  cases t with
  | nil => exact absurd rfl hne
  | cons c t =>
    unfold decimal_value
    rw [List.foldl_cons, List.length_cons]
    have hc := of_decide_eq_true (ht c (List.mem_cons_self _ _))
    have hc0 : c.toNat ≠ 48 := by
      intro h
      apply hz
      rw [List.head?_cons, (char_zero_iff c).2 h]
    refine le_trans ?_ (foldl_digits_ge t _)
    have e : t.length + 1 - 1 = t.length := by omega
    rw [e]
    have h1 : 1 ≤ 10 * 0 + (c.toNat - 48) := by omega
    calc 10 ^ t.length = 1 * 10 ^ t.length := by ring
      _ ≤ _ := Nat.mul_le_mul_right _ h1

theorem decimal_value_lt (t : List Char) (ht : ∀ c ∈ t, isdigit c = true) :
    decimal_value t < 10 ^ t.length := by
  have := foldl_digits_lt t ht 0
  unfold decimal_value
  omega

/-- The buffer of a token holds the characters of the token. -/
theorem range_all_buffer (t : List Char) (P : Char → Bool) :
    ((List.range t.length).all fun i => P (c_buffer t i)) = true ↔ ∀ c ∈ t, P c = true := by
  rw [List.all_eq_true]
  constructor
  · intro h c hc
    obtain ⟨i, hi, e⟩ := List.getElem_of_mem hc
    have := h i (List.mem_range.2 hi)
    unfold c_buffer at this
    rw [List.getD_eq_getElem _ _ hi, e] at this
    exact this
  · intro h i hi
    have hi2 := List.mem_range.1 hi
    unfold c_buffer
    rw [List.getD_eq_getElem _ _ hi2]
    exact h _ (List.getElem_mem _)

/-- What `is_fine_number` accepts among the tokens that are not empty. -/
theorem is_fine_number_iff (t : List Char) (hne : t ≠ []) :
    is_fine_number (c_buffer t) ((t.length : Int) + 1) = true
      ↔ (∀ c ∈ t, isdigit c = true)
        ∧ (t.length = 1 ∨ (t.head? ≠ some '0' ∧ t.length ≤ 10)) := by
  cases t with
  | nil => exact absurd rfl hne
  | cons c t =>
    have hbuf0 : c_buffer (c :: t) 0 = c := rfl
    have hlen : (((c :: t).length : Int) + 1 - 1).toNat = (c :: t).length := by
      simp
    have hA := range_all_buffer (c :: t) isdigit
    unfold is_fine_number
    rw [hbuf0, hlen]
    generalize ((List.range (c :: t).length).all fun i => isdigit (c_buffer (c :: t) i)) = A
      at hA ⊢
    simp only [List.length_cons, List.head?_cons, Option.some.injEq, ne_eq] at hA ⊢
    have e1 : ((t.length + 1 : Nat) : Int) + 1 - 1 = (t.length : Int) + 1 := by
      push_cast
      ring
    simp only [e1]
    by_cases h1 : t.length = 0
    · have ht : t = [] := List.length_eq_zero.1 h1
      subst ht
      simp only [List.length_nil, Nat.cast_zero, zero_add, List.mem_singleton, forall_eq] at hA ⊢
      by_cases hd : isdigit c = true
      · simp [hd]
      · have hAf : A = false := by
          cases hA' : A
          · rfl
          · exact absurd (hA.1 hA') hd
        simp [hd, hAf]
    · have hpos : (1 : Int) < (t.length : Int) + 1 := by omega
      rw [if_neg (by omega), if_neg (by omega)]
      by_cases hz : c = '0'
      · rw [if_pos ⟨by omega, hz⟩]
        simp [hz, h1]
      · rw [if_neg (fun h => hz h.2)]
        by_cases h10 : t.length + 1 ≤ 10
        · rw [if_neg (by omega), hA]
          simp [hz, h10]
        · rw [if_pos (by omega)]
          simp [h1, h10]

/-- On a numeral of at most ten digits `strtoull` returns its value. -/
theorem strtoull_numeral (t : List Char) (ht : ∀ c ∈ t, isdigit c = true) (hne : t ≠ [])
    (hlen : t.length ≤ 10) : strtoull t = decimal_value t := by
  cases t with
  | nil => exact absurd rfl hne
  | cons c t =>
    have hc := of_decide_eq_true (ht c (List.mem_cons_self _ _))
    have hsp : isspace c = false := by
      unfold isspace
      exact decide_eq_false (by omega)
    have hminus : c ≠ '-' := by
      rintro rfl
      revert hc
      decide
    have hplus : c ≠ '+' := by
      rintro rfl
      revert hc
      decide
    have hv := decimal_value_lt (c :: t) ht
    have hpow : 10 ^ (c :: t).length ≤ 10 ^ 10 := Nat.pow_le_pow_right (by omega) hlen
    have h10 : (10 : Nat) ^ 10 = 10000000000 := by norm_num
    have htake : (c :: t).takeWhile isdigit = c :: t :=
      List.takeWhile_eq_self_iff.2 ht
    unfold strtoull
    simp only [List.dropWhile_cons, hsp, Bool.false_eq_true, if_false, List.head?_cons,
      Option.some.injEq, hminus, hplus, or_self, htake]
    rw [if_neg (by omega)]

theorem c_string_digits (t : List Char) (ht : ∀ c ∈ t, isdigit c = true) : c_string t = t := by
  unfold c_string
  rw [List.takeWhile_eq_self_iff]
  intro c hc
  have := of_decide_eq_true (ht c hc)
  simp only [ne_eq, decide_not, Bool.not_eq_true', decide_eq_false_iff_not]
  rintro rfl
  revert this
  decide

/-- C36: a non-empty argument token passes both `is_fine_number` and `convert`
if and only if it is a decimal numeral without leading zeros (or the single
digit 0) whose value is at most 4294967295; `convert` then stores that value;
an absent argument converts to 0. -/
theorem number_accepted_iff (t : List Char) (r0 : Nat) (hne : t ≠ []) :
    ((is_fine_number (c_buffer t) ((t.length : Int) + 1) = true
        ∧ (convert (c_string t) r0).1 = true)
      ↔ (numeral t ∧ decimal_value t ≤ 4294967295))
    ∧ (numeral t ∧ decimal_value t ≤ 4294967295 →
        convert (c_string t) r0 = (true, decimal_value t))
    ∧ is_fine_number (c_buffer []) 1 = true ∧ convert (c_string []) r0 = (true, 0) := by
  have hconv : ∀ (hd : ∀ c ∈ t, isdigit c = true) (hl : t.length ≤ 10),
      convert (c_string t) r0
        = if decimal_value t ≤ 4294967295 then (true, decimal_value t) else (false, r0) := by
    intro hd hl
    unfold convert MAXUINT
    rw [c_string_digits t hd, if_neg hne, strtoull_numeral t hd hne hl]
    by_cases hv : decimal_value t ≤ 4294967295
    · rw [if_pos hv, if_pos hv]
      unfold to_uint
      rw [Nat.mod_eq_of_lt (by omega)]
    · rw [if_neg hv, if_neg hv]
  have hlen10 : numeral t → decimal_value t ≤ 4294967295 → t.length ≤ 10 := by
    rintro ⟨hd, hz⟩ hv
    rcases hz with hz | hz
    · rw [hz]
      decide
    · by_contra hl
      have h1 := numeral_value_ge t hd hz hne
      have h2 : 10 ^ 10 ≤ 10 ^ (t.length - 1) := Nat.pow_le_pow_right (by omega) (by omega)
      have h10 : (10 : Nat) ^ 10 = 10000000000 := by norm_num
      omega
  refine ⟨?_, ?_, rfl, rfl⟩
  · rw [is_fine_number_iff t hne]
    constructor
    · rintro ⟨⟨hd, hcase⟩, hc⟩
      have hl : t.length ≤ 10 := by
        rcases hcase with h | h
        · omega
        · exact h.2
      rw [hconv hd hl] at hc
      refine ⟨⟨hd, ?_⟩, ?_⟩
      · rcases hcase with h | h
        · obtain ⟨c, rfl⟩ := List.length_eq_one.1 h
          by_cases hz : c = '0'
          · exact Or.inl (by rw [hz])
          · refine Or.inr ?_
            rw [List.head?_cons]
            intro e
            exact hz (Option.some.inj e)
        · exact Or.inr h.1
      · by_contra hv
        rw [if_neg hv] at hc
        simp at hc
    · rintro ⟨hn, hv⟩
      have hl := hlen10 hn hv
      refine ⟨⟨hn.1, ?_⟩, ?_⟩
      · rcases hn.2 with hz | hz
        · exact Or.inl (by rw [hz]; rfl)
        · exact Or.inr ⟨hz, hl⟩
      · rw [hconv hn.1 hl, if_pos hv]
  · rintro ⟨hn, hv⟩
    rw [hconv hn.1 (hlen10 hn hv), if_pos hv]

/-- C36 on the token `4294967295`. -/
theorem number_accepted_iff_witness :
    ['4', '2', '9', '4', '9', '6', '7', '2', '9', '5'] ≠ []
    ∧ ((is_fine_number (c_buffer ['4', '2', '9', '4', '9', '6', '7', '2', '9', '5'])
            ((['4', '2', '9', '4', '9', '6', '7', '2', '9', '5'].length : Int) + 1) = true
          ∧ (convert (c_string ['4', '2', '9', '4', '9', '6', '7', '2', '9', '5']) 7).1 = true)
        ↔ (numeral ['4', '2', '9', '4', '9', '6', '7', '2', '9', '5']
          ∧ decimal_value ['4', '2', '9', '4', '9', '6', '7', '2', '9', '5'] ≤ 4294967295))
    ∧ (numeral ['4', '2', '9', '4', '9', '6', '7', '2', '9', '5']
          ∧ decimal_value ['4', '2', '9', '4', '9', '6', '7', '2', '9', '5'] ≤ 4294967295 →
        convert (c_string ['4', '2', '9', '4', '9', '6', '7', '2', '9', '5']) 7
          = (true, decimal_value ['4', '2', '9', '4', '9', '6', '7', '2', '9', '5']))
    ∧ is_fine_number (c_buffer []) 1 = true ∧ convert (c_string []) 7 = (true, 0) :=
  ⟨by decide, number_accepted_iff ['4', '2', '9', '4', '9', '6', '7', '2', '9', '5'] 7
    (by decide)⟩

theorem tokens_from_space (c : Char) (rest cur : List Char) (hc : isspace c = true) :
    tokens_from (c :: rest) cur
      = if cur = [] then tokens_from rest [] else cur :: tokens_from rest [] := by
  rw [tokens_from, if_pos hc]

theorem tokens_from_other (c : Char) (rest cur : List Char) (hc : ¬ isspace c = true) :
    tokens_from (c :: rest) cur = tokens_from rest (cur ++ [c]) := by
  rw [tokens_from, if_neg hc]

theorem read_token_space (c : Char) (rest cur : List Char) (hc : isspace c = true) :
    read_token (c :: rest) cur = (cur, c :: rest) := by
  rw [read_token, if_pos hc]

theorem read_token_other (c : Char) (rest cur : List Char) (hc : ¬ isspace c = true) :
    read_token (c :: rest) cur = read_token rest (cur ++ [c]) := by
  rw [read_token, if_neg hc]

theorem skip_spaces_space (c : Char) (rest : List Char) (hc : isspace c = true) :
    skip_spaces (c :: rest) = skip_spaces rest := by
  rw [skip_spaces, if_pos hc]

theorem skip_spaces_other (c : Char) (rest : List Char) (hc : ¬ isspace c = true) :
    skip_spaces (c :: rest) = c :: rest := by
  rw [skip_spaces, if_neg hc]

theorem skip_spaces_tokens : ∀ r, tokens_from (skip_spaces r) [] = tokens_from r [] := by
  intro r
  induction r with
  | nil => rfl
  | cons c rest ih =>
    by_cases hc : isspace c = true
    · rw [skip_spaces_space c rest hc, ih, tokens_from_space c rest [] hc, if_pos rfl]
    · rw [skip_spaces_other c rest hc]

theorem tokens_from_read : ∀ r cur,
    tokens_from r cur
      = opt_token (read_token r cur).1 ++ tokens_from (skip_spaces (read_token r cur).2) [] := by
  intro r
  induction r with
  | nil =>
    intro cur
    simp [tokens_from, read_token, skip_spaces, opt_token]
  | cons c rest ih =>
    intro cur
    by_cases hc : isspace c = true
    · rw [tokens_from_space c rest cur hc, read_token_space c rest cur hc]
      simp only
      rw [skip_spaces_tokens, tokens_from_space c rest [] hc, if_pos rfl]
      unfold opt_token
      by_cases hcur : cur = []
      · rw [if_pos hcur, if_pos hcur]
        rfl
      · rw [if_neg hcur, if_neg hcur]
        rfl
    · rw [tokens_from_other c rest cur hc, read_token_other c rest cur hc]
      exact ih _

theorem read_token_length : ∀ r cur, cur.length ≤ (read_token r cur).1.length := by
  intro r
  induction r with
  | nil => intro cur; exact le_refl _
  | cons c rest ih =>
    intro cur
    by_cases hc : isspace c = true
    · rw [read_token_space c rest cur hc]
    · rw [read_token_other c rest cur hc]
      refine le_trans ?_ (ih _)
      simp

theorem skip_spaces_head (r : List Char) :
    skip_spaces r = [] ∨ ∃ c rest, skip_spaces r = c :: rest ∧ isspace c = false := by
  induction r with
  | nil => exact Or.inl rfl
  | cons c rest ih =>
    by_cases hc : isspace c = true
    · rw [skip_spaces_space c rest hc]
      exact ih
    · rw [skip_spaces_other c rest hc]
      exact Or.inr ⟨c, rest, rfl, by simpa using hc⟩

/-- After the white space a token that is empty means the line is used up. -/
theorem read_after_skip (r : List Char) :
    (skip_spaces r = [] ∧ read_token (skip_spaces r) [] = ([], []))
      ∨ (skip_spaces r ≠ [] ∧ (read_token (skip_spaces r) []).1 ≠ []) := by
  rcases skip_spaces_head r with h | ⟨c, rest, h, hc⟩
  · left
    rw [h]
    exact ⟨rfl, rfl⟩
  · right
    rw [h]
    refine ⟨by simp, ?_⟩
    rw [read_token_other c rest [] (by simp [hc])]
    intro h0
    have := read_token_length rest ([] ++ [c])
    rw [h0] at this
    simp at this

theorem skip_spaces_nil : skip_spaces [] = [] := rfl

theorem tokens_from_nil_iff (r : List Char) : tokens_from r [] = [] ↔ skip_spaces r = [] := by
  rw [← skip_spaces_tokens, tokens_from_read]
  rcases read_after_skip r with ⟨h1, h2⟩ | ⟨h1, h2⟩
  · rw [h2, h1]
    simp [opt_token, skip_spaces, tokens_from]
  · constructor
    · intro h
      exfalso
      have := (List.append_eq_nil.1 h).1
      unfold opt_token at this
      rw [if_neg h2] at this
      exact absurd this (by simp)
    · intro h
      exact absurd h h1

/-- The tokens of a line that does not start with white space, in terms of the
pieces `analyse_line` cuts out. -/
theorem tokens_cut (line : List Char) :
    tokens line = opt_token (cut_line line).command ++ opt_token (cut_line line).arg1
      ++ opt_token (cut_line line).arg2 ++ opt_token (cut_line line).arg3
      ++ opt_token (cut_line line).arg4 ++ tokens_from (cut_line line).rest [] := by
  unfold tokens cut_line
  simp only
  rw [tokens_from_read line [], tokens_from_read (skip_spaces (read_token line []).2) [],
    tokens_from_read (skip_spaces (read_token (skip_spaces (read_token line []).2) []).2) [],
    tokens_from_read (skip_spaces (read_token (skip_spaces
      (read_token (skip_spaces (read_token line []).2) []).2) []).2) [],
    tokens_from_read (skip_spaces (read_token (skip_spaces (read_token (skip_spaces
      (read_token (skip_spaces (read_token line []).2) []).2) []).2) []).2) [],
    skip_spaces_tokens]
  simp only [List.append_assoc]

/-- When something is left after the fifth piece, none of the four arguments
is empty. -/
theorem cut_line_full (line : List Char) (h : (cut_line line).rest ≠ []) :
    (cut_line line).arg1 ≠ [] ∧ (cut_line line).arg2 ≠ [] ∧ (cut_line line).arg3 ≠ []
      ∧ (cut_line line).arg4 ≠ [] := by
  unfold cut_line at h ⊢
  simp only at h ⊢
  rcases read_after_skip (read_token line []).2 with ⟨a1, a2⟩ | ⟨a1, a2⟩
  · exfalso
    apply h
    rw [a2]
    rfl
  rcases read_after_skip (read_token (skip_spaces (read_token line []).2) []).2
    with ⟨b1, b2⟩ | ⟨b1, b2⟩
  · exfalso
    apply h
    rw [b2]
    rfl
  rcases read_after_skip (read_token (skip_spaces
      (read_token (skip_spaces (read_token line []).2) []).2) []).2 with ⟨c1, c2⟩ | ⟨c1, c2⟩
  · exfalso
    apply h
    rw [c2]
    rfl
  rcases read_after_skip (read_token (skip_spaces (read_token (skip_spaces
      (read_token (skip_spaces (read_token line []).2) []).2) []).2) []).2
    with ⟨d1, d2⟩ | ⟨d1, d2⟩
  · exfalso
    apply h
    rw [d2]
    rfl
  exact ⟨a2, b2, c2, d2⟩

theorem opt_token_length_le (t : List Char) : (opt_token t).length ≤ 1 := by
  unfold opt_token
  split <;> simp

theorem forall_opt_token (P : List Char → Prop) (hP : P []) (t : List Char) :
    (∀ s ∈ opt_token t, P s) ↔ P t := by
  unfold opt_token
  by_cases h : t = []
  · rw [if_pos h, h]
    simp [hP]
  · rw [if_neg h]
    simp

theorem skip_spaces_idem (r : List Char) : skip_spaces (skip_spaces r) = skip_spaces r := by
  rcases skip_spaces_head r with h | ⟨c, rest, h, hc⟩
  · rw [h]
    rfl
  · rw [h, skip_spaces_other c rest (by simp [hc])]

theorem ignored_line_iff (line : List Char) :
    (line.length = 0 ∨ line.head? = some '#' ∨ (line.length = 1 ∧ line.head? = some '\n'))
      ↔ ignored_line line := by
  unfold ignored_line
  cases line with
  | nil => simp
  | cons c t =>
    cases t with
    | nil => simp; tauto
    | cons d t => simp

theorem any_wrong_iff (line : List Char) :
    line.any (fun c => wrong_sign c && !isspace c) = true
      ↔ ∃ c ∈ line, c.toNat < 33 ∧ isspace c = false := by
  rw [List.any_eq_true]
  constructor
  · rintro ⟨c, hc, h⟩
    simp only [Bool.and_eq_true, Bool.not_eq_eq_eq_not, Bool.not_true] at h
    exact ⟨c, hc, of_decide_eq_true h.1, h.2⟩
  · rintro ⟨c, hc, h1, h2⟩
    refine ⟨c, hc, ?_⟩
    simp only [Bool.and_eq_true, Bool.not_eq_eq_eq_not, Bool.not_true]
    exact ⟨decide_eq_true h1, h2⟩

theorem head_space_iff (line : List Char) :
    line.head?.map isspace = some true ↔ ∃ c, line.head? = some c ∧ isspace c = true := by
  cases line with
  | nil => simp
  | cons c t => simp

theorem fine_empty : is_fine_number (c_buffer []) (((([] : List Char).length : Nat) : Int) + 1)
    = true := by
  decide

/-- The value of `analyse_line` on each class of lines. -/
theorem analyse_line_cases (line : List Char) :
    (ignored_line line → analyse_line line = -1)
    ∧ (¬ ignored_line line → broken_line line → analyse_line line = 0)
    ∧ (¬ ignored_line line → ¬ broken_line line → valid_command line → analyse_line line = 1)
    ∧ (¬ ignored_line line → ¬ broken_line line → ¬ valid_command line →
        analyse_line line = 0) := by
  by_cases hig : ignored_line line
  · refine ⟨fun _ => ?_, fun h => absurd hig h, fun h => absurd hig h, fun h => absurd hig h⟩
    unfold analyse_line
    rw [if_pos ((ignored_line_iff line).2 hig)]
  refine ⟨fun h => absurd h hig, ?_⟩
  have h0 : ¬ (line.length = 0 ∨ line.head? = some '#'
      ∨ (line.length = 1 ∧ line.head? = some '\n')) := fun h => hig ((ignored_line_iff line).1 h)
  by_cases h1 : line.getLast? ≠ some '\n'
  · have hb : broken_line line := Or.inl h1
    have hv : analyse_line line = 0 := by
      unfold analyse_line
      rw [if_neg h0, if_pos h1]
    exact ⟨fun _ _ => hv, fun _ h => absurd hb h, fun _ h => absurd hb h⟩
  by_cases h2 : line.any (fun c => wrong_sign c && !isspace c) = true
  · have hb : broken_line line := Or.inr (Or.inl ((any_wrong_iff line).1 h2))
    have hv : analyse_line line = 0 := by
      unfold analyse_line
      rw [if_neg h0, if_neg h1, if_pos h2]
    exact ⟨fun _ _ => hv, fun _ h => absurd hb h, fun _ h => absurd hb h⟩
  by_cases h3 : line.head?.map isspace = some true
  · have hb : broken_line line := Or.inr (Or.inr (Or.inl ((head_space_iff line).1 h3)))
    have hv : analyse_line line = 0 := by
      unfold analyse_line
      rw [if_neg h0, if_neg h1, if_neg h2, if_pos h3]
    exact ⟨fun _ _ => hv, fun _ h => absurd hb h, fun _ h => absurd hb h⟩
  -- the line starts with a character that is not white space
  have hcmd : (cut_line line).command ≠ [] := by
    cases line with
    | nil => exact absurd (Or.inl rfl) h0
    | cons c t =>
      have hc : ¬ isspace c = true := by
        intro hc
        apply h3
        simp [hc]
      show (read_token (c :: t) []).1 ≠ []
      rw [read_token_other c t [] hc]
      intro e
      have := read_token_length t ([] ++ [c])
      rw [e] at this
      simp at this
  have htok := tokens_cut line
  have hopt : opt_token (cut_line line).command = [(cut_line line).command] := by
    unfold opt_token
    rw [if_neg hcmd]
  rw [hopt] at htok
  by_cases h4 : (cut_line line).rest ≠ []
  · have hv : analyse_line line = 0 := by
      unfold analyse_line
      rw [if_neg h0, if_neg h1, if_neg h2, if_neg h3, if_pos h4]
    have hfull := cut_line_full line h4
    have hrest : tokens_from (cut_line line).rest [] ≠ [] := by
      rw [ne_eq, tokens_from_nil_iff]
      have : skip_spaces (cut_line line).rest = (cut_line line).rest := by
        show skip_spaces (skip_spaces _) = skip_spaces _
        exact skip_spaces_idem _
      rw [this]
      exact h4
    have hb : broken_line line := by
      refine Or.inr (Or.inr (Or.inr ?_))
      rw [htok]
      have e1 : opt_token (cut_line line).arg1 = [(cut_line line).arg1] := by
        unfold opt_token
        rw [if_neg hfull.1]
      have e2 : opt_token (cut_line line).arg2 = [(cut_line line).arg2] := by
        unfold opt_token
        rw [if_neg hfull.2.1]
      have e3 : opt_token (cut_line line).arg3 = [(cut_line line).arg3] := by
        unfold opt_token
        rw [if_neg hfull.2.2.1]
      have e4 : opt_token (cut_line line).arg4 = [(cut_line line).arg4] := by
        unfold opt_token
        rw [if_neg hfull.2.2.2]
      rw [e1, e2, e3, e4]
      have hpos : 0 < (tokens_from (cut_line line).rest []).length :=
        List.length_pos.2 hrest
      simp only [List.length_append, List.length_singleton]
      omega
    exact ⟨fun _ _ => hv, fun _ h => absurd hb h, fun _ h => absurd hb h⟩
  · have hr : (cut_line line).rest = [] := not_not.1 h4
    rw [hr] at htok
    have htn : tokens_from [] [] = [] := rfl
    rw [htn, List.append_nil] at htok
    have hnb : ¬ broken_line line := by
      rintro (h | h | h | h)
      · exact h1 h
      · exact h2 ((any_wrong_iff line).2 h)
      · exact h3 ((head_space_iff line).2 h)
      · rw [htok] at h
        have l1 := opt_token_length_le (cut_line line).arg1
        have l2 := opt_token_length_le (cut_line line).arg2
        have l3 := opt_token_length_le (cut_line line).arg3
        have l4 := opt_token_length_le (cut_line line).arg4
        simp only [List.length_append, List.length_singleton] at h
        omega
    have hval : valid_command line ↔
        ((cut_line line).command.length + 1 = 2
        ∧ is_fine_number (c_buffer (cut_line line).arg1)
            (((cut_line line).arg1.length : Int) + 1) = true
        ∧ is_fine_number (c_buffer (cut_line line).arg2)
            (((cut_line line).arg2.length : Int) + 1) = true
        ∧ is_fine_number (c_buffer (cut_line line).arg3)
            (((cut_line line).arg3.length : Int) + 1) = true
        ∧ is_fine_number (c_buffer (cut_line line).arg4)
            (((cut_line line).arg4.length : Int) + 1) = true) := by
      have htok2 : tokens line = (cut_line line).command
          :: (opt_token (cut_line line).arg1 ++ (opt_token (cut_line line).arg2
            ++ (opt_token (cut_line line).arg3 ++ opt_token (cut_line line).arg4))) := by
        rw [htok]
        simp
      unfold valid_command
      rw [htok2, List.head?_cons, List.tail_cons]
      simp only [List.mem_append]
      have q1 := forall_opt_token
        (fun t => is_fine_number (c_buffer t) ((t.length : Int) + 1) = true) fine_empty
        (cut_line line).arg1
      have q2 := forall_opt_token
        (fun t => is_fine_number (c_buffer t) ((t.length : Int) + 1) = true) fine_empty
        (cut_line line).arg2
      have q3 := forall_opt_token
        (fun t => is_fine_number (c_buffer t) ((t.length : Int) + 1) = true) fine_empty
        (cut_line line).arg3
      have q4 := forall_opt_token
        (fun t => is_fine_number (c_buffer t) ((t.length : Int) + 1) = true) fine_empty
        (cut_line line).arg4
      simp only at q1 q2 q3 q4
      constructor
      · rintro ⟨⟨cmd, hcm, hc⟩, hall⟩
        have hcm2 : (cut_line line).command = cmd := Option.some.inj hcm
        rw [← hcm2] at hc
        exact ⟨by omega, q1.1 (fun s hs => hall s (Or.inl hs)),
          q2.1 (fun s hs => hall s (Or.inr (Or.inl hs))),
          q3.1 (fun s hs => hall s (Or.inr (Or.inr (Or.inl hs)))),
          q4.1 (fun s hs => hall s (Or.inr (Or.inr (Or.inr hs))))⟩
      · rintro ⟨hc, f1, f2, f3, f4⟩
        refine ⟨⟨_, rfl, by omega⟩, ?_⟩
        rintro s (hs | hs | hs | hs)
        · exact q1.2 f1 s hs
        · exact q2.2 f2 s hs
        · exact q3.2 f3 s hs
        · exact q4.2 f4 s hs
    refine ⟨fun _ h => absurd h hnb, fun _ _ hv => ?_, fun _ _ hv => ?_⟩
    · unfold analyse_line
      rw [if_neg h0, if_neg h1, if_neg h2, if_neg h3, if_neg h4, if_pos (hval.1 hv)]
    · unfold analyse_line
      rw [if_neg h0, if_neg h1, if_neg h2, if_neg h3, if_neg h4,
        if_neg (fun h => hv (hval.2 h))]

/-- C31: `analyse_line` returns -1 exactly for the lines that are empty, a
lone newline or start with `#`; among the other lines it returns 0 for those
that do not end with a newline, contain a character below code 33 that is not
white space, start with white space or have more than five tokens; among the
rest it returns 1 exactly when the command token is a single character and
every argument token passes `is_fine_number`, and 0 if not. It returns no
other value. -/
theorem analyse_line_classifies (line : List Char) :
    (analyse_line line = -1 ↔ ignored_line line)
    ∧ (analyse_line line = 0
        ↔ ¬ ignored_line line ∧ (broken_line line ∨ ¬ valid_command line))
    ∧ (analyse_line line = 1
        ↔ ¬ ignored_line line ∧ ¬ broken_line line ∧ valid_command line)
    ∧ (analyse_line line = -1 ∨ analyse_line line = 0 ∨ analyse_line line = 1) := by
  obtain ⟨c1, c2, c3, c4⟩ := analyse_line_cases line
  by_cases hig : ignored_line line
  · have e := c1 hig
    rw [e]
    refine ⟨iff_of_true rfl hig, iff_of_false (by decide) (fun h => h.1 hig),
      iff_of_false (by decide) (fun h => h.1 hig), Or.inl rfl⟩
  by_cases hb : broken_line line
  · have e := c2 hig hb
    rw [e]
    exact ⟨iff_of_false (by decide) hig, iff_of_true rfl ⟨hig, Or.inl hb⟩,
      iff_of_false (by decide) (fun h => h.2.1 hb), Or.inr (Or.inl rfl)⟩
  by_cases hv : valid_command line
  · have e := c3 hig hb hv
    rw [e]
    exact ⟨iff_of_false (by decide) hig,
      iff_of_false (by decide) (fun h => h.2.elim hb (fun k => k hv)),
      iff_of_true rfl ⟨hig, hb, hv⟩, Or.inr (Or.inr rfl)⟩
  · have e := c4 hig hb hv
    rw [e]
    exact ⟨iff_of_false (by decide) hig, iff_of_true rfl ⟨hig, Or.inr hv⟩,
      iff_of_false (by decide) (fun h => hv h.2.2), Or.inr (Or.inl rfl)⟩

/-- With `from = to` a call of `reindexify` that returns has changed nothing. -/
theorem reindexify_same_id (p f : Nat) :
    ∀ (fuel : Nat) (g g' : gamma_t) (x y : Nat),
      reindexify fuel g p x y f f = some g' → g' = g := by
  intro fuel
  induction fuel with
  | zero => intro g g' x y h; simp [reindexify] at h
  | succ n ih =>
    intro g g' x y h
    rw [reindexify_unfold] at h
    by_cases hc : coords_are_fine x y g ∧ g.board x y = p ∧ g.indexes x y = f
    · rw [if_pos hc] at h
      have e0 : ({ g with indexes := set_cell g.indexes x y f } : gamma_t) = g := by
        rw [set_cell_eq_self _ _ _ _ hc.2.2]
      rw [e0] at h
      simp only [Option.bind_eq_some] at h
      obtain ⟨g1, e1, g2, e2, g3, e3, e4⟩ := h
      have a1 := ih _ _ _ _ e1
      rw [a1] at e2
      have a2 := ih _ _ _ _ e2
      rw [a2] at e3
      have a3 := ih _ _ _ _ e3
      rw [a3] at e4
      exact ih _ _ _ _ e4
    · rw [if_neg hc] at h
      simp only [Option.some.injEq] at h
      exact h.symm

/-- With `from = to`, a seed that qualifies and has a neighbour that qualifies
makes `reindexify` call itself without end. -/
theorem reindexify_cycles (p f : Nat) (g : gamma_t) (hw : g.width < 4294967296)
    (hh : g.heigth < 4294967296) :
    ∀ (fuel x y : Nat), White g p f x y →
      (∃ i, i < 4 ∧ White g p f (nbx x i) (nby y i)) →
      reindexify fuel g p x y f f = none := by
  intro fuel
  induction fuel with
  | zero => intro x y _ _; rfl
  | succ n ih =>
    intro x y hwh hnb
    obtain ⟨i, hi, hwi⟩ := hnb
    have hwh2 : coords_are_fine x y g ∧ g.board x y = p ∧ g.indexes x y = f := hwh
    rw [reindexify_unfold, if_pos hwh2]
    have e0 : ({ g with indexes := set_cell g.indexes x y f } : gamma_t) = g := by
      rw [set_cell_eq_self _ _ _ _ hwh.2.2]
    rw [e0]
    have hback := nb_back g.width g.heigth x y i hi hw hh hwh.1.1 hwh.1.2 hwi.1.1 hwi.1.2
    have hstuck : reindexify n g p (nbx x i) (nby y i) f f = none := by
      apply ih _ _ hwi
      refine ⟨opp i, opp_lt i, ?_⟩
      rw [hback.1, hback.2]
      exact hwh
    have step : ∀ (j : Nat) (F : gamma_t → Option gamma_t), (F g = none) →
        (reindexify n g p (nbx x j) (nby y j) f f).bind F = none := by
      intro j F hF
      cases hr : reindexify n g p (nbx x j) (nby y j) f f with
      | none => rfl
      | some g1 =>
        rw [Option.some_bind, reindexify_same_id p f n g g1 _ _ hr]
        exact hF
    have hcases : i = 0 ∨ i = 1 ∨ i = 2 ∨ i = 3 := by omega
    rcases hcases with e | e | e | e
    · rw [e] at hstuck
      rw [hstuck]
      rfl
    · rw [e] at hstuck
      apply step
      rw [hstuck]
      rfl
    · rw [e] at hstuck
      apply step
      apply step
      rw [hstuck]
      rfl
    · rw [e] at hstuck
      apply step
      apply step
      apply step
      exact hstuck

attribute [local semireducible] B6

set_option maxRecDepth 100000 in
theorem H2_facts :
    gamma_golden_possible_con H2 1 ∧ coords_are_fine 4 0 H2 ∧ H2.board 4 0 = 2
    ∧ to_uint (H2.indexes 4 0) = 2 ∧ to_uint (H2.players 2).next_ind = 2
    ∧ coords_are_fine (nbx 4 0) (nby 0 0) H2 ∧ H2.board (nbx 4 0) (nby 0 0) = 2
    ∧ H2cut.width = 9 ∧ H2cut.heigth = 1
    ∧ White H2cut 2 2 (nbx 4 0) (nby 0 0)
    ∧ White H2cut 2 2 (nbx (nbx 4 0) 0) (nby (nby 0 0) 0) := by
  unfold White
  decide

attribute [local irreducible] B6

theorem H2_reachable : Reachable H2 := by
  have h := Hn_reachable 4294967297 (by omega) (by omega)
  have e : to_uint 4294967297 = 1 := by decide
  rw [e] at h
  exact h

/-- In the game `H2` the call `gamma_golden_move(g, 1, 4, 0)` does not return. -/
theorem H2_golden_stuck (fuel : Nat) : gamma_golden_move fuel H2 1 4 0 = none := by
  have f := H2_facts
  have hdir : golden_move_dir fuel H2 2 1 2 2 4 0 0 = none := by
    unfold golden_move_dir
    rw [if_pos ⟨f.2.2.2.2.2.1, f.2.2.2.2.2.2.1⟩, if_pos f.2.2.1]
    show (reindexify fuel H2cut 2 (nbx 4 0) (nby 0 0) 2 2).map _ = none
    rw [reindexify_cycles 2 2 H2cut (by rw [f.2.2.2.2.2.2.2.1]; decide)
      (by rw [f.2.2.2.2.2.2.2.2.1]; decide) fuel _ _ f.2.2.2.2.2.2.2.2.2.1
      ⟨0, by decide, f.2.2.2.2.2.2.2.2.2.2⟩]
    rfl
  rw [gamma_golden_move_unfold, if_neg, f.2.2.1, f.2.2.2.1, f.2.2.2.2.1, hdir]
  · rfl
  · rintro (h | h | h | h)
    · exact h f.1
    · exact h f.2.1
    · rw [f.2.2.1] at h
      exact absurd h (by decide)
    · rw [f.2.2.1] at h
      exact absurd h (by decide)

/-- The function `reindexify` returns on every grid whenever `from != to`
(with recursion depth above the number of cells); and in every state reached
from `gamma_new` while fewer than `2^32` area ids were minted for each player
and in which every id counter is at most `2^32 - W * H - 6`, the area id of
every owned cell differs, as a 32-bit value, from the next `W * H + 6` ids of
its owner, and `gamma_move`, `gamma_golden_move` and `gamma_golden_possible`
return for all arguments. -/
theorem operations_return (g : gamma_t) (h : FitReachable g) (fuel : Nat)
    (hfuel : g.width * g.heigth < fuel) (hroom : room (g.width * g.heigth + 6) g) :
    (∀ (G : gamma_t) (owner x y from_ind to_ind depth : Nat), from_ind ≠ to_ind →
        G.width * G.heigth < depth →
        ∃ G', reindexify depth G owner x y from_ind to_ind = some G')
    ∧ (∀ x y k, g.board x y ≠ EMPTY → k < g.width * g.heigth + 6 →
        to_uint (g.indexes x y) ≠ to_uint ((g.players (g.board x y)).next_ind + k))
    ∧ (∀ p x y, ∃ b g', gamma_move fuel g p x y = some (b, g'))
    ∧ (∀ p x y, ∃ b g', gamma_golden_move fuel g p x y = some (b, g'))
    ∧ (∀ p, ∃ b g', gamma_golden_possible fuel g p = some (b, g')) := by
  obtain ⟨hg, hcap⟩ := h.good
  refine ⟨?_, ?_, ?_, ?_, ?_⟩
  · intro G owner x y f t depth hft hd
    exact reindexify_total depth G owner x y f t hft hd
  · intro x y k hb hk
    have h1 := hg.core.idx_owned x y hb
    have h2 := hroom (g.board x y)
    unfold to_uint
    rw [Nat.mod_eq_of_lt (by omega), Nat.mod_eq_of_lt (by omega)]
    omega
  · intro p x y
    obtain ⟨r, e⟩ := gamma_move_total fuel g p x y hg hfuel
    exact ⟨r.1, r.2, e⟩
  · intro p x y
    obtain ⟨b, g', e, -⟩ := gamma_golden_move_total fuel g p x y hg hcap hfuel
      (room_le hroom (by omega))
    exact ⟨b, g', e⟩
  · intro p
    obtain ⟨b, g', e, -⟩ := gamma_golden_possible_run fuel g p hg hcap
      (room_le hroom (by omega)) hfuel
    exact ⟨b, g', e⟩

/-- C33 fails on the code: in the reachable state `H2` the id counter of player 2
is `2^32 + 2`, the call `gamma_golden_move(g, 1, 4, 0)` passes `from = to = 2` to
`reindexify` and does not return, whatever the recursion depth allowed. -/
theorem golden_move_never_returns :
    Reachable H2 ∧ H2.board 4 0 = 2
    ∧ to_uint (H2.indexes 4 0) = to_uint (H2.players 2).next_ind
    ∧ ∀ fuel, gamma_golden_move fuel H2 1 4 0 = none := by
  have f := H2_facts
  exact ⟨H2_reachable, f.2.2.1, by rw [f.2.2.2.1, f.2.2.2.2.1], H2_golden_stuck⟩

/-- An instance at the state `U2`. -/
theorem operations_return_witness :
    FitReachable U2 ∧ U2.width * U2.heigth < 4 ∧ room (U2.width * U2.heigth + 6) U2
    ∧ (∀ (G : gamma_t) (owner x y from_ind to_ind depth : Nat), from_ind ≠ to_ind →
        G.width * G.heigth < depth →
        ∃ G', reindexify depth G owner x y from_ind to_ind = some G')
    ∧ (∀ x y k, U2.board x y ≠ EMPTY → k < U2.width * U2.heigth + 6 →
        to_uint (U2.indexes x y) ≠ to_uint ((U2.players (U2.board x y)).next_ind + k))
    ∧ (∀ p x y, ∃ b g', gamma_move 4 U2 p x y = some (b, g'))
    ∧ (∀ p x y, ∃ b g', gamma_golden_move 4 U2 p x y = some (b, g'))
    ∧ (∀ p, ∃ b g', gamma_golden_possible 4 U2 p = some (b, g')) := by
  have hwh : U2.width * U2.heigth = 3 := U2_facts.2.2.2.2.1
  have hroom : room (U2.width * U2.heigth + 6) U2 := fun q => by
    have := U2_next q
    omega
  exact ⟨U2_fit, by omega, hroom, operations_return U2 U2_fit 4 (by omega) hroom⟩

theorem E0_initial : Initial E0 :=
  ⟨4, 3, 2, 3, 1, by decide, by decide, by decide, by decide, rfl⟩

set_option maxRecDepth 100000 in
theorem E1_step : gamma_move 10 E0 1 0 0 = some (answer (gamma_move 10 E0 1 0 0), E1) :=
  after_eq _ _ (by decide)

set_option maxRecDepth 100000 in
theorem E2_step : gamma_move 10 E1 2 1 0 = some (answer (gamma_move 10 E1 2 1 0), E2) :=
  after_eq _ _ (by decide)

theorem E0_next (q : Nat) : (E0.players q).next_ind ≤ 1 := E0_initial.next_le q

theorem E1_next (q : Nat) : (E1.players q).next_ind ≤ 2 :=
  (gamma_move_next E1_step).grow 1 (by omega) E0_next q

theorem E2_next (q : Nat) : (E2.players q).next_ind ≤ 3 :=
  (gamma_move_next E2_step).grow 2 (by omega) E1_next q

theorem E2_fit : FitReachable E2 :=
  FitReachable.step E1 E2
    (FitReachable.step E0 E1 (FitReachable.init E0 E0_initial)
      ⟨10, 1, 0, 0, _, by decide, by decide, by decide, Or.inl E1_step⟩
      (ids_fit_of_le 2 (by omega) E1_next))
    ⟨10, 2, 1, 0, _, by decide, by decide, by decide, Or.inl E2_step⟩
    (ids_fit_of_le 3 (by omega) E2_next)

set_option maxRecDepth 100000 in
theorem E2_facts :
    E2.width = 3 ∧ E2.heigth = 2 ∧ E2.number_of_players = 3 ∧ E2.max_areas = 1
    ∧ E2.busy_fields = 2 ∧ E2.board 0 0 = 1 ∧ E2.board 0 1 = 0 ∧ E2.board 1 0 = 2
    ∧ E2.board 2 0 = 0 ∧ E2.board 1 1 = 0 ∧ E2.board 1 4294967295 = 0 ∧ E2.indexes 1 0 = 1
    ∧ (E2.players 1).free_golden_move = true ∧ (E2.players 1).fields = 1
    ∧ (E2.players 1).areas = 1 ∧ (E2.players 2).areas = 1
    ∧ (E2.players 2).next_ind = 2 := by decide

set_option maxRecDepth 100000 in
theorem E2_fine : neighbourhood_is_fine E2 1 1 0 = true := by decide

set_option maxRecDepth 100000 in

/-- The moves that follow `Z1`: the rejected move of player 2 that takes the
cell all the same, and the accepted moves of players 3 and 1. -/
theorem Z1_facts :
    (gamma_move 10 Z1 2 1 1).isSome = true ∧ answer (gamma_move 10 Z1 2 1 1) = false
    ∧ (gamma_move 10 Z1a 3 2 0).isSome = true ∧ answer (gamma_move 10 Z1a 3 2 0) = true
    ∧ (gamma_move 10 Z1b 3 2 1).isSome = true ∧ answer (gamma_move 10 Z1b 3 2 1) = true
    ∧ (gamma_move 10 Z1c 1 0 1).isSome = true ∧ answer (gamma_move 10 Z1c 1 0 1) = true
    ∧ Z1c.number_of_players = 3 ∧ Z1c.board 0 1 = EMPTY ∧ Z1c.board 1 1 = 2
    ∧ next_to Z1c 2 0 1
    ∧ (Z1c.players 2).border = 0 ∧ (Z1d.players 2).border = 18446744073709551615
    ∧ Z1a.board 1 1 = 2 ∧ Z1.board 1 1 = EMPTY := by
  decide

attribute [irreducible] E2

/-- The game `E2` is the first member of the family. -/
theorem E2_eq : E2 = Zn 1 2 := by
  unfold Zn
  have e1 : set_cell E2.indexes 1 0 1 = E2.indexes :=
    set_cell_eq_self _ _ _ _ E2_facts.2.2.2.2.2.2.2.2.2.2.2.1
  have e2 : set_at E2.players 2 { E2.players 2 with next_ind := 2 } = E2.players := by
    apply set_at_eq_self
    have hn := E2_facts.2.2.2.2.2.2.2.2.2.2.2.2.2.2.2.2
    generalize E2.players 2 = r at hn
    cases r
    simp only at hn
    rw [hn]
  rw [e1, e2]

theorem Zn_board (a n : Nat) : (Zn a n).board = E2.board := rfl

theorem Zn_width (a n : Nat) : (Zn a n).width = 3 := E2_facts.1

theorem Zn_heigth (a n : Nat) : (Zn a n).heigth = 2 := E2_facts.2.1

theorem Zn_index (a n : Nat) : (Zn a n).indexes 1 0 = a := set_cell_same E2.indexes 1 0 a

theorem Zn_player_two (a n : Nat) :
    (Zn a n).players 2 = { E2.players 2 with next_ind := n } := by
  exact set_at_same E2.players 2 { E2.players 2 with next_ind := n }

theorem Zn_player_other (a n q : Nat) (hq : q ≠ 2) : (Zn a n).players q = E2.players q := by
  exact set_at_other E2.players 2 q { E2.players 2 with next_ind := n } hq

/-- No neighbour of the cell `(1, 0)` is owned by player 2, so the rounds of
the trial for that cell change nothing. -/
theorem Zn_dir_skip (fuel : Nat) (G : gamma_t) (hb : G.board = E2.board) (cnt : Int)
    (old new k : Nat) (hk : k < 4) :
    golden_possible_dir fuel G cnt 2 1 0 old new k = some (G, cnt) := by
  unfold golden_possible_dir
  rw [if_neg]
  rintro ⟨-, h, -⟩
  rw [hb] at h
  have hcases : k = 0 ∨ k = 1 ∨ k = 2 ∨ k = 3 := by omega
  have f := E2_facts
  rcases hcases with e | e | e | e
  · rw [e] at h
    have : E2.board (nbx 1 0) (nby 0 0) = 0 := f.2.2.2.2.2.2.2.2.1
    rw [this] at h
    exact absurd h (by decide)
  · rw [e] at h
    have : E2.board (nbx 1 1) (nby 0 1) = 0 := f.2.2.2.2.2.2.2.2.2.1
    rw [this] at h
    exact absurd h (by decide)
  · rw [e] at h
    have : E2.board (nbx 1 2) (nby 0 2) = 1 := f.2.2.2.2.2.1
    rw [this] at h
    exact absurd h (by decide)
  · rw [e] at h
    have : E2.board (nbx 1 3) (nby 0 3) = 0 := f.2.2.2.2.2.2.2.2.2.2.1
    rw [this] at h
    exact absurd h (by decide)

theorem Zn_binds (fuel : Nat) (G : gamma_t) (hb : G.board = E2.board) (old new : Nat)
    (F : gamma_t × Int → Option (Bool × gamma_t)) :
    ((golden_possible_dir fuel G (-1) 2 1 0 old new 0).bind fun s1 =>
      (golden_possible_dir fuel s1.1 s1.2 2 1 0 old new 1).bind fun s2 =>
      (golden_possible_dir fuel s2.1 s2.2 2 1 0 old new 2).bind fun s3 =>
      (golden_possible_dir fuel s3.1 s3.2 2 1 0 old new 3).bind F) = F (G, -1) := by
  rw [Zn_dir_skip fuel G hb (-1) old new 0 (by omega), Option.some_bind]
  show ((golden_possible_dir fuel G (-1) 2 1 0 old new 1).bind _) = _
  rw [Zn_dir_skip fuel G hb (-1) old new 1 (by omega), Option.some_bind]
  show ((golden_possible_dir fuel G (-1) 2 1 0 old new 2).bind _) = _
  rw [Zn_dir_skip fuel G hb (-1) old new 2 (by omega), Option.some_bind]
  show ((golden_possible_dir fuel G (-1) 2 1 0 old new 3).bind _) = _
  rw [Zn_dir_skip fuel G hb (-1) old new 3 (by omega), Option.some_bind]

theorem Zn_cell_own (fuel a n : Nat) :
    golden_possible_cell fuel (Zn a n) 1 0 0 = some (false, Zn a n) := by
  rw [golden_possible_cell_unfold, if_neg]
  rintro ⟨-, h⟩
  rw [Zn_board] at h
  exact h E2_facts.2.2.2.2.2.1

theorem Zn_cell_empty (fuel a n : Nat) :
    golden_possible_cell fuel (Zn a n) 1 0 1 = some (false, Zn a n) := by
  rw [golden_possible_cell_unfold, if_neg]
  rintro ⟨h, -⟩
  rw [Zn_board] at h
  exact h E2_facts.2.2.2.2.2.2.1

theorem Zn_fine (a n : Nat) : neighbourhood_is_fine (Zn a n) 1 1 0 = true := by
  rw [neighbourhood_is_fine_iff]
  exact (@has_neighbour_congr E2 (Zn a n) rfl rfl rfl 1 1 0).2
    ((neighbourhood_is_fine_iff E2 1 1 0).1 E2_fine)

/-- The trial at the cell `(1, 0)` mints an id for it and succeeds. -/
theorem Zn_cell_one (fuel a n : Nat) :
    golden_possible_cell fuel (Zn a n) 1 1 0 = some (true, Zn (to_uint n) (inc64 n)) := by
  have f := E2_facts
  have hb10 : (Zn a n).board 1 0 = 2 := f.2.2.2.2.2.2.2.1
  rw [golden_possible_cell_unfold, if_pos (by rw [hb10]; decide), if_pos (Zn_fine a n), hb10,
    Zn_player_two]
  refine (Zn_binds fuel _ ?_ _ _ _).trans ?_
  · rfl
  have hm : (E2.players 2).areas = 1 := f.2.2.2.2.2.2.2.2.2.2.2.2.2.2.2.1
  have hx : E2.max_areas = 1 := f.2.2.2.1
  simp only [set_at_same]
  show (if ((((E2.players 2).areas : Int) + -1) % 4294967296).toNat ≤ E2.max_areas then _
    else _) = _
  have hcond : ((((E2.players 2).areas : Int) + -1) % 4294967296).toNat ≤ E2.max_areas := by
    rw [hm, hx]
    decide
  rw [if_pos hcond]
  congr 2
  unfold Zn
  congr 1
  · exact set_cell_set_cell E2.indexes 1 0 _ _
  · exact set_at_set_at E2.players 2 _ _

/-- Each call `gamma_golden_possible(g, 1)` renumbers the cell `(1, 0)` of
player 2 with the next id of player 2, cut to 32 bits. -/
theorem Zn_possible (fuel a n : Nat) :
    gamma_golden_possible fuel (Zn a n) 1 = some (true, Zn (to_uint n) (inc64 n)) := by
  have f := E2_facts
  unfold gamma_golden_possible
  have hcon : gamma_golden_possible_con (Zn a n) 1 := by
    unfold gamma_golden_possible_con player_is_fine
    rw [Zn_player_other a n 1 (by decide)]
    refine ⟨⟨by decide, ?_⟩, f.2.2.2.2.2.2.2.2.2.2.2.2.1, ?_⟩
    · show 1 ≤ E2.number_of_players
      rw [f.2.2.1]
      decide
    · show (E2.players 1).fields < E2.busy_fields
      rw [f.2.2.2.2.2.2.2.2.2.2.2.2.2.1, f.2.2.2.2.1]
      decide
  have hcap : ¬ ((Zn a n).players 1).areas < (Zn a n).max_areas := by
    rw [Zn_player_other a n 1 (by decide)]
    show ¬ (E2.players 1).areas < E2.max_areas
    rw [f.2.2.2.2.2.2.2.2.2.2.2.2.2.2.1, f.2.2.2.1]
    decide
  rw [if_neg (not_not.2 hcon), if_neg hcap, Zn_width]
  have hr : List.range 3 = 0 :: 1 :: [2] := by decide
  have hr2 : List.range 2 = [0, 1] := by decide
  rw [hr]
  simp only [golden_possible_cols, golden_possible_rows, Zn_heigth, hr2, Zn_cell_own,
    Zn_cell_empty, Zn_cell_one, Option.some_bind, if_true, if_false, Bool.false_eq_true]

theorem Zn_ids_fit (a n : Nat) (hn : n ≤ 4294967296) : ids_fit (Zn a n) := by
  intro q
  by_cases hq : q = 2
  · rw [hq, Zn_player_two]
    exact hn
  · rw [Zn_player_other a n q hq]
    exact E2_fit.good.1.core.fit q

/-- The games of the family are reachable. -/
theorem Zn_reachable (n : Nat) (h2 : 2 ≤ n) (hn : n ≤ 8589934592) :
    Reachable (Zn (to_uint n) (n + 1)) := by
  induction n, h2 using Nat.le_induction with
  | base =>
    have h := Zn_possible 10 1 2
    have e1 : inc64 2 = 2 + 1 := by decide
    rw [e1, ← E2_eq] at h
    exact Reachable.step _ _ E2_fit.reachable
      ⟨10, 1, 0, 0, true, by decide, by decide, by decide, Or.inr (Or.inr h)⟩
  | succ m hm ih =>
    have h := Zn_possible 10 (to_uint m) (m + 1)
    rw [inc64_small _ (by omega)] at h
    exact Reachable.step _ _ (ih (by omega))
      ⟨10, 1, 0, 0, true, by decide, by decide, by decide, Or.inr (Or.inr h)⟩

/-- The games of the family in which the id counter of player 2 is at most
`2^32` are reached while fewer than `2^32` ids were minted. -/
theorem Zn_fit_reachable (n : Nat) (h2 : 2 ≤ n) (hn : n + 1 ≤ 4294967296) :
    FitReachable (Zn (to_uint n) (n + 1)) := by
  induction n, h2 using Nat.le_induction with
  | base =>
    have h := Zn_possible 10 1 2
    have e1 : inc64 2 = 2 + 1 := by decide
    rw [e1, ← E2_eq] at h
    exact FitReachable.step _ _ E2_fit
      ⟨10, 1, 0, 0, true, by decide, by decide, by decide, Or.inr (Or.inr h)⟩
      (Zn_ids_fit _ _ (by omega))
  | succ m hm ih =>
    have h := Zn_possible 10 (to_uint m) (m + 1)
    rw [inc64_small _ (by omega)] at h
    exact FitReachable.step _ _ (ih (by omega))
      ⟨10, 1, 0, 0, true, by decide, by decide, by decide, Or.inr (Or.inr h)⟩
      (Zn_ids_fit _ _ (by omega))

theorem Z0_fit : FitReachable Z0 := by
  have h := Zn_fit_reachable 4294967295 (by omega) (by omega)
  have e : to_uint 4294967295 = 4294967295 := by decide
  rw [e] at h
  exact h

theorem Z1_reachable : Reachable Z1 := by
  have h := Zn_reachable 4294967296 (by omega) (by omega)
  have e : to_uint 4294967296 = 0 := by decide
  rw [e] at h
  exact h

theorem Z1c_reachable : Reachable Z1c := by
  have f := Z1_facts
  have h1 : Reachable Z1a := Reachable.step Z1 Z1a Z1_reachable
    ⟨10, 2, 1, 1, _, by decide, by decide, by decide, Or.inl (after_eq _ Z1 f.1)⟩
  have h2 : Reachable Z1b := Reachable.step Z1a Z1b h1
    ⟨10, 3, 2, 0, _, by decide, by decide, by decide, Or.inl (after_eq _ Z1a f.2.2.1)⟩
  exact Reachable.step Z1b Z1c h2
    ⟨10, 3, 2, 1, _, by decide, by decide, by decide, Or.inl (after_eq _ Z1b f.2.2.2.2.1)⟩

/-- Two finite sets matched by a relation that is one-to-one have the same size. -/
theorem card_eq_of_matching {α : Type} (A B : Finset α) (rel : α → α → Prop)
    (h1 : ∀ a ∈ A, ∃ b ∈ B, rel a b) (h2 : ∀ b ∈ B, ∃ a ∈ A, rel a b)
    (i1 : ∀ a ∈ A, ∀ a' ∈ A, ∀ b, rel a b → rel a' b → a = a')
    (i2 : ∀ b ∈ B, ∀ b' ∈ B, ∀ a, rel a b → rel a b' → b = b') : A.card = B.card := by
  apply le_antisymm
  · have hex : ∀ a : α, ∃ b : α, a ∈ A → b ∈ B ∧ rel a b := by
      intro a
      by_cases ha : a ∈ A
      · obtain ⟨b, hb, hr⟩ := h1 a ha
        exact ⟨b, fun _ => ⟨hb, hr⟩⟩
      · exact ⟨a, fun h => absurd h ha⟩
    choose φ hφ using hex
    apply Finset.card_le_card_of_injOn φ
    · intro a ha
      exact (hφ a ha).1
    · intro a ha a' ha' e
      have k1 := (hφ a ha).2
      have k2 := (hφ a' ha').2
      rw [e] at k1
      exact i1 a ha a' ha' _ k1 k2
  · have hex : ∀ b : α, ∃ a : α, b ∈ B → a ∈ A ∧ rel a b := by
      intro b
      by_cases hb : b ∈ B
      · obtain ⟨a, ha, hr⟩ := h2 b hb
        exact ⟨a, fun _ => ⟨ha, hr⟩⟩
      · exact ⟨b, fun h => absurd h hb⟩
    choose φ hφ using hex
    apply Finset.card_le_card_of_injOn φ
    · intro b hb
      exact (hφ b hb).1
    · intro b hb b' hb' e
      have k1 := (hφ b hb).2
      have k2 := (hφ b' hb').2
      rw [e] at k1
      exact i2 b hb b' hb' _ k1 k2

theorem owns_placed {g g' : gamma_t} {p x y : Nat} (hb : g'.board = set_cell g.board x y p)
    (hw : g'.width = g.width) (hh : g'.heigth = g.heigth) (hz : coords_are_fine x y g)
    (a b : Nat) : owns g' p a b ↔ owns g p a b ∨ (a = x ∧ b = y) := by
  unfold owns
  rw [hb, hw, hh, set_cell_apply]
  by_cases hab : a = x ∧ b = y
  · rw [if_pos hab, hab.1, hab.2]
    exact ⟨fun _ => Or.inr ⟨rfl, rfl⟩, fun _ => ⟨hz.1, hz.2, rfl⟩⟩
  · rw [if_neg hab]
    exact ⟨fun h => Or.inl h, fun h => h.elim id (fun k => absurd k hab)⟩

/-- A connection on the grid before the move is one on the grid after it. -/
theorem Connected.placed {g g' : gamma_t} {p x y a b c d : Nat}
    (hb : g'.board = set_cell g.board x y p) (hw : g'.width = g.width)
    (hh : g'.heigth = g.heigth) (hz : coords_are_fine x y g)
    (h : Connected g p a b c d) : Connected g' p a b c d :=
  h.map_conn fun e f hc => (owns_placed hb hw hh hz e f).2 (Or.inl hc.owns_end)

/-- A connection on the grid after the move is one on the grid before it, or
both its ends are linked to the cell placed. -/
theorem Connected.unplaced {g g' : gamma_t} {p x y a b c d : Nat}
    (hb : g'.board = set_cell g.board x y p) (hw : g'.width = g.width)
    (hh : g'.heigth = g.heigth) (hz : coords_are_fine x y g)
    (h : Connected g' p a b c d) :
    Connected g p a b c d ∨ (Linked g p x y a b ∧ Linked g p x y c d) := by
  induction h with
  | start ho =>
    rcases (owns_placed hb hw hh hz a b).1 ho with h1 | h1
    · exact Or.inl (Connected.start h1)
    · exact Or.inr ⟨Or.inl h1, Or.inl h1⟩
  | step c d e f hc hadj ho ih =>
    rcases (owns_placed hb hw hh hz e f).1 ho with h1 | h1
    · rcases ih with k | ⟨k1, k2⟩
      · exact Or.inl (Connected.step c d e f k hadj h1)
      · refine Or.inr ⟨k1, ?_⟩
        rcases k2 with k2 | ⟨u, v, hadj2, ho2, hc2⟩
        · refine Or.inr ⟨e, f, ?_, h1, Connected.start h1⟩
          rw [← k2.1, ← k2.2]
          exact hadj
        · exact Or.inr ⟨u, v, hadj2, ho2, Connected.step c d e f hc2 hadj h1⟩
    · refine Or.inr ⟨?_, Or.inl h1⟩
      rcases ih with k | ⟨k1, -⟩
      · refine Or.inr ⟨c, d, ?_, k.owns_end, k.symm_conn⟩
        rw [← h1.1, ← h1.2]
        exact adjacent_symm hadj
      · exact k1

/-- Placing a cell of `p` that touches `k` of the `n` components of `p` leaves
`n + 1 - k` components. -/
theorem Components.after_placed {g g' : gamma_t} {p x y n k : Nat}
    (hb : g'.board = set_cell g.board x y p) (hw : g'.width = g.width)
    (hh : g'.heigth = g.heigth) (hz : coords_are_fine x y g) (he : g.board x y = EMPTY)
    (hp : p ≠ EMPTY) (h1 : Components g p n) (h2 : Touching g p x y k) :
    k ≤ n ∧ Components g' p (n + 1 - k) := by
  classical
  obtain ⟨R, cR, oR, iR, vR⟩ := h1
  obtain ⟨T, cT, oT, iT, vT⟩ := h2
  have hnot : ¬ owns g p x y := by
    rintro ⟨-, -, h⟩
    rw [he] at h
    exact hp h.symm
  obtain ⟨Rt, hRt⟩ : ∃ Rt : Finset (Nat × Nat), ∀ r, r ∈ Rt ↔
      r ∈ R ∧ ∃ t ∈ T, Connected g p r.1 r.2 t.1 t.2 :=
    ⟨R.filter fun r => ∃ t ∈ T, Connected g p r.1 r.2 t.1 t.2, fun r => Finset.mem_filter⟩
  have hsub : Rt ⊆ R := fun r hr => ((hRt r).1 hr).1
  have hcard : Rt.card = T.card := by
    apply card_eq_of_matching Rt T (fun r t => Connected g p r.1 r.2 t.1 t.2)
    · intro r hr
      exact ((hRt r).1 hr).2
    · intro t ht
      obtain ⟨r, hr, hc⟩ := vR t.1 t.2 (oT t ht).2
      exact ⟨r, (hRt r).2 ⟨hr, t, ht, hc⟩, hc⟩
    · intro r hr r' hr' t k1 k2
      exact iR r (hsub hr) r' (hsub hr') (k1.trans_conn k2.symm_conn)
    · intro t ht t' ht' r k1 k2
      exact iT t ht t' ht' (k1.symm_conn.trans_conn k2)
  have hkn : k ≤ n := by
    rw [← cT, ← hcard, ← cR]
    exact Finset.card_le_card hsub
  -- a cell linked to the cell placed has its representative among the touched ones
  have hlinked : ∀ r, r ∈ R → Linked g p x y r.1 r.2 → r ∈ Rt := by
    intro r hr hl
    rcases hl with hl | ⟨c, d, hadj, ho, hc⟩
    · exfalso
      apply hnot
      have := oR r hr
      rw [hl.1, hl.2] at this
      exact this
    · obtain ⟨t, ht, hct⟩ := vT c d hadj ho
      exact (hRt r).2 ⟨hr, t, ht, (hct.trans_conn hc).symm_conn⟩
  refine ⟨hkn, insert (x, y) (R \ Rt), ?_, ?_, ?_, ?_⟩
  · have hxy : (x, y) ∉ R \ Rt := by
      intro h
      exact hnot (oR (x, y) (Finset.mem_sdiff.1 h).1)
    rw [Finset.card_insert_of_not_mem hxy, Finset.card_sdiff hsub, cR, hcard, cT]
    omega
  · intro r hr
    rcases Finset.mem_insert.1 hr with e | hr2
    · rw [e]
      exact (owns_placed hb hw hh hz x y).2 (Or.inr ⟨rfl, rfl⟩)
    · exact (owns_placed hb hw hh hz r.1 r.2).2 (Or.inl (oR r (Finset.mem_sdiff.1 hr2).1))
  · intro r hr s hs hc
    rcases Finset.mem_insert.1 hr with e | hr2
    · rcases Finset.mem_insert.1 hs with e' | hs2
      · rw [e, e']
      · exfalso
        have hs3 := Finset.mem_sdiff.1 hs2
        rcases hc.unplaced hb hw hh hz with k | ⟨-, k⟩
        · rw [e] at k
          exact hnot k.owns_start
        · exact hs3.2 (hlinked s hs3.1 k)
    · have hr3 := Finset.mem_sdiff.1 hr2
      rcases Finset.mem_insert.1 hs with e' | hs2
      · exfalso
        rcases hc.unplaced hb hw hh hz with k | ⟨k, -⟩
        · rw [e'] at k
          exact hnot k.owns_end
        · exact hr3.2 (hlinked r hr3.1 k)
      · have hs3 := Finset.mem_sdiff.1 hs2
        rcases hc.unplaced hb hw hh hz with k | ⟨k, -⟩
        · exact iR r hr3.1 s hs3.1 k
        · exact absurd (hlinked r hr3.1 k) hr3.2
  · intro a b ho
    rcases (owns_placed hb hw hh hz a b).1 ho with h1 | h1
    · obtain ⟨r, hr, hc⟩ := vR a b h1
      by_cases hrt : r ∈ Rt
      · obtain ⟨-, t, ht, hct⟩ := (hRt r).1 hrt
        refine ⟨(x, y), Finset.mem_insert_self _ _, ?_⟩
        have hstart : Connected g' p x y x y :=
          Connected.start ((owns_placed hb hw hh hz x y).2 (Or.inr ⟨rfl, rfl⟩))
        have hstep : Connected g' p x y t.1 t.2 :=
          Connected.step x y t.1 t.2 hstart (oT t ht).1
            ((owns_placed hb hw hh hz t.1 t.2).2 (Or.inl (oT t ht).2))
        exact hstep.trans_conn ((hct.symm_conn.trans_conn hc).placed hb hw hh hz)
      · exact ⟨r, Finset.mem_insert_of_mem (Finset.mem_sdiff.2 ⟨hr, hrt⟩),
          hc.placed hb hw hh hz⟩
    · refine ⟨(x, y), Finset.mem_insert_self _ _, ?_⟩
      rw [h1.1, h1.2]
      exact Connected.start ((owns_placed hb hw hh hz x y).2 (Or.inr ⟨rfl, rfl⟩))

/-- Under the invariant the components that touch a cell can be counted. -/
theorem Good.touching {g : gamma_t} (hg : Good g) (p x y : Nat) (hp : p ≠ EMPTY) :
    ∃ k, Touching g p x y k := by
  obtain ⟨r, h1, h2, h3⟩ := exists_section (fun c : Nat × Nat => g.indexes c.1 c.2)
    ((cells g).filter fun c => adjacent x y c.1 c.2 ∧ owns g p c.1 c.2)
  have hin : ∀ c, c ∈ r → adjacent x y c.1 c.2 ∧ owns g p c.1 c.2 := fun c hc =>
    (Finset.mem_filter.1 (h1 hc)).2
  refine ⟨r.card, r, rfl, hin, ?_, ?_⟩
  · intro a ha b hb hc
    exact h2 ha hb ((hg.same_id_iff p hp a.1 a.2 b.1 b.2 (hin a ha).2 (hin b hb).2).2 hc)
  · intro c d hadj ho
    have hm : (c, d) ∈ (cells g).filter fun c => adjacent x y c.1 c.2 ∧ owns g p c.1 c.2 := by
      rw [Finset.mem_filter, mem_cells]
      exact ⟨⟨ho.1, ho.2.1⟩, hadj, ho⟩
    have hi := Finset.mem_image_of_mem (fun c : Nat × Nat => g.indexes c.1 c.2) hm
    rw [← h3, Finset.mem_image] at hi
    obtain ⟨a, ha, e⟩ := hi
    exact ⟨a, ha, (hg.same_id_iff p hp a.1 a.2 c d (hin a ha).2 ho).1 e⟩

attribute [local semireducible] D3

set_option maxRecDepth 100000 in
theorem K1m_areas :
    gamma_areas K1 2 = 1 ∧ gamma_areas K1m 2 = 2 ∧ K1.width = 5 ∧ K1.heigth = 1
    ∧ K1.board 1 0 = 2 ∧ K1.board 0 0 = EMPTY := by
  decide

attribute [local irreducible] D3

/-- In `K1` the cell `(0, 0)` touches one component of player 2. -/
theorem K1_touching : Touching K1 2 0 0 1 := by
  have f := K1m_areas
  have ho : owns K1 2 1 0 := by
    unfold owns
    rw [f.2.2.1, f.2.2.2.1, f.2.2.2.2.1]
    decide
  refine ⟨{(1, 0)}, rfl, ?_, ?_, ?_⟩
  · intro r hr
    rw [Finset.mem_singleton.1 hr]
    exact ⟨by decide, ho⟩
  · intro r hr s hs _
    rw [Finset.mem_singleton.1 hr, Finset.mem_singleton.1 hs]
  · intro c d hadj hcd
    have hd : d < 1 := by
      have := hcd.2.1
      rw [f.2.2.2.1] at this
      exact this
    unfold adjacent at hadj
    have hc1 : c = 1 := by omega
    have hd0 : d = 0 := by omega
    rw [hc1, hd0]
    exact ⟨(1, 0), Finset.mem_singleton_self _, Connected.start ho⟩

/-- In every state reached from `gamma_new` while fewer than
`2^32` area ids were minted for each player, if `gamma_move(g, p, x, y)` returns
`true` and leaves every id counter at most `2^32`, then `areas(p)` afterwards
is `areas(p)` before plus 1 minus `k`, where `k` is the number of 4-connected
components of `p` that contain a 4-neighbour of `(x, y)`. -/
theorem move_merges_areas (g : gamma_t) (h : FitReachable g) (p x y fuel : Nat)
    (g' : gamma_t) (e : gamma_move fuel g p x y = some (true, g')) (hfit : ids_fit g') :
    (∃ k, Touching g p x y k)
    ∧ ∀ k, Touching g p x y k →
        k ≤ gamma_areas g p + 1 ∧ gamma_areas g' p + k = gamma_areas g p + 1 := by
  have hg := h.good.1
  obtain ⟨hleg, -, heff⟩ := gamma_move_spec fuel g p x y true g' hg e hfit
  obtain ⟨hg', he⟩ := heff rfl
  obtain ⟨hz, hpf, hempty, -⟩ := hleg.1 rfl
  have hp : p ≠ EMPTY := by
    unfold player_is_fine at hpf
    unfold EMPTY
    omega
  refine ⟨hg.touching p x y hp, ?_⟩
  intro k hk
  have hc : Components g p (gamma_areas g p) :=
    (hg.components p hp _).2 (hg.areas_ok.plain p hp)
  obtain ⟨hkn, hc'⟩ := hc.after_placed he.board_eq he.width_eq he.heigth_eq hz hempty hp hk
  have e2 := (hg'.components p hp _).1 hc'
  rw [← hg'.areas_ok.plain p hp] at e2
  unfold gamma_areas at hkn e2 ⊢
  omega

/-- C34 fails on the code: in the reachable state `K1` the accepted
`gamma_move(g, 2, 0, 0)` touches one component of player 2, and `areas(2)` goes
from 1 to 2. -/
theorem move_adds_area_on_contact :
    Reachable K1 ∧ gamma_move 10 K1 2 0 0 = some (true, K1m) ∧ Touching K1 2 0 0 1
    ∧ gamma_areas K1 2 = 1 ∧ gamma_areas K1m 2 = 2
    ∧ gamma_areas K1m 2 ≠ gamma_areas K1 2 + 1 - 1 := by
  have f := K1m_areas
  have m := K1m_facts
  refine ⟨K1_reachable, after_true _ K1 m.1 m.2.1, K1_touching, f.1, f.2.1, ?_⟩
  rw [f.1, f.2.1]
  decide

/-- An instance at the state `T0`, for the move of player 1 on the cell `(0, 0)`. -/
theorem move_merges_areas_witness :
    FitReachable T0 ∧ gamma_move 4 T0 1 0 0 = some (true, U1) ∧ ids_fit U1
    ∧ (∃ k, Touching T0 1 0 0 k)
    ∧ ∀ k, Touching T0 1 0 0 k →
        k ≤ gamma_areas T0 1 + 1 ∧ gamma_areas U1 1 + k = gamma_areas T0 1 + 1 :=
  ⟨FitReachable.init T0 T0_initial, U1_step, ids_fit_of_le 2 (by omega) U1_next,
    move_merges_areas T0 (FitReachable.init T0 T0_initial) 1 0 0 4 U1 U1_step
      (ids_fit_of_le 2 (by omega) U1_next)⟩

/-- In every state reached from `gamma_new` while fewer than
`2^32` area ids were minted for each player, if `gamma_move(g, p, x, y)` returns
`true` and leaves every id counter at most `2^32`, then for every player `q`
other than `p`, `border(q)` afterwards is `border(q)` before minus 1 if `q` owns
a 4-neighbour of `(x, y)`, and is unchanged otherwise. -/
theorem move_border_others (g : gamma_t) (h : FitReachable g) (p x y fuel : Nat)
    (g' : gamma_t) (e : gamma_move fuel g p x y = some (true, g')) (hfit : ids_fit g') :
    ∀ q, 1 ≤ q → q ≤ g.number_of_players → q ≠ p →
      (next_to g q x y →
        1 ≤ (g.players q).border ∧ (g'.players q).border = (g.players q).border - 1)
      ∧ (¬ next_to g q x y → (g'.players q).border = (g.players q).border) := by
  have hg := h.good.1
  obtain ⟨hleg, -, heff⟩ := gamma_move_spec fuel g p x y true g' hg e hfit
  obtain ⟨hg', he⟩ := heff rfl
  obtain ⟨hz, hpf, hempty, -⟩ := hleg.1 rfl
  have hp : p ≠ EMPTY := by
    unfold player_is_fine at hpf
    unfold EMPTY
    omega
  intro q hq1 _ hqp
  have hq : q ≠ EMPTY := by
    unfold EMPTY
    omega
  have hcard := border_card_place_other g x y p q hz hempty hp hq hqp
  have hcongr : border_cells g' q = border_cells { g with board := set_cell g.board x y p } q :=
    @border_cells_congr { g with board := set_cell g.board x y p } g' he.board_eq he.width_eq
      he.heigth_eq q
  rw [← hcongr, ← hg'.border_ok q hq, ← hg.border_ok q hq] at hcard
  have hiff := has_neighbour_iff g hg.core.sized q x y hz
  constructor
  · intro hn
    rw [if_pos (hiff.2 hn)] at hcard
    omega
  · intro hn
    rw [if_neg (fun k => hn (hiff.1 k))] at hcard
    omega

/-- C35 fails on the code: in the reachable state `Z1c` the cell `(0, 1)` is
empty and next to the cell `(1, 1)` of player 2, whose border counter is 0; the
move `gamma_move(g, 1, 0, 1)` is accepted and leaves the border counter of
player 2 at `2^64 - 1`. -/
theorem border_wraps_on_move :
    Reachable Z1c ∧ gamma_move 10 Z1c 1 0 1 = some (true, Z1d)
    ∧ 1 ≤ 2 ∧ 2 ≤ Z1c.number_of_players ∧ 2 ≠ 1 ∧ next_to Z1c 2 0 1
    ∧ (Z1c.players 2).border = 0 ∧ (Z1d.players 2).border = 18446744073709551615
    ∧ (Z1d.players 2).border ≠ (Z1c.players 2).border - 1 := by
  have f := Z1_facts
  refine ⟨Z1c_reachable, after_true _ Z1c f.2.2.2.2.2.2.1 f.2.2.2.2.2.2.2.1, by decide, ?_,
    by decide, f.2.2.2.2.2.2.2.2.2.2.2.1, f.2.2.2.2.2.2.2.2.2.2.2.2.1,
    f.2.2.2.2.2.2.2.2.2.2.2.2.2.1, ?_⟩
  · rw [f.2.2.2.2.2.2.2.2.1]
    decide
  · rw [f.2.2.2.2.2.2.2.2.2.2.2.2.1, f.2.2.2.2.2.2.2.2.2.2.2.2.2.1]
    decide

/-- An instance at the state `T0`, for the move of player 1 on the cell `(0, 0)`. -/
theorem move_border_others_witness :
    FitReachable T0 ∧ gamma_move 4 T0 1 0 0 = some (true, U1) ∧ ids_fit U1
    ∧ ∀ q, 1 ≤ q → q ≤ T0.number_of_players → q ≠ 1 →
      (next_to T0 q 0 0 →
        1 ≤ (T0.players q).border ∧ (U1.players q).border = (T0.players q).border - 1)
      ∧ (¬ next_to T0 q 0 0 → (U1.players q).border = (T0.players q).border) :=
  ⟨FitReachable.init T0 T0_initial, U1_step, ids_fit_of_le 2 (by omega) U1_next,
    move_border_others T0 (FitReachable.init T0 T0_initial) 1 0 0 4 U1 U1_step
      (ids_fit_of_le 2 (by omega) U1_next)⟩

/-- In every state reached from `gamma_new` while fewer than
`2^32` area ids were minted for each player, every empty cell has area id 0 and
every cell owned by a player `p` has an area id `i` with
`1 <= i < next_ind(p)`; hence the id `gamma_move` mints, `next_ind(p)`, differs
from every id on the cells of `p` and from 0, and so does the id the golden
operations mint, `next_ind(p)` cut to 32 bits, as long as
`next_ind(p) < 2^32`. -/
theorem ids_below_counter (g : gamma_t) (h : FitReachable g) :
    (∀ x y, coords_are_fine x y g → g.board x y = EMPTY → g.indexes x y = 0)
    ∧ (∀ x y, coords_are_fine x y g → g.board x y ≠ EMPTY →
        1 ≤ g.indexes x y ∧ g.indexes x y < (g.players (g.board x y)).next_ind)
    ∧ (∀ p x y, coords_are_fine x y g → g.board x y = p → p ≠ EMPTY →
        (g.players p).next_ind ≤ 4294967296
        ∧ g.indexes x y ≠ (g.players p).next_ind ∧ (g.players p).next_ind ≠ 0
        ∧ ((g.players p).next_ind < 4294967296 →
            g.indexes x y ≠ to_uint (g.players p).next_ind
            ∧ to_uint (g.players p).next_ind ≠ 0)) := by
  have hg := h.good.1
  refine ⟨fun x y _ hb => hg.core.idx_empty x y hb, fun x y _ hb => hg.core.idx_owned x y hb,
    ?_⟩
  intro p x y _ hb hp
  have h1 := hg.core.idx_owned x y (by rw [hb]; exact hp)
  rw [hb] at h1
  refine ⟨hg.core.fit p, by omega, by omega, ?_⟩
  intro hlt
  unfold to_uint
  rw [Nat.mod_eq_of_lt hlt]
  omega

/-- C39 fails on the code: in the state `Z0`, reached while fewer than `2^32` ids
were minted, the id counter of player 2 is `2^32`; the call
`gamma_golden_possible(g, 1)` mints from it the id 0 for the cell `(1, 0)` of
player 2, the marker of a cell without id. -/
theorem minted_id_is_marker :
    FitReachable Z0 ∧ (∀ q, (Z0.players q).next_ind ≤ 4294967296)
    ∧ (Z0.players 2).next_ind = 4294967296 ∧ to_uint (Z0.players 2).next_ind = 0
    ∧ Z0.board 1 0 = 2
    ∧ gamma_golden_possible 10 Z0 1 = some (true, Z1)
    ∧ Z1.board 1 0 = 2 ∧ Z1.indexes 1 0 = 0 := by
  have hn : (Z0.players 2).next_ind = 4294967296 := by
    show ((Zn 4294967295 4294967296).players 2).next_ind = 4294967296
    rw [Zn_player_two]
  have hb : ∀ a n, (Zn a n).board 1 0 = 2 := fun a n => by
    rw [Zn_board]
    exact E2_facts.2.2.2.2.2.2.2.1
  refine ⟨Z0_fit, Z0_fit.good.1.core.fit, hn, by rw [hn]; decide, hb _ _, ?_, hb _ _,
    Zn_index 0 4294967297⟩
  have h := Zn_possible 10 4294967295 4294967296
  have e1 : to_uint 4294967296 = 0 := by decide
  have e2 : inc64 4294967296 = 4294967297 := by decide
  rw [e1, e2] at h
  exact h

/-- An instance at the state `U2`. -/
theorem ids_below_counter_witness :
    FitReachable U2
    ∧ (∀ x y, coords_are_fine x y U2 → U2.board x y = EMPTY → U2.indexes x y = 0)
    ∧ (∀ x y, coords_are_fine x y U2 → U2.board x y ≠ EMPTY →
        1 ≤ U2.indexes x y ∧ U2.indexes x y < (U2.players (U2.board x y)).next_ind)
    ∧ (∀ p x y, coords_are_fine x y U2 → U2.board x y = p → p ≠ EMPTY →
        (U2.players p).next_ind ≤ 4294967296
        ∧ U2.indexes x y ≠ (U2.players p).next_ind ∧ (U2.players p).next_ind ≠ 0
        ∧ ((U2.players p).next_ind < 4294967296 →
            U2.indexes x y ≠ to_uint (U2.players p).next_ind
            ∧ to_uint (U2.players p).next_ind ≠ 0)) :=
  ⟨U2_fit, ids_below_counter U2 U2_fit⟩

end Gamma
